import Mathlib

/-! B-tree (`BTreeTemplateClass.h`): embedding and verification

The C++ class `BTree<DATA_TYPE>` is embedded with an explicit heap: a node pointer is an
address (`Nat`), a nullable pointer is an `Option Nat`, `new` takes the next unused
address and `delete` empties the cell.  Keys are `Int` (the driver instantiates
`BTree<int>`, and `search` returns `int`).  The global `MAGNITUDE` (the order of the
tree) is an explicit argument of every operation that reads it.

Every operation is translated statement by statement.  Behaviour the C++ standard leaves
undefined (dereferencing a null or dangling pointer, indexing a vector out of range,
leaving a non-void function without `return`) is the error `Exn.undefinedBehaviour`.
Recursion through pointers is bounded by a fuel argument; the public operations supply
more fuel than there are allocated nodes, and running out is `Exn.outOfFuel`.
-/

set_option autoImplicit false

/-- The three exception classes of the header, and the two ways an embedded run can go
wrong without throwing. -/
inductive Exn where
  | duplicateItem
  | treeEmpty
  | itemNotFound
  | undefinedBehaviour
  | outOfFuel
  deriving DecidableEq, Repr

/-- An exception object of the header (as opposed to undefined behaviour). -/
def Exn.isThrown : Exn → Bool
  | .duplicateItem => true
  | .treeEmpty => true
  | .itemNotFound => true
  | .undefinedBehaviour => false
  | .outOfFuel => false

/-- Class `BTreeNode`: `keyVector`, `childrenVector` (addresses of the children; only
addresses of allocated nodes are ever stored, never `nullptr`), and `parent`. -/
structure BTreeNode where
  keyVector : List Int
  childrenVector : List Nat
  parent : Option Nat
  deriving DecidableEq, Repr

/-- Memory: the node stored at each address, `none` where nothing is allocated. -/
abbrev Heap := Nat → Option BTreeNode

/-- Write a cell. -/
def Heap.set (h : Heap) (a : Nat) (v : Option BTreeNode) : Heap :=
  fun x => if x = a then v else h x

/-- Dereference a node pointer; a dangling pointer is undefined behaviour. -/
def Heap.deref (h : Heap) (a : Nat) : Except Exn BTreeNode :=
  match h a with
  | some n => .ok n
  | none => .error .undefinedBehaviour

/-- Execute `p->field = ...` style statements: read the node at `a`, write back `f node`. -/
def Heap.modify (h : Heap) (a : Nat) (f : BTreeNode → BTreeNode) : Except Exn Heap :=
  match h a with
  | some n => .ok (h.set a (some (f n)))
  | none => .error .undefinedBehaviour

/-- Indexing `v[i]`; out of range is undefined behaviour. -/
def vecGet {α : Type} (v : List α) (i : Nat) : Except Exn α :=
  match v[i]? with
  | some x => .ok x
  | none => .error .undefinedBehaviour

/-- Member `v.back()`; undefined on an empty vector. -/
def vecBack {α : Type} (v : List α) : Except Exn α :=
  match v.getLast? with
  | some x => .ok x
  | none => .error .undefinedBehaviour

/-- Member `v.front()`; undefined on an empty vector. -/
def vecFront {α : Type} (v : List α) : Except Exn α :=
  match v.head? with
  | some x => .ok x
  | none => .error .undefinedBehaviour

/-- Call `v.insert(v.begin() + i, x)`. -/
def vecInsert {α : Type} (v : List α) (i : Nat) (x : α) : List α :=
  v.take i ++ x :: v.drop i

/-- The `for` loop of `BTreeNode::findKey`, at index `keyIndex` with the keys from that
index on still to scan.  Leaving the loop means leaving the function without a `return`. -/
def BTreeNode.findKeyLoop (item : Int) (size : Nat) : Nat → List Int → Except Exn Int
  | _, [] => .error .undefinedBehaviour
  | keyIndex, x :: rest =>
    if x = item then .ok (-1)
    else if x > item then .ok keyIndex
    else if keyIndex = size - 1 then .ok size
    else BTreeNode.findKeyLoop item size (keyIndex + 1) rest

/-- Method `BTreeNode::findKey`: `-1` when `item` is in the node, else its insertion index. -/
def BTreeNode.findKey (node : BTreeNode) (item : Int) : Except Exn Int :=
  BTreeNode.findKeyLoop item node.keyVector.length 0 node.keyVector

/-- Class `BTree`: the fields `root`, `nodeCount`, `totalKeyCount`, together with the
memory the nodes live in and the allocation counter (`next` and every larger address
have never been handed out by `new`). -/
structure BTree where
  heap : Heap
  next : Nat
  root : Option Nat
  nodeCount : Int
  totalKeyCount : Int

/-- The constructor `BTree::BTree`: no root, both counters zero. -/
def BTree.new : BTree :=
  { heap := fun _ => none, next := 0, root := none, nodeCount := 0, totalKeyCount := 0 }

/-- Method `count()`. -/
def BTree.count (t : BTree) : Int := t.totalKeyCount

/-- Method `nodeCounter()`. -/
def BTree.nodeCounter (t : BTree) : Int := t.nodeCount

/-- Where the `while` loop of `findNode` leaves a node. -/
inductive Scan where
  | found
  | descend (i : Nat)
  | exhausted
  deriving DecidableEq, Repr

/-- The `while` loop of `findNode` over the keys from index `i` on. -/
def BTree.findNodeScan (item : Int) : Nat → List Int → Scan
  | _, [] => .exhausted
  | i, x :: rest =>
    if x = item then .found
    else if x > item then .descend i
    else BTree.findNodeScan item (i + 1) rest

/-- Method `BTree::findNode(startNode, item)`. -/
def BTree.findNode (item : Int) (h : Heap) : Nat → Option Nat → Except Exn Nat
  | _, none => .error .undefinedBehaviour
  | 0, some _ => .error .outOfFuel
  | fuel + 1, some startNode => do
    let node ← h.deref startNode
    if node.childrenVector.isEmpty then
      pure startNode
    else
      match BTree.findNodeScan item 0 node.keyVector with
      | .found => pure startNode
      | .descend i => do
        let child ← vecGet node.childrenVector i
        BTree.findNode item h fuel (some child)
      | .exhausted => do
        let last ← vecBack node.keyVector
        if last < item then do
          let child ← vecBack node.childrenVector
          BTree.findNode item h fuel (some child)
        else
          .error .undefinedBehaviour

/-- Method `BTree::search`. -/
def BTree.search (t : BTree) (item : Int) : Except Exn Int := do
  let searchNode ← BTree.findNode item t.heap (t.next + 1) t.root
  let node ← t.heap.deref searchNode
  match node.keyVector.find? (fun k => k = item) with
  | some k => pure k
  | none => .error .itemNotFound

/-- The split index of `resolveOverflow`: `size / 2`, one less when `size` is even. -/
def keyMidpoint (size : Nat) : Nat :=
  if size % 2 = 0 then size / 2 - 1 else size / 2

/-- The test `v.size() > MAGNITUDE - 1` (the right side is converted to unsigned). -/
def overfull (MAGNITUDE : Nat) (size : Nat) : Bool :=
  MAGNITUDE ≠ 0 && size > MAGNITUDE - 1

/-- The loop `for (i...) sibling->childrenVector[i]->parent = sibling`. -/
def reparent (newParent : Nat) : Heap → List Nat → Except Exn Heap
  | h, [] => .ok h
  | h, c :: cs => do
    let h1 ← h.modify c (fun n => { n with parent := some newParent })
    reparent newParent h1 cs

/-- The loop of `resolveOverflow` that looks for `overNode` among the parent's children;
running past the end of the vector is undefined behaviour. -/
def findChildIndex (overNode : Nat) : Nat → List Nat → Except Exn Nat
  | _, [] => .error .undefinedBehaviour
  | i, c :: cs => if c = overNode then .ok i else findChildIndex overNode (i + 1) cs

/-- The key statements both branches of `resolveOverflow` share:
`sibling->keyVector.assign(...)` and `overNode->keyVector.erase(...)` after the midpoint.
Returns the heap and `overNode->keyVector[keyMidpoint]`, read after the erase. -/
def splitKeys (h : Heap) (overNode sibling : Nat) : Except Exn (Heap × Int) := do
  let over ← h.deref overNode
  if over.keyVector.length = 0 then .error .undefinedBehaviour else
  let mid := keyMidpoint over.keyVector.length
  let h ← h.modify sibling (fun n => { n with keyVector := over.keyVector.drop (mid + 1) })
  let h ← h.modify overNode (fun n => { n with keyVector := n.keyVector.take (mid + 1) })
  let over ← h.deref overNode
  let promoted ← vecGet over.keyVector mid
  pure (h, promoted)

/-- The children statements both branches of `resolveOverflow` share: when `overNode` has
children, those after index `mid` move to `sibling` and are re-parented. -/
def splitChildren (h : Heap) (overNode sibling mid : Nat) : Except Exn Heap := do
  let over ← h.deref overNode
  if over.childrenVector.isEmpty then
    pure h
  else if over.childrenVector.length < mid + 1 then .error .undefinedBehaviour
  else do
    let h ← h.modify sibling
      (fun n => { n with childrenVector := over.childrenVector.drop (mid + 1) })
    let h ← h.modify overNode
      (fun n => { n with childrenVector := n.childrenVector.take (mid + 1) })
    let sib ← h.deref sibling
    reparent sibling h sib.childrenVector

/-- Method `BTree::resolveOverflow(overNode)`. -/
def BTree.resolveOverflow (MAGNITUDE : Nat) : Nat → BTree → Nat → Except Exn BTree
  | 0, _, _ => .error .outOfFuel
  | fuel + 1, t, overNode => do
    let sibling := t.next
    let h := t.heap.set sibling (some ⟨[], [], none⟩)
    let over ← h.deref overNode
    let mid := keyMidpoint over.keyVector.length
    match over.parent with
    | none => do
      let parent := t.next + 1
      let h := h.set parent (some ⟨[], [], none⟩)
      let h ← h.modify overNode (fun n => { n with parent := some parent })
      let h ← h.modify parent (fun n => { n with childrenVector := n.childrenVector ++ [overNode] })
      let h ← h.modify sibling (fun n => { n with parent := some parent })
      let h ← h.modify parent (fun n => { n with childrenVector := n.childrenVector ++ [sibling] })
      let (h, promoted) ← splitKeys h overNode sibling
      let h ← h.modify parent (fun n => { n with keyVector := n.keyVector ++ [promoted] })
      let h ← h.modify overNode (fun n => { n with keyVector := n.keyVector.dropLast })
      let h ← splitChildren h overNode sibling mid
      pure { t with heap := h, next := t.next + 2, root := some parent,
                    nodeCount := t.nodeCount + 2 }
    | some parent => do
      let par ← h.deref parent
      let nodeIndex ← findChildIndex overNode 0 par.childrenVector
      let h ← h.modify parent
        (fun n => { n with childrenVector := vecInsert n.childrenVector (nodeIndex + 1) sibling })
      let h ← h.modify sibling (fun n => { n with parent := some parent })
      let (h, promoted) ← splitKeys h overNode sibling
      let par ← h.deref parent
      if par.keyVector.length < nodeIndex then .error .undefinedBehaviour else
      let h ← h.modify parent
        (fun n => { n with keyVector := vecInsert n.keyVector nodeIndex promoted })
      let h ← h.modify overNode (fun n => { n with keyVector := n.keyVector.dropLast })
      let h ← splitChildren h overNode sibling mid
      let t1 := { t with heap := h, next := t.next + 1, nodeCount := t.nodeCount + 1 }
      let par ← h.deref parent
      if overfull MAGNITUDE par.keyVector.length then
        BTree.resolveOverflow MAGNITUDE fuel t1 parent
      else
        pure t1

/-- Method `BTree::insert`.  The result is the tree after a normal return, or the
exception together with the tree as it is when the exception leaves `insert`. -/
def BTree.insert (MAGNITUDE : Nat) (t : BTree) (item : Int) : Except (Exn × BTree) BTree :=
  if t.nodeCount = 0 then
    let root := t.next
    .ok { t with heap := t.heap.set root (some ⟨[item], [], none⟩), next := t.next + 1,
                 root := some root, nodeCount := t.nodeCount + 1,
                 totalKeyCount := t.totalKeyCount + 1 }
  else
    match BTree.findNode item t.heap (t.next + 1) t.root with
    | .error e => .error (e, t)
    | .ok insertNode =>
      match t.heap.deref insertNode with
      | .error e => .error (e, t)
      | .ok node =>
        match node.findKey item with
        | .error e => .error (e, t)
        | .ok checkDuplicate =>
          if checkDuplicate = -1 then .error (.duplicateItem, t)
          else
            let keys := vecInsert node.keyVector checkDuplicate.toNat item
            let t1 := { t with heap := t.heap.set insertNode (some { node with keyVector := keys }) }
            if overfull MAGNITUDE (node.keyVector.length + 1) then
              match BTree.resolveOverflow MAGNITUDE (t.next + 1) t1 insertNode with
              | .error e => .error (e, t1)
              | .ok t2 => .ok { t2 with totalKeyCount := t2.totalKeyCount + 1 }
            else
              .ok { t1 with totalKeyCount := t1.totalKeyCount + 1 }

/-- The bound `(MAGNITUDE - 1) / 2` below which a node underflows. -/
def minKeys (MAGNITUDE : Nat) : Nat := (MAGNITUDE - 1) / 2

/-- The loop of `remove` that looks for `item` in the keys: `deleteIndex` follows `i` and
the loop breaks at the first match. -/
def findDeleteIndex (item : Int) (deleteIndex : Nat) : Nat → List Int → Nat
  | _, [] => deleteIndex
  | i, x :: rest => if x = item then i else findDeleteIndex item i (i + 1) rest

/-- The loop of `resolveUnderflow` that looks for `underNode` among the parent's children:
`underIndex` follows `i` and the loop breaks at the first match. -/
def findUnderIndex (underNode : Nat) (underIndex : Nat) : Nat → List Nat → Nat
  | _, [] => underIndex
  | i, c :: cs => if c = underNode then i else findUnderIndex underNode i (i + 1) cs

/-- The loop `while (!predecessorNode->childrenVector.empty())` of `remove`. -/
def descendLast (h : Heap) : Nat → Nat → Except Exn Nat
  | 0, _ => .error .outOfFuel
  | fuel + 1, predecessorNode => do
    let node ← h.deref predecessorNode
    if node.childrenVector.isEmpty then pure predecessorNode
    else do
      let child ← vecBack node.childrenVector
      descendLast h fuel child

/-- Method `BTree::underflowAddresses(sibling, underNode, resolveCase)`. -/
def BTree.underflowAddresses (h : Heap) (sibling underNode : Nat) (resolveCase : Nat) :
    Except Exn Heap :=
  match resolveCase with
  | 1 => do
    let sib ← h.deref sibling
    let child ← vecBack sib.childrenVector
    let h ← h.modify underNode (fun n => { n with childrenVector := child :: n.childrenVector })
    let h ← h.modify sibling (fun n => { n with childrenVector := n.childrenVector.dropLast })
    h.modify child (fun n => { n with parent := some underNode })
  | 2 => do
    let under ← h.deref underNode
    let h ← reparent sibling h under.childrenVector
    let under ← h.deref underNode
    let h ← h.modify sibling
      (fun n => { n with childrenVector := n.childrenVector ++ under.childrenVector })
    h.modify underNode (fun n => { n with childrenVector := [] })
  | 3 => do
    let sib ← h.deref sibling
    let child ← vecFront sib.childrenVector
    let h ← h.modify underNode (fun n => { n with childrenVector := n.childrenVector ++ [child] })
    let h ← h.modify sibling (fun n => { n with childrenVector := n.childrenVector.tail })
    h.modify child (fun n => { n with parent := some underNode })
  | 4 => do
    let under ← h.deref underNode
    let h ← reparent sibling h under.childrenVector
    let under ← h.deref underNode
    let h ← h.modify sibling
      (fun n => { n with childrenVector := under.childrenVector ++ n.childrenVector })
    h.modify underNode (fun n => { n with childrenVector := [] })
  | _ => pure h

/-- Method `BTree::leftBorrow(parent, sibling, underNode, underIndex)`. -/
def BTree.leftBorrow (t : BTree) (parent sibling underNode underIndex : Nat) :
    Except Exn BTree := do
  let h := t.heap
  let sib ← h.deref sibling
  let temp1 ← vecBack sib.keyVector
  let par ← h.deref parent
  let temp2 ← vecGet par.keyVector (underIndex - 1)
  let h ← h.modify underNode (fun n => { n with keyVector := temp2 :: n.keyVector })
  let h ← h.modify parent (fun n => { n with keyVector := n.keyVector.set (underIndex - 1) temp1 })
  let h ← h.modify sibling (fun n => { n with keyVector := n.keyVector.dropLast })
  let under ← h.deref underNode
  if under.childrenVector.isEmpty then
    pure { t with heap := h }
  else do
    let h ← BTree.underflowAddresses h sibling underNode 1
    pure { t with heap := h }

/-- Method `BTree::rightBorrow(parent, sibling, underNode, underIndex)`. -/
def BTree.rightBorrow (t : BTree) (parent sibling underNode underIndex : Nat) :
    Except Exn BTree := do
  let h := t.heap
  let sib ← h.deref sibling
  let temp1 ← vecFront sib.keyVector
  let par ← h.deref parent
  let temp2 ← vecGet par.keyVector underIndex
  let h ← h.modify underNode (fun n => { n with keyVector := n.keyVector ++ [temp2] })
  let h ← h.modify parent (fun n => { n with keyVector := n.keyVector.set underIndex temp1 })
  let h ← h.modify sibling (fun n => { n with keyVector := n.keyVector.tail })
  let under ← h.deref underNode
  if under.childrenVector.isEmpty then
    pure { t with heap := h }
  else do
    let h ← BTree.underflowAddresses h sibling underNode 3
    pure { t with heap := h }

/-- The statements that end both `leftMerge` and `rightMerge`: `delete underNode`, the
root collapse, and otherwise the recursive call on an under-full parent (`recurse` is
`resolveUnderflow`). -/
def mergeTail (MAGNITUDE : Nat) (recurse : BTree → Nat → Except Exn BTree)
    (t : BTree) (h : Heap) (parent sibling underNode : Nat) : Except Exn BTree := do
  let h := h.set underNode none
  let t1 := { t with heap := h, nodeCount := t.nodeCount - 1 }
  let par ← h.deref parent
  if t1.root = some parent then
    if par.keyVector.length = 0 then do
      let h := h.set parent none
      let h ← h.modify sibling (fun n => { n with parent := none })
      pure { t1 with heap := h, root := some sibling, nodeCount := t1.nodeCount - 1 }
    else
      pure t1
  else
    if par.keyVector.length < minKeys MAGNITUDE then
      recurse t1 parent
    else
      pure t1

/-- Method `BTree::leftMerge(parent, sibling, underNode, underIndex)`. -/
def BTree.leftMerge (MAGNITUDE : Nat) (recurse : BTree → Nat → Except Exn BTree)
    (t : BTree) (parent sibling underNode underIndex : Nat) : Except Exn BTree := do
  let h := t.heap
  let par ← h.deref parent
  let temp1 ← vecGet par.keyVector (underIndex - 1)
  let h ← h.modify sibling (fun n => { n with keyVector := n.keyVector ++ [temp1] })
  let h ← h.modify parent (fun n => { n with keyVector := n.keyVector.eraseIdx (underIndex - 1) })
  let under ← h.deref underNode
  let h ← h.modify sibling (fun n => { n with keyVector := n.keyVector ++ under.keyVector })
  let par ← h.deref parent
  if par.childrenVector.length ≤ underIndex then .error .undefinedBehaviour else
  let h ← h.modify parent (fun n => { n with childrenVector := n.childrenVector.eraseIdx underIndex })
  let under ← h.deref underNode
  let h ← if under.childrenVector.isEmpty then pure h
          else BTree.underflowAddresses h sibling underNode 2
  mergeTail MAGNITUDE recurse t h parent sibling underNode

/-- Method `BTree::rightMerge(parent, sibling, underNode, underIndex)`. -/
def BTree.rightMerge (MAGNITUDE : Nat) (recurse : BTree → Nat → Except Exn BTree)
    (t : BTree) (parent sibling underNode underIndex : Nat) : Except Exn BTree := do
  let h := t.heap
  let par ← h.deref parent
  let temp1 ← vecGet par.keyVector underIndex
  let h ← h.modify sibling (fun n => { n with keyVector := temp1 :: n.keyVector })
  let h ← h.modify parent (fun n => { n with keyVector := n.keyVector.eraseIdx underIndex })
  let under ← h.deref underNode
  let h ← h.modify sibling (fun n => { n with keyVector := under.keyVector ++ n.keyVector })
  let par ← h.deref parent
  if par.childrenVector.length ≤ underIndex then .error .undefinedBehaviour else
  let h ← h.modify parent (fun n => { n with childrenVector := n.childrenVector.eraseIdx underIndex })
  let under ← h.deref underNode
  let h ← if under.childrenVector.isEmpty then pure h
          else BTree.underflowAddresses h sibling underNode 4
  mergeTail MAGNITUDE recurse t h parent sibling underNode

/-- Method `BTree::resolveUnderflow(underNode)`. -/
def BTree.resolveUnderflow (MAGNITUDE : Nat) : Nat → BTree → Nat → Except Exn BTree
  | 0, _, _ => .error .outOfFuel
  | fuel + 1, t, underNode =>
    if t.nodeCount = 1 then pure t
    else do
      let under ← t.heap.deref underNode
      match under.parent with
      | none => .error .undefinedBehaviour
      | some parent => do
        let par ← t.heap.deref parent
        let underIndex := findUnderIndex underNode 0 0 par.childrenVector
        let recurse := BTree.resolveUnderflow MAGNITUDE fuel
        if underIndex ≠ 0 then do
          let leftSibling ← vecGet par.childrenVector (underIndex - 1)
          let left ← t.heap.deref leftSibling
          if left.keyVector.length > minKeys MAGNITUDE then
            BTree.leftBorrow t parent leftSibling underNode underIndex
          else do
            let last ← vecBack par.childrenVector
            if underNode = last then
              if left.keyVector.length = minKeys MAGNITUDE then
                BTree.leftMerge MAGNITUDE recurse t parent leftSibling underNode underIndex
              else pure t
            else do
              let rightSibling ← vecGet par.childrenVector (underIndex + 1)
              let right ← t.heap.deref rightSibling
              if right.keyVector.length > minKeys MAGNITUDE then
                BTree.rightBorrow t parent rightSibling underNode underIndex
              else if left.keyVector.length = minKeys MAGNITUDE then
                BTree.leftMerge MAGNITUDE recurse t parent leftSibling underNode underIndex
              else if right.keyVector.length = minKeys MAGNITUDE then
                BTree.rightMerge MAGNITUDE recurse t parent rightSibling underNode underIndex
              else pure t
        else do
          let rightSibling ← vecGet par.childrenVector 1
          let right ← t.heap.deref rightSibling
          if right.keyVector.length > minKeys MAGNITUDE then
            BTree.rightBorrow t parent rightSibling underNode underIndex
          else if right.keyVector.length = minKeys MAGNITUDE then
            BTree.rightMerge MAGNITUDE recurse t parent rightSibling underNode underIndex
          else pure t

/-- The body of `BTree::remove` after the two guards, with `deleteNode` located. -/
def BTree.removeAt (MAGNITUDE : Nat) (t : BTree) (item : Int) (deleteNode : Nat) :
    Except Exn BTree := do
  let node ← t.heap.deref deleteNode
  let deleteIndex := findDeleteIndex item 0 0 node.keyVector
  if node.childrenVector.isEmpty then
    if node.keyVector.length ≤ deleteIndex then .error .undefinedBehaviour else
    let h ← t.heap.modify deleteNode (fun n => { n with keyVector := n.keyVector.eraseIdx deleteIndex })
    let t1 := { t with heap := h }
    let node ← h.deref deleteNode
    let t2 ← if node.keyVector.length < minKeys MAGNITUDE then
        BTree.resolveUnderflow MAGNITUDE (t.next + 1) t1 deleteNode
      else pure t1
    pure { t2 with totalKeyCount := t2.totalKeyCount - 1 }
  else do
    let start ← vecGet node.childrenVector deleteIndex
    let predecessorNode ← descendLast t.heap (t.next + 1) start
    let pnode ← t.heap.deref predecessorNode
    let pred ← vecBack pnode.keyVector
    let h ← t.heap.modify predecessorNode (fun n => { n with keyVector := n.keyVector.dropLast })
    let node ← h.deref deleteNode
    if node.keyVector.length ≤ deleteIndex then .error .undefinedBehaviour else
    let h ← h.modify deleteNode (fun n => { n with keyVector := n.keyVector.eraseIdx deleteIndex })
    let h ← h.modify deleteNode (fun n => { n with keyVector := vecInsert n.keyVector deleteIndex pred })
    let t1 := { t with heap := h }
    let pnode ← h.deref predecessorNode
    let t2 ← if pnode.keyVector.length < minKeys MAGNITUDE then
        BTree.resolveUnderflow MAGNITUDE (t.next + 1) t1 predecessorNode
      else pure t1
    pure { t2 with totalKeyCount := t2.totalKeyCount - 1 }

/-- Method `BTree::remove`.  The result is the tree after a normal return, or the
exception together with the tree as it is when the exception leaves `remove`. -/
def BTree.remove (MAGNITUDE : Nat) (t : BTree) (item : Int) : Except (Exn × BTree) BTree :=
  if t.nodeCount = 0 then .error (.treeEmpty, t)
  else
    match t.root with
    | none => .error (.undefinedBehaviour, t)
    | some root =>
      match t.heap.deref root with
      | .error e => .error (e, t)
      | .ok rootNode =>
        if rootNode.keyVector.length = 0 then .error (.treeEmpty, t)
        else
          match BTree.findNode item t.heap (t.next + 1) t.root with
          | .error e => .error (e, t)
          | .ok deleteNode =>
            match t.heap.deref deleteNode with
            | .error e => .error (e, t)
            | .ok node =>
              match node.findKey item with
              | .error e => .error (e, t)
              | .ok found =>
                if found ≠ -1 then .error (.itemNotFound, t)
                else
                  match BTree.removeAt MAGNITUDE t item deleteNode with
                  | .error e => .error (e, t)
                  | .ok t1 => .ok t1

/-! ## The tree a heap represents -/

/-- A node together with the subtrees below it: the tree that the cells reachable from an
address represent. -/
inductive Tr where
  | node (addr : Nat) (keys : List Int) (children : List Tr)

/-- Address of the top node. -/
def Tr.addr : Tr → Nat
  | .node a _ _ => a

/-- Keys of the top node. -/
def Tr.keys : Tr → List Int
  | .node _ ks _ => ks

/-- Subtrees of the top node. -/
def Tr.children : Tr → List Tr
  | .node _ _ cs => cs

/-- Alternate the key lists of the children with the keys of a node:
`c0 ++ k0 :: c1 ++ k1 :: ... ++ cn`. -/
def weave : List (List Int) → List Int → List Int
  | [], ks => ks
  | c :: cs, [] => c ++ weave cs []
  | c :: cs, k :: ks => c ++ k :: weave cs ks

mutual
/-- All keys of a tree in in-order. -/
def Tr.inorder : Tr → List Int
  | .node _ ks cs => weave (Tr.inorderL cs) ks
/-- The in-order key lists of a list of trees. -/
def Tr.inorderL : List Tr → List (List Int)
  | [] => []
  | c :: cs => c.inorder :: Tr.inorderL cs
end

mutual
/-- Addresses of all nodes of a tree, parent before children. -/
def Tr.addrs : Tr → List Nat
  | .node a _ cs => a :: Tr.addrsL cs
/-- Addresses of all nodes of a list of trees. -/
def Tr.addrsL : List Tr → List Nat
  | [] => []
  | c :: cs => c.addrs ++ Tr.addrsL cs
end

mutual
/-- The heap `h` holds the tree at its address, with parent pointer `p` at the top and
every child pointing back to its parent. -/
def Stores (h : Heap) : Option Nat → Tr → Prop
  | p, .node a ks cs => h a = some ⟨ks, cs.map Tr.addr, p⟩ ∧ StoresL h a cs
/-- Every tree of the list is held by `h` with parent pointer `a`. -/
def StoresL (h : Heap) : Nat → List Tr → Prop
  | _, [] => True
  | a, c :: cs => Stores h (some a) c ∧ StoresL h a cs
end

/-- Shape of a subtree of height `n` under order `M`: a leaf has no children, an internal
node has one more child than keys; the top node has between `lo` and `hi` keys and every
node below between `minKeys M` and `M - 1`; all leaves are at depth `n`. -/
def WFb (M : Nat) : Nat → Nat → Nat → Tr → Prop
  | 0, lo, hi, t => t.children = [] ∧ lo ≤ t.keys.length ∧ t.keys.length ≤ hi
  | n + 1, lo, hi, t =>
    t.children.length = t.keys.length + 1 ∧ lo ≤ t.keys.length ∧ t.keys.length ≤ hi ∧
      ∀ c ∈ t.children, WFb M n (minKeys M) (M - 1) c

/-- A well-formed non-root subtree of height `n`. -/
def WF (M n : Nat) (t : Tr) : Prop := WFb M n (minKeys M) (M - 1) t

/-- A parent node with one child taken out: the children left and right of the hole. -/
structure Frame where
  addr : Nat
  keys : List Int
  left : List Tr
  right : List Tr

/-- Put a subtree into the hole of a frame. -/
def Frame.plug (f : Frame) (t : Tr) : Tr :=
  .node f.addr f.keys (f.left ++ t :: f.right)

/-- Put a subtree into a path of frames, innermost frame first. -/
def plugAll : List Frame → Tr → Tr
  | [], t => t
  | f :: fs, t => plugAll fs (f.plug t)

/-- Addresses of the nodes of a frame (the node itself and the siblings of the hole). -/
def Frame.addrs (f : Frame) : List Nat :=
  f.addr :: (Tr.addrsL f.left ++ Tr.addrsL f.right)

/-- Addresses of all nodes of a path of frames. -/
def ctxAddrs : List Frame → List Nat
  | [] => []
  | f :: fs => f.addrs ++ ctxAddrs fs

/-- The parent pointer a subtree in the hole of the path must carry. -/
def ctxParent : List Frame → Option Nat
  | [] => none
  | f :: _ => some f.addr

/-- The heap holds every frame of the path, the hole of the innermost one being the
address `a`. -/
def StoresCtx (h : Heap) : List Frame → Nat → Prop
  | [], _ => True
  | f :: fs, a =>
    h f.addr = some ⟨f.keys, f.left.map Tr.addr ++ a :: f.right.map Tr.addr, ctxParent fs⟩ ∧
      StoresL h f.addr f.left ∧ StoresL h f.addr f.right ∧ StoresCtx h fs f.addr

/-- The frame of a node at height `n + 1`: children and keys match in number once the hole
is filled, and the siblings of the hole are well-formed subtrees of height `n`. -/
def FrameOK (M n : Nat) (f : Frame) : Prop :=
  f.left.length + f.right.length = f.keys.length ∧
    (∀ c ∈ f.left, WF M n c) ∧ (∀ c ∈ f.right, WF M n c)

/-- Least number of keys of the node of a frame: 1 for the root, `minKeys M` below it. -/
def ctxLo (M : Nat) : List Frame → Nat
  | [] => 1
  | _ :: _ => minKeys M

/-- Every frame of a path is in shape; the hole of the innermost frame is at height `n`. -/
def CtxOK (M : Nat) : Nat → List Frame → Prop
  | _, [] => True
  | n, f :: fs =>
    FrameOK M n f ∧ ctxLo M fs ≤ f.keys.length ∧ f.keys.length ≤ M - 1 ∧ CtxOK M (n + 1) fs

/-- Least number of keys of a subtree in the hole of a path: a root leaf may be empty, a
root with children has a key, any other node has `minKeys M`. -/
def subLo (M : Nat) (n : Nat) : List Frame → Nat
  | [] => if n = 0 then 0 else 1
  | _ :: _ => minKeys M

/-- A well-formed whole tree: all leaves at one depth, every node in shape and within the
key bounds of its position. -/
def RootWF (M : Nat) (T : Tr) : Prop :=
  ∃ n, WFb M n (subLo M n []) (M - 1) T

/-- Keys of a frame's node and of the siblings left of the hole, in order. -/
def Frame.pre (f : Frame) : List Int :=
  weave (f.left.map Tr.inorder) (f.keys.take f.left.length)

/-- Keys of a frame's node and of the siblings right of the hole, in order. -/
def Frame.post (f : Frame) : List Int :=
  weave ([] :: f.right.map Tr.inorder) (f.keys.drop f.left.length)

/-- All keys of a path that come before the hole. -/
def ctxPre : List Frame → List Int
  | [] => []
  | f :: fs => ctxPre fs ++ f.pre

/-- All keys of a path that come after the hole. -/
def ctxPost : List Frame → List Int
  | [] => []
  | f :: fs => f.post ++ ctxPost fs

/-- The heap of `t` holds exactly the tree `plugAll ctx sub`, rooted at `t.root`: every
node is stored once, below the allocation counter, and nothing else is allocated. -/
structure Focus (t : BTree) (ctx : List Frame) (sub : Tr) : Prop where
  ctxStored : StoresCtx t.heap ctx sub.addr
  subStored : Stores t.heap (ctxParent ctx) sub
  nodup : (ctxAddrs ctx ++ sub.addrs).Nodup
  fresh : ∀ a ∈ ctxAddrs ctx ++ sub.addrs, a < t.next
  clean : ∀ a, a ∉ ctxAddrs ctx ++ sub.addrs → t.heap a = none
  root : t.root = some (plugAll ctx sub).addr

/-- The state `t` holds the well-formed tree `T` with strictly increasing in-order keys,
and its counters are the numbers of nodes and of keys of `T`. -/
structure TreeInv (M : Nat) (t : BTree) (T : Tr) : Prop where
  focus : Focus t [] T
  wf : RootWF M T
  sorted : T.inorder.Pairwise (· < ·)
  nodes : t.nodeCount = T.addrs.length
  keys : t.totalKeyCount = T.inorder.length

/-- A state is valid when it is the freshly constructed tree or holds a well-formed tree. -/
def BTree.Valid (M : Nat) (t : BTree) : Prop :=
  t = BTree.new ∨ ∃ T, TreeInv M t T

/-- What the descent of `findNode` for `item` knows on arriving at `sub`, the subtree in
the hole of `ctx`: the heap holds the tree, the path and the subtree are in shape, the
whole in-order key list is strictly increasing, and `item` lies strictly between the keys
before the hole and the keys after it. -/
structure Descent (M : Nat) (item : Int) (t : BTree) (n : Nat) (ctx : List Frame)
    (sub : Tr) : Prop where
  focus : Focus t ctx sub
  ctxOK : CtxOK M n ctx
  subWF : WFb M n (subLo M n ctx) (M - 1) sub
  sorted : (ctxPre ctx ++ sub.inorder ++ ctxPost ctx).Pairwise (· < ·)
  below : ∀ x ∈ ctxPre ctx, x < item
  above : ∀ x ∈ ctxPost ctx, item < x

/-- The result `r` is `G x` for some `x` with `P x`. -/
def Reaches {α β : Type} (P : α → Prop) (G : α → β) (r : β) : Prop :=
  ∃ x, P x ∧ r = G x

/-- What `findKey` returns for each way the scan of the keys can end. -/
def scanResult (size : Nat) : Scan → Int
  | .found => -1
  | .descend j => j
  | .exhausted => size


/-- The result of underflow resolution on a state whose counters are those of `t` and whose
tree has the in-order keys `io`: it returns a state holding a well-formed tree with the
same in-order keys, with the node counter equal to its number of nodes and the key
counter untouched. -/
def UnderflowPost (M : Nat) (t : BTree) (io : List Int) (r : Except Exn BTree) : Prop :=
  ∃ t2 T2, r = .ok t2 ∧ Focus t2 [] T2 ∧ RootWF M T2 ∧ T2.inorder = io ∧
    t2.nodeCount = T2.addrs.length ∧ t2.totalKeyCount = t.totalKeyCount

/-! ## What a state holds, read off the heap -/

/-- Addresses of the nodes reachable from `a` by child pointers, parent before children. -/
def reachFrom (h : Heap) : Nat → Nat → List Nat
  | 0, _ => []
  | fuel + 1, a =>
    match h a with
    | none => []
    | some n => a :: (n.childrenVector.map (reachFrom h fuel)).flatten

/-- Keys stored in the nodes reachable from `a`, in in-order. -/
def keysFrom (h : Heap) : Nat → Nat → List Int
  | 0, _ => []
  | fuel + 1, a =>
    match h a with
    | none => []
    | some n => weave (n.childrenVector.map (keysFrom h fuel)) n.keyVector

/-- Addresses of the nodes reachable from the root. -/
def BTree.reachable (t : BTree) : List Nat :=
  match t.root with
  | none => []
  | some r => reachFrom t.heap (t.next + 1) r

/-- Keys stored in the nodes reachable from the root, in in-order. -/
def BTree.storedKeys (t : BTree) : List Int :=
  match t.root with
  | none => []
  | some r => keysFrom t.heap (t.next + 1) r

/-- Insert the keys of a list one after another, as the loops of the driver do; the run
ends at the first insert that does not return normally. -/
def BTree.insertAll (MAGNITUDE : Nat) : BTree → List Int → Except (Exn × BTree) BTree
  | t, [] => .ok t
  | t, k :: ks =>
    match t.insert MAGNITUDE k with
    | .ok t2 => BTree.insertAll MAGNITUDE t2 ks
    | .error e => .error e

/-- The states reached from the freshly constructed tree by calls of `insert` and `remove`
that return normally or throw one of the exceptions of the header. -/
inductive Reachable (MAGNITUDE : Nat) : BTree → Prop where
  | fresh : Reachable MAGNITUDE BTree.new
  | insertOk {t t2 : BTree} {k : Int} :
    Reachable MAGNITUDE t → t.insert MAGNITUDE k = .ok t2 → Reachable MAGNITUDE t2
  | insertThrow {t t2 : BTree} {k : Int} {e : Exn} :
    Reachable MAGNITUDE t → t.insert MAGNITUDE k = .error (e, t2) → e.isThrown = true →
    Reachable MAGNITUDE t2
  | removeOk {t t2 : BTree} {k : Int} :
    Reachable MAGNITUDE t → t.remove MAGNITUDE k = .ok t2 → Reachable MAGNITUDE t2
  | removeThrow {t t2 : BTree} {k : Int} {e : Exn} :
    Reachable MAGNITUDE t → t.remove MAGNITUDE k = .error (e, t2) → e.isThrown = true →
    Reachable MAGNITUDE t2

/-! ## Sample runs -/

/-- The tree of order 3 after inserting 1, 2, 3: the third insert splits the root. -/
def sampleTree : BTree :=
  match BTree.insertAll 3 BTree.new [1, 2, 3] with
  | .ok t => t
  | .error p => p.2

/-- The tree of order 3 after inserting the single key 7. -/
def singletonTree : BTree :=
  match BTree.new.insert 3 7 with
  | .ok t => t
  | .error p => p.2

/-- The tree of order 3 after inserting 7 and removing it again: a root without keys. -/
def emptiedTree : BTree :=
  match singletonTree.remove 3 7 with
  | .ok t => t
  | .error p => p.2

/-! ## Depth of the leaves -/

/-- The leaves reachable from `a`, each with its depth counted from `a`. -/
def leafDepthsFrom (h : Heap) : Nat → Nat → List (Nat × Nat)
  | 0, _ => []
  | fuel + 1, a =>
    match h a with
    | none => []
    | some n =>
      if n.childrenVector.isEmpty then [(a, 0)]
      else ((n.childrenVector.map (leafDepthsFrom h fuel)).flatten).map
        (fun p => (p.1, p.2 + 1))

/-- The leaves reachable from the root, each with its depth. -/
def BTree.leafDepths (t : BTree) : List (Nat × Nat) :=
  match t.root with
  | none => []
  | some r => leafDepthsFrom t.heap (t.next + 1) r

/-! ## The driver's insertion loop -/

/-- The insertion loop of `main`: each value is inserted in turn, a `DuplicateItem`
exception is caught inside the loop and the loop goes on; anything else ends the run. -/
def BTree.driverInserts (MAGNITUDE : Nat) : BTree → List Int → Except Exn BTree
  | t, [] => .ok t
  | t, v :: vs =>
    match t.insert MAGNITUDE v with
    | .ok t2 => BTree.driverInserts MAGNITUDE t2 vs
    | .error (.duplicateItem, t2) => BTree.driverInserts MAGNITUDE t2 vs
    | .error (e, _) => .error e

/-! ## The comparison function given to the constructor -/

/-- The object with its member `compare`: the constructor stores the function pointer it
is given, and no method of the class reads the member. -/
structure BTreeObject where
  compare : Int → Int → Int
  tree : BTree

/-- Constructor `BTree::BTree(cmp)`: `compare = cmp`, no root, both counters zero. -/
def BTreeObject.new (cmp : Int → Int → Int) : BTreeObject :=
  { compare := cmp, tree := BTree.new }

/-- Method `insert` on the object: the member `compare` is neither read nor written. -/
def BTreeObject.insert (MAGNITUDE : Nat) (o : BTreeObject) (item : Int) :
    Except (Exn × BTreeObject) BTreeObject :=
  match o.tree.insert MAGNITUDE item with
  | .ok t => .ok { o with tree := t }
  | .error (e, t) => .error (e, { o with tree := t })

/-- Method `search` on the object: the member `compare` is not read. -/
def BTreeObject.search (o : BTreeObject) (item : Int) : Except Exn Int :=
  o.tree.search item

/-- The objects reached from the constructor call with `cmp` by calls of `insert` that
return normally or throw one of the exceptions of the header. -/
inductive InsertRun (MAGNITUDE : Nat) (cmp : Int → Int → Int) : BTreeObject → Prop where
  | fresh : InsertRun MAGNITUDE cmp (BTreeObject.new cmp)
  | insertOk {o o2 : BTreeObject} {k : Int} :
    InsertRun MAGNITUDE cmp o → o.insert MAGNITUDE k = .ok o2 → InsertRun MAGNITUDE cmp o2
  | insertThrow {o o2 : BTreeObject} {k : Int} {e : Exn} :
    InsertRun MAGNITUDE cmp o → o.insert MAGNITUDE k = .error (e, o2) → e.isThrown = true →
    InsertRun MAGNITUDE cmp o2

/-- A three-way comparison that is a strict total order: `-1` for less, `0` exactly for
equal keys, `1` for greater, with "less" transitive. -/
def IsThreeWayOrder (cmp : Int → Int → Int) : Prop :=
  (∀ a b, cmp a b = 0 ↔ a = b) ∧ (∀ a b, cmp a b = -1 ↔ cmp b a = 1) ∧
    (∀ a b, cmp a b = -1 ∨ cmp a b = 0 ∨ cmp a b = 1) ∧
    (∀ a b c, cmp a b = -1 → cmp b c = -1 → cmp a c = -1)

/-- The comparison of the driver with the two arguments exchanged: the larger integer
counts as "less". -/
def compareReversed (item1 item2 : Int) : Int :=
  if item2 < item1 then -1 else if item1 = item2 then 0 else 1

/-- The object constructed with `compareReversed` at order 128 after `insert 1` and
`insert 2`. -/
def reversedRun : BTreeObject :=
  match (BTreeObject.new compareReversed).insert 128 1 with
  | .error p => p.2
  | .ok o1 =>
    match o1.insert 128 2 with
    | .ok o2 => o2
    | .error p => p.2

/-- The tree of order 3 after inserting 1, 2, 3 and removing 2: the leaves are merged and
the root collapses. -/
def shrunkTree : BTree :=
  match sampleTree.remove 3 2 with
  | .ok t => t
  | .error p => p.2

/-- The tree of order 3 after inserting 1 and 2: a root leaf holding both keys. -/
def twoKeyLeaf : BTree :=
  match BTree.insertAll 3 BTree.new [1, 2] with
  | .ok t => t
  | .error p => p.2

/-- The state inside `insert 3` on `twoKeyLeaf`, after the key is put into the root leaf
and before `resolveOverflow` is called. -/
def overfullLeaf : BTree :=
  { twoKeyLeaf with heap := twoKeyLeaf.heap.set 0 (some ⟨[1, 2, 3], [], none⟩) }

/-- The tree of order 3 after inserting 1, 3, 4, 2: root `[3]` over the leaves `[1, 2]`
and `[4]`. -/
def borrowBase : BTree :=
  match BTree.insertAll 3 BTree.new [1, 3, 4, 2] with
  | .ok t => t
  | .error p => p.2

/-- The state inside `remove 4` on `borrowBase`, after the key is erased from its leaf and
before `resolveUnderflow` is called. -/
def underfullTree : BTree :=
  { borrowBase with heap := borrowBase.heap.set 1 (some ⟨[], [], some 2⟩) }

/-! ## The end of a merge, and the sorted set a tree stands for -/

/-- The statements of `leftMerge` and `rightMerge` after `delete underNode; nodeCount--`:
the root collapse, and otherwise the recursive call on an under-full parent. -/
def mergeRest (MAGNITUDE : Nat) (recurse : BTree → Nat → Except Exn BTree)
    (t1 : BTree) (parent sibling : Nat) : Except Exn BTree := do
  let par ← t1.heap.deref parent
  if t1.root = some parent then
    if par.keyVector.length = 0 then do
      let h := t1.heap.set parent none
      let h ← h.modify sibling (fun n => { n with parent := none })
      pure { t1 with heap := h, root := some sibling, nodeCount := t1.nodeCount - 1 }
    else
      pure t1
  else
    if par.keyVector.length < minKeys MAGNITUDE then
      recurse t1 parent
    else
      pure t1

/-- Specification of insertion into a finite sorted set, kept as a strictly increasing
list: the key goes in front of the first larger element. -/
def specInsert (k : Int) : List Int → List Int
  | [] => [k]
  | x :: xs => if k < x then k :: x :: xs else x :: specInsert k xs

/-- Specification of deletion from a finite sorted set: the key is taken out, everything
else stays in place. -/
def specRemove (k : Int) : List Int → List Int
  | [] => []
  | x :: xs => if x = k then xs else x :: specRemove k xs

/-- The state inside `remove 3` on `sampleTree` after the right leaf is merged into the
left one, freed and counted off, before the check of the root: the root has no key left
and the one child `[1, 2]`. -/
def mergedTree : BTree :=
  { sampleTree with heap := ((sampleTree.heap.set 2 (some ⟨[], [0], none⟩)).set 0 (some ⟨[1, 2], [], some 2⟩)).set 1 none, nodeCount := 2 }



/-! ## Heap and `Except` basics -/

@[simp] theorem Heap.set_same (h : Heap) (a : Nat) (v : Option BTreeNode) :
    h.set a v a = v := by simp [Heap.set]

theorem Heap.set_ne (h : Heap) (a b : Nat) (v : Option BTreeNode) (hne : b ≠ a) :
    h.set a v b = h b := by simp [Heap.set, hne]

theorem Heap.deref_of_eq {h : Heap} {a : Nat} {n : BTreeNode} (e : h a = some n) :
    h.deref a = .ok n := by simp [Heap.deref, e]

theorem Heap.modify_of_eq {h : Heap} {a : Nat} {n : BTreeNode} (e : h a = some n)
    (f : BTreeNode → BTreeNode) : h.modify a f = .ok (h.set a (some (f n))) := by
  simp [Heap.modify, e]

@[simp] theorem Except.ok_bind_eq {ε α β : Type} (a : α) (f : α → Except ε β) :
    (Except.ok a >>= f) = f a := rfl

@[simp] theorem Except.error_bind_eq {ε α β : Type} (e : ε) (f : α → Except ε β) :
    (Except.error e >>= f) = Except.error e := rfl

@[simp] theorem Except.pure_eq_ok {ε α : Type} (a : α) :
    (pure a : Except ε α) = Except.ok a := rfl

/-! ## Trees: induction and the list views of the mutual definitions -/

theorem Tr.induct {P : Tr → Prop}
    (step : ∀ a ks cs, (∀ c ∈ cs, P c) → P (.node a ks cs)) (t : Tr) : P t :=
  @Tr.rec P (fun l => ∀ c ∈ l, P c)
    (fun a ks cs ih => step a ks cs ih)
    (fun c hc => by simp at hc)
    (fun hd tl ih1 ih2 c hc => by
      rcases List.mem_cons.mp hc with e | e
      · exact e ▸ ih1
      · exact ih2 c e)
    t

@[simp] theorem Tr.inorderL_eq (cs : List Tr) : Tr.inorderL cs = cs.map Tr.inorder := by
  induction cs with
  | nil => simp [Tr.inorderL]
  | cons c cs ih => simp [Tr.inorderL, ih]

theorem Tr.inorder_node (a : Nat) (ks : List Int) (cs : List Tr) :
    (Tr.node a ks cs).inorder = weave (cs.map Tr.inorder) ks := by
  simp [Tr.inorder]

@[simp] theorem Tr.addrsL_nil : Tr.addrsL [] = [] := by simp [Tr.addrsL]

@[simp] theorem Tr.addrsL_cons (c : Tr) (cs : List Tr) :
    Tr.addrsL (c :: cs) = c.addrs ++ Tr.addrsL cs := by simp [Tr.addrsL]

@[simp] theorem Tr.addrsL_append (xs ys : List Tr) :
    Tr.addrsL (xs ++ ys) = Tr.addrsL xs ++ Tr.addrsL ys := by
  induction xs with
  | nil => simp
  | cons c cs ih => simp [ih]

theorem Tr.addrs_node (a : Nat) (ks : List Int) (cs : List Tr) :
    (Tr.node a ks cs).addrs = a :: Tr.addrsL cs := by simp [Tr.addrs]

theorem Tr.mem_addrsL {x : Nat} {cs : List Tr} :
    x ∈ Tr.addrsL cs ↔ ∃ c ∈ cs, x ∈ c.addrs := by
  induction cs with
  | nil => simp
  | cons c cs ih => simp [ih]

theorem Tr.addr_mem_addrs (t : Tr) : t.addr ∈ t.addrs := by
  cases t with
  | node a ks cs => simp [Tr.addr, Tr.addrs]

theorem Tr.eq_node (t : Tr) : t = .node t.addr t.keys t.children := by
  cases t; rfl

theorem StoresL_iff {h : Heap} {a : Nat} {cs : List Tr} :
    StoresL h a cs ↔ ∀ c ∈ cs, Stores h (some a) c := by
  induction cs with
  | nil => simp [StoresL]
  | cons c cs ih => simp [StoresL, ih]

theorem Stores_node {h : Heap} {p : Option Nat} {a : Nat} {ks : List Int} {cs : List Tr} :
    Stores h p (.node a ks cs) ↔
      h a = some ⟨ks, cs.map Tr.addr, p⟩ ∧ ∀ c ∈ cs, Stores h (some a) c := by
  simp [Stores, StoresL_iff]

theorem Stores_iff {h : Heap} {p : Option Nat} {t : Tr} :
    Stores h p t ↔
      h t.addr = some ⟨t.keys, t.children.map Tr.addr, p⟩ ∧
        ∀ c ∈ t.children, Stores h (some t.addr) c := by
  cases t with
  | node a ks cs => simp [Stores_node, Tr.addr, Tr.keys, Tr.children]

/-- A heap that agrees with `h` on the addresses of a tree holds the same tree. -/
theorem Stores.frame {h h2 : Heap} {t : Tr} :
    ∀ {p : Option Nat}, Stores h p t → (∀ x ∈ t.addrs, h2 x = h x) → Stores h2 p t := by
  induction t using Tr.induct with
  | step a ks cs ih =>
    intro p hs hag
    rw [Stores_node] at hs ⊢
    refine ⟨?_, ?_⟩
    · rw [hag a (by simp [Tr.addrs])]; exact hs.1
    · intro c hc
      refine ih c hc (hs.2 c hc) ?_
      intro x hx
      exact hag x (by simp only [Tr.addrs_node, List.mem_cons, Tr.mem_addrsL]; exact Or.inr ⟨c, hc, hx⟩)

theorem StoresL.frameL {h h2 : Heap} {a : Nat} {cs : List Tr} (hs : StoresL h a cs)
    (hag : ∀ x ∈ Tr.addrsL cs, h2 x = h x) : StoresL h2 a cs := by
  rw [StoresL_iff] at hs ⊢
  intro c hc
  exact (hs c hc).frame (fun x hx => hag x (Tr.mem_addrsL.mpr ⟨c, hc, hx⟩))

/-- Changing only the parent pointer of the top node re-parents the tree. -/
theorem Stores.reparent {h h2 : Heap} {t : Tr} {p q : Option Nat} (hs : Stores h p t)
    (htop : h2 t.addr = some ⟨t.keys, t.children.map Tr.addr, q⟩)
    (hag : ∀ x ∈ Tr.addrsL t.children, h2 x = h x) : Stores h2 q t := by
  rw [Stores_iff] at hs ⊢
  refine ⟨htop, ?_⟩
  intro c hc
  exact (hs.2 c hc).frame (fun x hx => hag x (Tr.mem_addrsL.mpr ⟨c, hc, hx⟩))

/-! ## `weave` -/

@[simp] theorem weave_nil_left (ks : List Int) : weave [] ks = ks := by
  cases ks <;> simp [weave]

@[simp] theorem weave_nil_right (cs : List (List Int)) : weave cs [] = cs.flatten := by
  induction cs with
  | nil => simp
  | cons c cs ih => simp [weave, ih]

@[simp] theorem weave_cons_cons (c : List Int) (cs : List (List Int)) (k : Int) (ks : List Int) :
    weave (c :: cs) (k :: ks) = c ++ k :: weave cs ks := by simp [weave]

theorem weave_append (A B : List (List Int)) (ka kb : List Int) (hl : A.length = ka.length) :
    weave (A ++ B) (ka ++ kb) = weave A ka ++ weave B kb := by
  induction A generalizing ka with
  | nil =>
    cases ka with
    | nil => simp
    | cons k ka => simp at hl
  | cons c A ih =>
    cases ka with
    | nil => simp at hl
    | cons k ka =>
      simp only [List.length_cons, Nat.add_right_cancel_iff] at hl
      simp [ih ka hl]

theorem weave_cons_eq (c : List Int) (B : List (List Int)) (kb : List Int) :
    weave (c :: B) kb = c ++ weave ([] :: B) kb := by
  cases kb with
  | nil => simp
  | cons k kb => simp

theorem mem_weave {x : Int} {cs : List (List Int)} {ks : List Int} :
    x ∈ weave cs ks ↔ x ∈ ks ∨ ∃ c ∈ cs, x ∈ c := by
  induction cs generalizing ks with
  | nil => simp
  | cons c cs ih =>
    cases ks with
    | nil => simp
    | cons k ks =>
      simp only [weave_cons_cons, List.mem_append, List.mem_cons, ih]
      constructor
      · rintro (h1 | h1 | h1 | ⟨d, hd, hx⟩)
        · exact Or.inr ⟨c, Or.inl rfl, h1⟩
        · exact Or.inl (Or.inl h1)
        · exact Or.inl (Or.inr h1)
        · exact Or.inr ⟨d, Or.inr hd, hx⟩
      · rintro ((h1 | h1) | ⟨d, hd | hd, hx⟩)
        · exact Or.inr (Or.inl h1)
        · exact Or.inr (Or.inr (Or.inl h1))
        · exact Or.inl (hd ▸ hx)
        · exact Or.inr (Or.inr (Or.inr ⟨d, hd, hx⟩))

theorem weave_length (cs : List (List Int)) (ks : List Int) :
    (weave cs ks).length = (cs.map List.length).sum + ks.length := by
  induction cs generalizing ks with
  | nil => simp
  | cons c cs ih =>
    cases ks with
    | nil => simp
    | cons k ks => simp [ih]; omega

theorem keys_sublist_weave (cs : List (List Int)) (ks : List Int) :
    List.Sublist ks (weave cs ks) := by
  induction cs generalizing ks with
  | nil => simp
  | cons c cs ih =>
    cases ks with
    | nil => simp
    | cons k ks =>
      rw [weave_cons_cons]
      exact List.Sublist.trans ((ih ks).cons₂ k) (List.sublist_append_right c _)

theorem child_sublist_weave {c : List Int} {cs : List (List Int)} (ks : List Int)
    (hc : c ∈ cs) : List.Sublist c (weave cs ks) := by
  induction cs generalizing ks with
  | nil => simp at hc
  | cons d cs ih =>
    rcases List.mem_cons.mp hc with e | e
    · subst e
      rw [weave_cons_eq]
      exact List.sublist_append_left _ _
    · cases ks with
      | nil =>
        rw [weave_nil_right, List.flatten_cons]
        have := ih [] e
        rw [weave_nil_right] at this
        exact this.trans (List.sublist_append_right _ _)
      | cons k ks =>
        rw [weave_cons_cons]
        exact ((ih ks e).cons k).trans (List.sublist_append_right _ _)

/-! ## Paths of frames -/

theorem Frame.plug_addr (f : Frame) (t : Tr) : (f.plug t).addr = f.addr := rfl

theorem Frame.plug_keys (f : Frame) (t : Tr) : (f.plug t).keys = f.keys := rfl

theorem Frame.plug_children (f : Frame) (t : Tr) :
    (f.plug t).children = f.left ++ t :: f.right := rfl

theorem Frame.plug_inorder_congr (f : Frame) {t u : Tr} (e : t.inorder = u.inorder) :
    (f.plug t).inorder = (f.plug u).inorder := by
  simp [Frame.plug, Tr.inorder_node, e]

theorem plugAll_inorder_congr (ctx : List Frame) {t u : Tr} (e : t.inorder = u.inorder) :
    (plugAll ctx t).inorder = (plugAll ctx u).inorder := by
  induction ctx generalizing t u with
  | nil => simpa [plugAll] using e
  | cons f fs ih => exact ih (f.plug_inorder_congr e)

theorem Frame.plug_addrs_perm (f : Frame) (t : Tr) :
    List.Perm (f.plug t).addrs (f.addrs ++ t.addrs) := by
  simp only [Frame.plug, Tr.addrs_node, Frame.addrs, Tr.addrsL_append, Tr.addrsL_cons,
    List.cons_append, List.perm_cons, List.append_assoc]
  refine List.Perm.append_left _ ?_
  exact List.perm_append_comm

theorem plugAll_addrs_perm (ctx : List Frame) (t : Tr) :
    List.Perm (plugAll ctx t).addrs (ctxAddrs ctx ++ t.addrs) := by
  induction ctx generalizing t with
  | nil => simp [plugAll, ctxAddrs]
  | cons f fs ih =>
    simp only [plugAll, ctxAddrs]
    refine (ih (f.plug t)).trans ?_
    refine ((f.plug_addrs_perm t).append_left (ctxAddrs fs)).trans ?_
    rw [← List.append_assoc]
    exact List.Perm.append_right _ List.perm_append_comm

theorem Stores_plug {h : Heap} {p : Option Nat} {f : Frame} {t : Tr} :
    Stores h p (f.plug t) ↔
      h f.addr = some ⟨f.keys, f.left.map Tr.addr ++ t.addr :: f.right.map Tr.addr, p⟩ ∧
      StoresL h f.addr f.left ∧ StoresL h f.addr f.right ∧ Stores h (some f.addr) t := by
  simp only [Frame.plug, Stores_node, StoresL_iff, List.map_append, List.map_cons,
    List.mem_append, List.mem_cons]
  constructor
  · rintro ⟨h1, h2⟩
    exact ⟨h1, fun c hc => h2 c (Or.inl hc), fun c hc => h2 c (Or.inr (Or.inr hc)),
      h2 t (Or.inr (Or.inl rfl))⟩
  · rintro ⟨h1, h2, h3, h4⟩
    refine ⟨h1, ?_⟩
    rintro c (hc | rfl | hc)
    · exact h2 c hc
    · exact h4
    · exact h3 c hc

theorem plugAll_addr_cons (f : Frame) (fs : List Frame) (t u : Tr) :
    (plugAll (f :: fs) t).addr = (plugAll (f :: fs) u).addr := by
  induction fs generalizing f t u with
  | nil => simp [plugAll, Frame.plug, Tr.addr]
  | cons g gs ih => exact ih g (f.plug t) (f.plug u)

theorem plugAll_addr_eq (ctx : List Frame) {t u : Tr} (e : t.addr = u.addr) :
    (plugAll ctx t).addr = (plugAll ctx u).addr := by
  cases ctx with
  | nil => simpa [plugAll] using e
  | cons f fs => exact plugAll_addr_cons f fs t u

theorem Stores_plugAll {h : Heap} {ctx : List Frame} {t : Tr} :
    Stores h none (plugAll ctx t) ↔ StoresCtx h ctx t.addr ∧ Stores h (ctxParent ctx) t := by
  induction ctx generalizing t with
  | nil => simp [plugAll, StoresCtx, ctxParent]
  | cons f fs ih =>
    simp only [plugAll, ih, Stores_plug, StoresCtx, ctxParent, Frame.plug_addr]
    tauto

theorem StoresCtx.frameCtx {h h2 : Heap} {ctx : List Frame} {a : Nat} (hs : StoresCtx h ctx a)
    (hag : ∀ x ∈ ctxAddrs ctx, h2 x = h x) : StoresCtx h2 ctx a := by
  induction ctx generalizing a with
  | nil => simp [StoresCtx]
  | cons f fs ih =>
    simp only [StoresCtx] at hs ⊢
    simp only [ctxAddrs, Frame.addrs, List.mem_append, List.mem_cons] at hag
    obtain ⟨h1, h2l, h2r, h3⟩ := hs
    refine ⟨?_, ?_, ?_, ?_⟩
    · rw [hag f.addr (Or.inl (Or.inl rfl))]; exact h1
    · exact h2l.frameL (fun x hx => hag x (Or.inl (Or.inr (Or.inl hx))))
    · exact h2r.frameL (fun x hx => hag x (Or.inl (Or.inr (Or.inr hx))))
    · exact ih h3 (fun x hx => hag x (Or.inr hx))



/-! ## Moving the focus along a path -/

theorem Focus.down {t : BTree} {ctx : List Frame} {f : Frame} {c : Tr}
    (hf : Focus t ctx (f.plug c)) : Focus t (f :: ctx) c := by
  obtain ⟨h1, h2, h3, h4, h5, h6⟩ := hf
  have hp : List.Perm (ctxAddrs (f :: ctx) ++ c.addrs) (ctxAddrs ctx ++ (f.plug c).addrs) := by
    simp only [ctxAddrs]
    refine List.Perm.trans ?_ ((f.plug_addrs_perm c).append_left (ctxAddrs ctx)).symm
    rw [← List.append_assoc]
    exact List.Perm.append_right _ List.perm_append_comm
  rw [Stores_plug] at h2
  refine ⟨?_, h2.2.2.2, hp.nodup_iff.mpr h3, ?_, ?_, h6⟩
  · exact ⟨h2.1, h2.2.1, h2.2.2.1, h1⟩
  · intro a ha; exact h4 a (hp.mem_iff.mp ha)
  · intro a ha; exact h5 a (fun hc => ha (hp.mem_iff.mpr hc))

theorem Focus.up {t : BTree} {ctx : List Frame} {f : Frame} {c : Tr}
    (hf : Focus t (f :: ctx) c) : Focus t ctx (f.plug c) := by
  obtain ⟨h1, h2, h3, h4, h5, h6⟩ := hf
  have hp : List.Perm (ctxAddrs (f :: ctx) ++ c.addrs) (ctxAddrs ctx ++ (f.plug c).addrs) := by
    simp only [ctxAddrs]
    refine List.Perm.trans ?_ ((f.plug_addrs_perm c).append_left (ctxAddrs ctx)).symm
    rw [← List.append_assoc]
    exact List.Perm.append_right _ List.perm_append_comm
  obtain ⟨h1a, h1b, h1c, h1d⟩ := h1
  refine ⟨h1d, Stores_plug.mpr ⟨h1a, h1b, h1c, h2⟩, hp.nodup_iff.mp h3, ?_, ?_, h6⟩
  · intro a ha; exact h4 a (hp.mem_iff.mpr ha)
  · intro a ha; exact h5 a (fun hc => ha (hp.mem_iff.mp hc))

/-! ## In-order keys around the hole -/

theorem Frame.plug_inorder (f : Frame) (t : Tr) (hl : f.left.length ≤ f.keys.length) :
    (f.plug t).inorder = f.pre ++ t.inorder ++ f.post := by
  have hk : f.keys = f.keys.take f.left.length ++ f.keys.drop f.left.length :=
    (List.take_append_drop _ _).symm
  simp only [Frame.plug, Tr.inorder_node, Frame.pre, Frame.post, List.map_append, List.map_cons]
  conv_lhs => rw [hk]
  rw [weave_append _ _ _ _ (by simp [hl]), weave_cons_eq, List.append_assoc]

theorem FrameOK.left_le {M n : Nat} {f : Frame} (h : FrameOK M n f) :
    f.left.length ≤ f.keys.length := by
  have := h.1; omega

theorem plugAll_inorder {M : Nat} {ctx : List Frame} :
    ∀ {n : Nat} (t : Tr), CtxOK M n ctx →
      (plugAll ctx t).inorder = ctxPre ctx ++ t.inorder ++ ctxPost ctx := by
  induction ctx with
  | nil => intro n t _; simp [plugAll, ctxPre, ctxPost]
  | cons f fs ih =>
    intro n t h
    simp only [CtxOK] at h
    simp only [plugAll, ctxPre, ctxPost]
    rw [ih (f.plug t) h.2.2.2, f.plug_inorder t h.1.left_le]
    simp [List.append_assoc]

/-! ## The scan loops -/

theorem findNodeScan_found {item : Int} {ks : List Int} {i : Nat}
    (h : BTree.findNodeScan item i ks = .found) : item ∈ ks := by
  induction ks generalizing i with
  | nil => simp [BTree.findNodeScan] at h
  | cons x rest ih =>
    simp only [BTree.findNodeScan] at h
    split at h
    · simp_all
    · split at h
      · simp at h
      · simp [ih h]

theorem findNodeScan_descend {item : Int} {ks : List Int} {i j : Nat}
    (h : BTree.findNodeScan item i ks = .descend j) :
    ∃ pre x rest, ks = pre ++ x :: rest ∧ (∀ y ∈ pre, y < item) ∧ item < x ∧
      j = i + pre.length := by
  induction ks generalizing i with
  | nil => simp [BTree.findNodeScan] at h
  | cons x rest ih =>
    simp only [BTree.findNodeScan] at h
    split at h
    · simp at h
    · rename_i hne
      split at h
      · rename_i hgt
        simp only [Scan.descend.injEq] at h
        exact ⟨[], x, rest, by simp, by simp, hgt, by simp [h]⟩
      · rename_i hng
        obtain ⟨pre, y, rest2, e1, e2, e3, e4⟩ := ih h
        refine ⟨x :: pre, y, rest2, by simp [e1], ?_, e3, by simp [e4]; omega⟩
        intro z hz
        rcases List.mem_cons.mp hz with e | e
        · subst e; omega
        · exact e2 z e

theorem findNodeScan_exhausted {item : Int} {ks : List Int} {i : Nat}
    (h : BTree.findNodeScan item i ks = .exhausted) : ∀ y ∈ ks, y < item := by
  induction ks generalizing i with
  | nil => simp
  | cons x rest ih =>
    simp only [BTree.findNodeScan] at h
    split at h
    · simp at h
    · rename_i hne
      split at h
      · simp at h
      · rename_i hng
        intro y hy
        rcases List.mem_cons.mp hy with e | e
        · subst e; omega
        · exact ih h y e

/-- Keys woven before a bound: when the keys are below `item` and the weave is increasing,
everything woven in is below `item`. -/
theorem weave_lt_of_keys_lt {item : Int} :
    ∀ (L : List (List Int)) (ks : List Int), L.length = ks.length →
      (weave L ks).Pairwise (· < ·) → (∀ y ∈ ks, y < item) → ∀ e ∈ weave L ks, e < item := by
  intro L
  induction L with
  | nil => intro ks _ _ hk e he; simp at he; exact hk e he
  | cons c L ih =>
    intro ks hl hp hk e he
    cases ks with
    | nil => simp at hl
    | cons k ks =>
      simp only [List.length_cons, Nat.add_right_cancel_iff] at hl
      rw [weave_cons_cons] at hp he
      rw [List.pairwise_append] at hp
      rcases List.mem_append.mp he with h1 | h1
      · have := hp.2.2 e h1 k (by simp)
        have := hk k (by simp)
        omega
      · rcases List.mem_cons.mp h1 with h2 | h2
        · subst h2; exact hk e (by simp)
        · exact ih ks hl (List.pairwise_cons.mp hp.2.1).2 (fun y hy => hk y (by simp [hy])) e h2

@[simp] theorem Tr.addr_node (a : Nat) (ks : List Int) (cs : List Tr) :
    (Tr.node a ks cs).addr = a := rfl

@[simp] theorem Tr.keys_node (a : Nat) (ks : List Int) (cs : List Tr) :
    (Tr.node a ks cs).keys = ks := rfl

@[simp] theorem Tr.children_node (a : Nat) (ks : List Int) (cs : List Tr) :
    (Tr.node a ks cs).children = cs := rfl

/-- Keys woven after a bound: when the keys are above `item` and the weave (starting with
a key) is increasing, everything woven in is above `item`. -/
theorem weave_gt_of_keys_gt {item : Int} :
    ∀ (R : List (List Int)) (ks : List Int), R.length = ks.length →
      (weave ([] :: R) ks).Pairwise (· < ·) → (∀ y ∈ ks, item < y) →
      ∀ e ∈ weave ([] :: R) ks, item < e := by
  intro R
  induction R with
  | nil =>
    intro ks hl _ _ e he
    cases ks with
    | nil => simp at he
    | cons k ks => simp at hl
  | cons r R ih =>
    intro ks hl hp hk e he
    cases ks with
    | nil => simp at hl
    | cons k ks =>
      simp only [List.length_cons, Nat.add_right_cancel_iff] at hl
      rw [weave_cons_cons, List.nil_append, weave_cons_eq] at hp he
      have hkk := hk k (by simp)
      rw [List.pairwise_cons] at hp
      rcases List.mem_cons.mp he with h1 | h1
      · subst h1; exact hkk
      · rcases List.mem_append.mp h1 with h2 | h2
        · have := hp.1 e (List.mem_append.mpr (Or.inl h2)); omega
        · exact ih ks hl (List.pairwise_append.mp hp.2).2.1
            (fun y hy => hk y (by simp [hy])) e h2

theorem subLo_succ_eq_ctxLo (M n : Nat) (ctx : List Frame) :
    subLo M (n + 1) ctx = ctxLo M ctx := by
  cases ctx <;> simp [subLo, ctxLo]

/-- One step of the descent: from a node into the child in the hole of its frame. -/
theorem Descent.step {M : Nat} {item : Int} {t : BTree} {n : Nat} {ctx : List Frame}
    {a : Nat} {ks : List Int} {L R : List Tr} {c : Tr}
    (hd : Descent M item t (n + 1) ctx (.node a ks (L ++ c :: R)))
    (hpre : ∀ y ∈ ks.take L.length, y < item)
    (hpost : ∀ y ∈ ks.drop L.length, item < y) :
    Descent M item t n (⟨a, ks, L, R⟩ :: ctx) c := by
  obtain ⟨hf, hc, hw, hs, hb, ha⟩ := hd
  have hplug : Tr.node a ks (L ++ c :: R) = Frame.plug ⟨a, ks, L, R⟩ c := rfl
  simp only [WFb, Tr.children_node, Tr.keys_node, List.length_append, List.length_cons] at hw
  obtain ⟨hw1, hw2, hw3, hw4⟩ := hw
  have hfr : FrameOK M n ⟨a, ks, L, R⟩ := by
    refine ⟨by simp only; omega, ?_, ?_⟩
    · intro d hdm; exact hw4 d (by simp [hdm])
    · intro d hdm; exact hw4 d (by simp [hdm])
  have hio := Frame.plug_inorder ⟨a, ks, L, R⟩ c hfr.left_le
  rw [hplug, hio] at hs
  have hs2 : (ctxPre ctx ++ (Frame.pre ⟨a, ks, L, R⟩ ++ (c.inorder ++
      (Frame.post ⟨a, ks, L, R⟩ ++ ctxPost ctx)))).Pairwise (· < ·) := by
    simpa [List.append_assoc] using hs
  have hpreS : (Frame.pre ⟨a, ks, L, R⟩).Pairwise (· < ·) :=
    (List.pairwise_append.mp (List.pairwise_append.mp hs2).2.1).1
  have hpostS : (Frame.post ⟨a, ks, L, R⟩).Pairwise (· < ·) :=
    (List.pairwise_append.mp (List.pairwise_append.mp
      (List.pairwise_append.mp (List.pairwise_append.mp hs2).2.1).2.1).2.1).1
  refine ⟨Focus.down (hplug ▸ hf), ?_, ?_, ?_, ?_, ?_⟩
  · refine ⟨hfr, ?_, hw3, hc⟩
    rw [subLo_succ_eq_ctxLo] at hw2
    exact hw2
  · exact hw4 c (by simp)
  · simpa [ctxPre, ctxPost, List.append_assoc] using hs2
  · intro x hx
    simp only [ctxPre, List.mem_append] at hx
    rcases hx with hx | hx
    · exact hb x hx
    · refine weave_lt_of_keys_lt _ _ ?_ hpreS hpre x hx
      simp only [List.length_map, List.length_take]; omega
  · intro x hx
    simp only [ctxPost, List.mem_append] at hx
    rcases hx with hx | hx
    · refine weave_gt_of_keys_gt _ _ ?_ hpostS hpost x hx
      simp only [List.length_map, List.length_drop]; omega
    · exact ha x hx

theorem Descent.inorder_eq {M : Nat} {item : Int} {t : BTree} {n : Nat} {ctx : List Frame}
    {sub : Tr} (hd : Descent M item t n ctx sub) :
    (plugAll ctx sub).inorder = ctxPre ctx ++ sub.inorder ++ ctxPost ctx :=
  plugAll_inorder sub hd.ctxOK

theorem Descent.keys_sorted {M : Nat} {item : Int} {t : BTree} {n : Nat} {ctx : List Frame}
    {sub : Tr} (hd : Descent M item t n ctx sub) : sub.keys.Pairwise (· < ·) := by
  have h1 := (List.pairwise_append.mp (List.pairwise_append.mp hd.sorted).1).2.1
  cases sub with
  | node a ks cs =>
    rw [Tr.inorder_node] at h1
    exact h1.sublist (keys_sublist_weave _ _)

theorem vecGet_of_getElem? {α : Type} {v : List α} {i : Nat} {x : α} (h : v[i]? = some x) :
    vecGet v i = .ok x := by simp [vecGet, h]

theorem vecBack_append_singleton {α : Type} (v : List α) (x : α) :
    vecBack (v ++ [x]) = .ok x := by simp [vecBack]



theorem Descent.heap_eq {M : Nat} {item : Int} {t : BTree} {n : Nat} {ctx : List Frame}
    {sub : Tr} (hd : Descent M item t n ctx sub) :
    t.heap sub.addr = some ⟨sub.keys, sub.children.map Tr.addr, ctxParent ctx⟩ :=
  (Stores_iff.mp hd.focus.subStored).1

theorem minKeys_pos {M : Nat} (hM : 3 ≤ M) : 1 ≤ minKeys M := by
  unfold minKeys; omega

theorem Descent.internal_keys_pos {M : Nat} (hM : 3 ≤ M) {item : Int} {t : BTree} {n : Nat}
    {ctx : List Frame} {sub : Tr} (hd : Descent M item t (n + 1) ctx sub) :
    1 ≤ sub.keys.length := by
  have h := hd.subWF
  simp only [WFb] at h
  have h2 := h.2.1
  rw [subLo_succ_eq_ctxLo] at h2
  cases ctx with
  | nil => simpa [ctxLo] using h2
  | cons f fs =>
    simp only [ctxLo] at h2
    have := minKeys_pos hM
    omega

/-- `findNode` started at the subtree in the hole of a path ends, with enough fuel, at a
node below it that holds `item` or is a leaf, and the descent facts hold there. -/
theorem findNode_descent {M : Nat} (hM : 3 ≤ M) {item : Int} {t : BTree} :
    ∀ (n fuel : Nat) (ctx : List Frame) (sub : Tr), n < fuel →
      Descent M item t n ctx sub →
      ∃ ctx2 S m, BTree.findNode item t.heap fuel (some sub.addr) = .ok S.addr ∧
        Descent M item t m ctx2 S ∧ plugAll ctx2 S = plugAll ctx sub ∧
        (item ∈ S.keys ∨ m = 0) := by
  intro n
  induction n with
  | zero =>
    intro fuel ctx sub hfuel hd
    obtain ⟨fuel, rfl⟩ : ∃ k, fuel = k + 1 := ⟨fuel - 1, by omega⟩
    refine ⟨ctx, sub, 0, ?_, hd, rfl, Or.inr rfl⟩
    have hw := hd.subWF
    simp only [WFb] at hw
    simp [BTree.findNode, Heap.deref, hd.heap_eq, hw.1]
  | succ n ih =>
    intro fuel ctx sub hfuel hd
    obtain ⟨fuel, rfl⟩ : ∃ k, fuel = k + 1 := ⟨fuel - 1, by omega⟩
    have hw := hd.subWF
    simp only [WFb] at hw
    obtain ⟨hw1, hw2, hw3, hw4⟩ := hw
    have hkpos := hd.internal_keys_pos hM
    have hks := hd.keys_sorted
    have hne : (sub.children.map Tr.addr).isEmpty = false := by
      cases hc : sub.children with
      | nil => rw [hc] at hw1; simp at hw1
      | cons c cs => simp
    have hcne : sub.children ≠ [] := by
      intro h; rw [h] at hw1; simp at hw1
    cases hscan : BTree.findNodeScan item 0 sub.keys with
    | found =>
      refine ⟨ctx, sub, n + 1, ?_, hd, rfl, Or.inl (findNodeScan_found hscan)⟩
      simp [BTree.findNode, Heap.deref, hd.heap_eq, hne, hcne, hscan]
    | descend j =>
      obtain ⟨pre, x, rest, e1, e2, e3, e4⟩ := findNodeScan_descend hscan
      simp only [Nat.zero_add] at e4
      have hj : j < sub.children.length := by
        rw [hw1, e1]; simp; omega
      have hsplit : sub.children = sub.children.take j ++ sub.children[j] :: sub.children.drop (j + 1) := by
        rw [← List.drop_eq_getElem_cons hj, List.take_append_drop]
      have hLlen : (sub.children.take j).length = j := by
        simp only [List.length_take]; omega
      have hsub : sub = .node sub.addr sub.keys
          (sub.children.take j ++ sub.children[j] :: sub.children.drop (j + 1)) := by
        rw [← hsplit]; exact sub.eq_node
      have hd2 : Descent M item t (n + 1) ctx (.node sub.addr sub.keys
          (sub.children.take j ++ sub.children[j] :: sub.children.drop (j + 1))) := by
        rw [← hsub]; exact hd
      have hstep := Descent.step hd2
        (by
          rw [hLlen, e1, e4, List.take_left]
          exact e2)
        (by
          rw [hLlen, e1, e4, List.drop_left]
          intro y hy
          rcases List.mem_cons.mp hy with e | e
          · subst e; exact e3
          · rw [e1] at hks
            have := (List.pairwise_cons.mp (List.pairwise_append.mp hks).2.1).1 y e
            omega)
      obtain ⟨ctx2, S, m, r1, r2, r3, r4⟩ := ih fuel _ _ (by omega) hstep
      refine ⟨ctx2, S, m, ?_, r2, ?_, r4⟩
      · have hget : (sub.children.map Tr.addr)[j]? = some (sub.children[j]).addr := by
          simp [List.getElem?_map, List.getElem?_eq_getElem hj]
        simp [BTree.findNode, Heap.deref, hd.heap_eq, hne, hcne, hscan, vecGet_of_getElem? hget, r1]
      · rw [r3]
        simp only [plugAll]
        congr 1
        exact hsub.symm
    | exhausted =>
      have e2 := findNodeScan_exhausted hscan
      obtain ⟨L, c, hLc⟩ : ∃ L c, sub.children = L ++ [c] := by
        have : sub.children ≠ [] := by
          intro h; rw [h] at hw1; simp at hw1
        exact ⟨sub.children.dropLast, sub.children.getLast this,
          (List.dropLast_append_getLast this).symm⟩
      have hLlen : L.length = sub.keys.length := by
        rw [hLc] at hw1; simp at hw1; exact hw1
      have hsub : sub = .node sub.addr sub.keys (L ++ c :: []) := by
        rw [← hLc]; exact sub.eq_node
      have hd2 : Descent M item t (n + 1) ctx (.node sub.addr sub.keys (L ++ c :: [])) := by
        rw [← hsub]; exact hd
      have hstep := Descent.step hd2
        (by
          rw [hLlen, List.take_length]
          exact e2)
        (by
          rw [hLlen, List.drop_length]
          simp)
      obtain ⟨ctx2, S, m, r1, r2, r3, r4⟩ := ih fuel _ _ (by omega) hstep
      refine ⟨ctx2, S, m, ?_, r2, ?_, r4⟩
      · obtain ⟨kinit, klast, hk⟩ : ∃ ki kl, sub.keys = ki ++ [kl] := by
          have : sub.keys ≠ [] := by
            intro h; rw [h] at hkpos; simp at hkpos
          exact ⟨sub.keys.dropLast, sub.keys.getLast this,
            (List.dropLast_append_getLast this).symm⟩
        have hlt : klast < item := e2 klast (by rw [hk]; simp)
        have hb1 : vecBack sub.keys = .ok klast := by
          rw [hk]; exact vecBack_append_singleton _ _
        have hb2 : vecBack (sub.children.map Tr.addr) = .ok c.addr := by
          rw [hLc, List.map_append]; exact vecBack_append_singleton _ _
        simp [BTree.findNode, Heap.deref, hd.heap_eq, hne, hcne, hscan, hb1, hb2, hlt, r1]
      · rw [r3]
        simp only [plugAll]
        congr 1
        exact hsub.symm



/-! ## Height, size and fuel -/

theorem Tr.addrs_length_pos (t : Tr) : 1 ≤ t.addrs.length := by
  cases t with
  | node a ks cs => simp [Tr.addrs_node]

theorem WFb.height_lt_size {M : Nat} :
    ∀ (n lo hi : Nat) (t : Tr), WFb M n lo hi t → n + 1 ≤ t.addrs.length := by
  intro n
  induction n with
  | zero => intro lo hi t _; exact t.addrs_length_pos
  | succ n ih =>
    intro lo hi t h
    cases t with
    | node a ks cs =>
      simp only [WFb, Tr.children_node, Tr.keys_node] at h
      cases cs with
      | nil => simp at h
      | cons c cs =>
        have := ih _ _ c (h.2.2.2 c (by simp))
        simp only [Tr.addrs_node, Tr.addrsL_cons, List.length_cons, List.length_append]
        omega

theorem length_le_of_nodup_lt {l : List Nat} {b : Nat} (hn : l.Nodup) (hlt : ∀ a ∈ l, a < b) :
    l.length ≤ b := by
  have hsub : l ⊆ List.range b := fun a ha => List.mem_range.mpr (hlt a ha)
  have := (List.subperm_of_subset hn hsub).length_le
  simpa using this

theorem Focus.size_le_next {t : BTree} {T : Tr} (hf : Focus t [] T) :
    T.addrs.length ≤ t.next := by
  have h1 := hf.nodup
  have h2 := hf.fresh
  simp only [ctxAddrs, List.nil_append] at h1 h2
  exact length_le_of_nodup_lt h1 h2

/-- The descent starts at the root with nothing known about `item`. -/
theorem TreeInv.descent {M : Nat} {t : BTree} {T : Tr} (hi : TreeInv M t T) (item : Int) :
    ∃ n, Descent M item t n [] T ∧ n < t.next + 1 := by
  obtain ⟨n, hn⟩ := hi.wf
  refine ⟨n, ⟨hi.focus, by simp [CtxOK], hn, ?_, by simp [ctxPre], by simp [ctxPost]⟩, ?_⟩
  · simpa [ctxPre, ctxPost] using hi.sorted
  · have h1 := WFb.height_lt_size n _ _ T hn
    have h2 := hi.focus.size_le_next
    omega

theorem TreeInv.root_eq {M : Nat} {t : BTree} {T : Tr} (hi : TreeInv M t T) :
    t.root = some T.addr := by
  simpa [plugAll] using hi.focus.root

theorem Tr.inorder_leaf {t : Tr} (h : t.children = []) : t.inorder = t.keys := by
  cases t with
  | node a ks cs =>
    simp only [Tr.children_node] at h
    subst h
    simp [Tr.inorder_node]

theorem Tr.keys_subset_inorder (t : Tr) : ∀ k ∈ t.keys, k ∈ t.inorder := by
  cases t with
  | node a ks cs =>
    intro k hk
    rw [Tr.inorder_node]
    exact mem_weave.mpr (Or.inl hk)

/-- At the node where `findNode` ends, `item` is in the tree exactly when it is among the
keys of that node. -/
theorem Descent.mem_iff {M : Nat} {item : Int} {t : BTree} {m : Nat} {ctx : List Frame}
    {S : Tr} (hd : Descent M item t m ctx S) (hend : item ∈ S.keys ∨ m = 0) :
    item ∈ (plugAll ctx S).inorder ↔ item ∈ S.keys := by
  rw [hd.inorder_eq]
  constructor
  · intro h
    rcases hend with h1 | h1
    · exact h1
    · subst h1
      have hw := hd.subWF
      simp only [WFb] at hw
      rw [Tr.inorder_leaf hw.1] at h
      simp only [List.mem_append] at h
      rcases h with (h | h) | h
      · have := hd.below item h; omega
      · exact h
      · have := hd.above item h; omega
  · intro h
    simp only [List.mem_append]
    exact Or.inl (Or.inr (S.keys_subset_inorder item h))

theorem find?_eq_of_mem {item : Int} {ks : List Int} (h : item ∈ ks) :
    ks.find? (fun k => decide (k = item)) = some item := by
  induction ks with
  | nil => simp at h
  | cons k ks ih =>
    by_cases e : k = item
    · simp [List.find?, e]
    · have : item ∈ ks := by
        rcases List.mem_cons.mp h with h1 | h1
        · exact absurd h1.symm e
        · exact h1
      simp [List.find?, e, ih this]

theorem find?_eq_none_of_not_mem {item : Int} {ks : List Int} (h : item ∉ ks) :
    ks.find? (fun k => decide (k = item)) = none := by
  simp only [List.find?_eq_none, decide_eq_true_eq]
  intro x hx e
  exact h (e ▸ hx)

/-- On a state that holds a well-formed tree, `search` returns `item` when it is in the
tree and throws `ItemNotFound` when it is not. -/
theorem search_spec {M : Nat} (hM : 3 ≤ M) {t : BTree} {T : Tr} (hi : TreeInv M t T)
    (item : Int) :
    (item ∈ T.inorder → t.search item = .ok item) ∧
      (item ∉ T.inorder → t.search item = .error .itemNotFound) := by
  obtain ⟨n, hd, hfuel⟩ := hi.descent item
  obtain ⟨ctx2, S, m, r1, r2, r3, r4⟩ := findNode_descent hM n (t.next + 1) [] T hfuel hd
  have hmem := r2.mem_iff r4
  rw [r3] at hmem
  simp only [plugAll] at hmem
  have hroot := hi.root_eq
  constructor
  · intro h
    have := find?_eq_of_mem (hmem.mp h)
    simp [BTree.search, hroot, r1, Heap.deref, r2.heap_eq, this]
  · intro h
    have := find?_eq_none_of_not_mem (fun hc => h (hmem.mpr hc))
    simp [BTree.search, hroot, r1, Heap.deref, r2.heap_eq, this]



/-! ## Distinct addresses -/

theorem Tr.addrs_nodup_of_mem {l : List Tr} {c : Tr} (hn : (Tr.addrsL l).Nodup) (hc : c ∈ l) :
    c.addrs.Nodup := by
  induction l with
  | nil => simp at hc
  | cons d l ih =>
    rw [Tr.addrsL_cons, List.nodup_append] at hn
    rcases List.mem_cons.mp hc with e | e
    · subst e; exact hn.1
    · exact ih hn.2.1 e

theorem Tr.eq_of_addrs_meet {l : List Tr} {c d : Tr} {x : Nat} (hn : (Tr.addrsL l).Nodup)
    (hc : c ∈ l) (hd : d ∈ l) (hxc : x ∈ c.addrs) (hxd : x ∈ d.addrs) : c = d := by
  induction l with
  | nil => simp at hc
  | cons e l ih =>
    rw [Tr.addrsL_cons, List.nodup_append] at hn
    obtain ⟨_, h2, h3⟩ := hn
    rcases List.mem_cons.mp hc with e1 | e1 <;> rcases List.mem_cons.mp hd with e2 | e2
    · rw [e1, e2]
    · subst e1
      exact absurd (Tr.mem_addrsL.mpr ⟨d, e2, hxd⟩) (fun h => h3 hxc h)
    · subst e2
      exact absurd (Tr.mem_addrsL.mpr ⟨c, e1, hxc⟩) (fun h => h3 hxd h)
    · exact ih h2 e1 e2

theorem Tr.mem_addrs_iff (t : Tr) (x : Nat) :
    x ∈ t.addrs ↔ x = t.addr ∨ x ∈ Tr.addrsL t.children := by
  cases t with
  | node a ks cs => simp [Tr.addrs_node]

theorem Tr.addr_not_mem_children {t : Tr} (hn : t.addrs.Nodup) :
    t.addr ∉ Tr.addrsL t.children := by
  cases t with
  | node a ks cs =>
    rw [Tr.addrs_node, List.nodup_cons] at hn
    exact hn.1

theorem Tr.children_nodup {t : Tr} (hn : t.addrs.Nodup) : (Tr.addrsL t.children).Nodup := by
  cases t with
  | node a ks cs =>
    rw [Tr.addrs_node, List.nodup_cons] at hn
    exact hn.2

theorem Tr.mem_addrsL_of_mem {l : List Tr} {c : Tr} (hc : c ∈ l) : c.addr ∈ Tr.addrsL l :=
  Tr.mem_addrsL.mpr ⟨c, hc, c.addr_mem_addrs⟩

/-- Below a child, no address is the top address of a child of the same list. -/
theorem Tr.below_ne_top {l : List Tr} {c d : Tr} {x : Nat} (hn : (Tr.addrsL l).Nodup)
    (hc : c ∈ l) (hd : d ∈ l) (hx : x ∈ Tr.addrsL c.children) : x ≠ d.addr := by
  intro e
  have hxc : x ∈ c.addrs := (c.mem_addrs_iff x).mpr (Or.inr hx)
  have hxd : x ∈ d.addrs := e ▸ d.addr_mem_addrs
  have hcd := Tr.eq_of_addrs_meet hn hc hd hxc hxd
  subst hcd
  exact Tr.addr_not_mem_children (Tr.addrs_nodup_of_mem hn hc) (e ▸ hx)

/-! ## The loops of `resolveOverflow` -/

theorem reparent_spec (q : Nat) :
    ∀ (l : List Nat) (h : Heap), (∀ c ∈ l, ∃ n, h c = some n) →
      ∃ h2, reparent q h l = .ok h2 ∧ (∀ x, x ∉ l → h2 x = h x) ∧
        (∀ c ∈ l, ∀ n, h c = some n → h2 c = some { n with parent := some q }) := by
  intro l
  induction l with
  | nil => intro h _; exact ⟨h, by simp [reparent], by simp, by simp⟩
  | cons c cs ih =>
    intro h hall
    obtain ⟨n, hn⟩ := hall c (by simp)
    have hall2 : ∀ d ∈ cs, ∃ m, (h.set c (some { n with parent := some q })) d = some m := by
      intro d hd
      by_cases e : d = c
      · subst e; exact ⟨_, Heap.set_same _ _ _⟩
      · rw [Heap.set_ne _ _ _ _ e]; exact hall d (by simp [hd])
    obtain ⟨h2, r1, r2, r3⟩ := ih _ hall2
    refine ⟨h2, ?_, ?_, ?_⟩
    · simp [reparent, Heap.modify, hn, r1]
    · intro x hx
      simp only [List.mem_cons, not_or] at hx
      rw [r2 x hx.2, Heap.set_ne _ _ _ _ hx.1]
    · intro d hd m hm
      by_cases hdc : d ∈ cs
      · by_cases e : d = c
        · subst e
          rw [hn] at hm
          cases hm
          simpa using r3 d hdc _ (Heap.set_same _ _ _)
        · exact r3 d hdc m (by rw [Heap.set_ne _ _ _ _ e]; exact hm)
      · have e : d = c := by
          rcases List.mem_cons.mp hd with e | e
          · exact e
          · exact absurd e hdc
        subst e
        rw [hn] at hm
        cases hm
        rw [r2 d hdc, Heap.set_same]

theorem findChildIndex_spec (a : Nat) (L R : List Nat) (i : Nat) (hL : a ∉ L) :
    findChildIndex a i (L ++ a :: R) = .ok (i + L.length) := by
  induction L generalizing i with
  | nil => simp [findChildIndex]
  | cons c L ih =>
    simp only [List.mem_cons, not_or] at hL
    have hne : c ≠ a := fun e => hL.1 e.symm
    rw [List.cons_append, findChildIndex, if_neg hne, ih (i + 1) hL.2, List.length_cons]
    congr 1
    omega

theorem keyMidpoint_lt {size : Nat} (h : 0 < size) : keyMidpoint size < size := by
  unfold keyMidpoint
  split <;> omega

theorem splitKeys_spec {h : Heap} {a s : Nat} {na ns : BTreeNode} (ha : h a = some na)
    (hs : h s = some ns) (hne : a ≠ s) (hk : 0 < na.keyVector.length) :
    ∃ k, na.keyVector[keyMidpoint na.keyVector.length]? = some k ∧
      splitKeys h a s = .ok
        ((h.set s (some ⟨na.keyVector.drop (keyMidpoint na.keyVector.length + 1),
            ns.childrenVector, ns.parent⟩)).set a
          (some ⟨na.keyVector.take (keyMidpoint na.keyVector.length + 1),
            na.childrenVector, na.parent⟩), k) := by
  have hmid := keyMidpoint_lt hk
  refine ⟨na.keyVector[keyMidpoint na.keyVector.length], List.getElem?_eq_getElem hmid, ?_⟩
  have hk0 : na.keyVector.length ≠ 0 := by omega
  have hne2 : s ≠ a := fun e => hne e.symm
  have hget : (na.keyVector.take (keyMidpoint na.keyVector.length + 1))[keyMidpoint
      na.keyVector.length]? = some na.keyVector[keyMidpoint na.keyVector.length] := by
    rw [List.getElem?_take_of_lt (by omega)]
    exact List.getElem?_eq_getElem hmid
  have hk1 : na.keyVector ≠ [] := by
    intro e; rw [e] at hk; simp at hk
  have hget2 := List.getElem?_eq_getElem hmid
  simp [splitKeys, Heap.deref, Heap.modify, ha, hs, hk0, hk1, Heap.set, hne, hne2, vecGet, hget,
    hget2]

theorem splitChildren_leaf {h : Heap} {a s mid : Nat} {na : BTreeNode} (ha : h a = some na)
    (hc : na.childrenVector = []) : splitChildren h a s mid = .ok h := by
  simp [splitChildren, Heap.deref, ha, hc]

theorem splitChildren_spec {h : Heap} {a s mid : Nat} {na ns : BTreeNode} (ha : h a = some na)
    (hs : h s = some ns) (hne : a ≠ s) (hc : na.childrenVector ≠ [])
    (hlen : mid + 1 ≤ na.childrenVector.length)
    (hall : ∀ c ∈ na.childrenVector.drop (mid + 1), ∃ n, h c = some n)
    (hna : a ∉ na.childrenVector.drop (mid + 1))
    (hns : s ∉ na.childrenVector.drop (mid + 1)) :
    ∃ h2, splitChildren h a s mid = .ok h2 ∧
      h2 a = some ⟨na.keyVector, na.childrenVector.take (mid + 1), na.parent⟩ ∧
      h2 s = some ⟨ns.keyVector, na.childrenVector.drop (mid + 1), ns.parent⟩ ∧
      (∀ c ∈ na.childrenVector.drop (mid + 1), ∀ n, h c = some n →
        h2 c = some ⟨n.keyVector, n.childrenVector, some s⟩) ∧
      (∀ x, x ≠ a → x ≠ s → x ∉ na.childrenVector.drop (mid + 1) → h2 x = h x) := by
  have hne2 : s ≠ a := fun e => hne e.symm
  let h8 : Heap := (h.set s (some ⟨ns.keyVector, na.childrenVector.drop (mid + 1),
    ns.parent⟩)).set a (some ⟨na.keyVector, na.childrenVector.take (mid + 1), na.parent⟩)
  have h8o : ∀ x, x ≠ a → x ≠ s → h8 x = h x := by
    intro x hxa hxs
    simp [h8, Heap.set, hxa, hxs]
  have hall8 : ∀ c ∈ na.childrenVector.drop (mid + 1), ∃ n, h8 c = some n := by
    intro c hcm
    have hca : c ≠ a := fun e => hna (e ▸ hcm)
    have hcs : c ≠ s := fun e => hns (e ▸ hcm)
    rw [h8o c hca hcs]
    exact hall c hcm
  obtain ⟨h2, r1, r2, r3⟩ := reparent_spec s _ h8 hall8
  refine ⟨h2, ?_, ?_, ?_, ?_, ?_⟩
  · have hlen2 : ¬ (na.childrenVector.length < mid + 1) := by omega
    simp [splitChildren, Heap.deref, Heap.modify, ha, hs, hc, hlen2, Heap.set, hne, hne2]
    simpa [h8, Heap.set] using r1
  · rw [r2 a hna]; simp [h8]
  · rw [r2 s hns]; simp [h8, Heap.set, hne2]
  · intro c hcm n hn
    have hca : c ≠ a := fun e => hna (e ▸ hcm)
    have hcs : c ≠ s := fun e => hns (e ▸ hcm)
    exact r3 c hcm n (by rw [h8o c hca hcs]; exact hn)
  · intro x hxa hxs hxd
    rw [r2 x hxd, h8o x hxa hxs]

/-- The two halves of a split node are stored in any heap that has the two top cells, has
re-parented the moved children, and is unchanged below. -/
theorem split_stores {h : Heap} (hF : Heap) {pa : Option Nat} (q : Option Nat) {a s : Nat}
    {ks : List Int} (ks1 ks2 : List Int) {cs : List Tr} (j : Nat) (hst : Stores h pa (.node a ks cs))
    (hnd : (Tr.node a ks cs).addrs.Nodup)
    (hFa : hF a = some ⟨ks1, (cs.take j).map Tr.addr, q⟩)
    (hFs : hF s = some ⟨ks2, (cs.drop j).map Tr.addr, q⟩)
    (hFc : ∀ c ∈ cs.drop j, hF c.addr = some ⟨c.keys, c.children.map Tr.addr, some s⟩)
    (hFo : ∀ x ∈ Tr.addrsL cs, x ∉ (cs.drop j).map Tr.addr → hF x = h x) :
    Stores hF q (.node a ks1 (cs.take j)) ∧ Stores hF q (.node s ks2 (cs.drop j)) := by
  rw [Stores_node] at hst
  rw [Tr.addrs_node, List.nodup_cons] at hnd
  have hsplit : cs.take j ++ cs.drop j = cs := List.take_append_drop j cs
  have hnd2 : (Tr.addrsL (cs.take j) ++ Tr.addrsL (cs.drop j)).Nodup := by
    rw [← Tr.addrsL_append, hsplit]; exact hnd.2
  have hdisj := (List.nodup_append.mp hnd2).2.2
  constructor
  · rw [Stores_node]
    refine ⟨hFa, ?_⟩
    intro c hc
    have hcs : c ∈ cs := List.mem_of_mem_take hc
    refine (hst.2 c hcs).frame ?_
    intro x hx
    refine hFo x (Tr.mem_addrsL.mpr ⟨c, hcs, hx⟩) ?_
    intro hxm
    obtain ⟨d, hd, rfl⟩ := List.mem_map.mp hxm
    exact hdisj (Tr.mem_addrsL.mpr ⟨c, hc, hx⟩) (Tr.mem_addrsL_of_mem hd)
  · rw [Stores_node]
    refine ⟨hFs, ?_⟩
    intro c hc
    have hcs : c ∈ cs := List.mem_of_mem_drop hc
    refine (hst.2 c hcs).reparent (hFc c hc) ?_
    intro x hx
    refine hFo x (Tr.mem_addrsL.mpr ⟨c, hcs, (c.mem_addrs_iff x).mpr (Or.inr hx)⟩) ?_
    intro hxm
    obtain ⟨d, hd, rfl⟩ := List.mem_map.mp hxm
    exact Tr.below_ne_top hnd.2 hcs (List.mem_of_mem_drop hd) hx rfl

theorem splitChildren_wp {α : Type} {H : Heap} {a s mid : Nat} (na ns : BTreeNode)
    (k : Heap → Except Exn α) (Q : Except Exn α → Prop)
    (ha : H a = some na) (hs : H s = some ns) (hne : a ≠ s)
    (hlen : na.childrenVector = [] ∨ mid + 1 ≤ na.childrenVector.length)
    (hall : ∀ c ∈ na.childrenVector.drop (mid + 1), ∃ n, H c = some n)
    (hna : a ∉ na.childrenVector.drop (mid + 1))
    (hns : s ∉ na.childrenVector.drop (mid + 1))
    (hsc : ns.childrenVector = [])
    (hk : ∀ h2, h2 a = some ⟨na.keyVector, na.childrenVector.take (mid + 1), na.parent⟩ →
      h2 s = some ⟨ns.keyVector, na.childrenVector.drop (mid + 1), ns.parent⟩ →
      (∀ c ∈ na.childrenVector.drop (mid + 1), ∀ n, H c = some n →
        h2 c = some ⟨n.keyVector, n.childrenVector, some s⟩) →
      (∀ x, x ≠ a → x ≠ s → x ∉ na.childrenVector.drop (mid + 1) → h2 x = H x) →
      Q (k h2)) :
    Q (splitChildren H a s mid >>= k) := by
  by_cases hc : na.childrenVector = []
  · rw [splitChildren_leaf ha hc]
    refine hk H ?_ ?_ ?_ ?_
    · rw [ha]; cases na; simp_all
    · rw [hs]; cases ns; simp_all
    · intro c hcm; rw [hc] at hcm; simp at hcm
    · intro x _ _ _; rfl
  · have hlen2 : mid + 1 ≤ na.childrenVector.length := by
      rcases hlen with h | h
      · exact absurd h hc
      · exact h
    obtain ⟨h2, r1, r2, r3, r4, r5⟩ := splitChildren_spec ha hs hne hc hlen2 hall hna hns
    rw [r1]
    exact hk h2 r2 r3 r4 r5




@[simp] theorem ctxParent_cons (f : Frame) (fs : List Frame) :
    ctxParent (f :: fs) = some f.addr := rfl

theorem Focus.facts_cons {t : BTree} {f : Frame} {rest : List Frame} {a : Nat} {ks : List Int}
    {cs : List Tr} (hf : Focus t (f :: rest) (.node a ks cs)) :
    t.heap f.addr = some ⟨f.keys, f.left.map Tr.addr ++ a :: f.right.map Tr.addr,
        ctxParent rest⟩ ∧
      t.heap a = some ⟨ks, cs.map Tr.addr, some f.addr⟩ ∧
      a ≠ f.addr ∧ a < t.next ∧ f.addr < t.next ∧ a ∉ f.left.map Tr.addr ∧
      a ∉ f.right.map Tr.addr := by
  obtain ⟨⟨H1, H2, H3, H3b⟩, H4, hnd, hfr, hcl, hroot⟩ := hf
  rw [Stores_node] at H4
  obtain ⟨H4, H5⟩ := H4
  simp only [Tr.addr_node, ctxParent_cons] at H1 H4
  simp only [ctxAddrs, Frame.addrs, Tr.addrs_node] at hnd
  have hd := (List.nodup_append.mp hnd).2.2
  refine ⟨H1, H4, ?_, hfr a (by simp [Tr.addrs_node]), hfr f.addr (by simp [ctxAddrs, Frame.addrs]),
    ?_, ?_⟩
  · intro e
    exact hd (a := a) (by simp [e]) (by simp)
  · intro hm
    obtain ⟨d, hdm, e⟩ := List.mem_map.mp hm
    have h1 : a ∈ Tr.addrsL f.left := e ▸ Tr.mem_addrsL_of_mem hdm
    exact hd (a := a) (by simp [h1]) (by simp)
  · intro hm
    obtain ⟨d, hdm, e⟩ := List.mem_map.mp hm
    have h1 : a ∈ Tr.addrsL f.right := e ▸ Tr.mem_addrsL_of_mem hdm
    exact hd (a := a) (by simp [h1]) (by simp)

theorem Focus.child_facts {t : BTree} {ctx : List Frame} {a : Nat} {ks : List Int}
    {cs : List Tr} (hf : Focus t ctx (.node a ks cs)) {d : Tr} (hd : d ∈ cs) :
    d.addr ≠ a ∧ d.addr < t.next ∧ d.addr ∉ ctxAddrs ctx ∧
      t.heap d.addr = some ⟨d.keys, d.children.map Tr.addr, some a⟩ := by
  obtain ⟨_, H4, hnd, hfr, hcl, hroot⟩ := hf
  rw [Stores_node] at H4
  have hmem : d.addr ∈ Tr.addrsL cs := Tr.mem_addrsL_of_mem hd
  have hnd2 := List.nodup_append.mp hnd
  refine ⟨?_, hfr _ (by simp [Tr.addrs_node, hmem]), ?_, (Stores_iff.mp (H4.2 d hd)).1⟩
  · intro e
    have := hnd2.2.1
    rw [Tr.addrs_node, List.nodup_cons] at this
    exact this.1 (e ▸ hmem)
  · intro hc
    exact hnd2.2.2 hc (by simp [Tr.addrs_node, hmem])

theorem vecInsert_length {α : Type} (v : List α) (i : Nat) (x : α) :
    (vecInsert v i x).length = v.length + 1 := by
  simp only [vecInsert, List.length_append, List.length_take, List.length_cons,
    List.length_drop]
  omega

theorem vecInsert_append_cons {α : Type} (L R : List α) (a x : α) (n : Nat)
    (hn : n = L.length) : vecInsert (L ++ a :: R) (n + 1) x = L ++ a :: x :: R := by
  subst hn
  have h1 : (L ++ a :: R) = (L ++ [a]) ++ R := by simp
  have h2 : (L ++ [a]).length = L.length + 1 := by simp
  rw [vecInsert, h1, ← h2, List.take_left, List.drop_left]
  simp

theorem take_succ_dropLast {α : Type} (l : List α) (n : Nat) (h : n < l.length) :
    (l.take (n + 1)).dropLast = l.take n := by
  rw [List.dropLast_eq_take, List.length_take, Nat.min_eq_left (by omega), List.take_take]
  simp

theorem resolveOverflow_nonroot_exec {M : Nat} {t : BTree} {f : Frame} {rest : List Frame}
    {a : Nat} {ks : List Int} {cs : List Tr} (fuel : Nat)
    (hf : Focus t (f :: rest) (.node a ks cs)) (hk : 0 < ks.length)
    (hshape : cs = [] ∨ cs.length = ks.length + 1) (hfl : f.left.length ≤ f.keys.length) :
    ∃ k, ks[keyMidpoint ks.length]? = some k ∧
    Reaches (fun hF : Heap =>
        hF f.addr = some ⟨vecInsert f.keys f.left.length k,
          f.left.map Tr.addr ++ a :: t.next :: f.right.map Tr.addr, ctxParent rest⟩ ∧
        hF a = some ⟨ks.take (keyMidpoint ks.length),
          (cs.take (keyMidpoint ks.length + 1)).map Tr.addr, some f.addr⟩ ∧
        hF t.next = some ⟨ks.drop (keyMidpoint ks.length + 1),
          (cs.drop (keyMidpoint ks.length + 1)).map Tr.addr, some f.addr⟩ ∧
        (∀ c ∈ cs.drop (keyMidpoint ks.length + 1),
          hF c.addr = some ⟨c.keys, c.children.map Tr.addr, some t.next⟩) ∧
        (∀ x, x ≠ f.addr → x ≠ a → x ≠ t.next →
          x ∉ (cs.drop (keyMidpoint ks.length + 1)).map Tr.addr → hF x = t.heap x))
      (fun hF =>
        if overfull M (f.keys.length + 1) then
          BTree.resolveOverflow M fuel
            { t with heap := hF, next := t.next + 1, nodeCount := t.nodeCount + 1 } f.addr
        else .ok { t with heap := hF, next := t.next + 1, nodeCount := t.nodeCount + 1 })
      (BTree.resolveOverflow M (fuel + 1) t a) := by
  obtain ⟨H1, H4, hane, hlt_a, hlt_p, hnotL, hnotR⟩ := hf.facts_cons
  have H5 := (Stores_node.mp hf.subStored).2
  have hsa : t.next ≠ a := by omega
  have hsp : t.next ≠ f.addr := by omega
  have hidx := findChildIndex_spec a (f.left.map Tr.addr) (f.right.map Tr.addr) 0 hnotL
  have hk1 : ks ≠ [] := by
    intro e; rw [e] at hk; simp at hk
  have hmid := keyMidpoint_lt hk
  have hget2 := List.getElem?_eq_getElem hmid
  have hget : (ks.take (keyMidpoint ks.length + 1))[keyMidpoint ks.length]? =
      some ks[keyMidpoint ks.length] := by
    rw [List.getElem?_take_of_lt (by omega)]
    exact hget2
  refine ⟨ks[keyMidpoint ks.length], hget2, ?_⟩
  simp [BTree.resolveOverflow, Heap.deref, Heap.modify, Heap.set, H1, H4, hane, hane.symm, hsa,
    hsa.symm, hsp, hsp.symm, hidx, splitKeys, hk1, vecGet, hget, hget2, not_lt.mpr hfl]
  refine splitChildren_wp ⟨(ks.take (keyMidpoint ks.length + 1)).dropLast, cs.map Tr.addr,
    some f.addr⟩ ⟨ks.drop (keyMidpoint ks.length + 1), [], some f.addr⟩ _ _ ?_ ?_ hsa.symm ?_ ?_ ?_ ?_ rfl ?_
  · simp [Heap.set, hane, hsa.symm]
  · simp [Heap.set, hsa, hsp]
  · rcases hshape with h | h
    · left; simp [h]
    · right; simp only [List.length_map]; omega
  · intro c hc
    obtain ⟨d, hd, rfl⟩ := List.mem_map.mp (List.mem_of_mem_drop hc)
    obtain ⟨c1, c2, c3, c4⟩ := hf.child_facts hd
    have c5 : d.addr ≠ f.addr := fun e => c3 (by simp [ctxAddrs, Frame.addrs, e])
    have c6 : d.addr ≠ t.next := by omega
    exact ⟨⟨d.keys, d.children.map Tr.addr, some a⟩, by simp [Heap.set, c1, c5, c6, c4]⟩
  · intro hc
    obtain ⟨d, hd, e⟩ := List.mem_map.mp (List.mem_of_mem_drop hc)
    exact (hf.child_facts hd).1 e
  · intro hc
    obtain ⟨d, hd, e⟩ := List.mem_map.mp (List.mem_of_mem_drop hc)
    have := (hf.child_facts hd).2.1
    omega
  · intro h2 f1 f2 f3 f4
    simp only [List.map_drop, List.map_take] at f1 f2 f3 f4 ⊢
    have hnotD : f.addr ∉ List.drop (keyMidpoint ks.length + 1) (List.map Tr.addr cs) := by
      intro hc
      obtain ⟨d, hd, e⟩ := List.mem_map.mp (List.mem_of_mem_drop hc)
      exact (hf.child_facts hd).2.2.1 (by simp [ctxAddrs, Frame.addrs, e])
    have g1 := f4 f.addr hane.symm hsp.symm hnotD
    simp only [Heap.set, if_true, hane.symm, hsp.symm, if_false] at g1
    rw [vecInsert_append_cons _ _ _ _ _ (by simp)] at g1
    refine ⟨h2, ⟨g1, ?_, f2, ?_, ?_⟩, ?_⟩
    · rw [f1, take_succ_dropLast _ _ hmid]
    · intro c hc
      have hcs : c ∈ cs := List.mem_of_mem_drop hc
      obtain ⟨c1, c2, c3, c4⟩ := hf.child_facts hcs
      have c5 : c.addr ≠ f.addr := fun e => c3 (by simp [ctxAddrs, Frame.addrs, e])
      have c6 : c.addr ≠ t.next := by omega
      exact f3 c.addr (by rw [← List.map_drop]; exact List.mem_map_of_mem _ hc)
        ⟨c.keys, c.children.map Tr.addr, some a⟩ (by simp [Heap.set, c1, c5, c6, c4])
    · intro x x1 x2 x3 x4
      rw [f4 x x2 x3 x4]
      simp [Heap.set, x1, x2, x3]
    · simp [g1, vecInsert_length]



/-- Replace the subtree in the hole: the new subtree keeps the top address, is stored in
the new heap, and uses only addresses of the old subtree or newly allocated ones. -/
theorem Focus.rebuild {t t2 : BTree} {ctx : List Frame} {sub sub2 : Tr} (hf : Focus t ctx sub)
    (haddr : sub2.addr = sub.addr)
    (hstore : Stores t2.heap (ctxParent ctx) sub2)
    (hctx : ∀ x ∈ ctxAddrs ctx, t2.heap x = t.heap x)
    (hnd : sub2.addrs.Nodup)
    (hnew : ∀ x ∈ sub2.addrs, x ∈ sub.addrs ∨ (t.next ≤ x ∧ x < t2.next))
    (hnext : t.next ≤ t2.next)
    (hclean : ∀ x, x ∉ ctxAddrs ctx → x ∉ sub2.addrs → t2.heap x = none)
    (hroot : t2.root = t.root) : Focus t2 ctx sub2 := by
  obtain ⟨h1, h2, h3, h4, h5, h6⟩ := hf
  have h3' := List.nodup_append.mp h3
  refine ⟨?_, hstore, ?_, ?_, ?_, ?_⟩
  · rw [haddr]; exact h1.frameCtx hctx
  · refine List.nodup_append.mpr ⟨h3'.1, hnd, ?_⟩
    intro x hx1 hx2
    rcases hnew x hx2 with h | h
    · exact h3'.2.2 hx1 h
    · have := h4 x (List.mem_append.mpr (Or.inl hx1)); omega
  · intro x hx
    rcases List.mem_append.mp hx with h | h
    · have := h4 x (List.mem_append.mpr (Or.inl h)); omega
    · rcases hnew x h with h' | h'
      · have := h4 x (List.mem_append.mpr (Or.inr h')); omega
      · exact h'.2
  · intro x hx
    simp only [List.mem_append, not_or] at hx
    exact hclean x hx.1 hx.2
  · rw [hroot, h6, plugAll_addr_eq ctx haddr]

theorem Tr.addrsL_take_drop (cs : List Tr) (j : Nat) :
    Tr.addrsL (cs.take j) ++ Tr.addrsL (cs.drop j) = Tr.addrsL cs := by
  rw [← Tr.addrsL_append, List.take_append_drop]

theorem Focus.toRoot {t : BTree} {ctx : List Frame} {sub : Tr} (hf : Focus t ctx sub) :
    Focus t [] (plugAll ctx sub) := by
  induction ctx generalizing sub with
  | nil => exact hf
  | cons f fs ih => exact ih hf.up

/-- The focus after one non-root `resolveOverflow` step, from the cells of the new heap. -/
theorem Focus.split_nonroot {t : BTree} {f : Frame} {rest : List Frame} {a : Nat}
    {ks : List Int} {cs : List Tr} {hF : Heap} {k : Int} {j : Nat} {ks1 ks2 : List Int}
    (nc : Int)
    (hf : Focus t (f :: rest) (.node a ks cs))
    (g1 : hF f.addr = some ⟨vecInsert f.keys f.left.length k,
      f.left.map Tr.addr ++ a :: t.next :: f.right.map Tr.addr, ctxParent rest⟩)
    (g2 : hF a = some ⟨ks1, (cs.take j).map Tr.addr, some f.addr⟩)
    (g3 : hF t.next = some ⟨ks2, (cs.drop j).map Tr.addr, some f.addr⟩)
    (g4 : ∀ c ∈ cs.drop j, hF c.addr = some ⟨c.keys, c.children.map Tr.addr, some t.next⟩)
    (g5 : ∀ x, x ≠ f.addr → x ≠ a → x ≠ t.next → x ∉ (cs.drop j).map Tr.addr →
      hF x = t.heap x) :
    Focus { t with heap := hF, next := t.next + 1, nodeCount := nc } rest
      (.node f.addr (vecInsert f.keys f.left.length k)
        (f.left ++ .node a ks1 (cs.take j) :: .node t.next ks2 (cs.drop j) :: f.right)) := by
  have hup := hf.up
  obtain ⟨⟨_, H2, H3, H3b⟩, H4s, hnd, hfr, hcl, hroot⟩ := hf
  simp only [ctxAddrs, Frame.addrs, Tr.addrs_node, ← Tr.addrsL_take_drop cs j] at hnd hfr hcl
  have hmoved : ∀ x, x ∈ (cs.drop j).map Tr.addr → x ∈ Tr.addrsL (cs.drop j) := by
    intro x hx
    obtain ⟨d, hd, rfl⟩ := List.mem_map.mp hx
    exact Tr.mem_addrsL_of_mem hd
  have hparts : ∀ x, (if f.addr = x then 1 else 0) + (Tr.addrsL f.left).count x +
      (Tr.addrsL f.right).count x + (ctxAddrs rest).count x + (if a = x then 1 else 0) +
      (Tr.addrsL (cs.take j)).count x + (Tr.addrsL (cs.drop j)).count x ≤ 1 := by
    intro x
    have := List.nodup_iff_count_le_one.mp hnd x
    simp only [List.count_append, List.count_cons, List.cons_append, beq_iff_eq] at this
    omega
  have hlt : ∀ x, x = f.addr ∨ x ∈ Tr.addrsL f.left ∨ x ∈ Tr.addrsL f.right ∨
      x ∈ ctxAddrs rest ∨ x = a ∨ x ∈ Tr.addrsL (cs.take j) ∨ x ∈ Tr.addrsL (cs.drop j) →
      x < t.next := by
    intro x hx
    refine hfr x ?_
    simp only [List.mem_append, List.mem_cons]
    tauto
  have hold : ∀ x, 0 < (Tr.addrsL f.left).count x + (Tr.addrsL f.right).count x +
      (ctxAddrs rest).count x + (Tr.addrsL (cs.take j)).count x →
      hF x = t.heap x := by
    intro x hx
    have h0 := hparts x
    have hx2 : x ∈ Tr.addrsL f.left ∨ x ∈ Tr.addrsL f.right ∨ x ∈ ctxAddrs rest ∨
        x ∈ Tr.addrsL (cs.take j) := by
      by_contra hc
      simp only [not_or] at hc
      have e1 := List.count_eq_zero_of_not_mem hc.1
      have e2 := List.count_eq_zero_of_not_mem hc.2.1
      have e3 := List.count_eq_zero_of_not_mem hc.2.2.1
      have e4 := List.count_eq_zero_of_not_mem hc.2.2.2
      omega
    have hxlt := hlt x (by tauto)
    refine g5 x ?_ ?_ (by omega) ?_
    · intro e; rw [if_pos e.symm] at h0; omega
    · intro e; rw [if_pos e.symm] at h0; omega
    · intro hm
      have hc2 := List.count_pos_iff.mpr (hmoved x hm)
      omega
  have hflt := hlt f.addr (Or.inl rfl)
  have halt := hlt a (by tauto)
  refine hup.rebuild rfl ?_ ?_ ?_ ?_ (by simp) ?_ rfl
  · -- stored
    rw [Stores_node]
    refine ⟨by simpa using g1, ?_⟩
    have hsp := split_stores hF (some f.addr) ks1 ks2 j H4s
      (by
        rw [Tr.addrs_node, ← Tr.addrsL_take_drop cs j]
        exact (List.nodup_append.mp hnd).2.1) g2 g3 g4
      (by
        intro x hx hx2
        rw [← Tr.addrsL_take_drop cs j, List.mem_append] at hx
        have h0 := hparts x
        have hxlt := hlt x (by tauto)
        refine g5 x ?_ ?_ (by omega) hx2
        · intro e; rw [if_pos e.symm] at h0
          rcases hx with hx | hx <;> have := List.count_pos_iff.mpr hx <;> omega
        · intro e; rw [if_pos e.symm] at h0
          rcases hx with hx | hx <;> have := List.count_pos_iff.mpr hx <;> omega)
    intro c hc
    simp only [List.mem_append, List.mem_cons] at hc
    rcases hc with hc | rfl | rfl | hc
    · refine (StoresL_iff.mp H2 c hc).frame ?_
      intro x hx
      have := List.count_pos_iff.mpr (Tr.mem_addrsL.mpr ⟨c, hc, hx⟩)
      exact hold x (by omega)
    · exact hsp.1
    · exact hsp.2
    · refine (StoresL_iff.mp H3 c hc).frame ?_
      intro x hx
      have := List.count_pos_iff.mpr (Tr.mem_addrsL.mpr ⟨c, hc, hx⟩)
      exact hold x (by omega)
  · -- the rest of the path is untouched
    intro x hx
    have := List.count_pos_iff.mpr hx
    exact hold x (by omega)
  · -- no address twice
    rw [List.nodup_iff_count_le_one]
    intro x
    have h0 := hparts x
    simp only [Tr.addrs_node, Tr.addrsL_append, Tr.addrsL_cons, List.count_append,
      List.count_cons, List.cons_append, beq_iff_eq]
    by_cases hx : t.next = x
    · subst hx
      have e1 : (Tr.addrsL f.left).count t.next = 0 :=
        List.count_eq_zero_of_not_mem (fun hc => by have := hlt t.next (by tauto); omega)
      have e2 : (Tr.addrsL f.right).count t.next = 0 :=
        List.count_eq_zero_of_not_mem (fun hc => by have := hlt t.next (by tauto); omega)
      have e3 : (Tr.addrsL (cs.take j)).count t.next = 0 :=
        List.count_eq_zero_of_not_mem (fun hc => by have := hlt t.next (by tauto); omega)
      have e4 : (Tr.addrsL (cs.drop j)).count t.next = 0 :=
        List.count_eq_zero_of_not_mem (fun hc => by have := hlt t.next (by tauto); omega)
      have e5 : ¬ f.addr = t.next := by omega
      have e6 : ¬ a = t.next := by omega
      simp [e1, e2, e3, e4, e5, e6]
    · simp only [hx, if_false]
      omega
  · -- only old or new addresses
    intro x hx
    simp only [Tr.addrs_node, Tr.addrsL_append, Tr.addrsL_cons, List.mem_append,
      List.mem_cons, Frame.plug, ← Tr.addrsL_take_drop cs j] at hx ⊢
    rcases hx with h | h | (h | h) | (h | h) | h
    all_goals first | (right; omega) | tauto
  · -- nothing else allocated
    intro x hx1 hx2
    simp only [Tr.addrs_node, Tr.addrsL_append, Tr.addrsL_cons, List.mem_append,
      List.mem_cons, not_or] at hx2
    show hF x = none
    rw [g5 x hx2.1 hx2.2.2.1.1 hx2.2.2.2.1.1 (fun hm => hx2.2.2.2.1.2 (hmoved x hm))]
    refine hcl x ?_
    simp only [List.mem_append, List.mem_cons, not_or]
    tauto



theorem resolveOverflow_root_exec {M : Nat} {t : BTree} {a : Nat} {ks : List Int}
    {cs : List Tr} (fuel : Nat)
    (hf : Focus t [] (.node a ks cs)) (hk : 0 < ks.length)
    (hshape : cs = [] ∨ cs.length = ks.length + 1) :
    ∃ k, ks[keyMidpoint ks.length]? = some k ∧
    Reaches (fun hF : Heap =>
        hF (t.next + 1) = some ⟨[k], [a, t.next], none⟩ ∧
        hF a = some ⟨ks.take (keyMidpoint ks.length),
          (cs.take (keyMidpoint ks.length + 1)).map Tr.addr, some (t.next + 1)⟩ ∧
        hF t.next = some ⟨ks.drop (keyMidpoint ks.length + 1),
          (cs.drop (keyMidpoint ks.length + 1)).map Tr.addr, some (t.next + 1)⟩ ∧
        (∀ c ∈ cs.drop (keyMidpoint ks.length + 1),
          hF c.addr = some ⟨c.keys, c.children.map Tr.addr, some t.next⟩) ∧
        (∀ x, x ≠ t.next + 1 → x ≠ a → x ≠ t.next →
          x ∉ (cs.drop (keyMidpoint ks.length + 1)).map Tr.addr → hF x = t.heap x))
      (fun hF => .ok { t with heap := hF, next := t.next + 2, root := some (t.next + 1),
                              nodeCount := t.nodeCount + 2 })
      (BTree.resolveOverflow M (fuel + 1) t a) := by
  have H4 := (Stores_node.mp hf.subStored).1
  simp only [ctxParent] at H4
  have hlt_a : a < t.next := hf.fresh a (by simp [Tr.addrs_node, ctxAddrs])
  have hsa : t.next ≠ a := by omega
  have hpa : t.next + 1 ≠ a := by omega
  have hk1 : ks ≠ [] := by
    intro e; rw [e] at hk; simp at hk
  have hmid := keyMidpoint_lt hk
  have hget2 := List.getElem?_eq_getElem hmid
  have hget : (ks.take (keyMidpoint ks.length + 1))[keyMidpoint ks.length]? =
      some ks[keyMidpoint ks.length] := by
    rw [List.getElem?_take_of_lt (by omega)]
    exact hget2
  refine ⟨ks[keyMidpoint ks.length], hget2, ?_⟩
  simp [BTree.resolveOverflow, Heap.deref, Heap.modify, Heap.set, H4, hsa, hsa.symm, hpa,
    hpa.symm, splitKeys, hk1, vecGet, hget, hget2]
  refine splitChildren_wp ⟨(ks.take (keyMidpoint ks.length + 1)).dropLast, cs.map Tr.addr,
    some (t.next + 1)⟩ ⟨ks.drop (keyMidpoint ks.length + 1), [], some (t.next + 1)⟩ _ _ ?_ ?_
    hsa.symm ?_ ?_ ?_ ?_ rfl ?_
  · simp [Heap.set, hsa.symm, hpa.symm]
  · simp [Heap.set, hsa]
  · rcases hshape with h | h
    · left; simp [h]
    · right; simp only [List.length_map]; omega
  · intro c hc
    obtain ⟨d, hd, rfl⟩ := List.mem_map.mp (List.mem_of_mem_drop hc)
    obtain ⟨c1, c2, c3, c4⟩ := hf.child_facts hd
    have c5 : d.addr ≠ t.next + 1 := by omega
    have c6 : d.addr ≠ t.next := by omega
    exact ⟨⟨d.keys, d.children.map Tr.addr, some a⟩, by simp [Heap.set, c1, c5, c6, c4]⟩
  · intro hc
    obtain ⟨d, hd, e⟩ := List.mem_map.mp (List.mem_of_mem_drop hc)
    exact (hf.child_facts hd).1 e
  · intro hc
    obtain ⟨d, hd, e⟩ := List.mem_map.mp (List.mem_of_mem_drop hc)
    have := (hf.child_facts hd).2.1
    omega
  · intro h2 f1 f2 f3 f4
    simp only [List.map_drop, List.map_take] at f1 f2 f3 f4 ⊢
    have hnotD : t.next + 1 ∉ List.drop (keyMidpoint ks.length + 1) (List.map Tr.addr cs) := by
      intro hc
      obtain ⟨d, hd, e⟩ := List.mem_map.mp (List.mem_of_mem_drop hc)
      have := (hf.child_facts hd).2.1
      omega
    have g1 := f4 (t.next + 1) hpa (by omega) hnotD
    simp only [Heap.set, if_true, hpa, if_false] at g1
    refine ⟨h2, ⟨?_, ?_, f2, ?_, ?_⟩, rfl⟩
    · rw [g1]
    · rw [f1, take_succ_dropLast _ _ hmid]
    · intro c hc
      have hcs : c ∈ cs := List.mem_of_mem_drop hc
      obtain ⟨c1, c2, c3, c4⟩ := hf.child_facts hcs
      have c5 : c.addr ≠ t.next + 1 := by omega
      have c6 : c.addr ≠ t.next := by omega
      exact f3 c.addr (by rw [← List.map_drop]; exact List.mem_map_of_mem _ hc)
        ⟨c.keys, c.children.map Tr.addr, some a⟩ (by simp [Heap.set, c1, c5, c6, c4])
    · intro x x1 x2 x3 x4
      rw [f4 x x2 x3 x4]
      simp [Heap.set, x1, x2, x3]

/-- The focus after the root `resolveOverflow` step, from the cells of the new heap. -/
theorem Focus.split_root {t : BTree} {a : Nat} {ks : List Int} {cs : List Tr} {hF : Heap}
    {k : Int} {j : Nat} {ks1 ks2 : List Int} {nc : Int}
    (hf : Focus t [] (.node a ks cs))
    (g1 : hF (t.next + 1) = some ⟨[k], [a, t.next], none⟩)
    (g2 : hF a = some ⟨ks1, (cs.take j).map Tr.addr, some (t.next + 1)⟩)
    (g3 : hF t.next = some ⟨ks2, (cs.drop j).map Tr.addr, some (t.next + 1)⟩)
    (g4 : ∀ c ∈ cs.drop j, hF c.addr = some ⟨c.keys, c.children.map Tr.addr, some t.next⟩)
    (g5 : ∀ x, x ≠ t.next + 1 → x ≠ a → x ≠ t.next → x ∉ (cs.drop j).map Tr.addr →
      hF x = t.heap x) :
    Focus { t with heap := hF, next := t.next + 2, root := some (t.next + 1), nodeCount := nc }
      [] (.node (t.next + 1) [k] [.node a ks1 (cs.take j), .node t.next ks2 (cs.drop j)]) := by
  obtain ⟨_, H4s, hnd, hfr, hcl, hroot⟩ := hf
  simp only [ctxAddrs, List.nil_append, Tr.addrs_node] at hnd hfr hcl
  have hmoved : ∀ x, x ∈ (cs.drop j).map Tr.addr → x ∈ Tr.addrsL (cs.drop j) := by
    intro x hx
    obtain ⟨d, hd, rfl⟩ := List.mem_map.mp hx
    exact Tr.mem_addrsL_of_mem hd
  have hsub : ∀ x, x ∈ Tr.addrsL (cs.take j) ∨ x ∈ Tr.addrsL (cs.drop j) →
      x ∈ Tr.addrsL cs := by
    intro x hx
    rw [← Tr.addrsL_take_drop cs j, List.mem_append]
    exact hx
  have hsp := split_stores hF (some (t.next + 1)) ks1 ks2 j H4s
    (by rw [Tr.addrs_node]; exact hnd) g2 g3 g4
    (by
      intro x hx hx2
      have hxlt := hfr x (by simp [hx])
      refine g5 x (by omega) ?_ (by omega) hx2
      intro e
      exact (List.nodup_cons.mp hnd).1 (e ▸ hx))
  refine ⟨by simp [StoresCtx], ?_, ?_, ?_, ?_, by simp [plugAll]⟩
  · rw [Stores_node]
    refine ⟨by simpa [ctxParent] using g1, ?_⟩
    intro c hc
    simp only [List.mem_cons, List.mem_singleton, List.not_mem_nil, or_false] at hc
    rcases hc with rfl | rfl
    · exact hsp.1
    · exact hsp.2
  · simp only [ctxAddrs, List.nil_append, Tr.addrs_node, Tr.addrsL_cons, Tr.addrsL_nil,
      List.append_nil]
    rw [List.nodup_cons] at hnd ⊢
    have hnd2 := hnd.2
    rw [← Tr.addrsL_take_drop cs j, List.nodup_append] at hnd2
    refine ⟨?_, ?_⟩
    · simp only [List.mem_append, List.mem_cons, not_or]
      refine ⟨⟨?_, ?_⟩, ?_, ?_⟩
      · have := hfr a (by simp); omega
      · intro hc; have := hfr _ (List.mem_cons_of_mem _ (hsub _ (Or.inl hc))); omega
      · omega
      · intro hc; have := hfr _ (List.mem_cons_of_mem _ (hsub _ (Or.inr hc))); omega
    · rw [List.nodup_append]
      refine ⟨List.nodup_cons.mpr ⟨fun hc => hnd.1 (hsub _ (Or.inl hc)), hnd2.1⟩,
        List.nodup_cons.mpr ⟨?_, hnd2.2.1⟩, ?_⟩
      · intro hc; have := hfr _ (List.mem_cons_of_mem _ (hsub _ (Or.inr hc))); omega
      · intro x hx1 hx2
        simp only [List.mem_cons] at hx1 hx2
        rcases hx1 with e1 | hx1 <;> rcases hx2 with e2 | hx2
        · have := hfr a (by simp); omega
        · exact hnd.1 (e1 ▸ hsub _ (Or.inr hx2))
        · have := hfr _ (List.mem_cons_of_mem _ (hsub _ (Or.inl hx1))); omega
        · exact hnd2.2.2 hx1 hx2
  · intro x hx
    simp only [ctxAddrs, List.nil_append, Tr.addrs_node, Tr.addrsL_cons, Tr.addrsL_nil,
      List.append_nil, List.mem_cons, List.mem_append] at hx
    show x < t.next + 2
    rcases hx with e | (e | h) | (e | h)
    · omega
    · have := hfr a (by simp); omega
    · have := hfr _ (List.mem_cons_of_mem _ (hsub _ (Or.inl h))); omega
    · omega
    · have := hfr _ (List.mem_cons_of_mem _ (hsub _ (Or.inr h))); omega
  · intro x hx
    simp only [ctxAddrs, List.nil_append, Tr.addrs_node, Tr.addrsL_cons, Tr.addrsL_nil,
      List.append_nil, List.mem_cons, List.mem_append, not_or] at hx
    show hF x = none
    rw [g5 x hx.1 hx.2.1.1 hx.2.2.1 (fun hm => hx.2.2.2 (hmoved x hm))]
    refine hcl x ?_
    simp only [List.mem_cons, not_or]
    refine ⟨hx.2.1.1, ?_⟩
    rw [← Tr.addrsL_take_drop cs j, List.mem_append, not_or]
    exact ⟨hx.2.1.2, hx.2.2.2⟩



/-! ## What a split does to the tree -/

theorem weave_split (m : Nat) :
    ∀ (C : List (List Int)) (ks : List Int) (k : Int), ks[m]? = some k →
      (C = [] ∨ C.length = ks.length + 1) →
      weave C ks = weave (C.take (m + 1)) (ks.take m) ++ k :: weave (C.drop (m + 1))
        (ks.drop (m + 1)) := by
  induction m with
  | zero =>
    intro C ks k hk hC
    cases ks with
    | nil => simp at hk
    | cons k0 ks =>
      simp only [List.getElem?_cons_zero, Option.some.injEq] at hk
      subst hk
      cases C with
      | nil => simp
      | cons c C => simp
  | succ m ih =>
    intro C ks k hk hC
    cases ks with
    | nil => simp at hk
    | cons k0 ks =>
      simp only [List.getElem?_cons_succ] at hk
      cases C with
      | nil =>
        have := ih [] ks k hk (Or.inl rfl)
        simp only [List.take_nil, List.drop_nil, weave_nil_left] at this ⊢
        simp only [List.take_succ_cons, List.drop_succ_cons, List.cons_append]
        rw [← this]
      | cons c C =>
        have hC2 : C = [] ∨ C.length = ks.length + 1 := by
          rcases hC with h | h
          · simp at h
          · right; simpa using h
        have := ih C ks k hk hC2
        simp only [List.take_succ_cons, List.drop_succ_cons, weave_cons_cons]
        rw [this]
        simp

theorem split_inorder {a s : Nat} {ks : List Int} {cs : List Tr} {k : Int} {m : Nat}
    (hk : ks[m]? = some k) (hshape : cs = [] ∨ cs.length = ks.length + 1) :
    (Tr.node a ks cs).inorder =
      (Tr.node a (ks.take m) (cs.take (m + 1))).inorder ++
        k :: (Tr.node s (ks.drop (m + 1)) (cs.drop (m + 1))).inorder := by
  simp only [Tr.inorder_node, List.map_take, List.map_drop]
  refine weave_split m _ ks k hk ?_
  rcases hshape with h | h
  · left; simp [h]
  · right; simpa using h

theorem vecInsert_take {α : Type} (v : List α) (i : Nat) (x : α) (h : i ≤ v.length) :
    (vecInsert v i x).take i = v.take i := by
  have hl : (v.take i).length = i := by simp [h]
  rw [vecInsert]
  exact List.take_left' hl

theorem vecInsert_drop {α : Type} (v : List α) (i : Nat) (x : α) (h : i ≤ v.length) :
    (vecInsert v i x).drop i = x :: v.drop i := by
  have hl : (v.take i).length = i := by simp [h]
  rw [vecInsert]
  exact List.drop_left' hl

/-- Replacing the child in the hole by the two halves of its split, with the promoted key
put into the parent, keeps the in-order key list of the parent. -/
theorem plug_split_inorder (f : Frame) {sub sL sR : Tr} {k : Int}
    (hl : f.left.length ≤ f.keys.length)
    (hio : sub.inorder = sL.inorder ++ k :: sR.inorder) :
    (Tr.node f.addr (vecInsert f.keys f.left.length k) (f.left ++ sL :: sR :: f.right)).inorder =
      (f.plug sub).inorder := by
  have h1 := Frame.plug_inorder ⟨f.addr, vecInsert f.keys f.left.length k, f.left, sR :: f.right⟩
    sL (by simp only [vecInsert_length]; omega)
  simp only [Frame.plug] at h1
  rw [h1, f.plug_inorder sub hl, hio]
  simp only [Frame.pre, Frame.post, vecInsert_take _ _ _ hl, vecInsert_drop _ _ _ hl,
    List.map_cons, weave_cons_cons, List.nil_append]
  rw [weave_cons_eq]
  simp [List.append_assoc]

theorem keyMidpoint_eq_minKeys {M : Nat} (hM : 1 ≤ M) : keyMidpoint M = minKeys M := by
  unfold keyMidpoint minKeys
  split <;> omega

theorem WFb.children_wf {M n lo hi : Nat} {t : Tr} (h : WFb M (n + 1) lo hi t) :
    ∀ c ∈ t.children, WF M n c := by
  simp only [WFb] at h
  exact h.2.2.2

theorem WFb.shape {M n lo hi : Nat} {t : Tr} (h : WFb M n lo hi t) :
    t.children = [] ∨ t.children.length = t.keys.length + 1 := by
  cases n with
  | zero => simp only [WFb] at h; exact Or.inl h.1
  | succ n => simp only [WFb] at h; exact Or.inr h.1

theorem WFb.keys_bounds {M n lo hi : Nat} {t : Tr} (h : WFb M n lo hi t) :
    lo ≤ t.keys.length ∧ t.keys.length ≤ hi := by
  cases n with
  | zero => simp only [WFb] at h; exact h.2
  | succ n => simp only [WFb] at h; exact ⟨h.2.1, h.2.2.1⟩

/-- Both halves of a split node with `M` keys are well-formed non-root nodes. -/
theorem split_wf {M n : Nat} (hM : 3 ≤ M) {a s : Nat} {ks : List Int} {cs : List Tr}
    (h : WFb M n M M (.node a ks cs)) :
    WF M n (.node a (ks.take (keyMidpoint ks.length)) (cs.take (keyMidpoint ks.length + 1))) ∧
      WF M n (.node s (ks.drop (keyMidpoint ks.length + 1))
        (cs.drop (keyMidpoint ks.length + 1))) := by
  have hb := h.keys_bounds
  simp only [Tr.keys_node] at hb
  have hlen : ks.length = M := by omega
  rw [hlen, keyMidpoint_eq_minKeys (by omega)]
  have hmin : minKeys M = (M - 1) / 2 := rfl
  cases n with
  | zero =>
    simp only [WFb, Tr.children_node, Tr.keys_node] at h
    simp only [WF, WFb, Tr.children_node, Tr.keys_node, h.1, List.take_nil, List.drop_nil,
      List.length_take, List.length_drop, true_and]
    omega
  | succ n =>
    simp only [WFb, Tr.children_node, Tr.keys_node] at h
    simp only [WF, WFb, Tr.children_node, Tr.keys_node, List.length_take, List.length_drop]
    refine ⟨⟨by omega, by omega, by omega, ?_⟩, ⟨by omega, by omega, by omega, ?_⟩⟩
    · intro c hc; exact h.2.2.2 c (List.mem_of_mem_take hc)
    · intro c hc; exact h.2.2.2 c (List.mem_of_mem_drop hc)

/-- A well-formed subtree in a well-formed path is a well-formed tree. -/
theorem plugAll_wf {M : Nat} :
    ∀ (ctx : List Frame) (n : Nat) (t : Tr), CtxOK M n ctx →
      WFb M n (subLo M n ctx) (M - 1) t → RootWF M (plugAll ctx t) := by
  intro ctx
  induction ctx with
  | nil => intro n t _ h; exact ⟨n, h⟩
  | cons f fs ih =>
    intro n t hc h
    simp only [CtxOK] at hc
    obtain ⟨⟨h1, h2, h3⟩, h4, h5, h6⟩ := hc
    refine ih (n + 1) (f.plug t) h6 ?_
    simp only [WFb, Frame.plug_children, Frame.plug_keys, List.length_append, List.length_cons,
      subLo_succ_eq_ctxLo]
    refine ⟨by omega, h4, h5, ?_⟩
    intro c hc
    simp only [List.mem_append, List.mem_cons] at hc
    rcases hc with hc | rfl | hc
    · exact h2 c hc
    · exact h
    · exact h3 c hc

theorem plugAll_addrs_length (ctx : List Frame) (t : Tr) :
    (plugAll ctx t).addrs.length = (ctxAddrs ctx).length + t.addrs.length := by
  rw [(plugAll_addrs_perm ctx t).length_eq, List.length_append]

theorem overfull_iff (M size : Nat) (hM : 1 ≤ M) : overfull M size = true ↔ M ≤ size := by
  simp only [overfull, ne_eq, Bool.and_eq_true, decide_eq_true_eq, gt_iff_lt]
  omega



theorem Tr.addrsL_length_take_drop (cs : List Tr) (j : Nat) :
    (Tr.addrsL (cs.take j)).length + (Tr.addrsL (cs.drop j)).length = (Tr.addrsL cs).length := by
  rw [← List.length_append, Tr.addrsL_take_drop]

/-- `resolveOverflow` on a node with `M` keys in an otherwise well-formed tree terminates
with a well-formed tree that has the same in-order keys; it adds exactly the nodes it
counts. -/
theorem resolveOverflow_spec {M : Nat} (hM : 3 ≤ M) :
    ∀ (ctx : List Frame) (n fuel : Nat) (t : BTree) (sub : Tr), Focus t ctx sub →
      CtxOK M n ctx → WFb M n M M sub → ctx.length < fuel →
      ∃ t2 T2, BTree.resolveOverflow M fuel t sub.addr = .ok t2 ∧ Focus t2 [] T2 ∧
        RootWF M T2 ∧ T2.inorder = (plugAll ctx sub).inorder ∧
        t2.nodeCount - T2.addrs.length = t.nodeCount - (plugAll ctx sub).addrs.length ∧
        t2.totalKeyCount = t.totalKeyCount := by
  intro ctx
  induction ctx with
  | nil =>
    intro n fuel t sub hf _ hw hfuel
    obtain ⟨fuel, rfl⟩ : ∃ k, fuel = k + 1 := ⟨fuel - 1, by simp at hfuel; omega⟩
    cases sub with
    | node a ks cs =>
      have hb := hw.keys_bounds
      simp only [Tr.keys_node] at hb
      have hshape := hw.shape
      simp only [Tr.keys_node, Tr.children_node] at hshape
      obtain ⟨k, hk, hF, ⟨g1, g2, g3, g4, g5⟩, heq⟩ :=
        resolveOverflow_root_exec (M := M) fuel hf (by omega) hshape
      obtain ⟨w1, w2⟩ := split_wf hM (a := a) (s := t.next) hw
      refine ⟨_, _, heq, Focus.split_root hf g1 g2 g3 g4 g5, ?_, ?_, ?_, rfl⟩
      · refine ⟨n + 1, ?_⟩
        simp only [WFb, Tr.children_node, Tr.keys_node]
        refine ⟨by simp, by simp [subLo], by simp; omega, ?_⟩
        intro c hc
        simp only [List.mem_cons, List.mem_singleton, List.not_mem_nil, or_false] at hc
        rcases hc with rfl | rfl
        · exact w1
        · exact w2
      · simp only [plugAll]
        rw [split_inorder (s := t.next) hk hshape]
        simp [Tr.inorder_node]
      · simp only [plugAll, Tr.addrs_node, Tr.addrsL_cons, Tr.addrsL_nil, List.length_cons,
          List.length_append, List.length_nil]
        have := Tr.addrsL_length_take_drop cs (keyMidpoint ks.length + 1)
        push_cast
        omega
  | cons f rest ih =>
    intro n fuel t sub hf hc hw hfuel
    obtain ⟨fuel, rfl⟩ : ∃ k, fuel = k + 1 := ⟨fuel - 1, by simp at hfuel; omega⟩
    cases sub with
    | node a ks cs =>
      have hb := hw.keys_bounds
      simp only [Tr.keys_node] at hb
      have hshape := hw.shape
      simp only [Tr.keys_node, Tr.children_node] at hshape
      simp only [CtxOK] at hc
      obtain ⟨hfo, hlo, hhi, hrest⟩ := hc
      obtain ⟨k, hk, hF, ⟨g1, g2, g3, g4, g5⟩, heq⟩ :=
        resolveOverflow_nonroot_exec (M := M) fuel hf (by omega) hshape hfo.left_le
      obtain ⟨w1, w2⟩ := split_wf hM (a := a) (s := t.next) hw
      have hfoc := Focus.split_nonroot (t.nodeCount + 1) hf g1 g2 g3 g4 g5
      have hio := plug_split_inorder f hfo.left_le (split_inorder (a := a) (s := t.next) hk hshape)
      have hwfP : ∀ lo hi, lo ≤ f.keys.length + 1 → f.keys.length + 1 ≤ hi →
          WFb M (n + 1) lo hi (.node f.addr (vecInsert f.keys f.left.length k)
            (f.left ++ .node a (ks.take (keyMidpoint ks.length))
              (cs.take (keyMidpoint ks.length + 1)) ::
              .node t.next (ks.drop (keyMidpoint ks.length + 1))
                (cs.drop (keyMidpoint ks.length + 1)) :: f.right)) := by
        intro lo hi h1 h2
        simp only [WFb, Tr.children_node, Tr.keys_node, List.length_append, List.length_cons,
          vecInsert_length]
        refine ⟨by have := hfo.1; omega, h1, h2, ?_⟩
        intro c hcm
        simp only [List.mem_append, List.mem_cons] at hcm
        rcases hcm with hcm | rfl | rfl | hcm
        · exact hfo.2.1 c hcm
        · exact w1
        · exact w2
        · exact hfo.2.2 c hcm
      have hlenP : ((Tr.node f.addr (vecInsert f.keys f.left.length k)
            (f.left ++ .node a (ks.take (keyMidpoint ks.length))
              (cs.take (keyMidpoint ks.length + 1)) ::
              .node t.next (ks.drop (keyMidpoint ks.length + 1))
                (cs.drop (keyMidpoint ks.length + 1)) :: f.right)).addrs.length : Int) =
          (f.plug (.node a ks cs)).addrs.length + 1 := by
        simp only [Frame.plug, Tr.addrs_node, Tr.addrsL_cons, Tr.addrsL_append,
          List.length_cons, List.length_append]
        have := Tr.addrsL_length_take_drop cs (keyMidpoint ks.length + 1)
        push_cast
        omega
      beta_reduce at heq
      by_cases hov : overfull M (f.keys.length + 1) = true
      · rw [if_pos hov] at heq
        have hlen : f.keys.length + 1 = M := by
          have := (overfull_iff M _ (by omega)).mp hov
          omega
        obtain ⟨t2, T2, r1, r2, r3, r4, r5, r6⟩ := ih (n + 1) fuel _ _ hfoc hrest
          (hwfP M M (by omega) (by omega)) (by simp at hfuel; omega)
        refine ⟨t2, T2, ?_, r2, r3, ?_, ?_, r6⟩
        · exact heq.trans r1
        · rw [r4]
          simp only [plugAll]
          exact plugAll_inorder_congr rest hio
        · rw [r5]
          simp only [plugAll, plugAll_addrs_length]
          push_cast
          rw [hlenP]
          ring
      · rw [if_neg hov] at heq
        have hlen : f.keys.length + 1 ≤ M - 1 := by
          have := (overfull_iff M (f.keys.length + 1) (by omega)).not.mp hov
          omega
        refine ⟨_, _, heq, hfoc.toRoot, ?_, ?_, ?_, rfl⟩
        · refine plugAll_wf rest (n + 1) _ hrest (hwfP _ _ ?_ hlen)
          rw [subLo_succ_eq_ctxLo]
          omega
        · simp only [plugAll]
          exact plugAll_inorder_congr rest hio
        · simp only [plugAll, plugAll_addrs_length]
          push_cast
          rw [hlenP]
          ring



/-! ## `findKey` -/

theorem findKeyLoop_eq (item : Int) (size : Nat) :
    ∀ (rest : List Int) (i : Nat), rest ≠ [] → i + rest.length = size →
      BTreeNode.findKeyLoop item size i rest =
        .ok (scanResult size (BTree.findNodeScan item i rest)) := by
  intro rest
  induction rest with
  | nil => intro i h; exact absurd rfl h
  | cons x rest ih =>
    intro i _ hlen
    simp only [List.length_cons] at hlen
    simp only [BTreeNode.findKeyLoop, BTree.findNodeScan]
    by_cases h1 : x = item
    · simp [h1, scanResult]
    · by_cases h2 : x > item
      · simp [h1, h2, scanResult]
      · simp only [h1, h2, if_false]
        by_cases h3 : i = size - 1
        · have hr : rest = [] := by
            cases rest with
            | nil => rfl
            | cons y ys => simp at hlen; omega
          subst hr
          simp [h3, BTree.findNodeScan, scanResult]
        · have hr : rest ≠ [] := by
            intro e; subst e; simp at hlen; omega
          simp only [h3, if_false]
          exact ih (i + 1) hr (by omega)

theorem findKey_eq {node : BTreeNode} (item : Int) (h : node.keyVector ≠ []) :
    node.findKey item =
      .ok (scanResult node.keyVector.length (BTree.findNodeScan item 0 node.keyVector)) :=
  findKeyLoop_eq item _ _ 0 h (by simp)

theorem scan_found_of_mem {item : Int} {ks : List Int} (hs : ks.Pairwise (· < ·))
    (hm : item ∈ ks) : BTree.findNodeScan item 0 ks = .found := by
  cases hsc : BTree.findNodeScan item 0 ks with
  | found => rfl
  | descend j =>
    exfalso
    obtain ⟨pre, x, rest, e1, e2, e3, _⟩ := findNodeScan_descend hsc
    rw [e1] at hm hs
    simp only [List.mem_append, List.mem_cons] at hm
    rcases hm with h | h | h
    · have := e2 item h; omega
    · omega
    · have := (List.pairwise_cons.mp (List.pairwise_append.mp hs).2.1).1 item h
      omega
  | exhausted =>
    exfalso
    have := findNodeScan_exhausted hsc item hm
    omega

theorem findKey_of_mem (node : BTreeNode) {item : Int} (hs : node.keyVector.Pairwise (· < ·))
    (hm : item ∈ node.keyVector) : node.findKey item = .ok (-1) := by
  have hne : node.keyVector ≠ [] := by
    intro e; rw [e] at hm; simp at hm
  rw [findKey_eq item hne, scan_found_of_mem hs hm]
  rfl

/-- On a non-empty increasing key list without `item`, `findKey` returns the index that
splits the keys into those below and those above `item`. -/
theorem findKey_of_not_mem (node : BTreeNode) {item : Int}
    (hs : node.keyVector.Pairwise (· < ·)) (hne : node.keyVector ≠ [])
    (hm : item ∉ node.keyVector) :
    ∃ (idx : Int) (pre post : List Int), node.findKey item = .ok idx ∧ idx ≠ -1 ∧
      node.keyVector = pre ++ post ∧
      vecInsert node.keyVector idx.toNat item = pre ++ item :: post ∧
      (∀ x ∈ pre, x < item) ∧ (∀ x ∈ post, item < x) := by
  rw [findKey_eq item hne]
  cases hsc : BTree.findNodeScan item 0 node.keyVector with
  | found => exact absurd (findNodeScan_found hsc) hm
  | descend j =>
    obtain ⟨pre, x, rest, e1, e2, e3, e4⟩ := findNodeScan_descend hsc
    simp only [Nat.zero_add] at e4
    refine ⟨j, pre, x :: rest, rfl, by omega, e1, ?_, e2, ?_⟩
    · rw [e1, e4]
      simp [vecInsert]
    · rw [e1] at hs
      intro y hy
      rcases List.mem_cons.mp hy with h | h
      · subst h; exact e3
      · have := (List.pairwise_cons.mp (List.pairwise_append.mp hs).2.1).1 y h
        omega
  | exhausted =>
    have e2 := findNodeScan_exhausted hsc
    refine ⟨node.keyVector.length, node.keyVector, [], rfl, by omega, by simp, ?_, e2, by simp⟩
    simp [vecInsert]

theorem pairwise_insert {A B : List Int} {item : Int} (hs : (A ++ B).Pairwise (· < ·))
    (hA : ∀ x ∈ A, x < item) (hB : ∀ x ∈ B, item < x) :
    (A ++ item :: B).Pairwise (· < ·) := by
  rw [List.pairwise_append] at hs ⊢
  refine ⟨hs.1, List.pairwise_cons.mpr ⟨hB, hs.2.1⟩, ?_⟩
  intro x hx y hy
  rcases List.mem_cons.mp hy with h | h
  · subst h; exact hA x hx
  · exact hs.2.2 x hx y h

theorem ctx_length_le (ctx : List Frame) : ctx.length ≤ (ctxAddrs ctx).length := by
  induction ctx with
  | nil => simp
  | cons f fs ih =>
    simp only [ctxAddrs, Frame.addrs, List.length_cons, List.length_append]
    omega

/-- The focus does not look at the counters. -/
theorem Focus.congr {t t2 : BTree} {ctx : List Frame} {sub : Tr} (hf : Focus t ctx sub)
    (h1 : t2.heap = t.heap) (h2 : t2.next = t.next) (h3 : t2.root = t.root) :
    Focus t2 ctx sub := by
  obtain ⟨a, b, c, d, e, f⟩ := hf
  exact ⟨h1 ▸ a, h1 ▸ b, c, h2 ▸ d, h1 ▸ e, h3 ▸ f⟩



/-! ## `insert` -/

theorem TreeInv.nodeCount_pos {M : Nat} {t : BTree} {T : Tr} (hi : TreeInv M t T) :
    t.nodeCount ≠ 0 := by
  have := T.addrs_length_pos
  have := hi.nodes
  omega

/-- The node where the descent ends has a key, unless the whole tree has none. -/
theorem Descent.keys_ne_nil {M : Nat} (hM : 3 ≤ M) {item : Int} {t : BTree} {m : Nat}
    {ctx : List Frame} {S : Tr} (hd : Descent M item t m ctx S)
    (hne : (plugAll ctx S).inorder ≠ []) : S.keys ≠ [] := by
  intro e
  have hb := hd.subWF.keys_bounds
  rw [e] at hb
  simp only [List.length_nil] at hb
  cases ctx with
  | cons f fs =>
    simp only [subLo] at hb
    have := minKeys_pos hM
    omega
  | nil =>
    cases m with
    | succ m => simp [subLo] at hb
    | zero =>
      have hw := hd.subWF
      simp only [WFb] at hw
      apply hne
      simp only [plugAll]
      rw [Tr.inorder_leaf hw.1, e]

/-- Writing new keys into a leaf in the hole of the path. -/
theorem Focus.set_leaf_keys {t : BTree} {ctx : List Frame} {S : Tr} (hf : Focus t ctx S)
    (hleaf : S.children = []) (keys : List Int) :
    Focus { t with heap := t.heap.set S.addr (some ⟨keys, [], ctxParent ctx⟩) } ctx
      (.node S.addr keys []) := by
  have hSaddrs : S.addrs = [S.addr] := by
    cases S with
    | node a ks cs =>
      simp only [Tr.children_node] at hleaf
      subst hleaf
      simp [Tr.addrs_node]
  refine hf.rebuild rfl ?_ ?_ ?_ ?_ (Nat.le_refl _) ?_ rfl
  · rw [Stores_node]
    exact ⟨by simp, by simp⟩
  · intro x hx
    have hne : x ≠ S.addr := by
      intro e
      have := (List.nodup_append.mp hf.nodup).2.2 hx (e ▸ S.addr_mem_addrs)
      exact this
    simp [Heap.set, hne]
  · simp [Tr.addrs_node]
  · intro x hx
    left
    simp only [Tr.addrs_node, Tr.addrsL_nil, List.mem_singleton] at hx
    rw [hx]
    exact S.addr_mem_addrs
  · intro x hx1 hx2
    simp only [Tr.addrs_node, Tr.addrsL_nil, List.mem_singleton] at hx2
    simp only [Heap.set, hx2, if_false]
    refine hf.clean x ?_
    simp only [List.mem_append, hSaddrs, List.mem_singleton, not_or]
    exact ⟨hx1, hx2⟩

/-- A successful `insert` on a state that holds a tree with at least one key. -/
theorem insert_spec {M : Nat} (hM : 3 ≤ M) {t : BTree} {T : Tr} (hi : TreeInv M t T)
    (hne : T.inorder ≠ []) (item : Int) :
    (item ∈ T.inorder → t.insert M item = .error (.duplicateItem, t)) ∧
    (item ∉ T.inorder → ∃ t2 T2, t.insert M item = .ok t2 ∧ TreeInv M t2 T2 ∧
      ∃ A B, T.inorder = A ++ B ∧ T2.inorder = A ++ item :: B ∧
        (∀ x ∈ A, x < item) ∧ (∀ x ∈ B, item < x)) := by
  obtain ⟨n, hd, hfuel⟩ := hi.descent item
  obtain ⟨ctx, S, m, r1, r2, r3, r4⟩ := findNode_descent hM n (t.next + 1) [] T hfuel hd
  simp only [plugAll] at r3
  have hmem := r2.mem_iff r4
  rw [r3] at hmem
  rw [← hi.root_eq] at r1
  have hnc := hi.nodeCount_pos
  have hks := r2.keys_sorted
  have hkne : S.keys ≠ [] := r2.keys_ne_nil hM (by rw [r3]; exact hne)
  have hheap := r2.heap_eq
  constructor
  · intro hin
    have hfk := findKey_of_mem ⟨S.keys, S.children.map Tr.addr, ctxParent ctx⟩
      hks (hmem.mp hin)
    simp [BTree.insert, hnc, r1, Heap.deref, hheap, hfk]
  · intro hnin
    have hnk : item ∉ S.keys := fun h => hnin (hmem.mpr h)
    have hm0 : m = 0 := by
      rcases r4 with h | h
      · exact absurd h hnk
      · exact h
    subst hm0
    have hw := r2.subWF
    simp only [WFb] at hw
    obtain ⟨hleaf, hlo, hhi⟩ := hw
    obtain ⟨idx, pre, post, k1, k2, k3, k4, k5, k6⟩ :=
      findKey_of_not_mem ⟨S.keys, S.children.map Tr.addr, ctxParent ctx⟩ hks hkne hnk
    simp only at k3 k4
    simp only [hleaf, List.map_nil] at hheap k1
    have hfoc := r2.focus.set_leaf_keys hleaf (pre ++ item :: post)
    have hlen : (pre ++ item :: post).length = S.keys.length + 1 := by
      rw [k3]; simp; omega
    -- the in-order keys before and after
    have hio : T.inorder = (ctxPre ctx ++ pre) ++ (post ++ ctxPost ctx) := by
      rw [← r3, r2.inorder_eq, Tr.inorder_leaf hleaf, k3]
      simp [List.append_assoc]
    have hio2 : (plugAll ctx (.node S.addr (pre ++ item :: post) [])).inorder =
        (ctxPre ctx ++ pre) ++ item :: (post ++ ctxPost ctx) := by
      rw [plugAll_inorder _ r2.ctxOK]
      simp [Tr.inorder_node, List.append_assoc]
    have hA : ∀ x ∈ ctxPre ctx ++ pre, x < item := by
      intro x hx
      rcases List.mem_append.mp hx with h | h
      · exact r2.below x h
      · exact k5 x h
    have hB : ∀ x ∈ post ++ ctxPost ctx, item < x := by
      intro x hx
      rcases List.mem_append.mp hx with h | h
      · exact k6 x h
      · exact r2.above x h
    have hsorted : ((ctxPre ctx ++ pre) ++ item :: (post ++ ctxPost ctx)).Pairwise (· < ·) :=
      pairwise_insert (hio ▸ hi.sorted) hA hB
    have hsize : (plugAll ctx (.node S.addr (pre ++ item :: post) [])).addrs.length =
        T.addrs.length := by
      rw [← r3, plugAll_addrs_length, plugAll_addrs_length]
      cases S with
      | node a ks cs =>
        simp only [Tr.children_node] at hleaf
        subst hleaf
        simp [Tr.addrs_node]
    have hchild : S.children.map Tr.addr = [] := by rw [hleaf]; rfl
    by_cases hov : overfull M (S.keys.length + 1) = true
    · have hM2 : S.keys.length + 1 = M := by
        have := (overfull_iff M _ (by omega)).mp hov
        omega
      have hctxlen : ctx.length < t.next + 1 := by
        have h1 := ctx_length_le ctx
        have h2 := hi.focus.size_le_next
        rw [← r3, plugAll_addrs_length] at h2
        omega
      obtain ⟨t2, T2, s1, s2, s3, s4, s5, s6⟩ := resolveOverflow_spec hM ctx 0 (t.next + 1) _ _
        hfoc r2.ctxOK (by
          simp only [WFb, Tr.children_node, Tr.keys_node, hlen, true_and]
          exact ⟨by omega, by omega⟩) hctxlen
      simp only [Tr.addr_node] at s1
      refine ⟨{ t2 with totalKeyCount := t2.totalKeyCount + 1 }, T2, ?_, ?_,
        _, _, hio, s4.trans hio2, hA, hB⟩
      · simp [BTree.insert, hnc, r1, Heap.deref, hheap, k1, k2, k4, hov, s1]
      · refine ⟨s2.congr rfl rfl rfl, s3, ?_, ?_, ?_⟩
        · rw [s4, hio2]; exact hsorted
        · show t2.nodeCount = _
          have := hi.nodes
          simp only at s5
          rw [hsize] at s5
          omega
        · show t2.totalKeyCount + 1 = _
          rw [s6, s4, hio2]
          have := hi.keys
          rw [hio] at this
          simp only at this ⊢
          rw [this]
          simp only [List.length_append, List.length_cons]
          push_cast
          ring
    · have hM2 : S.keys.length + 1 ≤ M - 1 := by
        have := (overfull_iff M (S.keys.length + 1) (by omega)).not.mp hov
        omega
      refine ⟨{ t with heap := t.heap.set S.addr (some ⟨pre ++ item :: post, [], ctxParent ctx⟩),
                       totalKeyCount := t.totalKeyCount + 1 },
        plugAll ctx (.node S.addr (pre ++ item :: post) []), ?_, ?_,
        _, _, hio, hio2, hA, hB⟩
      · simp [BTree.insert, hnc, r1, Heap.deref, hheap, k1, k2, k4, hov]
      · refine ⟨(hfoc.toRoot).congr rfl rfl rfl, ?_, ?_, ?_, ?_⟩
        · refine plugAll_wf ctx 0 _ r2.ctxOK ?_
          simp only [WFb, Tr.children_node, Tr.keys_node, hlen, true_and]
          refine ⟨?_, hM2⟩
          omega
        · rw [hio2]; exact hsorted
        · show t.nodeCount = _
          rw [hsize]; exact hi.nodes
        · show t.totalKeyCount + 1 = _
          rw [hio2]
          have := hi.keys
          rw [hio] at this
          rw [this]
          simp only [List.length_append, List.length_cons]
          push_cast
          ring



/-! ## Rebuilding the focus after a rearrangement below one node -/

/-- A node is stored when its cell is right and each child, taken from wherever it was
stored before, has its top cell pointing to the node and is unchanged below. -/
theorem Stores.adopt {h hF : Heap} {a : Nat} {ks : List Int} {cs : List Tr} {q : Option Nat}
    (hcell : hF a = some ⟨ks, cs.map Tr.addr, q⟩)
    (hch : ∀ c ∈ cs, (∃ b, Stores h b c) ∧
      hF c.addr = some ⟨c.keys, c.children.map Tr.addr, some a⟩ ∧
      ∀ x ∈ Tr.addrsL c.children, hF x = h x) :
    Stores hF q (.node a ks cs) := by
  rw [Stores_node]
  refine ⟨hcell, ?_⟩
  intro c hc
  obtain ⟨⟨b, hb⟩, h2, h3⟩ := hch c hc
  exact hb.reparent h2 h3

/-- Replace a run of children of the node in the hole: the new run is stored, uses only
addresses of the old run, and the heap is unchanged away from the node and the old run. -/
theorem Focus.replace_mid {t : BTree} {rest : List Frame} {p : Nat} {pk pk2 : List Int}
    {L R mid mid2 : List Tr} {hF : Heap} (nc : Int)
    (hf : Focus t rest (.node p pk (L ++ mid ++ R)))
    (g1 : hF p = some ⟨pk2, (L ++ mid2 ++ R).map Tr.addr, ctxParent rest⟩)
    (gmid : ∀ c ∈ mid2, Stores hF (some p) c)
    (gnd : (Tr.addrsL mid2).Nodup)
    (gsub : ∀ x ∈ Tr.addrsL mid2, x ∈ Tr.addrsL mid)
    (gframe : ∀ x, x ≠ p → x ∉ Tr.addrsL mid → hF x = t.heap x)
    (gclean : ∀ x ∈ Tr.addrsL mid, x ∉ Tr.addrsL mid2 → hF x = none) :
    Focus { t with heap := hF, nodeCount := nc } rest (.node p pk2 (L ++ mid2 ++ R)) := by
  have hst := (Stores_node.mp hf.subStored).2
  have hnd := (List.nodup_append.mp hf.nodup).2.1
  have hdis := (List.nodup_append.mp hf.nodup).2.2
  have hcl := hf.clean
  simp only [Tr.addrs_node, Tr.addrsL_append, List.nodup_cons, List.mem_append, not_or] at hnd
  obtain ⟨⟨⟨hpL, hpM⟩, hpR⟩, hnd2⟩ := hnd
  have hnd3 := List.nodup_append.mp hnd2
  have hnd4 := List.nodup_append.mp hnd3.1
  refine hf.rebuild rfl ?_ ?_ ?_ ?_ (Nat.le_refl _) ?_ rfl
  · rw [Stores_node]
    refine ⟨g1, ?_⟩
    intro c hc
    simp only [List.mem_append] at hc
    rcases hc with (hc | hc) | hc
    · refine (hst c (by simp [hc])).frame ?_
      intro x hx
      have hxL : x ∈ Tr.addrsL L := Tr.mem_addrsL.mpr ⟨c, hc, hx⟩
      exact gframe x (fun e => hpL (e ▸ hxL)) (fun hm => hnd4.2.2 hxL hm)
    · exact gmid c hc
    · refine (hst c (by simp [hc])).frame ?_
      intro x hx
      have hxR : x ∈ Tr.addrsL R := Tr.mem_addrsL.mpr ⟨c, hc, hx⟩
      exact gframe x (fun e => hpR (e ▸ hxR))
        (fun hm => hnd3.2.2 (List.mem_append.mpr (Or.inr hm)) hxR)
  · intro x hx
    refine gframe x ?_ ?_
    · intro e
      exact hdis hx (by simp [Tr.addrs_node, e])
    · intro hm
      exact hdis hx (by simp [Tr.addrs_node, hm])
  · simp only [Tr.addrs_node, Tr.addrsL_append, List.nodup_cons, List.mem_append, not_or]
    refine ⟨⟨⟨hpL, fun hm => hpM (gsub _ hm)⟩, hpR⟩, ?_⟩
    refine List.nodup_append.mpr ⟨List.nodup_append.mpr ⟨hnd4.1, gnd, ?_⟩, hnd3.2.1, ?_⟩
    · intro x h1 h2
      exact hnd4.2.2 h1 (gsub x h2)
    · intro x h1 h2
      rcases List.mem_append.mp h1 with h | h
      · exact hnd3.2.2 (List.mem_append.mpr (Or.inl h)) h2
      · exact hnd3.2.2 (List.mem_append.mpr (Or.inr (gsub x h))) h2
  · intro x hx
    left
    simp only [Tr.addrs_node, Tr.addrsL_append, List.mem_cons, List.mem_append] at hx ⊢
    rcases hx with h | (h | h) | h
    · exact Or.inl h
    · exact Or.inr (Or.inl (Or.inl h))
    · exact Or.inr (Or.inl (Or.inr (gsub x h)))
    · exact Or.inr (Or.inr h)
  · intro x hx1 hx2
    simp only [Tr.addrs_node, Tr.addrsL_append, List.mem_cons, List.mem_append, not_or] at hx2
    show hF x = none
    by_cases hm : x ∈ Tr.addrsL mid
    · exact gclean x hm hx2.2.1.2
    · rw [gframe x hx2.1 hm]
      refine hcl x ?_
      simp only [Tr.addrs_node, Tr.addrsL_append, List.mem_cons, List.mem_append, not_or]
      exact ⟨hx1, hx2.1, ⟨hx2.2.1.1, hm⟩, hx2.2.2⟩

/-- The same when the new run holds every address of the old run. -/
theorem Focus.replace_perm {t : BTree} {rest : List Frame} {p : Nat} {pk pk2 : List Int}
    {L R : List Tr} (mid mid2 : List Tr) {hF : Heap} (nc : Int)
    (hf : Focus t rest (.node p pk (L ++ mid ++ R)))
    (g1 : hF p = some ⟨pk2, (L ++ mid2 ++ R).map Tr.addr, ctxParent rest⟩)
    (gmid : ∀ c ∈ mid2, Stores hF (some p) c)
    (gperm : List.Perm (Tr.addrsL mid2) (Tr.addrsL mid))
    (gframe : ∀ x, x ≠ p → x ∉ Tr.addrsL mid → hF x = t.heap x) :
    Focus { t with heap := hF, nodeCount := nc } rest (.node p pk2 (L ++ mid2 ++ R)) := by
  have hnd := (List.nodup_append.mp hf.nodup).2.1
  simp only [Tr.addrs_node, Tr.addrsL_append, List.nodup_cons] at hnd
  have hndm := (List.nodup_append.mp (List.nodup_append.mp hnd.2).1).2.1
  refine hf.replace_mid nc g1 gmid (gperm.nodup_iff.mpr hndm) (fun x hx => gperm.mem_iff.mp hx)
    gframe ?_
  intro x hx hnx
  exact absurd (gperm.mem_iff.mpr hx) hnx

/-- The same when the new run holds every address of the old run but the freed cell `d`. -/
theorem Focus.replace_del {t : BTree} {rest : List Frame} {p d : Nat} {pk pk2 : List Int}
    {L R : List Tr} (mid mid2 : List Tr) {hF : Heap} (nc : Int)
    (hf : Focus t rest (.node p pk (L ++ mid ++ R)))
    (g1 : hF p = some ⟨pk2, (L ++ mid2 ++ R).map Tr.addr, ctxParent rest⟩)
    (gmid : ∀ c ∈ mid2, Stores hF (some p) c)
    (gperm : List.Perm (d :: Tr.addrsL mid2) (Tr.addrsL mid))
    (gdel : hF d = none)
    (gframe : ∀ x, x ≠ p → x ∉ Tr.addrsL mid → hF x = t.heap x) :
    Focus { t with heap := hF, nodeCount := nc } rest (.node p pk2 (L ++ mid2 ++ R)) := by
  have hnd := (List.nodup_append.mp hf.nodup).2.1
  simp only [Tr.addrs_node, Tr.addrsL_append, List.nodup_cons] at hnd
  have hndm := (List.nodup_append.mp (List.nodup_append.mp hnd.2).1).2.1
  have hnd2 := gperm.nodup_iff.mpr hndm
  refine hf.replace_mid nc g1 gmid (List.nodup_cons.mp hnd2).2
    (fun x hx => gperm.mem_iff.mp (List.mem_cons_of_mem _ hx)) gframe ?_
  intro x hx hnx
  rcases List.mem_cons.mp (gperm.mem_iff.mpr hx) with h | h
  · rw [h]; exact gdel
  · exact absurd h hnx

theorem Tr.not_mem_of_nodup_append {A B : List Tr} {c : Tr}
    (hn : (Tr.addrsL (A ++ B)).Nodup) (hc : c ∈ A) : c ∉ B := by
  intro hb
  rw [Tr.addrsL_append] at hn
  exact (List.nodup_append.mp hn).2.2 (Tr.mem_addrsL_of_mem hc) (Tr.mem_addrsL_of_mem hb)

theorem Tr.not_mem_of_nodup_append_right {A B : List Tr} {c : Tr}
    (hn : (Tr.addrsL (A ++ B)).Nodup) (hc : c ∈ B) : c ∉ A :=
  fun ha => Tr.not_mem_of_nodup_append hn ha hc

theorem Tr.eq_of_addr_eq {l : List Tr} {c d : Tr} (hn : (Tr.addrsL l).Nodup)
    (hc : c ∈ l) (hd : d ∈ l) (e : c.addr = d.addr) : c = d :=
  Tr.eq_of_addrs_meet hn hc hd c.addr_mem_addrs (e ▸ d.addr_mem_addrs)



/-! ## Two neighbouring children of the node in the hole -/

/-- The cells and the distinctness facts for a node `p` with neighbouring children `X` (at
`xa`) and `Y` (at `ya`). -/
theorem Focus.two_facts {t : BTree} {rest : List Frame} {p xa ya : Nat}
    {pk xk yk : List Int} {L R xc yc : List Tr}
    (hf : Focus t rest (.node p pk (L ++ [.node xa xk xc, .node ya yk yc] ++ R))) :
    t.heap p = some ⟨pk, L.map Tr.addr ++ xa :: ya :: R.map Tr.addr, ctxParent rest⟩ ∧
    t.heap xa = some ⟨xk, xc.map Tr.addr, some p⟩ ∧
    t.heap ya = some ⟨yk, yc.map Tr.addr, some p⟩ ∧
    p ≠ xa ∧ p ≠ ya ∧ xa ≠ ya ∧ xa ∉ L.map Tr.addr ∧ ya ∉ L.map Tr.addr ∧
    (∀ c ∈ xc, t.heap c.addr = some ⟨c.keys, c.children.map Tr.addr, some xa⟩) ∧
    (∀ c ∈ yc, t.heap c.addr = some ⟨c.keys, c.children.map Tr.addr, some ya⟩) ∧
    (∀ c ∈ xc ++ yc, (∃ b, Stores t.heap b c) ∧ c.addr ≠ p ∧ c.addr ≠ xa ∧ c.addr ≠ ya ∧
      ∀ x ∈ Tr.addrsL c.children, x ≠ p ∧ x ≠ xa ∧ x ≠ ya ∧ ∀ d ∈ xc ++ yc, x ≠ d.addr) ∧
    (Tr.addrsL (xc ++ yc)).Nodup ∧
    (∀ x, x ∈ Tr.addrsL xc ∨ x ∈ Tr.addrsL yc → x ≠ xa ∧ x ≠ ya) := by
  have hst := Stores_node.mp hf.subStored
  have hX := Stores_node.mp (hst.2 (.node xa xk xc) (by simp))
  have hY := Stores_node.mp (hst.2 (.node ya yk yc) (by simp))
  have hnd := (List.nodup_append.mp hf.nodup).2.1
  simp only [Tr.addrs_node, Tr.addrsL_append, Tr.addrsL_cons, Tr.addrsL_nil,
    List.append_nil] at hnd
  have hcount := List.nodup_iff_count_le_one.mp hnd
  have hparts : ∀ x, (if p = x then 1 else 0) + (Tr.addrsL L).count x +
      (if xa = x then 1 else 0) + (Tr.addrsL xc).count x + (if ya = x then 1 else 0) +
      (Tr.addrsL yc).count x + (Tr.addrsL R).count x ≤ 1 := by
    intro x
    have := hcount x
    simp only [List.count_append, List.count_cons, List.cons_append, beq_iff_eq] at this
    omega
  have hndxy : (Tr.addrsL (xc ++ yc)).Nodup := by
    rw [List.nodup_iff_count_le_one]
    intro x
    have := hparts x
    simp only [Tr.addrsL_append, List.count_append]
    omega
  have hmemxy : ∀ x, x ∈ Tr.addrsL (xc ++ yc) →
      0 < (Tr.addrsL xc).count x + (Tr.addrsL yc).count x := by
    intro x hx
    simp only [Tr.addrsL_append, List.mem_append] at hx
    rcases hx with h | h
    · have := List.count_pos_iff.mpr h; omega
    · have := List.count_pos_iff.mpr h; omega
  have hnotL : ∀ z, (if z = z then 1 else 0) + (Tr.addrsL L).count z ≤ 1 →
      z ∉ L.map Tr.addr := by
    intro z hz hm
    obtain ⟨d, hd, e⟩ := List.mem_map.mp hm
    have : z ∈ Tr.addrsL L := e ▸ Tr.mem_addrsL_of_mem hd
    have := List.count_pos_iff.mpr this
    simp only [if_true] at hz
    omega
  refine ⟨by simpa using hst.1, hX.1, hY.1, ?_, ?_, ?_, ?_, ?_, ?_, ?_, ?_, hndxy, ?_⟩
  · intro e; have := hparts xa; rw [if_pos e, if_pos rfl] at this; omega
  · intro e; have := hparts ya; rw [if_pos e, if_pos rfl] at this; omega
  · intro e; have := hparts ya; rw [if_pos e, if_pos rfl] at this; omega
  · refine hnotL xa ?_
    have := hparts xa; rw [if_pos rfl]; rw [if_pos rfl] at this; omega
  · refine hnotL ya ?_
    have := hparts ya; rw [if_pos rfl]; rw [if_pos rfl] at this; omega
  · intro c hc; exact (Stores_iff.mp (hX.2 c hc)).1
  · intro c hc; exact (Stores_iff.mp (hY.2 c hc)).1
  · intro c hc
    have hstc : ∃ b, Stores t.heap b c := by
      rcases List.mem_append.mp hc with h | h
      · exact ⟨_, hX.2 c h⟩
      · exact ⟨_, hY.2 c h⟩
    have hca := hmemxy c.addr (Tr.mem_addrsL_of_mem hc)
    refine ⟨hstc, ?_, ?_, ?_, ?_⟩
    · intro e; have := hparts c.addr; rw [if_pos e.symm] at this; omega
    · intro e; have := hparts c.addr; rw [if_pos e.symm] at this; omega
    · intro e; have := hparts c.addr; rw [if_pos e.symm] at this; omega
    · intro x hx
      have hxm : x ∈ Tr.addrsL (xc ++ yc) :=
        Tr.mem_addrsL.mpr ⟨c, hc, (c.mem_addrs_iff x).mpr (Or.inr hx)⟩
      have hxa := hmemxy x hxm
      refine ⟨?_, ?_, ?_, ?_⟩
      · intro e; have := hparts x; rw [if_pos e.symm] at this; omega
      · intro e; have := hparts x; rw [if_pos e.symm] at this; omega
      · intro e; have := hparts x; rw [if_pos e.symm] at this; omega
      · intro d hd
        exact Tr.below_ne_top hndxy hc hd hx
  · intro x hx
    have hxa : 0 < (Tr.addrsL xc).count x + (Tr.addrsL yc).count x := by
      rcases hx with h | h
      · have := List.count_pos_iff.mpr h; omega
      · have := List.count_pos_iff.mpr h; omega
    constructor
    · intro e; have := hparts x; rw [if_pos e.symm] at this; omega
    · intro e; have := hparts x; rw [if_pos e.symm] at this; omega



/-! ## `leftBorrow` and `rightBorrow` -/

theorem vecGet_append_cons {α : Type} (ka kb : List α) (k : α) (i : Nat) (hi : i = ka.length) :
    vecGet (ka ++ k :: kb) i = .ok k := by
  subst hi
  have h : (ka ++ k :: kb)[ka.length]? = some k := by
    rw [List.getElem?_append_right (Nat.le_refl _)]; simp
  rw [vecGet, h]

theorem set_append_cons {α : Type} (ka kb : List α) (k x : α) (i : Nat) (hi : i = ka.length) :
    (ka ++ k :: kb).set i x = ka ++ x :: kb := by
  subst hi
  simp

theorem eraseIdx_append_cons {α : Type} (ka kb : List α) (k : α) (i : Nat)
    (hi : i = ka.length) : (ka ++ k :: kb).eraseIdx i = ka ++ kb := by
  subst hi
  rw [List.eraseIdx_append_of_length_le (Nat.le_refl _)]
  simp

theorem vecBack_map_concat (l : List Tr) (c : Tr) :
    vecBack ((l ++ [c]).map Tr.addr) = .ok c.addr := by
  rw [List.map_append]
  exact vecBack_append_singleton _ _

/-- The cells after `leftBorrow`: the parent, the two siblings and the moved child are
rewritten, every other cell is as before. -/
theorem leftBorrow_exec {t : BTree} {rest : List Frame} {p xa ya : Nat}
    {ka kb lk sk : List Int} {k kl : Int} {L R lc mv sc : List Tr}
    (hf : Focus t rest (.node p (ka ++ k :: kb)
      (L ++ [.node xa (lk ++ [kl]) (lc ++ mv), .node ya sk sc] ++ R)))
    (hka : ka.length = L.length)
    (hmv : (mv = [] ∧ sc = []) ∨ (∃ cl, mv = [cl] ∧ sc ≠ [])) :
    ∃ hF, BTree.leftBorrow t p xa ya (L.length + 1) = .ok { t with heap := hF } ∧
      hF p = some ⟨ka ++ kl :: kb, L.map Tr.addr ++ xa :: ya :: R.map Tr.addr,
        ctxParent rest⟩ ∧
      hF xa = some ⟨lk, lc.map Tr.addr, some p⟩ ∧
      hF ya = some ⟨k :: sk, (mv ++ sc).map Tr.addr, some p⟩ ∧
      (∀ c ∈ mv, hF c.addr = some ⟨c.keys, c.children.map Tr.addr, some ya⟩) ∧
      (∀ x, x ≠ p → x ≠ xa → x ≠ ya → x ∉ mv.map Tr.addr → hF x = t.heap x) := by
  obtain ⟨H1, H2, H3, n1, n2, n3, n4, n5, H4, H5, H6, hndc, hnc⟩ := hf.two_facts
  have e1 : vecGet (ka ++ k :: kb) L.length = .ok k :=
    vecGet_append_cons _ _ _ _ hka.symm
  have e2 : (ka ++ k :: kb).set L.length kl = ka ++ kl :: kb :=
    set_append_cons _ _ _ _ _ hka.symm
  have e3 : vecBack (lk ++ [kl]) = .ok kl := vecBack_append_singleton _ _
  have m1 := n1.symm
  have m2 := n2.symm
  have m3 := n3.symm
  rcases hmv with ⟨rfl, rfl⟩ | ⟨cl, rfl, hsc⟩
  · apply Exists.intro
    refine ⟨?g0, ?g1, ?g2, ?g3, ?g4, ?g5⟩
    case g0 =>
      simp [BTree.leftBorrow, Heap.deref, Heap.modify, Heap.set, H1, H2, H3, n1, n2, n3,
        m1, m2, m3, e1, e2, e3]
      rfl
    case g1 => simp [Heap.set, n1, n2, n3, m1, m2, m3]
    case g2 => simp [Heap.set, n1, n2, n3, m1, m2, m3]
    case g3 => simp [Heap.set, n1, n2, n3, m1, m2, m3]
    case g4 => simp
    case g5 =>
      intro x x1 x2 x3 _
      simp [Heap.set, x1, x2, x3]
  · have hcl := H4 cl (by simp)
    obtain ⟨_, c1, c2, c3, _⟩ := H6 cl (by simp)
    have e4 : vecBack (List.map Tr.addr lc ++ [cl.addr]) = .ok cl.addr :=
      vecBack_append_singleton _ _
    have e5 : sc = [] ↔ False := ⟨hsc, False.elim⟩
    apply Exists.intro
    refine ⟨?g0, ?g1, ?g2, ?g3, ?g4, ?g5⟩
    case g0 =>
      simp [BTree.leftBorrow, BTree.underflowAddresses, Heap.deref, Heap.modify, Heap.set,
        H1, H2, H3, n1, n2, n3, m1, m2, m3, e1, e2, e3, e4, e5, c1, c2, c3, c1.symm, c2.symm,
        c3.symm, hcl]
      rfl
    case g1 => simp [Heap.set, n1, n2, n3, m1, m2, m3, c1, c2, c3, c1.symm, c2.symm, c3.symm]
    case g2 => simp [Heap.set, n1, n2, n3, m1, m2, m3, c1, c2, c3, c1.symm, c2.symm, c3.symm]
    case g3 => simp [Heap.set, n1, n2, n3, m1, m2, m3, c1, c2, c3, c1.symm, c2.symm, c3.symm]
    case g4 => simp [Heap.set]
    case g5 =>
      intro x x1 x2 x3 x4
      simp only [List.map_cons, List.map_nil, List.mem_singleton] at x4
      simp [Heap.set, x1, x2, x3, x4]

/-- `leftBorrow` rotates the last key (and last child) of the left sibling `X` through the
parent into the under-full node `Y`. -/
theorem leftBorrow_spec {t : BTree} {rest : List Frame} {p xa ya : Nat}
    {ka kb lk sk : List Int} {k kl : Int} {L R lc mv sc : List Tr}
    (hf : Focus t rest (.node p (ka ++ k :: kb)
      (L ++ [.node xa (lk ++ [kl]) (lc ++ mv), .node ya sk sc] ++ R)))
    (hka : ka.length = L.length)
    (hmv : (mv = [] ∧ sc = []) ∨ (∃ cl, mv = [cl] ∧ sc ≠ [])) :
    ∃ hF, BTree.leftBorrow t p xa ya (L.length + 1) = .ok { t with heap := hF } ∧
      Focus { t with heap := hF } rest (.node p (ka ++ kl :: kb)
        (L ++ [.node xa lk lc, .node ya (k :: sk) (mv ++ sc)] ++ R)) := by
  obtain ⟨H1, H2, H3, n1, n2, n3, n4, n5, H4, H5, H6, hndc, hnc⟩ := hf.two_facts
  obtain ⟨hF, r0, g1, g2, g3, g4, g5⟩ := leftBorrow_exec hf hka hmv
  refine ⟨hF, r0, ?_⟩
  have hmvsub : ∀ c ∈ mv, c ∈ (lc ++ mv) ++ sc := by
    intro c hc; simp [hc]
  have hbelow : ∀ c ∈ (lc ++ mv) ++ sc, ∀ x ∈ Tr.addrsL c.children, hF x = t.heap x := by
    intro c hc x hx
    obtain ⟨_, _, _, _, h5⟩ := H6 c hc
    obtain ⟨y1, y2, y3, y4⟩ := h5 x hx
    refine g5 x y1 y2 y3 ?_
    intro hm
    obtain ⟨d, hd, e⟩ := List.mem_map.mp hm
    exact y4 d (hmvsub d hd) e.symm
  have hkeep : ∀ c ∈ (lc ++ mv) ++ sc, c ∉ mv → hF c.addr = t.heap c.addr := by
    intro c hc hnm
    obtain ⟨_, y1, y2, y3, _⟩ := H6 c hc
    refine g5 c.addr y1 y2 y3 ?_
    intro hm
    obtain ⟨d, hd, e⟩ := List.mem_map.mp hm
    exact hnm ((Tr.eq_of_addr_eq hndc hc (hmvsub d hd) e.symm) ▸ hd)
  have hlcmv : ∀ c ∈ lc, c ∉ mv := by
    intro c hc
    refine Tr.not_mem_of_nodup_append (A := lc) ?_ hc
    rw [List.append_assoc, Tr.addrsL_append] at hndc
    rw [Tr.addrsL_append] at hndc ⊢
    rw [← List.append_assoc] at hndc
    exact (List.nodup_append.mp hndc).1
  have hscmv : ∀ c ∈ sc, c ∉ mv := by
    intro c hc
    refine Tr.not_mem_of_nodup_append_right (B := sc) ?_ hc
    rw [List.append_assoc, Tr.addrsL_append] at hndc
    exact (List.nodup_append.mp hndc).2.1
  refine Focus.replace_perm [.node xa (lk ++ [kl]) (lc ++ mv), .node ya sk sc]
    [.node xa lk lc, .node ya (k :: sk) (mv ++ sc)] t.nodeCount hf ?_ ?_ ?_ ?_
  · simpa using g1
  · intro c hc
    simp only [List.mem_cons, List.mem_singleton, List.not_mem_nil, or_false] at hc
    rcases hc with rfl | rfl
    · refine Stores.adopt (h := t.heap) g2 ?_
      intro c hc
      have hc2 : c ∈ (lc ++ mv) ++ sc := by simp [hc]
      refine ⟨(H6 c hc2).1, ?_, hbelow c hc2⟩
      rw [hkeep c hc2 (hlcmv c hc)]
      exact H4 c (by simp [hc])
    · refine Stores.adopt (h := t.heap) g3 ?_
      intro c hc
      have hc2 : c ∈ (lc ++ mv) ++ sc := by
        simp only [List.mem_append] at hc ⊢; tauto
      refine ⟨(H6 c hc2).1, ?_, hbelow c hc2⟩
      rcases List.mem_append.mp hc with h | h
      · exact g4 c h
      · rw [hkeep c hc2 (hscmv c h)]
        exact H5 c h
  · rw [List.perm_iff_count]
    intro x
    simp only [Tr.addrsL_cons, Tr.addrsL_nil, Tr.addrs_node, Tr.addrsL_append,
      List.count_append, List.count_cons, List.count_nil, List.append_nil]
    omega
  · intro x x1 x2
    simp only [Tr.addrsL_cons, Tr.addrsL_nil, Tr.addrs_node, Tr.addrsL_append,
      List.mem_append, List.mem_cons, List.append_nil, not_or] at x2
    refine g5 x x1 x2.1.1 x2.2.1 ?_
    intro hm
    obtain ⟨d, hd, e⟩ := List.mem_map.mp hm
    exact x2.1.2.2 (e ▸ Tr.mem_addrsL_of_mem hd)

/-- The cells after `rightBorrow`: the parent, the two siblings and the moved child are
rewritten, every other cell is as before. -/
theorem rightBorrow_exec {t : BTree} {rest : List Frame} {p xa ya : Nat}
    {ka kb rk sk : List Int} {k kr : Int} {L R rc mv sc : List Tr}
    (hf : Focus t rest (.node p (ka ++ k :: kb)
      (L ++ [.node xa sk sc, .node ya (kr :: rk) (mv ++ rc)] ++ R)))
    (hka : ka.length = L.length)
    (hmv : (mv = [] ∧ sc = []) ∨ (∃ cr, mv = [cr] ∧ sc ≠ [])) :
    ∃ hF, BTree.rightBorrow t p ya xa L.length = .ok { t with heap := hF } ∧
      hF p = some ⟨ka ++ kr :: kb, L.map Tr.addr ++ xa :: ya :: R.map Tr.addr,
        ctxParent rest⟩ ∧
      hF xa = some ⟨sk ++ [k], (sc ++ mv).map Tr.addr, some p⟩ ∧
      hF ya = some ⟨rk, rc.map Tr.addr, some p⟩ ∧
      (∀ c ∈ mv, hF c.addr = some ⟨c.keys, c.children.map Tr.addr, some xa⟩) ∧
      (∀ x, x ≠ p → x ≠ xa → x ≠ ya → x ∉ mv.map Tr.addr → hF x = t.heap x) := by
  obtain ⟨H1, H2, H3, n1, n2, n3, n4, n5, H4, H5, H6, hndc, hnc⟩ := hf.two_facts
  have e1 : vecGet (ka ++ k :: kb) L.length = .ok k :=
    vecGet_append_cons _ _ _ _ hka.symm
  have e2 : (ka ++ k :: kb).set L.length kr = ka ++ kr :: kb :=
    set_append_cons _ _ _ _ _ hka.symm
  have m1 := n1.symm
  have m2 := n2.symm
  have m3 := n3.symm
  rcases hmv with ⟨rfl, rfl⟩ | ⟨cr, rfl, hsc⟩
  · apply Exists.intro
    refine ⟨?g0, ?g1, ?g2, ?g3, ?g4, ?g5⟩
    case g0 =>
      simp [BTree.rightBorrow, Heap.deref, Heap.modify, Heap.set, H1, H2, H3, n1, n2, n3,
        m1, m2, m3, e1, e2, vecFront]
      rfl
    case g1 => simp [Heap.set, n1, n2, n3, m1, m2, m3]
    case g2 => simp [Heap.set, n1, n2, n3, m1, m2, m3]
    case g3 => simp [Heap.set, n1, n2, n3, m1, m2, m3]
    case g4 => simp
    case g5 =>
      intro x x1 x2 x3 _
      simp [Heap.set, x1, x2, x3]
  · have hcr := H5 cr (by simp)
    obtain ⟨_, c1, c2, c3, _⟩ := H6 cr (by simp)
    have e5 : sc = [] ↔ False := ⟨hsc, False.elim⟩
    apply Exists.intro
    refine ⟨?g0, ?g1, ?g2, ?g3, ?g4, ?g5⟩
    case g0 =>
      simp [BTree.rightBorrow, BTree.underflowAddresses, Heap.deref, Heap.modify, Heap.set,
        H1, H2, H3, n1, n2, n3, m1, m2, m3, e1, e2, e5, c1, c2, c3, c1.symm, c2.symm,
        c3.symm, hcr, vecFront]
      rfl
    case g1 => simp [Heap.set, n1, n2, n3, m1, m2, m3, c1, c2, c3, c1.symm, c2.symm, c3.symm]
    case g2 => simp [Heap.set, n1, n2, n3, m1, m2, m3, c1, c2, c3, c1.symm, c2.symm, c3.symm]
    case g3 => simp [Heap.set, n1, n2, n3, m1, m2, m3, c1, c2, c3, c1.symm, c2.symm, c3.symm]
    case g4 => simp [Heap.set]
    case g5 =>
      intro x x1 x2 x3 x4
      simp only [List.map_cons, List.map_nil, List.mem_singleton] at x4
      simp [Heap.set, x1, x2, x3, x4]

/-- `rightBorrow` rotates the first key (and first child) of the right sibling `Y` through
the parent into the under-full node `X`. -/
theorem rightBorrow_spec {t : BTree} {rest : List Frame} {p xa ya : Nat}
    {ka kb rk sk : List Int} {k kr : Int} {L R rc mv sc : List Tr}
    (hf : Focus t rest (.node p (ka ++ k :: kb)
      (L ++ [.node xa sk sc, .node ya (kr :: rk) (mv ++ rc)] ++ R)))
    (hka : ka.length = L.length)
    (hmv : (mv = [] ∧ sc = []) ∨ (∃ cr, mv = [cr] ∧ sc ≠ [])) :
    ∃ hF, BTree.rightBorrow t p ya xa L.length = .ok { t with heap := hF } ∧
      Focus { t with heap := hF } rest (.node p (ka ++ kr :: kb)
        (L ++ [.node xa (sk ++ [k]) (sc ++ mv), .node ya rk rc] ++ R)) := by
  obtain ⟨H1, H2, H3, n1, n2, n3, n4, n5, H4, H5, H6, hndc, hnc⟩ := hf.two_facts
  obtain ⟨hF, r0, g1, g2, g3, g4, g5⟩ := rightBorrow_exec hf hka hmv
  refine ⟨hF, r0, ?_⟩
  have hmvsub : ∀ c ∈ mv, c ∈ sc ++ (mv ++ rc) := by
    intro c hc; simp [hc]
  have hbelow : ∀ c ∈ sc ++ (mv ++ rc), ∀ x ∈ Tr.addrsL c.children, hF x = t.heap x := by
    intro c hc x hx
    obtain ⟨_, _, _, _, h5⟩ := H6 c hc
    obtain ⟨y1, y2, y3, y4⟩ := h5 x hx
    refine g5 x y1 y2 y3 ?_
    intro hm
    obtain ⟨d, hd, e⟩ := List.mem_map.mp hm
    exact y4 d (hmvsub d hd) e.symm
  have hkeep : ∀ c ∈ sc ++ (mv ++ rc), c ∉ mv → hF c.addr = t.heap c.addr := by
    intro c hc hnm
    obtain ⟨_, y1, y2, y3, _⟩ := H6 c hc
    refine g5 c.addr y1 y2 y3 ?_
    intro hm
    obtain ⟨d, hd, e⟩ := List.mem_map.mp hm
    exact hnm ((Tr.eq_of_addr_eq hndc hc (hmvsub d hd) e.symm) ▸ hd)
  have hscmv : ∀ c ∈ sc, c ∉ mv := by
    intro c hc
    refine Tr.not_mem_of_nodup_append (A := sc) ?_ hc
    rw [← List.append_assoc, Tr.addrsL_append] at hndc
    exact (List.nodup_append.mp hndc).1
  have hrcmv : ∀ c ∈ rc, c ∉ mv := by
    intro c hc
    refine Tr.not_mem_of_nodup_append_right (B := rc) ?_ hc
    rw [Tr.addrsL_append] at hndc
    exact (List.nodup_append.mp hndc).2.1
  refine Focus.replace_perm [.node xa sk sc, .node ya (kr :: rk) (mv ++ rc)]
    [.node xa (sk ++ [k]) (sc ++ mv), .node ya rk rc] t.nodeCount hf ?_ ?_ ?_ ?_
  · simpa using g1
  · intro c hc
    simp only [List.mem_cons, List.mem_singleton, List.not_mem_nil, or_false] at hc
    rcases hc with rfl | rfl
    · refine Stores.adopt (h := t.heap) g2 ?_
      intro c hc
      have hc2 : c ∈ sc ++ (mv ++ rc) := by
        simp only [List.mem_append] at hc ⊢; tauto
      refine ⟨(H6 c hc2).1, ?_, hbelow c hc2⟩
      rcases List.mem_append.mp hc with h | h
      · rw [hkeep c hc2 (hscmv c h)]
        exact H4 c h
      · exact g4 c h
    · refine Stores.adopt (h := t.heap) g3 ?_
      intro c hc
      have hc2 : c ∈ sc ++ (mv ++ rc) := by simp [hc]
      refine ⟨(H6 c hc2).1, ?_, hbelow c hc2⟩
      rw [hkeep c hc2 (hrcmv c hc)]
      exact H5 c (by simp [hc])
  · rw [List.perm_iff_count]
    intro x
    simp only [Tr.addrsL_cons, Tr.addrsL_nil, Tr.addrs_node, Tr.addrsL_append,
      List.count_append, List.count_cons, List.count_nil, List.append_nil]
    omega
  · intro x x1 x2
    simp only [Tr.addrsL_cons, Tr.addrsL_nil, Tr.addrs_node, Tr.addrsL_append,
      List.mem_append, List.mem_cons, List.append_nil, not_or] at x2
    refine g5 x x1 x2.1.1 x2.2.1 ?_
    intro hm
    obtain ⟨d, hd, e⟩ := List.mem_map.mp hm
    exact x2.2.2.1 (e ▸ Tr.mem_addrsL_of_mem hd)



/-! ## `leftMerge` and `rightMerge` -/

/-- Cases 2 and 4 of `underflowAddresses`: every child of `underNode` is re-parented to
`sibling` and moved to the end (case 2) or the front (case 4) of its child list. -/
theorem underflowAddresses_merge_wp {α : Type} {H : Heap} {s u : Nat} (ns nu : BTreeNode)
    (front : Bool) (k : Heap → Except Exn α) (Q : Except Exn α → Prop)
    (hs : H s = some ns) (hu : H u = some nu) (hne : s ≠ u)
    (hall : ∀ c ∈ nu.childrenVector, ∃ n, H c = some n)
    (hsn : s ∉ nu.childrenVector) (hun : u ∉ nu.childrenVector)
    (hk : ∀ h2,
      h2 s = some ⟨ns.keyVector,
        if front then nu.childrenVector ++ ns.childrenVector
        else ns.childrenVector ++ nu.childrenVector, ns.parent⟩ →
      h2 u = some ⟨nu.keyVector, [], nu.parent⟩ →
      (∀ c ∈ nu.childrenVector, ∀ n, H c = some n →
        h2 c = some ⟨n.keyVector, n.childrenVector, some s⟩) →
      (∀ x, x ≠ s → x ≠ u → x ∉ nu.childrenVector → h2 x = H x) →
      Q (k h2)) :
    Q (BTree.underflowAddresses H s u (if front then 4 else 2) >>= k) := by
  obtain ⟨h1, r1, r2, r3⟩ := reparent_spec s nu.childrenVector H hall
  have hs1 : h1 s = some ns := by rw [r2 s hsn]; exact hs
  have hu1 : h1 u = some nu := by rw [r2 u hun]; exact hu
  have hne2 : u ≠ s := fun e => hne e.symm
  cases front with
  | false =>
    simp only [Bool.false_eq_true, if_false] at hk ⊢
    have : BTree.underflowAddresses H s u 2 = .ok ((h1.set s (some ⟨ns.keyVector,
        ns.childrenVector ++ nu.childrenVector, ns.parent⟩)).set u
        (some ⟨nu.keyVector, [], nu.parent⟩)) := by
      simp [BTree.underflowAddresses, Heap.deref, Heap.modify, hu, r1, hu1, hs1, Heap.set, hne,
        hne2]
    rw [this]
    refine hk _ ?_ ?_ ?_ ?_
    · simp [Heap.set, hne]
    · simp [Heap.set]
    · intro c hc n hn
      have c1 : c ≠ s := fun e => hsn (e ▸ hc)
      have c2 : c ≠ u := fun e => hun (e ▸ hc)
      simp only [Heap.set, c1, c2, if_false]
      exact r3 c hc n hn
    · intro x x1 x2 x3
      simp only [Heap.set, x1, x2, if_false]
      exact r2 x x3
  | true =>
    simp only [if_true] at hk ⊢
    have : BTree.underflowAddresses H s u 4 = .ok ((h1.set s (some ⟨ns.keyVector,
        nu.childrenVector ++ ns.childrenVector, ns.parent⟩)).set u
        (some ⟨nu.keyVector, [], nu.parent⟩)) := by
      simp [BTree.underflowAddresses, Heap.deref, Heap.modify, hu, r1, hu1, hs1, Heap.set, hne,
        hne2]
    rw [this]
    refine hk _ ?_ ?_ ?_ ?_
    · simp [Heap.set, hne]
    · simp [Heap.set]
    · intro c hc n hn
      have c1 : c ≠ s := fun e => hsn (e ▸ hc)
      have c2 : c ≠ u := fun e => hun (e ▸ hc)
      simp only [Heap.set, c1, c2, if_false]
      exact r3 c hc n hn
    · intro x x1 x2 x3
      simp only [Heap.set, x1, x2, if_false]
      exact r2 x x3

theorem leftMerge_exec {M : Nat} {recurse : BTree → Nat → Except Exn BTree} {t : BTree}
    {rest : List Frame} {p xa ya : Nat} {ka kb xk yk : List Int} {k : Int}
    {L R xc yc : List Tr}
    (hf : Focus t rest (.node p (ka ++ k :: kb)
      (L ++ [.node xa xk xc, .node ya yk yc] ++ R)))
    (hka : ka.length = L.length) (hshape : xc = [] ↔ yc = [])
    (Q : Except Exn BTree → Prop)
    (hQ : ∀ hF : Heap,
        hF p = some ⟨ka ++ kb, L.map Tr.addr ++ xa :: R.map Tr.addr, ctxParent rest⟩ →
        hF xa = some ⟨xk ++ k :: yk, (xc ++ yc).map Tr.addr, some p⟩ →
        (∃ n, hF ya = some n) →
        (∀ c ∈ yc, hF c.addr = some ⟨c.keys, c.children.map Tr.addr, some xa⟩) →
        (∀ x, x ≠ p → x ≠ xa → x ≠ ya → x ∉ yc.map Tr.addr → hF x = t.heap x) →
        Q (mergeTail M recurse t hF p xa ya)) :
    Q (BTree.leftMerge M recurse t p xa ya (L.length + 1)) := by
  obtain ⟨H1, H2, H3, n1, n2, n3, n4, n5, H4, H5, H6, hndc, hnc⟩ := hf.two_facts
  have m1 := n1.symm
  have m2 := n2.symm
  have m3 := n3.symm
  have e1 : vecGet (ka ++ k :: kb) L.length = .ok k :=
    vecGet_append_cons _ _ _ _ hka.symm
  have e2 : (ka ++ k :: kb).eraseIdx L.length = ka ++ kb :=
    eraseIdx_append_cons _ _ _ _ hka.symm
  have e3 : (L.map Tr.addr ++ xa :: ya :: R.map Tr.addr).eraseIdx (L.length + 1) =
      L.map Tr.addr ++ xa :: R.map Tr.addr := by
    have : L.map Tr.addr ++ xa :: ya :: R.map Tr.addr =
        (L.map Tr.addr ++ [xa]) ++ ya :: R.map Tr.addr := by simp
    rw [this, eraseIdx_append_cons _ _ _ _ (by simp)]
    simp
  by_cases hyc : yc = []
  · have hxc := hshape.mpr hyc
    subst hyc
    subst hxc
    simp [BTree.leftMerge, Heap.deref, Heap.modify, Heap.set, H1, H2, H3, n1, n2, n3, m1, m2,
      m3, e1, e2, e3]
    refine hQ _ ?_ ?_ ?_ ?_ ?_
    · simp [Heap.set, n1, n2, n3, m1, m2, m3]
    · simp [Heap.set, n1, n2, n3, m1, m2, m3]
    · exact ⟨_, by simp [Heap.set, n1, n2, n3, m1, m2, m3, H3]; rfl⟩
    · simp
    · intro x x1 x2 x3 _
      simp [Heap.set, x1, x2, x3]
  · simp [BTree.leftMerge, Heap.deref, Heap.modify, Heap.set, H1, H2, H3, n1, n2, n3, m1, m2,
      m3, e1, e2, e3, hyc]
    have hall : ∀ c ∈ yc, c.addr ≠ p ∧ c.addr ≠ xa ∧ c.addr ≠ ya := by
      intro c hc
      obtain ⟨_, c1, c2, c3, _⟩ := H6 c (by simp [hc])
      exact ⟨c1, c2, c3⟩
    refine underflowAddresses_merge_wp
      ⟨xk ++ k :: yk, xc.map Tr.addr, some p⟩ ⟨yk, yc.map Tr.addr, some p⟩ false _ Q
      ?_ ?_ n3 ?_ ?_ ?_ ?_
    · simp [Heap.set, n1, n2, n3, m1, m2, m3]
    · simp [Heap.set, n1, n2, n3, m1, m2, m3, H3]
    · intro c hc
      obtain ⟨d, hd, rfl⟩ := List.mem_map.mp hc
      obtain ⟨c1, c2, c3⟩ := hall d hd
      exact ⟨⟨d.keys, d.children.map Tr.addr, some ya⟩,
        by simp [Heap.set, c1, c2, c3, H5 d hd]⟩
    · intro hc
      obtain ⟨d, hd, e⟩ := List.mem_map.mp hc
      exact (hall d hd).2.1 e
    · intro hc
      obtain ⟨d, hd, e⟩ := List.mem_map.mp hc
      exact (hall d hd).2.2 e
    · intro h2 f1 f2 f3 f4
      simp only [Bool.false_eq_true, if_false] at f1
      refine hQ h2 ?_ ?_ ⟨_, f2⟩ ?_ ?_
      · have hnp : p ∉ yc.map Tr.addr := by
          intro hc
          obtain ⟨d, hd, e⟩ := List.mem_map.mp hc
          exact (hall d hd).1 e
        rw [f4 p n1 n2 hnp]
        simp [Heap.set, n1, n2, n3, m1, m2, m3]
      · rw [f1]; simp
      · intro c hc
        obtain ⟨c1, c2, c3⟩ := hall c hc
        exact f3 c.addr (List.mem_map_of_mem _ hc) ⟨c.keys, c.children.map Tr.addr, some ya⟩
          (by simp [Heap.set, c1, c2, c3, H5 c hc])
      · intro x x1 x2 x3 x4
        rw [f4 x x2 x3 x4]
        simp [Heap.set, x1, x2, x3]

theorem rightMerge_exec {M : Nat} {recurse : BTree → Nat → Except Exn BTree} {t : BTree}
    {rest : List Frame} {p xa ya : Nat} {ka kb xk yk : List Int} {k : Int}
    {L R xc yc : List Tr}
    (hf : Focus t rest (.node p (ka ++ k :: kb)
      (L ++ [.node xa xk xc, .node ya yk yc] ++ R)))
    (hka : ka.length = L.length) (hshape : xc = [] ↔ yc = [])
    (Q : Except Exn BTree → Prop)
    (hQ : ∀ hF : Heap,
        hF p = some ⟨ka ++ kb, L.map Tr.addr ++ ya :: R.map Tr.addr, ctxParent rest⟩ →
        hF ya = some ⟨xk ++ k :: yk, (xc ++ yc).map Tr.addr, some p⟩ →
        (∃ n, hF xa = some n) →
        (∀ c ∈ xc, hF c.addr = some ⟨c.keys, c.children.map Tr.addr, some ya⟩) →
        (∀ x, x ≠ p → x ≠ xa → x ≠ ya → x ∉ xc.map Tr.addr → hF x = t.heap x) →
        Q (mergeTail M recurse t hF p ya xa)) :
    Q (BTree.rightMerge M recurse t p ya xa L.length) := by
  obtain ⟨H1, H2, H3, n1, n2, n3, n4, n5, H4, H5, H6, hndc, hnc⟩ := hf.two_facts
  have m1 := n1.symm
  have m2 := n2.symm
  have m3 := n3.symm
  have e1 : vecGet (ka ++ k :: kb) L.length = .ok k :=
    vecGet_append_cons _ _ _ _ hka.symm
  have e2 : (ka ++ k :: kb).eraseIdx L.length = ka ++ kb :=
    eraseIdx_append_cons _ _ _ _ hka.symm
  have e3 : (L.map Tr.addr ++ xa :: ya :: R.map Tr.addr).eraseIdx L.length =
      L.map Tr.addr ++ ya :: R.map Tr.addr :=
    eraseIdx_append_cons _ _ _ _ (by simp)
  by_cases hyc : xc = []
  · have hxc := hshape.mp hyc
    subst hyc
    subst hxc
    simp [BTree.rightMerge, Heap.deref, Heap.modify, Heap.set, H1, H2, H3, n1, n2, n3, m1, m2,
      m3, e1, e2, e3]
    refine hQ _ ?_ ?_ ?_ ?_ ?_
    · simp [Heap.set, n1, n2, n3, m1, m2, m3]
    · simp [Heap.set, n1, n2, n3, m1, m2, m3]
    · exact ⟨_, by simp [Heap.set, n1, n2, n3, m1, m2, m3, H2]; rfl⟩
    · simp
    · intro x x1 x2 x3 _
      simp [Heap.set, x1, x2, x3]
  · simp [BTree.rightMerge, Heap.deref, Heap.modify, Heap.set, H1, H2, H3, n1, n2, n3, m1, m2,
      m3, e1, e2, e3, hyc]
    have hall : ∀ c ∈ xc, c.addr ≠ p ∧ c.addr ≠ xa ∧ c.addr ≠ ya := by
      intro c hc
      obtain ⟨_, c1, c2, c3, _⟩ := H6 c (by simp [hc])
      exact ⟨c1, c2, c3⟩
    refine underflowAddresses_merge_wp
      ⟨xk ++ k :: yk, yc.map Tr.addr, some p⟩ ⟨xk, xc.map Tr.addr, some p⟩ true _ Q
      ?_ ?_ m3 ?_ ?_ ?_ ?_
    · simp [Heap.set, n1, n2, n3, m1, m2, m3]
    · simp [Heap.set, n1, n2, n3, m1, m2, m3, H2]
    · intro c hc
      obtain ⟨d, hd, rfl⟩ := List.mem_map.mp hc
      obtain ⟨c1, c2, c3⟩ := hall d hd
      exact ⟨⟨d.keys, d.children.map Tr.addr, some xa⟩,
        by simp [Heap.set, c1, c2, c3, H4 d hd]⟩
    · intro hc
      obtain ⟨d, hd, e⟩ := List.mem_map.mp hc
      exact (hall d hd).2.2 e
    · intro hc
      obtain ⟨d, hd, e⟩ := List.mem_map.mp hc
      exact (hall d hd).2.1 e
    · intro h2 f1 f2 f3 f4
      simp only [if_true] at f1
      refine hQ h2 ?_ ?_ ⟨_, f2⟩ ?_ ?_
      · have hnp : p ∉ xc.map Tr.addr := by
          intro hc
          obtain ⟨d, hd, e⟩ := List.mem_map.mp hc
          exact (hall d hd).1 e
        rw [f4 p n2 n1 hnp]
        simp [Heap.set, n1, n2, n3, m1, m2, m3]
      · rw [f1]; simp
      · intro c hc
        obtain ⟨c1, c2, c3⟩ := hall c hc
        exact f3 c.addr (List.mem_map_of_mem _ hc) ⟨c.keys, c.children.map Tr.addr, some xa⟩
          (by simp [Heap.set, c1, c2, c3, H4 c hc])
      · intro x x1 x2 x3 x4
        rw [f4 x x3 x2 x4]
        simp [Heap.set, x1, x2, x3]



/-- The focus after merge_left: the neighbours `X` and `Y` are merged into the cell `xa`, the
cell `ya` is freed. -/
theorem Focus.merge_left {t : BTree} {rest : List Frame} {p xa ya : Nat}
    {ka kb xk yk : List Int} {k : Int} {L R xc yc : List Tr} {hF : Heap} (nc : Int)
    (hf : Focus t rest (.node p (ka ++ k :: kb)
      (L ++ [.node xa xk xc, .node ya yk yc] ++ R)))
    (g1 : hF p = some ⟨ka ++ kb, L.map Tr.addr ++ xa :: R.map Tr.addr, ctxParent rest⟩)
    (g2 : hF xa = some ⟨xk ++ k :: yk, (xc ++ yc).map Tr.addr, some p⟩)
    (g4 : ∀ c ∈ yc, hF c.addr = some ⟨c.keys, c.children.map Tr.addr, some xa⟩)
    (g5 : ∀ x, x ≠ p → x ≠ xa → x ≠ ya → x ∉ yc.map Tr.addr → hF x = t.heap x) :
    Focus { t with heap := hF.set ya none, nodeCount := nc } rest
      (.node p (ka ++ kb) (L ++ [.node xa (xk ++ k :: yk) (xc ++ yc)] ++ R)) := by
  obtain ⟨H1, H2, H3, n1, n2, n3, n4, n5, H4, H5, H6, hndc, hnc⟩ := hf.two_facts
  have m1 := n1.symm
  have m2 := n2.symm
  have m3 := n3.symm
  have hsd : xa ≠ ya := n3
  have hmvsub : ∀ c ∈ yc, c ∈ xc ++ yc := by
    intro c hc
    simp [hc]
  have hbelow : ∀ c ∈ xc ++ yc, ∀ x ∈ Tr.addrsL c.children, (hF.set ya none) x = t.heap x := by
    intro c hc x hx
    obtain ⟨_, _, _, _, h5⟩ := H6 c hc
    obtain ⟨y1, y2, y3, y4⟩ := h5 x hx
    rw [Heap.set_ne _ _ _ _ y3]
    refine g5 x y1 y2 y3 ?_
    intro hm
    obtain ⟨d, hd, e⟩ := List.mem_map.mp hm
    exact y4 d (hmvsub d hd) e.symm
  have htop : ∀ c ∈ xc ++ yc, (hF.set ya none) c.addr =
      some ⟨c.keys, c.children.map Tr.addr, some xa⟩ := by
    intro c hc
    obtain ⟨_, y1, y2, y3, _⟩ := H6 c hc
    rw [Heap.set_ne _ _ _ _ y3]
    by_cases hmv : c ∈ yc
    · exact g4 c hmv
    · have hk : hF c.addr = t.heap c.addr := by
        refine g5 c.addr y1 y2 y3 ?_
        intro hm
        obtain ⟨d, hd, e⟩ := List.mem_map.mp hm
        exact hmv ((Tr.eq_of_addr_eq hndc hc (hmvsub d hd) e.symm) ▸ hd)
      rw [hk]
      rcases List.mem_append.mp hc with h | h
      · exact H4 c h
      · exact absurd h hmv
  refine Focus.replace_del (d := ya) [.node xa xk xc, .node ya yk yc]
    [.node xa (xk ++ k :: yk) (xc ++ yc)] nc hf ?_ ?_ ?_ ?_ ?_
  · rw [Heap.set_ne _ _ _ _ n2]
    simpa using g1
  · intro c hc
    simp only [List.mem_singleton] at hc
    subst hc
    refine Stores.adopt (h := t.heap) ?_ ?_
    · rw [Heap.set_ne _ _ _ _ hsd]
      exact g2
    · intro c hc
      exact ⟨(H6 c hc).1, htop c hc, hbelow c hc⟩
  · rw [List.perm_iff_count]
    intro x
    simp only [Tr.addrsL_cons, Tr.addrsL_nil, Tr.addrs_node, Tr.addrsL_append,
      List.count_append, List.count_cons, List.count_nil, List.append_nil]
    omega
  · simp
  · intro x x1 x2
    simp only [Tr.addrsL_cons, Tr.addrsL_nil, Tr.addrs_node, Tr.addrsL_append,
      List.mem_append, List.mem_cons, List.append_nil, not_or] at x2
    rw [Heap.set_ne _ _ _ _ x2.2.1]
    refine g5 x x1 x2.1.1 x2.2.1 ?_
    intro hm
    obtain ⟨d, hd, e⟩ := List.mem_map.mp hm
    exact x2.2.2 (e ▸ Tr.mem_addrsL_of_mem hd)

/-- The focus after merge_right: the neighbours `X` and `Y` are merged into the cell `ya`, the
cell `xa` is freed. -/
theorem Focus.merge_right {t : BTree} {rest : List Frame} {p xa ya : Nat}
    {ka kb xk yk : List Int} {k : Int} {L R xc yc : List Tr} {hF : Heap} (nc : Int)
    (hf : Focus t rest (.node p (ka ++ k :: kb)
      (L ++ [.node xa xk xc, .node ya yk yc] ++ R)))
    (g1 : hF p = some ⟨ka ++ kb, L.map Tr.addr ++ ya :: R.map Tr.addr, ctxParent rest⟩)
    (g2 : hF ya = some ⟨xk ++ k :: yk, (xc ++ yc).map Tr.addr, some p⟩)
    (g4 : ∀ c ∈ xc, hF c.addr = some ⟨c.keys, c.children.map Tr.addr, some ya⟩)
    (g5 : ∀ x, x ≠ p → x ≠ xa → x ≠ ya → x ∉ xc.map Tr.addr → hF x = t.heap x) :
    Focus { t with heap := hF.set xa none, nodeCount := nc } rest
      (.node p (ka ++ kb) (L ++ [.node ya (xk ++ k :: yk) (xc ++ yc)] ++ R)) := by
  obtain ⟨H1, H2, H3, n1, n2, n3, n4, n5, H4, H5, H6, hndc, hnc⟩ := hf.two_facts
  have m1 := n1.symm
  have m2 := n2.symm
  have m3 := n3.symm
  have hsd : ya ≠ xa := m3
  have hmvsub : ∀ c ∈ xc, c ∈ xc ++ yc := by
    intro c hc
    simp [hc]
  have hbelow : ∀ c ∈ xc ++ yc, ∀ x ∈ Tr.addrsL c.children, (hF.set xa none) x = t.heap x := by
    intro c hc x hx
    obtain ⟨_, _, _, _, h5⟩ := H6 c hc
    obtain ⟨y1, y2, y3, y4⟩ := h5 x hx
    rw [Heap.set_ne _ _ _ _ y2]
    refine g5 x y1 y2 y3 ?_
    intro hm
    obtain ⟨d, hd, e⟩ := List.mem_map.mp hm
    exact y4 d (hmvsub d hd) e.symm
  have htop : ∀ c ∈ xc ++ yc, (hF.set xa none) c.addr =
      some ⟨c.keys, c.children.map Tr.addr, some ya⟩ := by
    intro c hc
    obtain ⟨_, y1, y2, y3, _⟩ := H6 c hc
    rw [Heap.set_ne _ _ _ _ y2]
    by_cases hmv : c ∈ xc
    · exact g4 c hmv
    · have hk : hF c.addr = t.heap c.addr := by
        refine g5 c.addr y1 y2 y3 ?_
        intro hm
        obtain ⟨d, hd, e⟩ := List.mem_map.mp hm
        exact hmv ((Tr.eq_of_addr_eq hndc hc (hmvsub d hd) e.symm) ▸ hd)
      rw [hk]
      rcases List.mem_append.mp hc with h | h
      · exact absurd h hmv
      · exact H5 c h
  refine Focus.replace_del (d := xa) [.node xa xk xc, .node ya yk yc]
    [.node ya (xk ++ k :: yk) (xc ++ yc)] nc hf ?_ ?_ ?_ ?_ ?_
  · rw [Heap.set_ne _ _ _ _ n1]
    simpa using g1
  · intro c hc
    simp only [List.mem_singleton] at hc
    subst hc
    refine Stores.adopt (h := t.heap) ?_ ?_
    · rw [Heap.set_ne _ _ _ _ hsd]
      exact g2
    · intro c hc
      exact ⟨(H6 c hc).1, htop c hc, hbelow c hc⟩
  · rw [List.perm_iff_count]
    intro x
    simp only [Tr.addrsL_cons, Tr.addrsL_nil, Tr.addrs_node, Tr.addrsL_append,
      List.count_append, List.count_cons, List.count_nil, List.append_nil]
    omega
  · simp
  · intro x x1 x2
    simp only [Tr.addrsL_cons, Tr.addrsL_nil, Tr.addrs_node, Tr.addrsL_append,
      List.mem_append, List.mem_cons, List.append_nil, not_or] at x2
    rw [Heap.set_ne _ _ _ _ x2.1.1]
    refine g5 x x1 x2.1.1 x2.2.1 ?_
    intro hm
    obtain ⟨d, hd, e⟩ := List.mem_map.mp hm
    exact x2.1.2 (e ▸ Tr.mem_addrsL_of_mem hd)



/-! ## Root collapse -/

theorem plugAll_addr_mem (f : Frame) (fs : List Frame) (t : Tr) :
    (plugAll (f :: fs) t).addr ∈ ctxAddrs (f :: fs) := by
  induction fs generalizing f t with
  | nil => simp [plugAll, Frame.plug, ctxAddrs, Frame.addrs]
  | cons g gs ih =>
    have := ih g (f.plug t)
    simp only [plugAll] at this ⊢
    simp only [ctxAddrs, List.mem_append] at this ⊢
    exact Or.inr this

/-- The node in the hole is the root exactly when the path is empty. -/
theorem Focus.root_eq_iff {t : BTree} {rest : List Frame} {P : Tr} (hf : Focus t rest P) :
    t.root = some P.addr ↔ rest = [] := by
  constructor
  · intro h
    cases rest with
    | nil => rfl
    | cons g gs =>
      exfalso
      rw [hf.root, Option.some.injEq] at h
      have h1 := plugAll_addr_mem g gs P
      rw [h] at h1
      exact (List.nodup_append.mp hf.nodup).2.2 h1 P.addr_mem_addrs
  · intro h
    subst h
    simpa [plugAll] using hf.root

/-- The old root with no key left is freed and its only child becomes the root. -/
theorem Focus.collapse {t : BTree} {p s : Nat} {zk : List Int} {zc : List Tr} (nc : Int)
    (hf : Focus t [] (.node p [] [.node s zk zc])) :
    Focus { t with heap := (t.heap.set p none).set s (some ⟨zk, zc.map Tr.addr, none⟩),
                   root := some s, nodeCount := nc } [] (.node s zk zc) := by
  obtain ⟨_, hst, hnd, hfr, hcl, _⟩ := hf
  simp only [ctxAddrs, List.nil_append, Tr.addrs_node, Tr.addrsL_cons, Tr.addrsL_nil,
    List.append_nil] at hnd hfr hcl
  rw [Stores_node] at hst
  have hZ := hst.2 (.node s zk zc) (by simp)
  rw [List.nodup_cons] at hnd
  have hps : p ≠ s := fun e => hnd.1 (by simp [e])
  refine ⟨by simp [StoresCtx], ?_, ?_, ?_, ?_, by simp [plugAll]⟩
  · refine hZ.reparent (by simp [Heap.set, ctxParent]) ?_
    intro x hx
    have h1 : x ≠ s := by
      intro e
      have := (List.nodup_cons.mp hnd.2).1
      exact this (e ▸ hx)
    have h2 : x ≠ p := by
      intro e
      refine hnd.1 (List.mem_cons_of_mem _ ?_)
      rw [← e]; exact hx
    simp [Heap.set, h1, h2]
  · simpa [ctxAddrs, Tr.addrs_node] using hnd.2
  · intro x hx
    simp only [ctxAddrs, List.nil_append, Tr.addrs_node] at hx
    exact hfr x (List.mem_cons_of_mem _ hx)
  · intro x hx
    simp only [ctxAddrs, List.nil_append, Tr.addrs_node, List.mem_cons, not_or] at hx
    show ((t.heap.set p none).set s _) x = none
    by_cases e : x = p
    · simp [Heap.set, e, hps]
    · simp only [Heap.set, hx.1, e, if_false]
      refine hcl x ?_
      simp only [List.mem_cons, not_or]
      exact ⟨e, hx.1, hx.2⟩

/-! ## What borrow and merge do to the tree -/

theorem weave_merge :
    ∀ (xk : List Int) (xc yc : List (List Int)) (k : Int) (yk : List Int),
      xc.length = xk.length + 1 →
      weave (xc ++ yc) (xk ++ k :: yk) = weave xc xk ++ k :: weave yc yk := by
  intro xk
  induction xk with
  | nil =>
    intro xc yc k yk hl
    match xc, hl with
    | [c], _ => simp
  | cons x xk ih =>
    intro xc yc k yk hl
    match xc, hl with
    | c :: xc, hl =>
      simp only [List.length_cons, Nat.add_right_cancel_iff] at hl
      simp [ih xc yc k yk hl]

/-- In-order keys of the merge of two neighbours around their separator. -/
theorem merge_inorder {s xa ya : Nat} {xk yk : List Int} {k : Int} {xc yc : List Tr}
    (hshape : (xc = [] ∧ yc = []) ∨ xc.length = xk.length + 1) :
    (Tr.node s (xk ++ k :: yk) (xc ++ yc)).inorder =
      (Tr.node xa xk xc).inorder ++ k :: (Tr.node ya yk yc).inorder := by
  simp only [Tr.inorder_node, List.map_append]
  rcases hshape with ⟨rfl, rfl⟩ | h
  · simp
  · exact weave_merge _ _ _ _ _ (by simpa using h)

/-- In-order keys of a node around two neighbouring children. -/
theorem two_children_inorder {p : Nat} {ka kb : List Int} {k : Int} {L R : List Tr}
    {X Y : Tr} (hka : ka.length = L.length) :
    (Tr.node p (ka ++ k :: kb) (L ++ [X, Y] ++ R)).inorder =
      weave (L.map Tr.inorder) ka ++ (X.inorder ++ k :: Y.inorder) ++
        weave ([] :: R.map Tr.inorder) kb := by
  simp only [Tr.inorder_node, List.map_append, List.map_cons, List.map_nil,
    List.append_assoc, List.cons_append, List.nil_append]
  rw [weave_append _ _ _ _ (by simp [hka]), weave_cons_cons, weave_cons_eq]

/-- In-order keys of a node around one child. -/
theorem one_child_inorder {p : Nat} {ka kb : List Int} {L R : List Tr} {Z : Tr}
    (hka : ka.length = L.length) :
    (Tr.node p (ka ++ kb) (L ++ [Z] ++ R)).inorder =
      weave (L.map Tr.inorder) ka ++ Z.inorder ++ weave ([] :: R.map Tr.inorder) kb := by
  simp only [Tr.inorder_node, List.map_append, List.map_cons, List.map_nil,
    List.append_assoc, List.cons_append, List.nil_append]
  rw [weave_append _ _ _ _ (by simp [hka]), weave_cons_eq]

theorem leftBorrow_inorder {xa ya : Nat} {lk sk : List Int} {k kl : Int}
    {lc mv sc : List Tr}
    (hshape : (lc = [] ∧ mv = [] ∧ sc = []) ∨
      (∃ cl, mv = [cl] ∧ lc.length = lk.length + 1)) :
    (Tr.node xa lk lc).inorder ++ kl :: (Tr.node ya (k :: sk) (mv ++ sc)).inorder =
      (Tr.node xa (lk ++ [kl]) (lc ++ mv)).inorder ++ k :: (Tr.node ya sk sc).inorder := by
  simp only [Tr.inorder_node, List.map_append]
  rcases hshape with ⟨rfl, rfl, rfl⟩ | ⟨cl, rfl, h⟩
  · simp
  · rw [weave_merge lk _ _ kl [] (by simpa using h)]
    simp [List.append_assoc]

theorem rightBorrow_inorder {xa ya : Nat} {rk sk : List Int} {k kr : Int}
    {rc mv sc : List Tr}
    (hshape : (rc = [] ∧ mv = [] ∧ sc = []) ∨
      (∃ cr, mv = [cr] ∧ sc.length = sk.length + 1)) :
    (Tr.node xa (sk ++ [k]) (sc ++ mv)).inorder ++ kr :: (Tr.node ya rk rc).inorder =
      (Tr.node xa sk sc).inorder ++ k :: (Tr.node ya (kr :: rk) (mv ++ rc)).inorder := by
  simp only [Tr.inorder_node, List.map_append]
  rcases hshape with ⟨rfl, rfl, rfl⟩ | ⟨cr, rfl, h⟩
  · simp
  · rw [weave_merge sk _ _ k [] (by simpa using h)]
    simp [List.append_assoc]



/-! ## `resolveUnderflow` -/

/-- A well-formed subtree in the hole of a well-formed path: the finished result. -/
theorem UnderflowPost.done {M : Nat} {t t2 : BTree} {rest : List Frame} {P : Tr} {n : Nat}
    {io : List Int}
    (hf : Focus t2 rest P) (hc : CtxOK M n rest) (hw : WFb M n (subLo M n rest) (M - 1) P)
    (hio : (plugAll rest P).inorder = io)
    (hnc : t2.nodeCount = (plugAll rest P).addrs.length)
    (hkc : t2.totalKeyCount = t.totalKeyCount) :
    UnderflowPost M t io (.ok t2) :=
  ⟨t2, plugAll rest P, rfl, hf.toRoot, plugAll_wf rest n P hc hw, hio, hnc, hkc⟩

/-- The end of both merges, on the state in which the merged node `Z` already replaces the
two neighbours below `p` and the freed cell is still counted. -/
theorem mergeTail_spec {M : Nat} (hM : 3 ≤ M) {recurse : BTree → Nat → Except Exn BTree}
    {t : BTree} {hF : Heap} {rest : List Frame} {p s d : Nat} {pk zk : List Int}
    {L R zc : List Tr} {n : Nat} {io : List Int}
    (hf : Focus { t with heap := hF.set d none, nodeCount := t.nodeCount - 1 } rest
      (.node p pk (L ++ [.node s zk zc] ++ R)))
    (hc : CtxOK M (n + 1) rest)
    (hshape : L.length + R.length = pk.length)
    (hwL : ∀ c ∈ L, WF M n c) (hwR : ∀ c ∈ R, WF M n c) (hwZ : WF M n (.node s zk zc))
    (hlo : ctxLo M rest ≤ pk.length + 1) (hhi : pk.length + 1 ≤ M - 1)
    (hio : (plugAll rest (.node p pk (L ++ [.node s zk zc] ++ R))).inorder = io)
    (hnc : t.nodeCount - 1 =
      ((plugAll rest (.node p pk (L ++ [.node s zk zc] ++ R))).addrs.length : Int))
    (hrec : rest ≠ [] → pk.length < minKeys M →
      UnderflowPost M t io
        (recurse { t with heap := hF.set d none, nodeCount := t.nodeCount - 1 } p)) :
    UnderflowPost M t io (mergeTail M recurse t hF p s d) := by
  have hcell := (Stores_node.mp hf.subStored).1
  have hZcell := (Stores_node.mp ((Stores_node.mp hf.subStored).2 (.node s zk zc)
    (by simp))).1
  simp only at hcell hZcell
  have hroot := hf.root_eq_iff
  simp only [Tr.addr_node] at hroot
  have hwP : ∀ lo, lo ≤ pk.length →
      WFb M (n + 1) lo (M - 1) (.node p pk (L ++ [.node s zk zc] ++ R)) := by
    intro lo hlo2
    simp only [WFb, Tr.children_node, Tr.keys_node, List.length_append, List.length_cons,
      List.length_nil]
    refine ⟨by omega, hlo2, by omega, ?_⟩
    intro c hcm
    simp only [List.mem_append, List.mem_singleton] at hcm
    rcases hcm with (h | h) | h
    · exact hwL c h
    · rw [h]; exact hwZ
    · exact hwR c h
  have hps : p ≠ s := by
    intro e
    have := (List.nodup_append.mp hf.nodup).2.1
    simp only [Tr.addrs_node, Tr.addrsL_append, Tr.addrsL_cons, Tr.addrsL_nil,
      List.nodup_cons, List.mem_append, List.mem_cons, not_or] at this
    exact this.1.1.2.1.1 e
  by_cases hr : rest = []
  · subst hr
    have hroot2 : t.root = some p := hroot.mpr rfl
    by_cases hk : pk.length = 0
    · -- root collapse
      have hpk : pk = [] := List.length_eq_zero.mp hk
      have hL : L = [] := List.length_eq_zero.mp (by omega)
      have hR : R = [] := List.length_eq_zero.mp (by omega)
      subst hpk hL hR
      simp only [List.nil_append, List.append_nil] at hf hcell hio hnc
      have hcol := Focus.collapse (t.nodeCount - 1 - 1) hf
      have hexec : mergeTail M recurse t hF p s d = .ok
          { t with heap := ((hF.set d none).set p none).set s
                     (some ⟨zk, zc.map Tr.addr, none⟩),
                   root := some s, nodeCount := t.nodeCount - 1 - 1 } := by
        have h1 : ((hF.set d none).set p none) s =
            some ⟨zk, zc.map Tr.addr, some p⟩ := by
          rw [Heap.set_ne _ _ _ _ hps.symm]; exact hZcell
        simp [mergeTail, Heap.deref, Heap.modify, hcell, hroot2, h1]
      rw [hexec]
      refine ⟨_, .node s zk zc, rfl, hcol, ?_, ?_, ?_, rfl⟩
      · refine ⟨n, ?_⟩
        have hb := hwZ.keys_bounds
        cases n with
        | zero =>
          simp only [WF, WFb] at hwZ ⊢
          exact ⟨hwZ.1, by simp [subLo], hwZ.2.2⟩
        | succ n =>
          simp only [WF, WFb] at hwZ ⊢
          refine ⟨hwZ.1, ?_, hwZ.2.2.1, hwZ.2.2.2⟩
          have := minKeys_pos hM
          have h2 := hwZ.2.1
          simp only [subLo, Nat.succ_ne_zero, if_false]
          omega
      · rw [← hio]
        simp [plugAll, Tr.inorder_node]
      · show t.nodeCount - 1 - 1 = _
        simp only [plugAll, Tr.addrs_node, Tr.addrsL_cons, Tr.addrsL_nil, List.append_nil,
          List.length_cons] at hnc ⊢
        push_cast at hnc ⊢
        omega
    · have hexec : mergeTail M recurse t hF p s d = .ok
          { t with heap := hF.set d none, nodeCount := t.nodeCount - 1 } := by
        have hk2 : pk ≠ [] := fun e => hk (by simp [e])
        simp [mergeTail, Heap.deref, hcell, hroot2, hk2]
      rw [hexec]
      exact UnderflowPost.done hf hc (hwP _ (by simp only [subLo]; simp; omega)) hio hnc rfl
  · have hroot2 : ¬ t.root = some p := fun h => hr (hroot.mp h)
    have hlo2 : minKeys M ≤ pk.length + 1 := by
      cases rest with
      | nil => exact absurd rfl hr
      | cons g gs => simpa [ctxLo] using hlo
    by_cases hk : pk.length < minKeys M
    · have hexec : mergeTail M recurse t hF p s d =
          recurse { t with heap := hF.set d none, nodeCount := t.nodeCount - 1 } p := by
        simp [mergeTail, Heap.deref, hcell, hroot2, hk]
      rw [hexec]
      exact hrec hr hk
    · have hexec : mergeTail M recurse t hF p s d = .ok
          { t with heap := hF.set d none, nodeCount := t.nodeCount - 1 } := by
        simp [mergeTail, Heap.deref, hcell, hroot2, hk]
      rw [hexec]
      refine UnderflowPost.done hf hc (hwP _ ?_) hio hnc rfl
      cases rest with
      | nil => exact absurd rfl hr
      | cons g gs => simp only [subLo]; omega



/-! ## The four repairs of an underflow, on a pair of neighbouring children -/

/-- The parent of a pair of neighbouring children is in shape once both are. -/
theorem pair_parent_wf {M n : Nat} {rest : List Frame} {p : Nat} {ka kb : List Int} {k : Int}
    {L R : List Tr} {X Y : Tr}
    (hka : ka.length = L.length) (hkb : kb.length = R.length)
    (hwL : ∀ c ∈ L, WF M n c) (hwR : ∀ c ∈ R, WF M n c) (hwX : WF M n X) (hwY : WF M n Y)
    (hlo : ctxLo M rest ≤ ka.length + 1 + kb.length)
    (hhi : ka.length + 1 + kb.length ≤ M - 1) :
    WFb M (n + 1) (subLo M (n + 1) rest) (M - 1)
      (.node p (ka ++ k :: kb) (L ++ [X, Y] ++ R)) := by
  rw [subLo_succ_eq_ctxLo]
  simp only [WFb, Tr.children_node, Tr.keys_node, List.length_append, List.length_cons,
    List.length_nil]
  refine ⟨by omega, by omega, by omega, ?_⟩
  intro c hcm
  simp only [List.mem_append, List.mem_cons, List.mem_singleton, List.not_mem_nil,
    or_false] at hcm
  rcases hcm with (h | h | h) | h
  · exact hwL c h
  · rw [h]; exact hwX
  · rw [h]; exact hwY
  · exact hwR c h

/-- The finished result of a borrow: the pair `X2`, `Y2` around the key `k2` replaces the
pair `X`, `Y` around `k`, with the same keys in order and as many nodes. -/
theorem UnderflowPost.borrow {M n : Nat} {t : BTree} {hF : Heap} {rest : List Frame} {p : Nat}
    {ka kb : List Int} {k k2 : Int} {L R : List Tr} (X Y : Tr) {X2 Y2 : Tr}
    (hf2 : Focus { t with heap := hF } rest (.node p (ka ++ k2 :: kb) (L ++ [X2, Y2] ++ R)))
    (hka : ka.length = L.length) (hkb : kb.length = R.length)
    (hc : CtxOK M (n + 1) rest)
    (hwL : ∀ c ∈ L, WF M n c) (hwR : ∀ c ∈ R, WF M n c) (hwX : WF M n X2) (hwY : WF M n Y2)
    (hlo : ctxLo M rest ≤ ka.length + 1 + kb.length)
    (hhi : ka.length + 1 + kb.length ≤ M - 1)
    (hio : X2.inorder ++ k2 :: Y2.inorder = X.inorder ++ k :: Y.inorder)
    (had : X2.addrs.length + Y2.addrs.length = X.addrs.length + Y.addrs.length)
    (hnc : t.nodeCount =
      ((plugAll rest (.node p (ka ++ k :: kb) (L ++ [X, Y] ++ R))).addrs.length : Int)) :
    UnderflowPost M t (plugAll rest (.node p (ka ++ k :: kb) (L ++ [X, Y] ++ R))).inorder
      (.ok { t with heap := hF }) := by
  refine UnderflowPost.done hf2 hc (pair_parent_wf hka hkb hwL hwR hwX hwY hlo hhi) ?_ ?_ rfl
  · apply plugAll_inorder_congr
    rw [two_children_inorder hka, two_children_inorder hka, hio]
  · show t.nodeCount = _
    rw [hnc, plugAll_addrs_length, plugAll_addrs_length]
    simp only [Tr.addrs_node, Tr.addrsL_append, Tr.addrsL_cons, Tr.addrsL_nil,
      List.length_cons, List.length_append, List.append_nil]
    push_cast
    omega

/-- Borrowing from the left neighbour, which has a key to spare. -/
theorem leftBorrow_post {M : Nat} (hM : 3 ≤ M) {n : Nat} {t : BTree} {rest : List Frame}
    {p xa ya : Nat} {ka kb xk yk : List Int} {k : Int} {L R xc yc : List Tr}
    (hf : Focus t rest (.node p (ka ++ k :: kb)
      (L ++ [.node xa xk xc, .node ya yk yc] ++ R)))
    (hka : ka.length = L.length) (hkb : kb.length = R.length)
    (hc : CtxOK M (n + 1) rest)
    (hwL : ∀ c ∈ L, WF M n c) (hwR : ∀ c ∈ R, WF M n c)
    (hwX : WF M n (.node xa xk xc)) (hbig : minKeys M < xk.length)
    (hwY : WFb M n (minKeys M - 1) (minKeys M - 1) (.node ya yk yc))
    (hlo : ctxLo M rest ≤ ka.length + 1 + kb.length)
    (hhi : ka.length + 1 + kb.length ≤ M - 1)
    (hnc : t.nodeCount = ((plugAll rest (.node p (ka ++ k :: kb)
      (L ++ [.node xa xk xc, .node ya yk yc] ++ R))).addrs.length : Int)) :
    UnderflowPost M t (plugAll rest (.node p (ka ++ k :: kb)
        (L ++ [.node xa xk xc, .node ya yk yc] ++ R))).inorder
      (BTree.leftBorrow t p xa ya (L.length + 1)) := by
  have hmin := minKeys_pos hM
  obtain ⟨lk, kl, rfl⟩ : ∃ lk kl, xk = lk ++ [kl] := by
    rcases List.eq_nil_or_concat xk with h | ⟨l, b, h⟩
    · rw [h] at hbig; simp at hbig
    · exact ⟨l, b, by rw [h, List.concat_eq_append]⟩
  simp only [List.length_append, List.length_cons, List.length_nil] at hbig
  cases n with
  | zero =>
    simp only [WF, WFb, Tr.children_node, Tr.keys_node, List.length_append, List.length_cons,
      List.length_nil] at hwX hwY
    obtain ⟨hxc, hx1, hx2⟩ := hwX
    obtain ⟨hyc, hy1, hy2⟩ := hwY
    subst hxc hyc
    have hf0 : Focus t rest (.node p (ka ++ k :: kb)
        (L ++ [.node xa (lk ++ [kl]) ([] ++ []), .node ya yk []] ++ R)) := hf
    obtain ⟨hF, he, hf2⟩ := leftBorrow_spec hf0 hka (Or.inl ⟨rfl, rfl⟩)
    rw [he]
    refine UnderflowPost.borrow (.node xa (lk ++ [kl]) []) (.node ya yk []) hf2 hka hkb hc
      hwL hwR ?_ ?_ hlo hhi (leftBorrow_inorder (Or.inl ⟨rfl, rfl, rfl⟩)) ?_ hnc
    · simp only [WF, WFb, Tr.children_node, Tr.keys_node]
      exact ⟨trivial, by omega, by omega⟩
    · simp only [WF, WFb, Tr.children_node, Tr.keys_node, List.length_cons, List.append_nil]
      exact ⟨trivial, by omega, by omega⟩
    · simp [Tr.addrs_node]
  | succ n =>
    simp only [WF, WFb, Tr.children_node, Tr.keys_node, List.length_append, List.length_cons,
      List.length_nil] at hwX hwY
    obtain ⟨hxc, hx1, hx2, hx3⟩ := hwX
    obtain ⟨hyc, hy1, hy2, hy3⟩ := hwY
    obtain ⟨lc, cl, rfl⟩ : ∃ lc cl, xc = lc ++ [cl] := by
      rcases List.eq_nil_or_concat xc with h | ⟨l, b, h⟩
      · rw [h] at hxc; simp at hxc
      · exact ⟨l, b, by rw [h, List.concat_eq_append]⟩
    have hyne : yc ≠ [] := by
      intro e; rw [e] at hyc; simp at hyc
    simp only [List.length_append, List.length_cons, List.length_nil] at hxc
    obtain ⟨hF, he, hf2⟩ := leftBorrow_spec hf hka (Or.inr ⟨cl, rfl, hyne⟩)
    rw [he]
    refine UnderflowPost.borrow (.node xa (lk ++ [kl]) (lc ++ [cl])) (.node ya yk yc) hf2 hka
      hkb hc hwL hwR ?_ ?_ hlo hhi
      (leftBorrow_inorder (Or.inr ⟨cl, rfl, by omega⟩)) ?_ hnc
    · simp only [WF, WFb, Tr.children_node, Tr.keys_node]
      exact ⟨by omega, by omega, by omega, fun c hc2 => hx3 c (List.mem_append_left _ hc2)⟩
    · simp only [WF, WFb, Tr.children_node, Tr.keys_node, List.length_cons,
        List.length_append, List.length_nil]
      refine ⟨by omega, by omega, by omega, ?_⟩
      intro c hc2
      simp only [List.mem_append, List.mem_singleton] at hc2
      rcases hc2 with h | h
      · rw [h]; exact hx3 cl (by simp)
      · exact hy3 c h
    · simp only [Tr.addrs_node, Tr.addrsL_append, Tr.addrsL_cons, Tr.addrsL_nil,
        List.length_cons, List.length_append, List.append_nil]
      omega

/-- Borrowing from the right neighbour, which has a key to spare. -/
theorem rightBorrow_post {M : Nat} (hM : 3 ≤ M) {n : Nat} {t : BTree} {rest : List Frame}
    {p xa ya : Nat} {ka kb xk yk : List Int} {k : Int} {L R xc yc : List Tr}
    (hf : Focus t rest (.node p (ka ++ k :: kb)
      (L ++ [.node xa xk xc, .node ya yk yc] ++ R)))
    (hka : ka.length = L.length) (hkb : kb.length = R.length)
    (hc : CtxOK M (n + 1) rest)
    (hwL : ∀ c ∈ L, WF M n c) (hwR : ∀ c ∈ R, WF M n c)
    (hwX : WFb M n (minKeys M - 1) (minKeys M - 1) (.node xa xk xc))
    (hwY : WF M n (.node ya yk yc)) (hbig : minKeys M < yk.length)
    (hlo : ctxLo M rest ≤ ka.length + 1 + kb.length)
    (hhi : ka.length + 1 + kb.length ≤ M - 1)
    (hnc : t.nodeCount = ((plugAll rest (.node p (ka ++ k :: kb)
      (L ++ [.node xa xk xc, .node ya yk yc] ++ R))).addrs.length : Int)) :
    UnderflowPost M t (plugAll rest (.node p (ka ++ k :: kb)
        (L ++ [.node xa xk xc, .node ya yk yc] ++ R))).inorder
      (BTree.rightBorrow t p ya xa L.length) := by
  have hmin := minKeys_pos hM
  obtain ⟨kr, rk, rfl⟩ : ∃ kr rk, yk = kr :: rk := by
    cases yk with
    | nil => simp at hbig
    | cons a l => exact ⟨a, l, rfl⟩
  simp only [List.length_cons] at hbig
  cases n with
  | zero =>
    simp only [WF, WFb, Tr.children_node, Tr.keys_node, List.length_cons] at hwX hwY
    obtain ⟨hxc, hx1, hx2⟩ := hwX
    obtain ⟨hyc, hy1, hy2⟩ := hwY
    subst hxc hyc
    have hf0 : Focus t rest (.node p (ka ++ k :: kb)
        (L ++ [.node xa xk [], .node ya (kr :: rk) ([] ++ [])] ++ R)) := hf
    obtain ⟨hF, he, hf2⟩ := rightBorrow_spec hf0 hka (Or.inl ⟨rfl, rfl⟩)
    rw [he]
    refine UnderflowPost.borrow (.node xa xk []) (.node ya (kr :: rk) []) hf2 hka hkb hc
      hwL hwR ?_ ?_ hlo hhi (rightBorrow_inorder (Or.inl ⟨rfl, rfl, rfl⟩)) ?_ hnc
    · simp only [WF, WFb, Tr.children_node, Tr.keys_node, List.length_append,
        List.length_cons, List.length_nil, List.append_nil]
      exact ⟨trivial, by omega, by omega⟩
    · simp only [WF, WFb, Tr.children_node, Tr.keys_node]
      exact ⟨trivial, by omega, by omega⟩
    · simp [Tr.addrs_node]
  | succ n =>
    simp only [WF, WFb, Tr.children_node, Tr.keys_node, List.length_cons] at hwX hwY
    obtain ⟨hxc, hx1, hx2, hx3⟩ := hwX
    obtain ⟨hyc, hy1, hy2, hy3⟩ := hwY
    obtain ⟨cr, rc, rfl⟩ : ∃ cr rc, yc = cr :: rc := by
      cases yc with
      | nil => simp at hyc
      | cons a l => exact ⟨a, l, rfl⟩
    have hxne : xc ≠ [] := by
      intro e; rw [e] at hxc; simp at hxc
    simp only [List.length_cons] at hyc
    have hf0 : Focus t rest (.node p (ka ++ k :: kb)
        (L ++ [.node xa xk xc, .node ya (kr :: rk) ([cr] ++ rc)] ++ R)) := hf
    obtain ⟨hF, he, hf2⟩ := rightBorrow_spec hf0 hka (Or.inr ⟨cr, rfl, hxne⟩)
    rw [he]
    refine UnderflowPost.borrow (.node xa xk xc) (.node ya (kr :: rk) (cr :: rc)) hf2 hka
      hkb hc hwL hwR ?_ ?_ hlo hhi
      (rightBorrow_inorder (Or.inr ⟨cr, rfl, by omega⟩)) ?_ hnc
    · simp only [WF, WFb, Tr.children_node, Tr.keys_node, List.length_cons,
        List.length_append, List.length_nil]
      refine ⟨by omega, by omega, by omega, ?_⟩
      intro c hc2
      simp only [List.mem_append, List.mem_singleton] at hc2
      rcases hc2 with h | h
      · exact hx3 c h
      · rw [h]; exact hy3 cr (by simp)
    · simp only [WF, WFb, Tr.children_node, Tr.keys_node]
      exact ⟨by omega, by omega, by omega, fun c hc2 => hy3 c (List.mem_cons_of_mem _ hc2)⟩
    · simp only [Tr.addrs_node, Tr.addrsL_append, Tr.addrsL_cons, Tr.addrsL_nil,
        List.length_cons, List.length_append, List.append_nil]
      omega



/-! ## Merging two neighbouring children -/

theorem WFb.mono {M n lo hi lo2 hi2 : Nat} {t : Tr} (h : WFb M n lo hi t) (h1 : lo2 ≤ lo)
    (h2 : hi ≤ hi2) : WFb M n lo2 hi2 t := by
  cases n with
  | zero =>
    simp only [WFb] at h ⊢
    exact ⟨h.1, by omega, by omega⟩
  | succ n =>
    simp only [WFb] at h ⊢
    exact ⟨h.1, by omega, by omega, h.2.2.2⟩

theorem UnderflowPost.counters {M : Nat} {t t1 : BTree} {io : List Int}
    {r : Except Exn BTree} (h : UnderflowPost M t1 io r)
    (e : t1.totalKeyCount = t.totalKeyCount) : UnderflowPost M t io r := by
  obtain ⟨t2, T2, h1, h2, h3, h4, h5, h6⟩ := h
  exact ⟨t2, T2, h1, h2, h3, h4, h5, h6.trans e⟩

/-- The node made of two neighbours and the key between them is in shape. -/
theorem merged_wf {M n : Nat} {s xa ya : Nat} {xk yk : List Int} {k : Int} {xc yc : List Tr}
    (hwX : WFb M n 0 (M - 1) (.node xa xk xc)) (hwY : WFb M n 0 (M - 1) (.node ya yk yc))
    (hsum : xk.length + yk.length + 1 = 2 * minKeys M) :
    WF M n (.node s (xk ++ k :: yk) (xc ++ yc)) := by
  have h2 : 2 * minKeys M ≤ M - 1 := by unfold minKeys; omega
  cases n with
  | zero =>
    simp only [WF, WFb, Tr.children_node, Tr.keys_node, List.length_append,
      List.length_cons] at hwX hwY ⊢
    refine ⟨by simp [hwX.1, hwY.1], by omega, by omega⟩
  | succ n =>
    simp only [WF, WFb, Tr.children_node, Tr.keys_node, List.length_append,
      List.length_cons] at hwX hwY ⊢
    refine ⟨by omega, by omega, by omega, ?_⟩
    intro c hc
    rcases List.mem_append.mp hc with h | h
    · exact hwX.2.2.2 c h
    · exact hwY.2.2.2 c h

/-- The end of a merge from the state in which the merged node is in place. -/
theorem merge_post {M : Nat} (hM : 3 ≤ M) {n : Nat}
    {recurse : BTree → Nat → Except Exn BTree} {t : BTree} {hF : Heap} {rest : List Frame}
    {p s d xa ya : Nat} {ka kb xk yk : List Int} {k : Int} {L R xc yc : List Tr}
    (hf1 : Focus { t with heap := hF.set d none, nodeCount := t.nodeCount - 1 } rest
      (.node p (ka ++ kb) (L ++ [.node s (xk ++ k :: yk) (xc ++ yc)] ++ R)))
    (hka : ka.length = L.length) (hkb : kb.length = R.length)
    (hc : CtxOK M (n + 1) rest)
    (hwL : ∀ c ∈ L, WF M n c) (hwR : ∀ c ∈ R, WF M n c)
    (hwX : WFb M n 0 (M - 1) (.node xa xk xc)) (hwY : WFb M n 0 (M - 1) (.node ya yk yc))
    (hsum : xk.length + yk.length + 1 = 2 * minKeys M)
    (hlo : ctxLo M rest ≤ ka.length + 1 + kb.length)
    (hhi : ka.length + 1 + kb.length ≤ M - 1)
    (hnc : t.nodeCount = ((plugAll rest (.node p (ka ++ k :: kb)
      (L ++ [.node xa xk xc, .node ya yk yc] ++ R))).addrs.length : Int))
    (hrec : rest ≠ [] → ∀ (t1 : BTree) (P1 : Tr), Focus t1 rest P1 → P1.addr = p →
      WFb M (n + 1) (minKeys M - 1) (minKeys M - 1) P1 →
      t1.nodeCount = ((plugAll rest P1).addrs.length : Int) →
      UnderflowPost M t1 (plugAll rest P1).inorder (recurse t1 p)) :
    UnderflowPost M t (plugAll rest (.node p (ka ++ k :: kb)
        (L ++ [.node xa xk xc, .node ya yk yc] ++ R))).inorder
      (mergeTail M recurse t hF p s d) := by
  have hwZ := merged_wf (s := s) (k := k) hwX hwY hsum
  have hshape : (xc = [] ∧ yc = []) ∨ xc.length = xk.length + 1 := by
    cases n with
    | zero => exact Or.inl ⟨hwX.1, hwY.1⟩
    | succ n => exact Or.inr hwX.1
  have hio : (plugAll rest (.node p (ka ++ kb)
      (L ++ [.node s (xk ++ k :: yk) (xc ++ yc)] ++ R))).inorder =
      (plugAll rest (.node p (ka ++ k :: kb)
        (L ++ [.node xa xk xc, .node ya yk yc] ++ R))).inorder := by
    apply plugAll_inorder_congr
    rw [two_children_inorder hka, one_child_inorder hka, merge_inorder hshape]
  have hnc2 : t.nodeCount - 1 = ((plugAll rest (.node p (ka ++ kb)
      (L ++ [.node s (xk ++ k :: yk) (xc ++ yc)] ++ R))).addrs.length : Int) := by
    rw [hnc, plugAll_addrs_length, plugAll_addrs_length]
    simp only [Tr.addrs_node, Tr.addrsL_append, Tr.addrsL_cons, Tr.addrsL_nil,
      List.length_cons, List.length_append, List.append_nil]
    push_cast
    omega
  refine mergeTail_spec hM hf1 hc (by simp; omega) hwL hwR hwZ
    (by simp; omega) (by simp; omega) hio hnc2 ?_
  intro hr hlt
  have hlo2 : minKeys M ≤ ka.length + 1 + kb.length := by
    cases rest with
    | nil => exact absurd rfl hr
    | cons g gs => simpa [ctxLo] using hlo
  simp only [List.length_append] at hlt
  have hw1 : WFb M (n + 1) (minKeys M - 1) (minKeys M - 1)
      (.node p (ka ++ kb) (L ++ [.node s (xk ++ k :: yk) (xc ++ yc)] ++ R)) := by
    simp only [WFb, Tr.children_node, Tr.keys_node, List.length_append, List.length_cons,
      List.length_nil]
    refine ⟨by omega, by omega, by omega, ?_⟩
    intro c hcm
    simp only [List.mem_append, List.mem_singleton] at hcm
    rcases hcm with (h | h) | h
    · exact hwL c h
    · rw [h]; exact hwZ
    · exact hwR c h
  have := hrec hr _ _ hf1 rfl hw1 hnc2
  rw [hio] at this
  exact this.counters rfl

/-- Merging the underflowing node into its left neighbour. -/
theorem leftMerge_post {M : Nat} (hM : 3 ≤ M) {n : Nat}
    {recurse : BTree → Nat → Except Exn BTree} {t : BTree} {rest : List Frame}
    {p xa ya : Nat} {ka kb xk yk : List Int} {k : Int} {L R xc yc : List Tr}
    (hf : Focus t rest (.node p (ka ++ k :: kb)
      (L ++ [.node xa xk xc, .node ya yk yc] ++ R)))
    (hka : ka.length = L.length) (hkb : kb.length = R.length)
    (hc : CtxOK M (n + 1) rest)
    (hwL : ∀ c ∈ L, WF M n c) (hwR : ∀ c ∈ R, WF M n c)
    (hwX : WFb M n 0 (M - 1) (.node xa xk xc)) (hwY : WFb M n 0 (M - 1) (.node ya yk yc))
    (hsum : xk.length + yk.length + 1 = 2 * minKeys M)
    (hlo : ctxLo M rest ≤ ka.length + 1 + kb.length)
    (hhi : ka.length + 1 + kb.length ≤ M - 1)
    (hnc : t.nodeCount = ((plugAll rest (.node p (ka ++ k :: kb)
      (L ++ [.node xa xk xc, .node ya yk yc] ++ R))).addrs.length : Int))
    (hrec : rest ≠ [] → ∀ (t1 : BTree) (P1 : Tr), Focus t1 rest P1 → P1.addr = p →
      WFb M (n + 1) (minKeys M - 1) (minKeys M - 1) P1 →
      t1.nodeCount = ((plugAll rest P1).addrs.length : Int) →
      UnderflowPost M t1 (plugAll rest P1).inorder (recurse t1 p)) :
    UnderflowPost M t (plugAll rest (.node p (ka ++ k :: kb)
        (L ++ [.node xa xk xc, .node ya yk yc] ++ R))).inorder
      (BTree.leftMerge M recurse t p xa ya (L.length + 1)) := by
  have hshape : xc = [] ↔ yc = [] := by
    cases n with
    | zero => exact ⟨fun _ => hwY.1, fun _ => hwX.1⟩
    | succ n =>
      have h1 := hwX.1
      have h2 := hwY.1
      simp only [Tr.children_node] at h1 h2
      constructor
      · intro e; rw [e] at h1; simp at h1
      · intro e; rw [e] at h2; simp at h2
  refine leftMerge_exec hf hka hshape _ ?_
  intro hF g1 g2 _ g4 g5
  exact merge_post hM (Focus.merge_left (t.nodeCount - 1) hf g1 g2 g4 g5) hka hkb hc
    hwL hwR hwX hwY hsum hlo hhi hnc hrec

/-- Merging the right neighbour into the underflowing node. -/
theorem rightMerge_post {M : Nat} (hM : 3 ≤ M) {n : Nat}
    {recurse : BTree → Nat → Except Exn BTree} {t : BTree} {rest : List Frame}
    {p xa ya : Nat} {ka kb xk yk : List Int} {k : Int} {L R xc yc : List Tr}
    (hf : Focus t rest (.node p (ka ++ k :: kb)
      (L ++ [.node xa xk xc, .node ya yk yc] ++ R)))
    (hka : ka.length = L.length) (hkb : kb.length = R.length)
    (hc : CtxOK M (n + 1) rest)
    (hwL : ∀ c ∈ L, WF M n c) (hwR : ∀ c ∈ R, WF M n c)
    (hwX : WFb M n 0 (M - 1) (.node xa xk xc)) (hwY : WFb M n 0 (M - 1) (.node ya yk yc))
    (hsum : xk.length + yk.length + 1 = 2 * minKeys M)
    (hlo : ctxLo M rest ≤ ka.length + 1 + kb.length)
    (hhi : ka.length + 1 + kb.length ≤ M - 1)
    (hnc : t.nodeCount = ((plugAll rest (.node p (ka ++ k :: kb)
      (L ++ [.node xa xk xc, .node ya yk yc] ++ R))).addrs.length : Int))
    (hrec : rest ≠ [] → ∀ (t1 : BTree) (P1 : Tr), Focus t1 rest P1 → P1.addr = p →
      WFb M (n + 1) (minKeys M - 1) (minKeys M - 1) P1 →
      t1.nodeCount = ((plugAll rest P1).addrs.length : Int) →
      UnderflowPost M t1 (plugAll rest P1).inorder (recurse t1 p)) :
    UnderflowPost M t (plugAll rest (.node p (ka ++ k :: kb)
        (L ++ [.node xa xk xc, .node ya yk yc] ++ R))).inorder
      (BTree.rightMerge M recurse t p ya xa L.length) := by
  have hshape : xc = [] ↔ yc = [] := by
    cases n with
    | zero => exact ⟨fun _ => hwY.1, fun _ => hwX.1⟩
    | succ n =>
      have h1 := hwX.1
      have h2 := hwY.1
      simp only [Tr.children_node] at h1 h2
      constructor
      · intro e; rw [e] at h1; simp at h1
      · intro e; rw [e] at h2; simp at h2
  refine rightMerge_exec hf hka hshape _ ?_
  intro hF g1 g2 _ g4 g5
  exact merge_post hM (Focus.merge_right (t.nodeCount - 1) hf g1 g2 g4 g5)
    hka hkb hc hwL hwR hwX hwY hsum hlo hhi hnc hrec



/-! ## Which repair `resolveUnderflow` chooses -/

theorem findUnderIndex_spec (a : Nat) (B : List Nat) :
    ∀ (A : List Nat) (u i : Nat), a ∉ A → findUnderIndex a u i (A ++ a :: B) = i + A.length := by
  intro A
  induction A with
  | nil => intro u i _; simp [findUnderIndex]
  | cons c A ih =>
    intro u i h
    simp only [List.mem_cons, not_or] at h
    have hc : c ≠ a := fun e => h.1 e.symm
    have e : findUnderIndex a u i (c :: (A ++ a :: B)) =
        findUnderIndex a i (i + 1) (A ++ a :: B) := by
      simp [findUnderIndex, hc]
    rw [List.cons_append, e, ih i (i + 1) h.2, List.length_cons]
    omega

theorem vecBack_append_cons {α : Type} (A : List α) (y : α) (B : List α) :
    ∃ l, vecBack (A ++ y :: B) = .ok l ∧ l ∈ y :: B := by
  rcases List.eq_nil_or_concat (y :: B) with h | ⟨init, z, h⟩
  · simp at h
  · rw [List.concat_eq_append] at h
    refine ⟨z, ?_, ?_⟩
    · rw [h, ← List.append_assoc]
      exact vecBack_append_singleton _ _
    · rw [h]; simp

/-- The underflowing node is the first child: the right neighbour lends or is merged. -/
theorem resolveUnderflow_first (M fuel : Nat) {t : BTree} {a p ya : Nat}
    {sk pk yk : List Int} {scs ycs B : List Nat} {pp yp : Option Nat}
    (hn1 : t.nodeCount ≠ 1)
    (ha : t.heap a = some ⟨sk, scs, some p⟩)
    (hp : t.heap p = some ⟨pk, a :: ya :: B, pp⟩)
    (hy : t.heap ya = some ⟨yk, ycs, yp⟩) :
    (minKeys M < yk.length →
      BTree.resolveUnderflow M (fuel + 1) t a = BTree.rightBorrow t p ya a 0) ∧
    (yk.length = minKeys M →
      BTree.resolveUnderflow M (fuel + 1) t a =
        BTree.rightMerge M (BTree.resolveUnderflow M fuel) t p ya a 0) := by
  constructor
  · intro h
    simp [BTree.resolveUnderflow, hn1, Heap.deref, ha, hp, hy, findUnderIndex, vecGet, h]
  · intro h
    simp [BTree.resolveUnderflow, hn1, Heap.deref, ha, hp, hy, findUnderIndex, vecGet, h]

/-- The underflowing node has a left neighbour with a key to spare. -/
theorem resolveUnderflow_leftBorrow (M fuel : Nat) {t : BTree} {a p xa : Nat}
    {sk pk xk : List Int} {scs xcs A B : List Nat} {pp xp : Option Nat}
    (hn1 : t.nodeCount ≠ 1)
    (ha : t.heap a = some ⟨sk, scs, some p⟩)
    (hp : t.heap p = some ⟨pk, A ++ xa :: a :: B, pp⟩)
    (hx : t.heap xa = some ⟨xk, xcs, xp⟩)
    (haA : a ∉ A) (hxa : xa ≠ a) (hbig : minKeys M < xk.length) :
    BTree.resolveUnderflow M (fuel + 1) t a = BTree.leftBorrow t p xa a (A.length + 1) := by
  have hi : findUnderIndex a 0 0 (A ++ xa :: a :: B) = A.length + 1 := by
    have := findUnderIndex_spec a B (A ++ [xa]) 0 0 (by simp [haA, Ne.symm hxa])
    simpa using this
  have hg : vecGet (A ++ xa :: a :: B) A.length = .ok xa := vecGet_append_cons _ _ _ _ rfl
  simp [BTree.resolveUnderflow, hn1, Heap.deref, ha, hp, hx, hi, hg, hbig]

/-- The underflowing node is the last child and its left neighbour has no key to spare. -/
theorem resolveUnderflow_leftMerge_last (M fuel : Nat) {t : BTree} {a p xa : Nat}
    {sk pk xk : List Int} {scs xcs A : List Nat} {pp xp : Option Nat}
    (hn1 : t.nodeCount ≠ 1)
    (ha : t.heap a = some ⟨sk, scs, some p⟩)
    (hp : t.heap p = some ⟨pk, A ++ xa :: a :: [], pp⟩)
    (hx : t.heap xa = some ⟨xk, xcs, xp⟩)
    (haA : a ∉ A) (hxa : xa ≠ a) (hmin : xk.length = minKeys M) :
    BTree.resolveUnderflow M (fuel + 1) t a =
      BTree.leftMerge M (BTree.resolveUnderflow M fuel) t p xa a (A.length + 1) := by
  have hi : findUnderIndex a 0 0 (A ++ xa :: a :: []) = A.length + 1 := by
    have := findUnderIndex_spec a [] (A ++ [xa]) 0 0 (by simp [haA, Ne.symm hxa])
    simpa using this
  have hg : vecGet (A ++ xa :: a :: []) A.length = .ok xa := vecGet_append_cons _ _ _ _ rfl
  have hb : vecBack (A ++ xa :: a :: []) = .ok a := by
    have := vecBack_append_singleton (A ++ [xa]) a
    simpa using this
  simp [BTree.resolveUnderflow, hn1, Heap.deref, ha, hp, hx, hi, hg, hb, hmin]

/-- The underflowing node lies between two neighbours and the left one has no key to
spare: the right one lends if it can, else the node is merged into the left one. -/
theorem resolveUnderflow_middle (M fuel : Nat) {t : BTree} {a p xa ya : Nat}
    {sk pk xk yk : List Int} {scs xcs ycs A B : List Nat} {pp xp yp : Option Nat}
    (hn1 : t.nodeCount ≠ 1)
    (ha : t.heap a = some ⟨sk, scs, some p⟩)
    (hp : t.heap p = some ⟨pk, A ++ xa :: a :: ya :: B, pp⟩)
    (hx : t.heap xa = some ⟨xk, xcs, xp⟩)
    (hy : t.heap ya = some ⟨yk, ycs, yp⟩)
    (haA : a ∉ A) (hxa : xa ≠ a) (haB : a ∉ ya :: B) (hmin : xk.length = minKeys M) :
    (minKeys M < yk.length →
      BTree.resolveUnderflow M (fuel + 1) t a = BTree.rightBorrow t p ya a (A.length + 1)) ∧
    (¬ minKeys M < yk.length →
      BTree.resolveUnderflow M (fuel + 1) t a =
        BTree.leftMerge M (BTree.resolveUnderflow M fuel) t p xa a (A.length + 1)) := by
  have hi : findUnderIndex a 0 0 (A ++ xa :: a :: ya :: B) = A.length + 1 := by
    have := findUnderIndex_spec a (ya :: B) (A ++ [xa]) 0 0 (by simp [haA, Ne.symm hxa])
    simpa using this
  have hg : vecGet (A ++ xa :: a :: ya :: B) A.length = .ok xa :=
    vecGet_append_cons _ _ _ _ rfl
  have hg2 : vecGet (A ++ xa :: a :: ya :: B) (A.length + 1 + 1) = .ok ya := by
    have := vecGet_append_cons (A ++ [xa, a]) B ya (A.length + 1 + 1) (by simp)
    simpa using this
  obtain ⟨l, hb, hl⟩ := vecBack_append_cons (A ++ [xa, a]) ya B
  have hb2 : vecBack (A ++ xa :: a :: ya :: B) = .ok l := by simpa using hb
  have hal : a ≠ l := fun e => haB (e ▸ hl)
  constructor
  · intro h
    simp [BTree.resolveUnderflow, hn1, Heap.deref, ha, hp, hx, hy, hi, hg, hg2, hb2, hal, hmin,
      h]
  · intro h
    simp [BTree.resolveUnderflow, hn1, Heap.deref, ha, hp, hx, hy, hi, hg, hg2, hb2, hal, hmin,
      h]



/-! ## `resolveUnderflow` restores the shape -/

theorem Focus.hole_not_right {t : BTree} {rest : List Frame} {p : Nat} {pk : List Int}
    {L R : List Tr} {c : Tr} (hf : Focus t rest (.node p pk (L ++ c :: R))) :
    c.addr ∉ R.map Tr.addr := by
  have hn : (Tr.addrsL (L ++ c :: R)).Nodup := by
    have := (List.nodup_append.mp hf.nodup).2.1
    rw [Tr.addrs_node] at this
    exact (List.nodup_cons.mp this).2
  intro h
  obtain ⟨d, hd, e⟩ := List.mem_map.mp h
  have hcd : c = d := Tr.eq_of_addr_eq hn (by simp) (by simp [hd]) e.symm
  have hn2 : (Tr.addrsL ((L ++ [c]) ++ R)).Nodup := by simpa using hn
  exact Tr.not_mem_of_nodup_append hn2 (by simp) (hcd ▸ hd)

theorem split_at_length (pk : List Int) (m : Nat) (h : m < pk.length) :
    ∃ ka k kb, pk = ka ++ k :: kb ∧ ka.length = m :=
  ⟨pk.take m, pk[m], pk.drop (m + 1), by
    rw [← List.drop_eq_getElem_cons h, List.take_append_drop], by
    rw [List.length_take]; omega⟩

/-- Underflow resolution at a node with one key too few, everything else being in shape,
returns a well-formed tree with the same keys in order. -/
theorem resolveUnderflow_spec {M : Nat} (hM : 3 ≤ M) :
    ∀ (ctx : List Frame) (n fuel : Nat) (t : BTree) (sub : Tr), ctx ≠ [] →
      Focus t ctx sub → CtxOK M n ctx → WFb M n (minKeys M - 1) (minKeys M - 1) sub →
      t.nodeCount = ((plugAll ctx sub).addrs.length : Int) → ctx.length ≤ fuel →
      UnderflowPost M t (plugAll ctx sub).inorder
        (BTree.resolveUnderflow M fuel t sub.addr) := by
  intro ctx
  induction ctx with
  | nil => intro n fuel t sub h; exact absurd rfl h
  | cons f rest ih =>
    intro n fuel t sub _ hf hc hw hnc hfuel
    obtain ⟨fuel, rfl⟩ : ∃ k, fuel = k + 1 :=
      ⟨fuel - 1, by simp only [List.length_cons] at hfuel; omega⟩
    simp only [List.length_cons, Nat.add_le_add_iff_right] at hfuel
    obtain ⟨p, pk, Lf, Rf⟩ := f
    obtain ⟨a, sk, sc⟩ := sub
    obtain ⟨⟨hlen, hwL, hwR⟩, hlo, hhi, hc2⟩ := hc
    simp only at hlen hwL hwR hlo hhi
    have hmin := minKeys_pos hM
    have hsb := hw.keys_bounds
    simp only [Tr.keys_node] at hsb
    have hfu := hf.up
    have hn1 : t.nodeCount ≠ 1 := by
      rw [hnc, plugAll_addrs_length]
      simp only [ctxAddrs, Frame.addrs, Tr.addrs_node, List.length_cons, List.length_append]
      push_cast
      omega
    have hrec : rest ≠ [] → ∀ (t1 : BTree) (P1 : Tr), Focus t1 rest P1 → P1.addr = p →
        WFb M (n + 1) (minKeys M - 1) (minKeys M - 1) P1 →
        t1.nodeCount = ((plugAll rest P1).addrs.length : Int) →
        UnderflowPost M t1 (plugAll rest P1).inorder (BTree.resolveUnderflow M fuel t1 p) := by
      intro hr t1 P1 h1 h2 h3 h4
      have := ih (n + 1) fuel t1 P1 hr h1 hc2 h3 h4 hfuel
      rwa [h2] at this
    have hlo1 : 1 ≤ pk.length := by
      cases rest with
      | nil => simpa [ctxLo] using hlo
      | cons g gs => simp only [ctxLo] at hlo; omega
    simp only [plugAll, Frame.plug, Tr.addr_node] at hfu hnc ⊢
    rcases List.eq_nil_or_concat Lf with hL | ⟨L, X, hL⟩
    · -- the underflowing node is the first child
      subst hL
      obtain ⟨Y, R, rfl⟩ : ∃ Y R, Rf = Y :: R := by
        cases Rf with
        | nil => simp at hlen; omega
        | cons Y R => exact ⟨Y, R, rfl⟩
      obtain ⟨k, kb, rfl⟩ : ∃ k kb, pk = k :: kb := by
        cases pk with
        | nil => simp at hlo1
        | cons k kb => exact ⟨k, kb, rfl⟩
      obtain ⟨ya, yk, yc⟩ := Y
      simp only [List.length_nil, List.length_cons, Nat.zero_add] at hlen
      have hf2 : Focus t rest (.node p ([] ++ k :: kb)
          ([] ++ [.node a sk sc, .node ya yk yc] ++ R)) := hfu
      have hnc2 : t.nodeCount = ((plugAll rest (.node p ([] ++ k :: kb)
          ([] ++ [.node a sk sc, .node ya yk yc] ++ R))).addrs.length : Int) := hnc
      obtain ⟨h1, h2, h3, -⟩ := hf2.two_facts
      have hev := resolveUnderflow_first M fuel hn1 h2
        (by simpa using h1) h3
      have hwY : WF M n (.node ya yk yc) := hwR _ (by simp)
      have hyb := hwY.keys_bounds
      simp only [Tr.keys_node] at hyb
      have hwR2 : ∀ c ∈ R, WF M n c := fun c hc => hwR c (List.mem_cons_of_mem _ hc)
      have hlo2 : ctxLo M rest ≤ ([] : List Int).length + 1 + kb.length := by
        simpa [Nat.add_comm] using hlo
      have hhi2 : ([] : List Int).length + 1 + kb.length ≤ M - 1 := by
        simpa [Nat.add_comm] using hhi
      show UnderflowPost M t (plugAll rest (.node p ([] ++ k :: kb)
          ([] ++ [.node a sk sc, .node ya yk yc] ++ R))).inorder _
      by_cases hbig : minKeys M < yk.length
      · rw [hev.1 hbig]
        exact rightBorrow_post hM hf2 rfl (by omega) hc2 (by simp) hwR2 hw hwY hbig hlo2 hhi2
          hnc2
      · rw [hev.2 (by omega)]
        exact rightMerge_post hM hf2 rfl (by omega) hc2 (by simp) hwR2
          (hw.mono (by omega) (by omega)) (hwY.mono (by omega) (by omega)) (by omega)
          hlo2 hhi2 hnc2 hrec
    · -- the underflowing node has a left neighbour
      rw [List.concat_eq_append] at hL
      subst hL
      obtain ⟨xa, xk, xc⟩ := X
      simp only [List.length_append, List.length_cons, List.length_nil] at hlen
      obtain ⟨ka, k, kb, rfl, hka⟩ := split_at_length pk L.length (by omega)
      simp only [List.length_append, List.length_cons] at hlen hlo hhi
      have hkb : kb.length = Rf.length := by omega
      have e : (L ++ [Tr.node xa xk xc]) ++ Tr.node a sk sc :: Rf =
          L ++ [Tr.node xa xk xc, Tr.node a sk sc] ++ Rf := by simp
      rw [e] at hfu hnc ⊢
      obtain ⟨h1, h2, h3, -, -, hxa, -, haL, -⟩ := hfu.two_facts
      have hwX : WF M n (.node xa xk xc) := hwL _ (by simp)
      have hxb := hwX.keys_bounds
      simp only [Tr.keys_node] at hxb
      have hwL2 : ∀ c ∈ L, WF M n c := fun c hc => hwL c (List.mem_append_left _ hc)
      have hlL : (L.map Tr.addr).length = L.length := List.length_map _ _
      by_cases hbig : minKeys M < xk.length
      · have hev := resolveUnderflow_leftBorrow M fuel hn1 h3 h1 h2 haL hxa
          hbig
        rw [hlL] at hev
        rw [hev]
        exact leftBorrow_post hM hfu hka hkb hc2 hwL2 hwR hwX hbig hw (by omega) (by omega) hnc
      · have hxmin : xk.length = minKeys M := by omega
        cases Rf with
        | nil =>
          have hev := resolveUnderflow_leftMerge_last M fuel hn1 h3
            (by simpa using h1) h2 haL hxa hxmin
          rw [hlL] at hev
          rw [hev]
          exact leftMerge_post hM hfu hka hkb hc2 hwL2 hwR (hwX.mono (by omega) (by omega))
            (hw.mono (by omega) (by omega)) (by omega) (by omega) (by omega) hnc hrec
        | cons Y R =>
          obtain ⟨ya, yk, yc⟩ := Y
          have hwY : WF M n (.node ya yk yc) := hwR _ (by simp)
          have hyb := hwY.keys_bounds
          simp only [Tr.keys_node] at hyb
          have hwR2 : ∀ c ∈ R, WF M n c := fun c hc => hwR c (List.mem_cons_of_mem _ hc)
          simp only [List.length_cons] at hkb
          obtain ⟨k2, kb2, rfl⟩ : ∃ k2 kb2, kb = k2 :: kb2 := by
            cases kb with
            | nil => simp at hkb
            | cons k2 kb2 => exact ⟨k2, kb2, rfl⟩
          simp only [List.length_cons] at hkb hlen hlo hhi
          have e1 : ka ++ k :: k2 :: kb2 = (ka ++ [k]) ++ k2 :: kb2 := by simp
          have e2 : L ++ [Tr.node xa xk xc, Tr.node a sk sc] ++ Tr.node ya yk yc :: R =
              (L ++ [Tr.node xa xk xc]) ++ [Tr.node a sk sc, Tr.node ya yk yc] ++ R := by simp
          have hf3 := hfu
          rw [e1, e2] at hf3
          obtain ⟨-, -, hy, -⟩ := hf3.two_facts
          have haB : a ∉ (Tr.node ya yk yc :: R).map Tr.addr := by
            have hf4 := hfu
            have e3 : L ++ [Tr.node xa xk xc, Tr.node a sk sc] ++ Tr.node ya yk yc :: R =
                (L ++ [Tr.node xa xk xc]) ++ Tr.node a sk sc :: (Tr.node ya yk yc :: R) := by
              simp
            rw [e3] at hf4
            exact hf4.hole_not_right
          obtain hev := resolveUnderflow_middle M fuel hn1 h3
            (by simpa using h1) h2 hy haL hxa (by simpa using haB) hxmin
          rw [hlL] at hev
          by_cases hbig2 : minKeys M < yk.length
          · rw [hev.1 hbig2]
            have hnc3 := hnc
            rw [e1, e2] at hnc3
            have hwL3 : ∀ c ∈ L ++ [Tr.node xa xk xc], WF M n c := hwL
            have := rightBorrow_post hM hf3 (by simp [hka]) (by omega) hc2 hwL3 hwR2 hw hwY
              hbig2 (by simp; omega) (by simp; omega) hnc3
            rw [← e1, ← e2] at this
            simpa using this
          · rw [hev.2 hbig2]
            exact leftMerge_post hM hfu hka (by simp; omega) hc2 hwL2 hwR
              (hwX.mono (by omega) (by omega)) (hw.mono (by omega) (by omega)) (by omega)
              (by simp; omega) (by simp; omega) hnc hrec



/-! ## Ingredients of `remove` -/

theorem Heap.set_set (h : Heap) (a : Nat) (v w : Option BTreeNode) :
    (h.set a v).set a w = h.set a w := by
  funext x
  simp only [Heap.set]
  split <;> rfl

/-- Moving the focus up or down several frames at once. -/
theorem Focus.ups {t : BTree} (ctx : List Frame) :
    ∀ (xs : List Frame) (c : Tr), Focus t (xs ++ ctx) c ↔ Focus t ctx (plugAll xs c) := by
  intro xs
  induction xs with
  | nil => intro c; simp [plugAll]
  | cons f xs ih =>
    intro c
    rw [List.cons_append]
    constructor
    · intro h
      exact (ih (f.plug c)).mp h.up
    · intro h
      exact ((ih (f.plug c)).mpr h).down

theorem plugAll_append (xs ys : List Frame) (c : Tr) :
    plugAll (xs ++ ys) c = plugAll ys (plugAll xs c) := by
  induction xs generalizing c with
  | nil => rfl
  | cons f xs ih => exact ih (f.plug c)

/-- Replacing the keys of the node in focus. -/
theorem Focus.set_top_keys {t : BTree} {ctx : List Frame} {a : Nat} {ks : List Int}
    {cs : List Tr} (hf : Focus t ctx (.node a ks cs)) (ks2 : List Int) :
    Focus { t with heap := t.heap.set a (some ⟨ks2, cs.map Tr.addr, ctxParent ctx⟩) } ctx
      (.node a ks2 cs) := by
  have hnd := hf.nodup
  have hnd2 : (a :: Tr.addrsL cs).Nodup := by
    have := (List.nodup_append.mp hnd).2.1
    rwa [Tr.addrs_node] at this
  refine hf.rebuild rfl ?_ ?_ ?_ ?_ (Nat.le_refl _) ?_ rfl
  · rw [Stores_node]
    refine ⟨by simp [Heap.set], ?_⟩
    intro c hc
    refine ((Stores_node.mp hf.subStored).2 c hc).frame ?_
    intro x hx
    have hne : x ≠ a := by
      intro e
      exact (List.nodup_cons.mp hnd2).1 (e ▸ Tr.mem_addrsL.mpr ⟨c, hc, hx⟩)
    simp [Heap.set, hne]
  · intro x hx
    have hne : x ≠ a := by
      intro e
      exact (List.nodup_append.mp hnd).2.2 hx (by simp [Tr.addrs_node, e])
    simp [Heap.set, hne]
  · rw [Tr.addrs_node]; exact hnd2
  · intro x hx
    left
    simpa [Tr.addrs_node] using hx
  · intro x hx1 hx2
    have hne : x ≠ a := by
      intro e
      exact hx2 (by simp [Tr.addrs_node, e])
    simp only [Heap.set, hne, if_false]
    refine hf.clean x ?_
    simp only [List.mem_append, not_or]
    exact ⟨hx1, by simpa [Tr.addrs_node] using hx2⟩

theorem findDeleteIndex_spec (item : Int) (kb : List Int) :
    ∀ (ka : List Int) (u i : Nat), item ∉ ka →
      findDeleteIndex item u i (ka ++ item :: kb) = i + ka.length := by
  intro ka
  induction ka with
  | nil => intro u i _; simp [findDeleteIndex]
  | cons c ka ih =>
    intro u i h
    simp only [List.mem_cons, not_or] at h
    have hc : c ≠ item := fun e => h.1 e.symm
    have e : findDeleteIndex item u i (c :: (ka ++ item :: kb)) =
        findDeleteIndex item i (i + 1) (ka ++ item :: kb) := by
      simp [findDeleteIndex, hc]
    rw [List.cons_append, e, ih i (i + 1) h.2, List.length_cons]
    omega

theorem resolveUnderflow_single {M : Nat} (fuel : Nat) (t : BTree) (a : Nat)
    (h : t.nodeCount = 1) : BTree.resolveUnderflow M (fuel + 1) t a = .ok t := by
  simp [BTree.resolveUnderflow, h]

theorem subLo_le_minKeys (M : Nat) (ctx : List Frame) : subLo M 0 ctx ≤ minKeys M := by
  cases ctx <;> simp [subLo]

/-- The check for underflow at the leaf a key was taken from, and its repair. -/
theorem remove_finish {M : Nat} (hM : 3 ≤ M) {t1 : BTree} {ctx : List Frame} {lf : Tr}
    (fuel : Nat) (hf : Focus t1 ctx lf) (hleaf : lf.children = []) (hc : CtxOK M 0 ctx)
    (hlo : ctx ≠ [] → minKeys M - 1 ≤ lf.keys.length) (hhi : lf.keys.length ≤ M - 1)
    (hnc : t1.nodeCount = ((plugAll ctx lf).addrs.length : Int))
    (hfuel : ctx.length ≤ fuel + 1) :
    UnderflowPost M t1 (plugAll ctx lf).inorder
      (if lf.keys.length < minKeys M then BTree.resolveUnderflow M (fuel + 1) t1 lf.addr
        else pure t1) := by
  have hmin := minKeys_pos hM
  by_cases hlt : lf.keys.length < minKeys M
  · rw [if_pos hlt]
    by_cases hctx : ctx = []
    · subst hctx
      have h1 : t1.nodeCount = 1 := by
        rw [hnc]
        cases lf with
        | node a ks cs =>
          simp only [Tr.children_node] at hleaf
          subst hleaf
          simp [plugAll, Tr.addrs_node]
      rw [resolveUnderflow_single _ _ _ h1]
      refine UnderflowPost.done hf hc ?_ rfl hnc rfl
      simp only [WFb, subLo, if_true]
      exact ⟨hleaf, by omega, hhi⟩
    · refine resolveUnderflow_spec hM ctx 0 (fuel + 1) t1 lf hctx hf hc ?_ hnc hfuel
      have := hlo hctx
      simp only [WFb]
      exact ⟨hleaf, by omega, by omega⟩
  · rw [if_neg hlt]
    refine UnderflowPost.done hf hc ?_ rfl hnc rfl
    have := subLo_le_minKeys M ctx
    simp only [WFb]
    exact ⟨hleaf, by omega, hhi⟩



/-! ## The way down to the predecessor -/

theorem ctxPre_append (xs ys : List Frame) : ctxPre (xs ++ ys) = ctxPre ys ++ ctxPre xs := by
  induction xs with
  | nil => simp [ctxPre]
  | cons f xs ih => simp [ctxPre, ih, List.append_assoc]

theorem ctxPost_append (xs ys : List Frame) :
    ctxPost (xs ++ ys) = ctxPost xs ++ ctxPost ys := by
  induction xs with
  | nil => simp [ctxPost]
  | cons f xs ih => simp [ctxPost, ih, List.append_assoc]

/-- Nothing comes after the hole of a path that always takes the last child. -/
theorem ctxPost_spine (xs : List Frame) (hr : ∀ f ∈ xs, f.right = [])
    (hl : ∀ f ∈ xs, f.left.length = f.keys.length) : ctxPost xs = [] := by
  induction xs with
  | nil => rfl
  | cons f xs ih =>
    have h1 := hr f (by simp)
    have h2 := hl f (by simp)
    have h3 := ih (fun g hg => hr g (List.mem_cons_of_mem _ hg))
      (fun g hg => hl g (List.mem_cons_of_mem _ hg))
    simp [ctxPost, Frame.post, h1, h2, h3, weave]

/-- Exchanging the keys of one frame of a path for as many other keys keeps the shape. -/
theorem CtxOK.replace_frame {M : Nat} {f f2 : Frame} {ctx : List Frame}
    (h1 : f2.left = f.left) (h2 : f2.right = f.right)
    (h3 : f2.keys.length = f.keys.length) :
    ∀ (xs : List Frame) (n : Nat), CtxOK M n (xs ++ f :: ctx) → CtxOK M n (xs ++ f2 :: ctx) := by
  intro xs
  induction xs with
  | nil =>
    intro n h
    simp only [List.nil_append, CtxOK, FrameOK] at h ⊢
    rw [h1, h2, h3]
    exact h
  | cons g xs ih =>
    intro n h
    have h4 : FrameOK M n g ∧ ctxLo M (xs ++ f :: ctx) ≤ g.keys.length ∧
        g.keys.length ≤ M - 1 ∧ CtxOK M (n + 1) (xs ++ f :: ctx) := h
    show FrameOK M n g ∧ ctxLo M (xs ++ f2 :: ctx) ≤ g.keys.length ∧
        g.keys.length ≤ M - 1 ∧ CtxOK M (n + 1) (xs ++ f2 :: ctx)
    refine ⟨h4.1, ?_, h4.2.2.1, ih (n + 1) h4.2.2.2⟩
    have e : ctxLo M (xs ++ f2 :: ctx) = ctxLo M (xs ++ f :: ctx) := by
      cases xs <;> rfl
    rw [e]
    exact h4.2.1

theorem ctxParent_append_cons (xs : List Frame) (f f2 : Frame) (ctx : List Frame)
    (h : f2.addr = f.addr) : ctxParent (xs ++ f2 :: ctx) = ctxParent (xs ++ f :: ctx) := by
  cases xs with
  | nil => simp [ctxParent, h]
  | cons g xs => rfl

/-- The loop that walks down last children ends at the right-most leaf below its start. -/
theorem descendLast_spec {M : Nat} (hM : 3 ≤ M) {t : BTree} :
    ∀ (n fuel : Nat) (ctx : List Frame) (C : Tr), n < fuel → Focus t ctx C → CtxOK M n ctx →
      WF M n C →
      ∃ spine Lf, descendLast t.heap fuel C.addr = .ok Lf.addr ∧ Focus t (spine ++ ctx) Lf ∧
        CtxOK M 0 (spine ++ ctx) ∧ plugAll spine Lf = C ∧ WF M 0 Lf ∧
        (∀ f ∈ spine, f.right = []) ∧ (∀ f ∈ spine, f.left.length = f.keys.length) := by
  intro n
  induction n with
  | zero =>
    intro fuel ctx C hfuel hf hc hw
    obtain ⟨fuel, rfl⟩ : ∃ k, fuel = k + 1 := ⟨fuel - 1, by omega⟩
    have hcell := (Stores_iff.mp hf.subStored).1
    have hleaf : C.children = [] := hw.1
    refine ⟨[], C, ?_, hf, hc, rfl, hw, by simp, by simp⟩
    simp [descendLast, Heap.deref, hcell, hleaf]
  | succ n ih =>
    intro fuel ctx C hfuel hf hc hw
    obtain ⟨fuel, rfl⟩ : ∃ k, fuel = k + 1 := ⟨fuel - 1, by omega⟩
    obtain ⟨a, ks, cs⟩ := C
    have hcell := (Stores_node.mp hf.subStored).1
    simp only [WF, WFb, Tr.children_node, Tr.keys_node] at hw
    obtain ⟨hlen, hlo, hhi, hch⟩ := hw
    obtain ⟨init, last, rfl⟩ : ∃ init last, cs = init ++ [last] := by
      rcases List.eq_nil_or_concat cs with h | ⟨l, b, h⟩
      · rw [h] at hlen; simp at hlen
      · exact ⟨l, b, by rw [h, List.concat_eq_append]⟩
    simp only [List.length_append, List.length_cons, List.length_nil] at hlen
    have hmin := minKeys_pos hM
    have hf2 : Focus t (⟨a, ks, init, []⟩ :: ctx) last := Focus.down hf
    have hc2 : CtxOK M n (⟨a, ks, init, []⟩ :: ctx) := by
      simp only [CtxOK, FrameOK, List.length_nil]
      refine ⟨⟨by omega, fun c hc3 => hch c (List.mem_append_left _ hc3), by simp⟩, ?_, hhi,
        hc⟩
      cases ctx <;> simp [ctxLo] <;> omega
    obtain ⟨spine, Lf, h1, h2, h3, h4, h5, h6, h7⟩ :=
      ih fuel (⟨a, ks, init, []⟩ :: ctx) last (by omega) hf2 hc2 (hch last (by simp))
    refine ⟨spine ++ [⟨a, ks, init, []⟩], Lf, ?_, by simpa using h2, by simpa using h3, ?_,
      h5, ?_, ?_⟩
    · have hb : vecBack (init.map Tr.addr ++ [last.addr]) = .ok last.addr :=
        vecBack_append_singleton _ _
      simp only [Tr.addr_node]
      simp only [descendLast, Heap.deref, hcell, Except.ok_bind_eq] at h1 ⊢
      simp [hb, h1]
    · rw [plugAll_append, h4]
      rfl
    · intro f hfm
      rcases List.mem_append.mp hfm with h | h
      · exact h6 f h
      · simp only [List.mem_singleton] at h
        rw [h]
    · intro f hfm
      rcases List.mem_append.mp hfm with h | h
      · exact h7 f h
      · simp only [List.mem_singleton] at h
        rw [h]
        simp only
        omega



/-! ## The two ways `remove` takes a key out -/

theorem vecInsert_at_length {α : Type} (ka kb : List α) (x : α) (i : Nat)
    (hi : i = ka.length) : vecInsert (ka ++ kb) i x = ka ++ x :: kb := by
  subst hi
  simp [vecInsert]

theorem list_split_at {α : Type} (l : List α) (m : Nat) (h : m < l.length) :
    ∃ A c B, l = A ++ c :: B ∧ A.length = m :=
  ⟨l.take m, l[m], l.drop (m + 1), by
    rw [← List.drop_eq_getElem_cons h, List.take_append_drop], by
    rw [List.length_take]; omega⟩

theorem ctxAddrs_append (xs ys : List Frame) :
    ctxAddrs (xs ++ ys) = ctxAddrs xs ++ ctxAddrs ys := by
  induction xs with
  | nil => rfl
  | cons f xs ih => simp [ctxAddrs, ih, List.append_assoc]

/-- Deleting from a leaf: the key is erased and the leaf checked for underflow. -/
theorem removeAt_leaf_eval {M : Nat} {t : BTree} {a : Nat} {ka kb : List Int} {item : Int}
    {par : Option Nat} (hcell : t.heap a = some ⟨ka ++ item :: kb, [], par⟩)
    (hni : item ∉ ka) :
    BTree.removeAt M t item a =
      (if (Tr.node a (ka ++ kb) []).keys.length < minKeys M then
          BTree.resolveUnderflow M (t.next + 1)
            { t with heap := t.heap.set a (some ⟨ka ++ kb, [], par⟩) }
            (Tr.node a (ka ++ kb) []).addr
        else pure { t with heap := t.heap.set a (some ⟨ka ++ kb, [], par⟩) }) >>=
        fun t2 => pure { t2 with totalKeyCount := t2.totalKeyCount - 1 } := by
  have hi : findDeleteIndex item 0 0 (ka ++ item :: kb) = ka.length := by
    simpa using findDeleteIndex_spec item kb ka 0 0 hni
  have he : (ka ++ item :: kb).eraseIdx ka.length = ka ++ kb :=
    eraseIdx_append_cons _ _ _ _ rfl
  simp only [BTree.removeAt, Heap.deref, Heap.modify, hcell, hi, Except.ok_bind_eq,
    List.isEmpty_nil, if_true, he, Heap.set_same, Tr.keys_node, Tr.addr_node]
  have hlt : ¬ (ka ++ item :: kb).length ≤ ka.length := by simp
  simp only [hlt, if_false]
  split <;> rfl

/-- Deleting from an internal node: the last key of the right-most leaf below the child
left of the key replaces it, and that leaf is checked for underflow. -/
theorem removeAt_internal_eval {M : Nat} {t : BTree} {a la : Nat} {ka kb dl : List Int}
    {item pred : Int} {par lpar : Option Nat} {A B : List Nat} {c : Nat}
    (hcell : t.heap a = some ⟨ka ++ item :: kb, A ++ c :: B, par⟩)
    (hlen : A.length = ka.length)
    (hni : item ∉ ka)
    (hdesc : descendLast t.heap (t.next + 1) c = .ok la)
    (hleaf : t.heap la = some ⟨dl ++ [pred], [], lpar⟩)
    (hne : la ≠ a) (hF : Heap)
    (hFe : hF = (t.heap.set la (some ⟨dl, [], lpar⟩)).set a
      (some ⟨ka ++ pred :: kb, A ++ c :: B, par⟩)) :
    BTree.removeAt M t item a =
      (if (Tr.node la dl []).keys.length < minKeys M then
          BTree.resolveUnderflow M (t.next + 1) { t with heap := hF } (Tr.node la dl []).addr
        else pure { t with heap := hF }) >>=
        fun t2 => pure { t2 with totalKeyCount := t2.totalKeyCount - 1 } := by
  subst hFe
  have hi : findDeleteIndex item 0 0 (ka ++ item :: kb) = ka.length := by
    simpa using findDeleteIndex_spec item kb ka 0 0 hni
  have he : (ka ++ item :: kb).eraseIdx ka.length = ka ++ kb :=
    eraseIdx_append_cons _ _ _ _ rfl
  have hv : vecInsert (ka ++ kb) ka.length pred = ka ++ pred :: kb :=
    vecInsert_at_length _ _ _ _ rfl
  have hg : vecGet (A ++ c :: B) ka.length = .ok c := vecGet_append_cons _ _ _ _ hlen.symm
  have hb : vecBack (dl ++ [pred]) = .ok pred := vecBack_append_singleton _ _
  have hlt : ¬ (ka ++ item :: kb).length ≤ ka.length := by simp
  have hce : (A ++ c :: B).isEmpty = false := by simp
  have h1 : (t.heap.set la (some ⟨dl, [], lpar⟩)) a =
      some ⟨ka ++ item :: kb, A ++ c :: B, par⟩ := by
    rw [Heap.set_ne _ _ _ _ (Ne.symm hne)]; exact hcell
  have h2 : ((t.heap.set la (some ⟨dl, [], lpar⟩)).set a
      (some ⟨ka ++ pred :: kb, A ++ c :: B, par⟩)) la = some ⟨dl, [], lpar⟩ := by
    rw [Heap.set_ne _ _ _ _ hne]; exact Heap.set_same _ _ _
  simp only [BTree.removeAt, Heap.deref, Heap.modify, hcell, hi, Except.ok_bind_eq, hce,
    hg, hdesc, hleaf, hb, List.dropLast_concat, h1, hlt, if_false, he, Heap.set_same,
    Heap.set_set, hv, h2, Tr.keys_node, Tr.addr_node, Bool.false_eq_true]
  split <;> rfl



/-! ## `remove` of a key that is in the tree -/

theorem UnderflowPost.decrement {M : Nat} {t1 : BTree} {io : List Int}
    {X : Except Exn BTree} (h : UnderflowPost M t1 io X) :
    ∃ t2 T2, (X >>= fun t2 => pure { t2 with totalKeyCount := t2.totalKeyCount - 1 }) =
        .ok t2 ∧ Focus t2 [] T2 ∧ RootWF M T2 ∧ T2.inorder = io ∧
      t2.nodeCount = T2.addrs.length ∧ t2.totalKeyCount = t1.totalKeyCount - 1 := by
  obtain ⟨t2, T2, h1, h2, h3, h4, h5, h6⟩ := h
  rw [h1]
  refine ⟨{ t2 with totalKeyCount := t2.totalKeyCount - 1 }, T2, rfl,
    Focus.congr h2 rfl rfl rfl, h3, h4, h5, ?_⟩
  show t2.totalKeyCount - 1 = _
  rw [h6]

theorem not_mem_of_sorted_split {ka kb : List Int} {item : Int}
    (hs : (ka ++ item :: kb).Pairwise (· < ·)) : item ∉ ka := by
  intro h
  have := (List.pairwise_append.mp hs).2.2 item h item (by simp)
  exact lt_irrefl _ this

/-- Deleting a key from the leaf it sits in. -/
theorem removeAt_leaf_spec {M : Nat} (hM : 3 ≤ M) {item : Int} {t : BTree}
    {ctx : List Frame} {a : Nat} {ka kb : List Int}
    (hd : Descent M item t 0 ctx (.node a (ka ++ item :: kb) []))
    (hnc : t.nodeCount =
      ((plugAll ctx (.node a (ka ++ item :: kb) [])).addrs.length : Int)) :
    ∃ t2 T2, BTree.removeAt M t item a = .ok t2 ∧ Focus t2 [] T2 ∧ RootWF M T2 ∧
      t2.nodeCount = T2.addrs.length ∧ t2.totalKeyCount = t.totalKeyCount - 1 ∧
      ∃ A B, (plugAll ctx (.node a (ka ++ item :: kb) [])).inorder = A ++ item :: B ∧
        T2.inorder = A ++ B := by
  have hni : item ∉ ka := not_mem_of_sorted_split (by simpa using hd.keys_sorted)
  have hcell := hd.heap_eq
  simp only [Tr.addr_node, Tr.keys_node, Tr.children_node, List.map_nil] at hcell
  rw [removeAt_leaf_eval hcell hni]
  have hf1 := hd.focus.set_leaf_keys rfl (ka ++ kb)
  simp only [Tr.addr_node] at hf1
  have hw := hd.subWF
  simp only [WFb, Tr.keys_node, List.length_append, List.length_cons] at hw
  have hsz := hd.focus.toRoot.size_le_next
  rw [plugAll_addrs_length] at hsz
  have hcl := ctx_length_le ctx
  have hfin := remove_finish hM t.next hf1 rfl hd.ctxOK
    (by
      intro hne
      have : subLo M 0 ctx = minKeys M := by
        cases ctx with
        | nil => exact absurd rfl hne
        | cons g gs => rfl
      simp only [Tr.keys_node, List.length_append]
      omega)
    (by simp only [Tr.keys_node, List.length_append]; omega)
    (by
      show t.nodeCount = _
      rw [hnc, plugAll_addrs_length, plugAll_addrs_length]
      simp [Tr.addrs_node])
    (by omega)
  obtain ⟨t2, T2, h1, h2, h3, h4, h5, h6⟩ := hfin.decrement
  refine ⟨t2, T2, h1, h2, h3, h5, h6, ctxPre ctx ++ ka, kb ++ ctxPost ctx, ?_, ?_⟩
  · rw [plugAll_inorder _ hd.ctxOK]
    simp [Tr.inorder_node, weave, List.append_assoc]
  · rw [h4, plugAll_inorder _ hd.ctxOK]
    simp [Tr.inorder_node, weave, List.append_assoc]

theorem Frame.pre_split (a : Nat) (ka kb : List Int) (x : Int) (CL CR : List Tr)
    (h : CL.length = ka.length) :
    Frame.pre ⟨a, ka ++ x :: kb, CL, CR⟩ = weave (CL.map Tr.inorder) ka := by
  simp only [Frame.pre]
  rw [List.take_left' h.symm]

theorem Frame.post_split (a : Nat) (ka kb : List Int) (x : Int) (CL CR : List Tr)
    (h : CL.length = ka.length) :
    Frame.post ⟨a, ka ++ x :: kb, CL, CR⟩ = x :: weave (CR.map Tr.inorder) kb := by
  simp only [Frame.post]
  rw [List.drop_left' h.symm]
  simp [weave]

/-- Deleting a key from an internal node by its predecessor. -/
theorem removeAt_internal_spec {M : Nat} (hM : 3 ≤ M) {item : Int} {t : BTree} {m : Nat}
    {ctx : List Frame} {a : Nat} {ka kb : List Int} {cs : List Tr}
    (hd : Descent M item t (m + 1) ctx (.node a (ka ++ item :: kb) cs))
    (hnc : t.nodeCount =
      ((plugAll ctx (.node a (ka ++ item :: kb) cs)).addrs.length : Int)) :
    ∃ t2 T2, BTree.removeAt M t item a = .ok t2 ∧ Focus t2 [] T2 ∧ RootWF M T2 ∧
      t2.nodeCount = T2.addrs.length ∧ t2.totalKeyCount = t.totalKeyCount - 1 ∧
      ∃ A B, (plugAll ctx (.node a (ka ++ item :: kb) cs)).inorder = A ++ item :: B ∧
        T2.inorder = A ++ B := by
  have hmin := minKeys_pos hM
  have hni : item ∉ ka := not_mem_of_sorted_split (by simpa using hd.keys_sorted)
  have hw := hd.subWF
  have hht := WFb.height_lt_size (m + 1) _ _ _ hw
  rw [subLo_succ_eq_ctxLo] at hw
  simp only [WFb, Tr.keys_node, Tr.children_node, List.length_append, List.length_cons] at hw
  obtain ⟨hlen, hlo, hhi, hch⟩ := hw
  obtain ⟨CL, C, CR, rfl, hCL⟩ := list_split_at cs ka.length (by omega)
  simp only [List.length_append, List.length_cons] at hlen
  have hsz := hd.focus.toRoot.size_le_next
  rw [plugAll_addrs_length] at hsz
  have hfC : Focus t (⟨a, ka ++ item :: kb, CL, CR⟩ :: ctx) C := Focus.down hd.focus
  have hcS : CtxOK M m (⟨a, ka ++ item :: kb, CL, CR⟩ :: ctx) := by
    simp only [CtxOK, FrameOK, List.length_append, List.length_cons]
    exact ⟨⟨by omega, fun c hc => hch c (by simp [hc]), fun c hc => hch c (by simp [hc])⟩,
      hlo, hhi, hd.ctxOK⟩
  obtain ⟨spine, Lf, h1, h2, h3, h4, h5, h6, h7⟩ :=
    descendLast_spec hM m (t.next + 1) _ C (by omega) hfC hcS (hch C (by simp))
  obtain ⟨la, lk, lc⟩ := Lf
  simp only [WF, WFb, Tr.children_node, Tr.keys_node] at h5
  obtain ⟨hlc, hl1, hl2⟩ := h5
  subst hlc
  obtain ⟨dl, pred, rfl⟩ : ∃ dl pred, lk = dl ++ [pred] := by
    rcases List.eq_nil_or_concat lk with h | ⟨l, b, h⟩
    · rw [h] at hl1; simp at hl1; omega
    · exact ⟨l, b, by rw [h, List.concat_eq_append]⟩
  simp only [List.length_append, List.length_cons, List.length_nil] at hl1 hl2
  have hleafcell := (Stores_node.mp h2.subStored).1
  simp only [List.map_nil] at hleafcell
  have hne : la ≠ a := by
    intro e
    have hmem : a ∈ ctxAddrs (spine ++ ⟨a, ka ++ item :: kb, CL, CR⟩ :: ctx) := by
      rw [ctxAddrs_append]
      simp [ctxAddrs, Frame.addrs]
    exact (List.nodup_append.mp h2.nodup).2.2 hmem (by simp [Tr.addrs_node, e])
  have hcell := hd.heap_eq
  simp only [Tr.addr_node, Tr.keys_node, Tr.children_node, List.map_append,
    List.map_cons] at hcell
  simp only [Tr.addr_node] at h1
  rw [removeAt_internal_eval hcell (by simp [hCL]) hni h1 hleafcell hne _ rfl]
  -- the tree after the exchange
  have g1 := h2.set_leaf_keys rfl dl
  simp only [Tr.addr_node] at g1
  have g2 := (Focus.ups ctx (spine ++ [⟨a, ka ++ item :: kb, CL, CR⟩]) _).mp
    (by simpa using g1)
  rw [plugAll_append] at g2
  have hCaddr : (plugAll spine (.node la dl [])).addr = C.addr := by
    rw [← h4]
    exact plugAll_addr_eq spine rfl
  simp only [plugAll, Frame.plug] at g2
  have g3 := Focus.set_top_keys g2 (ka ++ pred :: kb)
  have e3 : plugAll (spine ++ [⟨a, ka ++ pred :: kb, CL, CR⟩]) (.node la dl []) =
      .node a (ka ++ pred :: kb) (CL ++ plugAll spine (.node la dl []) :: CR) := by
    rw [plugAll_append]
    rfl
  rw [← e3] at g3
  have g4 := (Focus.ups ctx _ _).mpr g3
  simp only [List.append_assoc, List.singleton_append] at g4
  have hpar := ctxParent_append_cons spine ⟨a, ka ++ item :: kb, CL, CR⟩
    ⟨a, ka ++ pred :: kb, CL, CR⟩ ctx rfl
  have g5 : Focus { t with heap := (t.heap.set la (some ⟨dl, [], ctxParent
      (spine ++ ⟨a, ka ++ item :: kb, CL, CR⟩ :: ctx)⟩)).set a (some ⟨ka ++ pred :: kb,
        CL.map Tr.addr ++ C.addr :: CR.map Tr.addr, ctxParent ctx⟩) }
      (spine ++ ⟨a, ka ++ pred :: kb, CL, CR⟩ :: ctx) (.node la dl []) := by
    refine Focus.congr g4 ?_ rfl rfl
    simp [hCaddr]
  have hcS2 : CtxOK M 0 (spine ++ ⟨a, ka ++ pred :: kb, CL, CR⟩ :: ctx) :=
    @CtxOK.replace_frame M ⟨a, ka ++ item :: kb, CL, CR⟩ ⟨a, ka ++ pred :: kb, CL, CR⟩ ctx
      rfl rfl (by simp) spine 0 h3
  have hold : plugAll ctx (.node a (ka ++ item :: kb) (CL ++ C :: CR)) =
      plugAll (spine ++ ⟨a, ka ++ item :: kb, CL, CR⟩ :: ctx) (.node la (dl ++ [pred]) []) := by
    rw [plugAll_append, h4]
    rfl
  have haddrs : ctxAddrs (spine ++ ⟨a, ka ++ pred :: kb, CL, CR⟩ :: ctx) =
      ctxAddrs (spine ++ ⟨a, ka ++ item :: kb, CL, CR⟩ :: ctx) := by
    rw [ctxAddrs_append, ctxAddrs_append]
    rfl
  have hcl := ctx_length_le (spine ++ ⟨a, ka ++ pred :: kb, CL, CR⟩ :: ctx)
  have hsz2 := h2.toRoot.size_le_next
  rw [plugAll_addrs_length, ← haddrs] at hsz2
  have hfin := remove_finish hM t.next g5 rfl hcS2
    (by intro _; simp only [Tr.keys_node]; omega)
    (by simp only [Tr.keys_node]; omega)
    (by
      show t.nodeCount = _
      rw [hnc, hold, plugAll_addrs_length, plugAll_addrs_length, haddrs]
      simp [Tr.addrs_node])
    (by omega)
  obtain ⟨t2, T2, r1, r2, r3, r4, r5, r6⟩ := hfin.decrement
  have hpost := ctxPost_spine spine h6 h7
  refine ⟨t2, T2, r1, r2, r3, r5, r6,
    ctxPre ctx ++ weave (CL.map Tr.inorder) ka ++ ctxPre spine ++ dl ++ [pred],
    weave (CR.map Tr.inorder) kb ++ ctxPost ctx, ?_, ?_⟩
  · rw [hold, plugAll_inorder _ h3, ctxPre_append, ctxPost_append, hpost]
    simp only [ctxPre, ctxPost, Frame.pre_split _ _ _ _ _ _ hCL,
      Frame.post_split _ _ _ _ _ _ hCL, Tr.inorder_node, List.map_nil, weave]
    simp [List.append_assoc]
  · rw [r4, plugAll_inorder _ hcS2, ctxPre_append, ctxPost_append, hpost]
    simp only [ctxPre, ctxPost, Frame.pre_split _ _ _ _ _ _ hCL,
      Frame.post_split _ _ _ _ _ _ hCL, Tr.inorder_node, List.map_nil, weave]
    simp [List.append_assoc]



/-! ## `remove` -/

/-- The root of a well-formed tree has no key exactly when the tree has none. -/
theorem RootWF.keys_eq_nil_iff {M : Nat} {T : Tr} (hw : RootWF M T) :
    T.keys = [] ↔ T.inorder = [] := by
  obtain ⟨n, hw⟩ := hw
  obtain ⟨a, ks, cs⟩ := T
  cases n with
  | zero =>
    have hleaf : cs = [] := hw.1
    subst hleaf
    simp [Tr.inorder_node, weave]
  | succ n =>
    have hb := hw.keys_bounds
    simp only [subLo, Nat.succ_ne_zero, if_false, Tr.keys_node] at hb
    have hne : ks ≠ [] := by
      intro e; rw [e] at hb; simp at hb
    simp only [Tr.keys_node, hne, false_iff]
    intro e
    have hsub := keys_sublist_weave (cs.map Tr.inorder) ks
    rw [← Tr.inorder_node a, e] at hsub
    exact hne (List.sublist_nil.mp hsub)

theorem TreeInv.root_cell {M : Nat} {t : BTree} {T : Tr} (hi : TreeInv M t T) :
    t.heap T.addr = some ⟨T.keys, T.children.map Tr.addr, none⟩ :=
  (Stores_iff.mp hi.focus.subStored).1

/-- The three outcomes of `remove` on a state that holds a well-formed tree. -/
theorem remove_spec {M : Nat} (hM : 3 ≤ M) {t : BTree} {T : Tr} (hi : TreeInv M t T)
    (item : Int) :
    (T.inorder = [] → t.remove M item = .error (.treeEmpty, t)) ∧
    (T.inorder ≠ [] → item ∉ T.inorder → t.remove M item = .error (.itemNotFound, t)) ∧
    (item ∈ T.inorder → ∃ t2 T2, t.remove M item = .ok t2 ∧ TreeInv M t2 T2 ∧
      ∃ A B, T.inorder = A ++ item :: B ∧ T2.inorder = A ++ B) := by
  have hnc := hi.nodeCount_pos
  have hroot := hi.root_eq
  have hrc := hi.root_cell
  have hkk := hi.wf.keys_eq_nil_iff
  refine ⟨?_, ?_, ?_⟩
  · intro he
    have hk : T.keys = [] := hkk.mpr he
    simp [BTree.remove, hnc, hroot, Heap.deref, hrc, hk]
  · intro hne hnin
    have hk : T.keys ≠ [] := fun e => hne (hkk.mp e)
    obtain ⟨n, hd, hfuel⟩ := hi.descent item
    obtain ⟨ctx, S, m, r1, r2, r3, r4⟩ := findNode_descent hM n (t.next + 1) [] T hfuel hd
    simp only [plugAll] at r3
    have hmem := r2.mem_iff r4
    rw [r3] at hmem
    have hkne : S.keys ≠ [] := r2.keys_ne_nil hM (by rw [r3]; exact hne)
    have hnk : item ∉ S.keys := fun h => hnin (hmem.mpr h)
    obtain ⟨idx, pre, post, k1, k2, -⟩ :=
      findKey_of_not_mem ⟨S.keys, S.children.map Tr.addr, ctxParent ctx⟩ r2.keys_sorted hkne
        hnk
    have hheap := r2.heap_eq
    simp [BTree.remove, hnc, hroot, Heap.deref, hrc, hk, r1, hheap, k1, k2]
  · intro hin
    have hne : T.inorder ≠ [] := by
      intro e; rw [e] at hin; simp at hin
    have hk : T.keys ≠ [] := fun e => hne (hkk.mp e)
    obtain ⟨n, hd, hfuel⟩ := hi.descent item
    obtain ⟨ctx, S, m, r1, r2, r3, r4⟩ := findNode_descent hM n (t.next + 1) [] T hfuel hd
    simp only [plugAll] at r3
    have hmem := r2.mem_iff r4
    rw [r3] at hmem
    have hsk : item ∈ S.keys := hmem.mp hin
    have hfk := findKey_of_mem ⟨S.keys, S.children.map Tr.addr, ctxParent ctx⟩
      r2.keys_sorted hsk
    have hheap := r2.heap_eq
    have hnodes : t.nodeCount = ((plugAll ctx S).addrs.length : Int) := by
      rw [r3]; exact hi.nodes
    have hres : ∃ t2 T2, BTree.removeAt M t item S.addr = .ok t2 ∧ Focus t2 [] T2 ∧
        RootWF M T2 ∧ t2.nodeCount = T2.addrs.length ∧
        t2.totalKeyCount = t.totalKeyCount - 1 ∧
        ∃ A B, (plugAll ctx S).inorder = A ++ item :: B ∧ T2.inorder = A ++ B := by
      obtain ⟨a, ks, cs⟩ := S
      simp only [Tr.keys_node] at hsk
      obtain ⟨ka, kb, rfl⟩ := List.append_of_mem hsk
      cases m with
      | zero =>
        have hleaf : cs = [] := r2.subWF.1
        subst hleaf
        exact removeAt_leaf_spec hM r2 hnodes
      | succ m => exact removeAt_internal_spec hM r2 hnodes
    obtain ⟨t2, T2, s1, s2, s3, s4, s5, A, B, s6, s7⟩ := hres
    rw [r3] at s6
    refine ⟨t2, T2, ?_, ⟨s2, s3, ?_, s4, ?_⟩, A, B, s6, s7⟩
    · simp [BTree.remove, hnc, hroot, Heap.deref, hrc, hk, r1, hheap, hfk, s1]
    · rw [s7]
      have := hi.sorted
      rw [s6] at this
      exact this.sublist (List.Sublist.append (List.Sublist.refl _) (List.sublist_cons_self _ _))
    · rw [s5, hi.keys, s6, s7]
      simp only [List.length_append, List.length_cons]
      push_cast
      omega



/-! ## Reading the tree off the heap -/

theorem Tr.addrsL_eq_flatten (cs : List Tr) : Tr.addrsL cs = (cs.map Tr.addrs).flatten := by
  induction cs with
  | nil => simp
  | cons c cs ih => simp [ih]

theorem Tr.addrs_length_le_of_mem {cs : List Tr} {c : Tr} (hc : c ∈ cs) :
    c.addrs.length ≤ (Tr.addrsL cs).length := by
  induction cs with
  | nil => simp at hc
  | cons d cs ih =>
    simp only [Tr.addrsL_cons, List.length_append]
    rcases List.mem_cons.mp hc with e | e
    · subst e; omega
    · have := ih e; omega

theorem reachFrom_eq {h : Heap} (T : Tr) :
    ∀ (p : Option Nat) (fuel : Nat), Stores h p T → T.addrs.length ≤ fuel →
      reachFrom h fuel T.addr = T.addrs := by
  induction T using Tr.induct with
  | step a ks cs ih =>
    intro p fuel hs hfuel
    rw [Tr.addrs_node, List.length_cons] at hfuel
    obtain ⟨fuel, rfl⟩ : ∃ k, fuel = k + 1 := ⟨fuel - 1, by omega⟩
    have hcell := (Stores_node.mp hs).1
    simp only [Tr.addr_node, reachFrom, hcell, Tr.addrs_node, List.map_map,
      Tr.addrsL_eq_flatten]
    congr 2
    apply List.map_congr_left
    intro c hc
    have hl := Tr.addrs_length_le_of_mem hc
    exact ih c hc (some a) fuel ((Stores_node.mp hs).2 c hc) (by omega)

theorem keysFrom_eq {h : Heap} (T : Tr) :
    ∀ (p : Option Nat) (fuel : Nat), Stores h p T → T.addrs.length ≤ fuel →
      keysFrom h fuel T.addr = T.inorder := by
  induction T using Tr.induct with
  | step a ks cs ih =>
    intro p fuel hs hfuel
    rw [Tr.addrs_node, List.length_cons] at hfuel
    obtain ⟨fuel, rfl⟩ : ∃ k, fuel = k + 1 := ⟨fuel - 1, by omega⟩
    have hcell := (Stores_node.mp hs).1
    simp only [Tr.addr_node, keysFrom, hcell, Tr.inorder_node, List.map_map]
    congr 1
    apply List.map_congr_left
    intro c hc
    have hl := Tr.addrs_length_le_of_mem hc
    exact ih c hc (some a) fuel ((Stores_node.mp hs).2 c hc) (by omega)

theorem TreeInv.reachable_eq {M : Nat} {t : BTree} {T : Tr} (hi : TreeInv M t T) :
    t.reachable = T.addrs := by
  have h1 := hi.focus.size_le_next
  simp only [BTree.reachable, hi.root_eq]
  exact reachFrom_eq T none _ hi.focus.subStored (by omega)

theorem TreeInv.storedKeys_eq {M : Nat} {t : BTree} {T : Tr} (hi : TreeInv M t T) :
    t.storedKeys = T.inorder := by
  have h1 := hi.focus.size_le_next
  simp only [BTree.storedKeys, hi.root_eq]
  exact keysFrom_eq T none _ hi.focus.subStored (by omega)

/-! ## The first insert, and the insert into a tree emptied by `remove` -/

/-- The first insert makes a root leaf holding the key. -/
theorem insert_fresh {M : Nat} (hM : 3 ≤ M) (item : Int) :
    ∃ t2, BTree.new.insert M item = .ok t2 ∧ TreeInv M t2 (.node 0 [item] []) := by
  refine ⟨_, rfl, ?_⟩
  refine ⟨⟨trivial, ?_, ?_, ?_, ?_, rfl⟩, ⟨0, ?_⟩, ?_, ?_, ?_⟩
  · rw [Stores_node]
    exact ⟨by simp [BTree.new, Heap.set, ctxParent], by simp⟩
  · simp [ctxAddrs, Tr.addrs_node]
  · intro a ha
    simp only [ctxAddrs, Tr.addrs_node, Tr.addrsL_nil, List.nil_append,
      List.mem_singleton] at ha
    subst ha
    show 0 < BTree.new.next + 1
    omega
  · intro a ha
    simp only [ctxAddrs, Tr.addrs_node, Tr.addrsL_nil, List.nil_append,
      List.mem_singleton] at ha
    simp [BTree.new, Heap.set, ha]
  · simp only [WFb, Tr.children_node, Tr.keys_node, subLo, List.length_singleton, if_true]
    exact ⟨trivial, by omega, by omega⟩
  · simp [Tr.inorder_node, weave]
  · simp [BTree.new, Tr.addrs_node]
  · simp [BTree.new, Tr.inorder_node, weave]

/-- Inserting into a tree whose root has no key: `findKey` runs off the end of the empty
key vector without a `return`. -/
theorem insert_emptied {M : Nat} {t : BTree} {T : Tr} (hi : TreeInv M t T)
    (he : T.inorder = []) (item : Int) :
    t.insert M item = .error (.undefinedBehaviour, t) := by
  have hnc := hi.nodeCount_pos
  have hk : T.keys = [] := hi.wf.keys_eq_nil_iff.mpr he
  obtain ⟨n, hw⟩ := hi.wf
  have hleaf : T.children = [] := by
    cases n with
    | zero => exact hw.1
    | succ n =>
      have hb := hw.keys_bounds
      rw [hk] at hb
      simp [subLo] at hb
  have hrc := hi.root_cell
  rw [hk, hleaf] at hrc
  have hfn : BTree.findNode item t.heap (t.next + 1) (some T.addr) = .ok T.addr := by
    simp [BTree.findNode, Heap.deref, hrc]
  simp [BTree.insert, hnc, hi.root_eq, hfn, Heap.deref, hrc, BTreeNode.findKey,
    BTreeNode.findKeyLoop]



/-! ## Every reachable state is valid -/

theorem remove_fresh (M : Nat) (item : Int) :
    BTree.new.remove M item = .error (.treeEmpty, BTree.new) := rfl

/-- Every state reached by calls of `insert` and `remove` is the fresh one or holds a
well-formed tree. -/
theorem Reachable.valid {M : Nat} (hM : 3 ≤ M) {t : BTree} (hr : Reachable M t) :
    BTree.Valid M t := by
  induction hr with
  | fresh => exact Or.inl rfl
  | @insertOk t t2 k _ hk ih =>
    rcases ih with e | ⟨T, hi⟩
    · subst e
      obtain ⟨t3, h1, h2⟩ := insert_fresh hM k
      rw [h1] at hk
      cases hk
      exact Or.inr ⟨_, h2⟩
    · by_cases he : T.inorder = []
      · rw [insert_emptied hi he k] at hk
        cases hk
      · by_cases hin : k ∈ T.inorder
        · rw [(insert_spec hM hi he k).1 hin] at hk
          cases hk
        · obtain ⟨t3, T3, h1, h2, -⟩ := (insert_spec hM hi he k).2 hin
          rw [h1] at hk
          cases hk
          exact Or.inr ⟨T3, h2⟩
  | @insertThrow t t2 k e _ hk hthrown ih =>
    rcases ih with e1 | ⟨T, hi⟩
    · subst e1
      obtain ⟨t3, h1, h2⟩ := insert_fresh hM k
      rw [h1] at hk
      cases hk
    · by_cases he : T.inorder = []
      · rw [insert_emptied hi he k] at hk
        cases hk
        simp [Exn.isThrown] at hthrown
      · by_cases hin : k ∈ T.inorder
        · rw [(insert_spec hM hi he k).1 hin] at hk
          cases hk
          exact Or.inr ⟨T, hi⟩
        · obtain ⟨t3, T3, h1, h2, -⟩ := (insert_spec hM hi he k).2 hin
          rw [h1] at hk
          cases hk
  | @removeOk t t2 k _ hk ih =>
    rcases ih with e | ⟨T, hi⟩
    · subst e
      rw [remove_fresh] at hk
      cases hk
    · by_cases he : T.inorder = []
      · rw [(remove_spec hM hi k).1 he] at hk
        cases hk
      · by_cases hin : k ∈ T.inorder
        · obtain ⟨t3, T3, h1, h2, -⟩ := (remove_spec hM hi k).2.2 hin
          rw [h1] at hk
          cases hk
          exact Or.inr ⟨T3, h2⟩
        · rw [(remove_spec hM hi k).2.1 he hin] at hk
          cases hk
  | @removeThrow t t2 k e _ hk hthrown ih =>
    rcases ih with e1 | ⟨T, hi⟩
    · subst e1
      rw [remove_fresh] at hk
      cases hk
      exact Or.inl rfl
    · by_cases he : T.inorder = []
      · rw [(remove_spec hM hi k).1 he] at hk
        cases hk
        exact Or.inr ⟨T, hi⟩
      · by_cases hin : k ∈ T.inorder
        · obtain ⟨t3, T3, h1, h2, -⟩ := (remove_spec hM hi k).2.2 hin
          rw [h1] at hk
          cases hk
        · rw [(remove_spec hM hi k).2.1 he hin] at hk
          cases hk
          exact Or.inr ⟨T, hi⟩

theorem storedKeys_fresh : BTree.new.storedKeys = [] := rfl

theorem reachable_fresh : BTree.new.reachable = [] := rfl

/-! ## Nodes of the tree and the cells of the heap -/

/-- Every node of a stored tree is the top of a stored subtree whose keys, in order, are a
part of the keys of the whole tree. -/
theorem Stores.subtree {h : Heap} (T : Tr) :
    ∀ (p : Option Nat) (a : Nat), Stores h p T → a ∈ T.addrs →
      ∃ q S, Stores h q S ∧ S.addr = a ∧ List.Sublist S.inorder T.inorder ∧
        S.addrs.length ≤ T.addrs.length := by
  induction T using Tr.induct with
  | step b ks cs ih =>
    intro p a hs ha
    rw [Tr.addrs_node, List.mem_cons] at ha
    rcases ha with e | hmem
    · exact ⟨p, .node b ks cs, hs, e.symm, List.Sublist.refl _, Nat.le_refl _⟩
    · obtain ⟨c, hc, hac⟩ := Tr.mem_addrsL.mp hmem
      obtain ⟨q, S, h1, h2, h3, h4⟩ := ih c hc (some b) a ((Stores_node.mp hs).2 c hc) hac
      refine ⟨q, S, h1, h2, ?_, ?_⟩
      · rw [Tr.inorder_node]
        exact h3.trans (child_sublist_weave ks (List.mem_map_of_mem _ hc))
      · have := Tr.addrs_length_le_of_mem hc
        rw [Tr.addrs_node, List.length_cons]
        omega

/-- Every allocated cell of a state that holds a tree is a node of the tree. -/
theorem TreeInv.cell {M : Nat} {t : BTree} {T : Tr} (hi : TreeInv M t T) {a : Nat}
    {n : BTreeNode} (hc : t.heap a = some n) :
    ∃ q S, Stores t.heap q S ∧ S.addr = a ∧ List.Sublist S.inorder T.inorder ∧
      S.addrs.length ≤ t.next ∧ n = ⟨S.keys, S.children.map Tr.addr, q⟩ := by
  have hmem : a ∈ T.addrs := by
    by_contra hno
    have := hi.focus.clean a (by simpa [ctxAddrs] using hno)
    rw [this] at hc
    cases hc
  obtain ⟨q, S, h1, h2, h3, h4⟩ := Stores.subtree T none a hi.focus.subStored hmem
  have h5 := hi.focus.size_le_next
  refine ⟨q, S, h1, h2, h3, by omega, ?_⟩
  have := (Stores_iff.mp h1).1
  rw [h2, hc] at this
  exact Option.some.inj this

/-- In a strictly increasing weave, the keys of child `i` lie above key `i - 1` and below
key `i`. -/
theorem weave_between :
    ∀ (cs : List (List Int)) (ks : List Int) (i : Nat) (c : List Int) (x : Int),
      (weave cs ks).Pairwise (· < ·) → cs[i]? = some c → x ∈ c →
      (∀ k, 0 < i → ks[i - 1]? = some k → k < x) ∧ (∀ k, ks[i]? = some k → x < k) := by
  intro cs
  induction cs with
  | nil => intro ks i c x _ hc; simp at hc
  | cons d cs ih =>
    intro ks i c x hp hc hx
    cases ks with
    | nil => simp
    | cons k0 ks =>
      rw [weave_cons_cons] at hp
      have hp2 := List.pairwise_append.mp hp
      have hp3 := List.pairwise_cons.mp hp2.2.1
      cases i with
      | zero =>
        simp only [List.getElem?_cons_zero, Option.some.injEq] at hc
        subst hc
        refine ⟨fun k h => absurd h (by omega), ?_⟩
        intro k hk
        simp only [List.getElem?_cons_zero, Option.some.injEq] at hk
        subst hk
        exact hp2.2.2 x hx _ (by simp)
      | succ i =>
        simp only [List.getElem?_cons_succ] at hc
        have hih := ih ks i c x hp3.2 hc hx
        refine ⟨?_, ?_⟩
        · intro k _ hk
          simp only [Nat.add_sub_cancel] at hk
          cases i with
          | zero =>
            simp only [List.getElem?_cons_zero, Option.some.injEq] at hk
            subst hk
            refine hp3.1 x ?_
            rw [mem_weave]
            exact Or.inr ⟨c, List.getElem?_mem hc, hx⟩
          | succ j =>
            simp only [List.getElem?_cons_succ] at hk
            exact hih.1 k (by omega) (by simpa using hk)
        · intro k hk
          simp only [List.getElem?_cons_succ] at hk
          exact hih.2 k hk



/-! ## Runs of several inserts -/

theorem Reachable.insertAll {M : Nat} :
    ∀ (ks : List Int) (t t2 : BTree), Reachable M t → BTree.insertAll M t ks = .ok t2 →
      Reachable M t2 := by
  intro ks
  induction ks with
  | nil =>
    intro t t2 hr h
    simp only [BTree.insertAll] at h
    cases h
    exact hr
  | cons k ks ih =>
    intro t t2 hr h
    simp only [BTree.insertAll] at h
    cases hk : t.insert M k with
    | error e => rw [hk] at h; cases h
    | ok t1 =>
      rw [hk] at h
      exact ih t1 t2 (Reachable.insertOk hr hk) h

/-- Inserting pairwise distinct new keys into a non-empty well-formed tree succeeds and
adds exactly these keys. -/
theorem insertAll_spec {M : Nat} (hM : 3 ≤ M) :
    ∀ (ks : List Int) (t : BTree) (T : Tr), TreeInv M t T → T.inorder ≠ [] → ks.Nodup →
      (∀ k ∈ ks, k ∉ T.inorder) →
      ∃ t2 T2, BTree.insertAll M t ks = .ok t2 ∧ TreeInv M t2 T2 ∧
        ∀ x, x ∈ T2.inorder ↔ x ∈ T.inorder ∨ x ∈ ks := by
  intro ks
  induction ks with
  | nil =>
    intro t T hi _ _ _
    exact ⟨t, T, rfl, hi, by simp⟩
  | cons k ks ih =>
    intro t T hi hne hnd hnew
    obtain ⟨t1, T1, h1, h2, A, B, h3, h4, -⟩ :=
      (insert_spec hM hi hne k).2 (hnew k (by simp))
    have hmem1 : ∀ x, x ∈ T1.inorder ↔ x ∈ T.inorder ∨ x = k := by
      intro x
      rw [h3, h4]
      simp only [List.mem_append, List.mem_cons]
      tauto
    have hnd2 := List.nodup_cons.mp hnd
    obtain ⟨t2, T2, r1, r2, r3⟩ := ih t1 T1 h2 (by rw [h4]; simp) hnd2.2 (by
      intro x hx hx1
      rcases (hmem1 x).mp hx1 with h | h
      · exact hnew x (List.mem_cons_of_mem _ hx) h
      · exact hnd2.1 (h ▸ hx))
    refine ⟨t2, T2, ?_, r2, ?_⟩
    · simp only [BTree.insertAll, h1]
      exact r1
    · intro x
      rw [r3, hmem1]
      simp only [List.mem_cons]
      tauto

/-- A key occurs once in a strictly increasing list. -/
theorem not_mem_of_sorted_remove {A B : List Int} {k : Int}
    (hs : (A ++ k :: B).Pairwise (· < ·)) : k ∉ A ++ B := by
  intro h
  have hp := List.pairwise_append.mp hs
  rcases List.mem_append.mp h with h1 | h1
  · exact lt_irrefl _ (hp.2.2 k h1 k (by simp))
  · exact lt_irrefl _ ((List.pairwise_cons.mp hp.2.1).1 k h1)

/-- The node at which `findNode` ends holds the key if the tree does. -/
theorem findNode_end {M : Nat} (hM : 3 ≤ M) {t : BTree} {T : Tr} (hi : TreeInv M t T)
    (k : Int) :
    ∃ a n, BTree.findNode k t.heap (t.next + 1) t.root = .ok a ∧ t.heap a = some n ∧
      (k ∈ T.inorder ↔ k ∈ n.keyVector) := by
  obtain ⟨n, hd, hfuel⟩ := hi.descent k
  obtain ⟨ctx, S, m, r1, r2, r3, r4⟩ := findNode_descent hM n (t.next + 1) [] T hfuel hd
  simp only [plugAll] at r3
  have hmem := r2.mem_iff r4
  rw [r3] at hmem
  rw [← hi.root_eq] at r1
  exact ⟨S.addr, _, r1, r2.heap_eq, hmem⟩



/-! ## Balance, fill and size -/

/-- Below a stored well-formed subtree of height `n`, every leaf is found at depth `n`. -/
theorem leafDepthsFrom_depth {M : Nat} {h : Heap} :
    ∀ (n lo hi : Nat) (T : Tr) (p : Option Nat) (fuel : Nat), WFb M n lo hi T →
      Stores h p T → T.addrs.length ≤ fuel →
      ∀ x ∈ leafDepthsFrom h fuel T.addr, x.2 = n := by
  intro n
  induction n with
  | zero =>
    intro lo hi T p fuel hw hs hfuel x hx
    obtain ⟨a, ks, cs⟩ := T
    rw [Tr.addrs_node, List.length_cons] at hfuel
    obtain ⟨fuel, rfl⟩ : ∃ k, fuel = k + 1 := ⟨fuel - 1, by omega⟩
    have hleaf : cs = [] := hw.1
    subst hleaf
    have hcell := (Stores_node.mp hs).1
    simp only [Tr.addr_node, leafDepthsFrom, hcell, List.map_nil, List.isEmpty_nil, if_true,
      List.mem_singleton] at hx
    rw [hx]
  | succ n ih =>
    intro lo hi T p fuel hw hs hfuel x hx
    obtain ⟨a, ks, cs⟩ := T
    rw [Tr.addrs_node, List.length_cons] at hfuel
    obtain ⟨fuel, rfl⟩ : ∃ k, fuel = k + 1 := ⟨fuel - 1, by omega⟩
    have hcell := (Stores_node.mp hs).1
    have hlen : cs.length = ks.length + 1 := hw.1
    have hne : (cs.map Tr.addr).isEmpty = false := by
      cases cs with
      | nil => simp at hlen
      | cons c cs => rfl
    simp only [Tr.addr_node, leafDepthsFrom, hcell, hne, Bool.false_eq_true, if_false,
      List.mem_map, List.mem_flatten, List.map_map] at hx
    obtain ⟨y, ⟨l, ⟨c, hc, hl⟩, hy⟩, rfl⟩ := hx
    have hl2 := Tr.addrs_length_le_of_mem hc
    have := ih _ _ c (some a) fuel (hw.children_wf c hc) ((Stores_node.mp hs).2 c hc)
      (by omega) y (by rw [← hl] at hy; exact hy)
    simp only [this]

/-- Every leaf of a stored tree is met by the traversal. -/
theorem leafDepthsFrom_covers {h : Heap} (T : Tr) :
    ∀ (p : Option Nat) (fuel : Nat) (a : Nat) (n : BTreeNode), Stores h p T →
      T.addrs.length ≤ fuel → a ∈ T.addrs → h a = some n → n.childrenVector = [] →
      ∃ d, (a, d) ∈ leafDepthsFrom h fuel T.addr := by
  induction T using Tr.induct with
  | step b ks cs ih =>
    intro p fuel a n hs hfuel ha hn hleaf
    rw [Tr.addrs_node, List.length_cons] at hfuel
    obtain ⟨fuel, rfl⟩ : ∃ k, fuel = k + 1 := ⟨fuel - 1, by omega⟩
    have hcell := (Stores_node.mp hs).1
    rw [Tr.addrs_node, List.mem_cons] at ha
    rcases ha with e | hmem
    · subst e
      rw [hcell] at hn
      have hn2 := Option.some.inj hn
      rw [← hn2] at hleaf
      simp only at hleaf
      refine ⟨0, ?_⟩
      simp [leafDepthsFrom, hcell, hleaf]
    · obtain ⟨c, hc, hac⟩ := Tr.mem_addrsL.mp hmem
      have hl2 := Tr.addrs_length_le_of_mem hc
      obtain ⟨d, hd⟩ := ih c hc (some b) fuel a n ((Stores_node.mp hs).2 c hc) (by omega) hac
        hn hleaf
      have hne : (cs.map Tr.addr).isEmpty = false := by
        cases cs with
        | nil => simp at hc
        | cons c cs => rfl
      refine ⟨d + 1, ?_⟩
      simp only [Tr.addr_node, leafDepthsFrom, hcell, hne, Bool.false_eq_true, if_false,
        List.mem_map, List.mem_flatten, List.map_map]
      exact ⟨(a, d), ⟨_, ⟨c, hc, rfl⟩, hd⟩, rfl⟩

/-- Every node below the top of a stored well-formed tree is the top of a stored subtree
that is well formed as a non-root node. -/
theorem Stores.subtree_wf {M : Nat} {h : Heap} :
    ∀ (n lo hi : Nat) (T : Tr) (p : Option Nat) (a : Nat), WFb M n lo hi T → Stores h p T →
      a ∈ T.addrs → a ≠ T.addr → ∃ q S k, Stores h q S ∧ S.addr = a ∧ WF M k S := by
  intro n
  induction n with
  | zero =>
    intro lo hi T p a hw hs ha hne
    obtain ⟨b, ks, cs⟩ := T
    have hleaf : cs = [] := hw.1
    subst hleaf
    simp [Tr.addrs_node] at ha
    exact absurd ha hne
  | succ n ih =>
    intro lo hi T p a hw hs ha hne
    obtain ⟨b, ks, cs⟩ := T
    rw [Tr.addrs_node, List.mem_cons] at ha
    rcases ha with e | hmem
    · exact absurd e hne
    · obtain ⟨c, hc, hac⟩ := Tr.mem_addrsL.mp hmem
      have hwc := hw.children_wf c hc
      have hsc := (Stores_node.mp hs).2 c hc
      by_cases hca : a = c.addr
      · exact ⟨some b, c, n, hsc, hca.symm, hwc⟩
      · exact ih _ _ c (some b) a hwc hsc hac hca

/-- A well-formed subtree has at least `lo` keys at the top and `minKeys M` keys in every
other node. -/
theorem WFb.size_bound {M : Nat} :
    ∀ (n lo hi : Nat) (T : Tr), WFb M n lo hi T →
      lo + minKeys M * (T.addrs.length - 1) ≤ T.inorder.length := by
  intro n
  induction n with
  | zero =>
    intro lo hi T hw
    obtain ⟨a, ks, cs⟩ := T
    have hleaf : cs = [] := hw.1
    subst hleaf
    have := hw.2.1
    simp only [Tr.keys_node] at this
    simp [Tr.addrs_node, Tr.inorder_node, weave, this]
  | succ n ih =>
    intro lo hi T hw
    obtain ⟨a, ks, cs⟩ := T
    have hlo : lo ≤ ks.length := hw.2.1
    have hch := hw.children_wf
    simp only [Tr.children_node] at hch
    have hsum : ∀ (l : List Tr), (∀ c ∈ l, WF M n c) →
        minKeys M * (Tr.addrsL l).length ≤ ((l.map Tr.inorder).map List.length).sum := by
      intro l
      induction l with
      | nil => intro _; simp
      | cons c l ihl =>
        intro hl
        have h1 := ih _ _ c (hl c (by simp))
        have h2 := ihl (fun d hd => hl d (List.mem_cons_of_mem _ hd))
        have h3 := c.addrs_length_pos
        simp only [Tr.addrsL_cons, List.length_append, List.map_cons, List.sum_cons]
        have h4 : minKeys M * c.addrs.length ≤ c.inorder.length := by
          have e : minKeys M * c.addrs.length =
              minKeys M + minKeys M * (c.addrs.length - 1) := by
            obtain ⟨j, hj⟩ : ∃ j, c.addrs.length = j + 1 := ⟨c.addrs.length - 1, by omega⟩
            rw [hj, Nat.add_sub_cancel, Nat.mul_add, Nat.mul_one, Nat.add_comm]
          rw [e]
          exact h1
        rw [Nat.mul_add]
        omega
    have := hsum cs hch
    rw [Tr.inorder_node, weave_length, Tr.addrs_node, List.length_cons, Nat.add_sub_cancel]
    omega



/-! ## Consequences for a state that holds a tree -/

theorem Tr.addrsL_length_ge (cs : List Tr) : cs.length ≤ (Tr.addrsL cs).length := by
  induction cs with
  | nil => simp
  | cons c cs ih =>
    have := c.addrs_length_pos
    simp only [Tr.addrsL_cons, List.length_append, List.length_cons]
    omega

theorem TreeInv.leafDepths_eq {M : Nat} {t : BTree} {T : Tr} (hi : TreeInv M t T) :
    t.leafDepths = leafDepthsFrom t.heap (t.next + 1) T.addr := by
  simp only [BTree.leafDepths, hi.root_eq]

/-- All leaves of a state that holds a tree are at one depth, and every leaf is counted. -/
theorem TreeInv.balanced {M : Nat} {t : BTree} {T : Tr} (hi : TreeInv M t T) :
    (∃ d, ∀ x ∈ t.leafDepths, x.2 = d) ∧
    ∀ (a : Nat) (n : BTreeNode), t.heap a = some n → n.childrenVector = [] →
      ∃ d, (a, d) ∈ t.leafDepths := by
  have hsz := hi.focus.size_le_next
  obtain ⟨n, hw⟩ := hi.wf
  rw [hi.leafDepths_eq]
  refine ⟨⟨n, leafDepthsFrom_depth n _ _ T none _ hw hi.focus.subStored (by omega)⟩, ?_⟩
  intro a nd hn hleaf
  have hmem : a ∈ T.addrs := by
    by_contra hno
    have := hi.focus.clean a (by simpa [ctxAddrs] using hno)
    rw [this] at hn
    cases hn
  exact leafDepthsFrom_covers T none _ a nd hi.focus.subStored (by omega) hmem hn hleaf

/-- The key bounds of every node of a state that holds a tree. -/
theorem TreeInv.fill {M : Nat} {t : BTree} {T : Tr} (hi : TreeInv M t T) {a : Nat}
    {n : BTreeNode} (hn : t.heap a = some n) :
    n.keyVector.length ≤ M - 1 ∧ (t.root ≠ some a → minKeys M ≤ n.keyVector.length) ∧
      (t.root = some a → 1 < T.addrs.length → 1 ≤ n.keyVector.length) := by
  have hmem : a ∈ T.addrs := by
    by_contra hno
    have := hi.focus.clean a (by simpa [ctxAddrs] using hno)
    rw [this] at hn
    cases hn
  obtain ⟨k, hw⟩ := hi.wf
  by_cases ha : a = T.addr
  · subst ha
    have hcell := hi.root_cell
    rw [hn] at hcell
    have hn2 := Option.some.inj hcell
    subst hn2
    have hb := hw.keys_bounds
    refine ⟨hb.2, fun h => absurd hi.root_eq h, ?_⟩
    intro _ hsize
    cases k with
    | zero =>
      obtain ⟨b, ks, cs⟩ := T
      have hleaf : cs = [] := hw.1
      subst hleaf
      simp [Tr.addrs_node] at hsize
    | succ k =>
      have := hb.1
      simpa [subLo] using this
  · obtain ⟨q, S, j, h1, h2, h3⟩ :=
      Stores.subtree_wf k _ _ T none a hw hi.focus.subStored hmem ha
    have hcell := (Stores_iff.mp h1).1
    rw [h2, hn] at hcell
    have hn2 := Option.some.inj hcell
    subst hn2
    have hb := h3.keys_bounds
    refine ⟨hb.2, fun _ => hb.1, ?_⟩
    intro hroot
    rw [hi.root_eq] at hroot
    exact absurd (Option.some.inj hroot).symm ha

/-- A tree with more than one node has more than `2 * minKeys M` keys. -/
theorem TreeInv.single_of_few_keys {M : Nat} {t : BTree} {T : Tr} (hi : TreeInv M t T)
    (hfew : T.inorder.length ≤ 2 * minKeys M) : T.addrs.length = 1 := by
  obtain ⟨k, hw⟩ := hi.wf
  cases k with
  | zero =>
    obtain ⟨b, ks, cs⟩ := T
    have hleaf : cs = [] := hw.1
    subst hleaf
    simp [Tr.addrs_node]
  | succ k =>
    have hb := WFb.size_bound _ _ _ T hw
    obtain ⟨b, ks, cs⟩ := T
    have hlen : cs.length = ks.length + 1 := hw.1
    have hlo : 1 ≤ ks.length := by
      have := hw.2.1
      simpa [subLo] using this
    have hcs := Tr.addrsL_length_ge cs
    simp only [subLo, Nat.succ_ne_zero, if_false, Tr.addrs_node, List.length_cons,
      Nat.add_sub_cancel] at hb
    have h2 : minKeys M * 2 ≤ minKeys M * (Tr.addrsL cs).length :=
      Nat.mul_le_mul_left _ (by omega)
    omega

/-- At order 128 a tree with at most 400 keys has at most 7 nodes. -/
theorem TreeInv.nodes_le_seven {t : BTree} {T : Tr} (hi : TreeInv 128 t T)
    (hkeys : T.inorder.length ≤ 400) : T.addrs.length ≤ 7 := by
  obtain ⟨k, hw⟩ := hi.wf
  have hb := WFb.size_bound _ _ _ T hw
  have hmin : minKeys 128 = 63 := rfl
  rw [hmin] at hb
  cases k with
  | zero =>
    obtain ⟨b, ks, cs⟩ := T
    have hleaf : cs = [] := hw.1
    subst hleaf
    simp [Tr.addrs_node]
  | succ k =>
    simp only [subLo, Nat.succ_ne_zero, if_false] at hb
    omega

/-! ## The driver's insertion loop -/

/-- The insertion loop on a non-empty tree ends normally, with the tree holding the old
keys and the inserted values. -/
theorem driverInserts_spec {M : Nat} (hM : 3 ≤ M) :
    ∀ (vals : List Int) (t : BTree) (T : Tr), TreeInv M t T → T.inorder ≠ [] →
      ∃ t2 T2, BTree.driverInserts M t vals = .ok t2 ∧ TreeInv M t2 T2 ∧
        T2.inorder.length ≤ T.inorder.length + vals.length ∧
        ∀ x, x ∈ T2.inorder ↔ x ∈ T.inorder ∨ x ∈ vals := by
  intro vals
  induction vals with
  | nil =>
    intro t T hi _
    exact ⟨t, T, rfl, hi, by simp, by simp⟩
  | cons v vs ih =>
    intro t T hi hne
    by_cases hin : v ∈ T.inorder
    · have h1 := (insert_spec hM hi hne v).1 hin
      obtain ⟨t2, T2, r1, r2, r3, r4⟩ := ih t T hi hne
      refine ⟨t2, T2, ?_, r2, ?_, ?_⟩
      · simp only [BTree.driverInserts, h1]
        exact r1
      · simp only [List.length_cons]; omega
      · intro x
        rw [r4]
        simp only [List.mem_cons]
        constructor
        · rintro (h | h)
          · exact Or.inl h
          · exact Or.inr (Or.inr h)
        · rintro (h | h | h)
          · exact Or.inl h
          · exact Or.inl (h ▸ hin)
          · exact Or.inr h
    · obtain ⟨t1, T1, h1, h2, A, B, h3, h4, -⟩ := (insert_spec hM hi hne v).2 hin
      obtain ⟨t2, T2, r1, r2, r3, r4⟩ := ih t1 T1 h2 (by rw [h4]; simp)
      refine ⟨t2, T2, ?_, r2, ?_, ?_⟩
      · simp only [BTree.driverInserts, h1]
        exact r1
      · rw [h4] at r3
        rw [h3]
        simp only [List.length_append, List.length_cons] at r3 ⊢
        omega
      · intro x
        rw [r4, h3, h4]
        simp only [List.mem_append, List.mem_cons]
        tauto

/-- The insertion loop of the driver from the fresh tree. -/
theorem driverInserts_fresh {M : Nat} (hM : 3 ≤ M) (v : Int) (vs : List Int) :
    ∃ t2 T2, BTree.driverInserts M BTree.new (v :: vs) = .ok t2 ∧ TreeInv M t2 T2 ∧
      T2.inorder.length ≤ vs.length + 1 ∧ ∀ x, x ∈ T2.inorder ↔ x ∈ v :: vs := by
  obtain ⟨t1, h1, h2⟩ := insert_fresh hM v
  obtain ⟨t2, T2, r1, r2, r3, r4⟩ := driverInserts_spec hM vs t1 _ h2
    (by simp [Tr.inorder_node, weave])
  refine ⟨t2, T2, ?_, r2, ?_, ?_⟩
  · simp only [BTree.driverInserts, h1]
    exact r1
  · simp only [Tr.inorder_node, List.map_nil, weave, List.length_singleton] at r3
    omega
  · intro x
    rw [r4]
    simp [Tr.inorder_node, weave]

/-- Values that are all in the tree already leave the state as it is. -/
theorem driverInserts_dups {M : Nat} (hM : 3 ≤ M) {t : BTree} {T : Tr} (hi : TreeInv M t T) :
    ∀ (vals : List Int), (∀ x ∈ vals, x ∈ T.inorder) →
      BTree.driverInserts M t vals = .ok t := by
  intro vals
  induction vals with
  | nil => intro _; rfl
  | cons v vs ih =>
    intro hall
    have hin := hall v (by simp)
    have hne : T.inorder ≠ [] := by
      intro e; rw [e] at hin; simp at hin
    have h1 := (insert_spec hM hi hne v).1 hin
    simp only [BTree.driverInserts, h1]
    exact ih (fun x hx => hall x (List.mem_cons_of_mem _ hx))

/-- Inserting the same value again and again leaves the tree with one node. -/
theorem driverInserts_replicate {M : Nat} (hM : 3 ≤ M) (v : Int) (n : Nat) :
    ∃ t, BTree.driverInserts M BTree.new (List.replicate (n + 1) v) = .ok t ∧
      t.nodeCounter = 1 := by
  obtain ⟨t1, h1, h2⟩ := insert_fresh hM v
  refine ⟨t1, ?_, ?_⟩
  · rw [List.replicate_succ]
    simp only [BTree.driverInserts, h1]
    refine driverInserts_dups hM h2 _ ?_
    intro x hx
    rw [List.eq_of_mem_replicate hx]
    simp [Tr.inorder_node, weave]
  · have := h2.nodes
    simpa [BTree.nodeCounter, Tr.addrs_node] using this

/-! ## Runs of the object with a comparison function -/

theorem InsertRun.reachable {M : Nat} {cmp : Int → Int → Int} {o : BTreeObject}
    (hr : InsertRun M cmp o) : Reachable M o.tree ∧ o.compare = cmp := by
  induction hr with
  | fresh => exact ⟨Reachable.fresh, rfl⟩
  | @insertOk o o2 k _ hk ih =>
    simp only [BTreeObject.insert] at hk
    cases h : o.tree.insert M k with
    | error p =>
      rw [h] at hk
      cases hk
    | ok t2 =>
      rw [h] at hk
      cases hk
      exact ⟨Reachable.insertOk ih.1 h, ih.2⟩
  | @insertThrow o o2 k e _ hk hthrown ih =>
    simp only [BTreeObject.insert] at hk
    cases h : o.tree.insert M k with
    | error p =>
      obtain ⟨e2, t2⟩ := p
      rw [h] at hk
      cases hk
      exact ⟨Reachable.insertThrow ih.1 h hthrown, ih.2⟩
    | ok t2 =>
      rw [h] at hk
      cases hk

theorem compareReversed_threeWay : IsThreeWayOrder compareReversed := by
  refine ⟨?_, ?_, ?_, ?_⟩
  · intro a b
    simp only [compareReversed]
    split_ifs with h1 h2 <;> constructor <;> intro h <;> first | omega | simp at h
  · intro a b
    simp only [compareReversed]
    split_ifs <;> constructor <;> intro h <;> first | omega | simp at h
  · intro a b
    simp only [compareReversed]
    split_ifs <;> simp
  · intro a b c
    simp only [compareReversed]
    split_ifs <;> intro h1 h2 <;>
      first | omega | exact absurd h1 (by decide) | exact absurd h2 (by decide)



/-! ## Sample states and the trees they hold -/

/-- A reachable state holds the tree whose cells are stored from the root and whose
addresses are those reachable from the root. -/
theorem Focus.of_reachable {M : Nat} (hM : 3 ≤ M) {t : BTree} {T : Tr} (hr : Reachable M t)
    (hs : Stores t.heap none T) (ha : t.reachable = T.addrs) (hroot : t.root = some T.addr) :
    Focus t [] T := by
  rcases hr.valid hM with e | ⟨T0, hi⟩
  · subst e
    cases hroot
  · have he : T.addrs = T0.addrs := by rw [← ha, hi.reachable_eq]
    refine ⟨trivial, hs, ?_, ?_, ?_, hroot⟩
    · have := hi.focus.nodup
      simpa [ctxAddrs, he] using this
    · have := hi.focus.fresh
      simpa [ctxAddrs, he] using this
    · have := hi.focus.clean
      simpa [ctxAddrs, he] using this

theorem twoKeyLeaf_focus : Focus twoKeyLeaf [] (.node 0 [1, 2] []) := by
  refine Focus.of_reachable (M := 3) (by decide)
    (Reachable.insertAll [1, 2] _ _ Reachable.fresh rfl) ?_ rfl rfl
  rw [Stores_node]
  exact ⟨rfl, by simp⟩

theorem overfullLeaf_focus : Focus overfullLeaf [] (.node 0 [1, 2, 3] []) :=
  twoKeyLeaf_focus.set_leaf_keys rfl [1, 2, 3]

theorem borrowBase_focus :
    Focus borrowBase [] (.node 2 [3] [.node 0 [1, 2] [], .node 1 [4] []]) := by
  refine Focus.of_reachable (M := 3) (by decide)
    (Reachable.insertAll [1, 3, 4, 2] _ _ Reachable.fresh rfl) ?_ rfl rfl
  rw [Stores_node]
  refine ⟨rfl, ?_⟩
  intro c hc
  simp only [List.mem_cons, List.mem_singleton, List.not_mem_nil, or_false] at hc
  rcases hc with e | e
  · rw [e, Stores_node]
    exact ⟨rfl, by simp⟩
  · rw [e, Stores_node]
    exact ⟨rfl, by simp⟩

theorem underfullTree_focus :
    Focus underfullTree [] (.node 2 [3] [.node 0 [1, 2] [], .node 1 [] []]) := by
  have h1 : Focus borrowBase [⟨2, [3], [.node 0 [1, 2] []], []⟩] (.node 1 [4] []) :=
    Focus.down borrowBase_focus
  exact (h1.set_leaf_keys rfl []).up




/-! ## The end of a merge -/

theorem mergeTail_eq_mergeRest (M : Nat) (recurse : BTree → Nat → Except Exn BTree)
    (t : BTree) (h : Heap) (p s d : Nat) :
    mergeTail M recurse t h p s d =
      mergeRest M recurse { t with heap := h.set d none, nodeCount := t.nodeCount - 1 } p s :=
  rfl

theorem mergeRest_collapse {M : Nat} {recurse : BTree → Nat → Except Exn BTree} {t1 : BTree}
    {p s : Nat} {pc : List Nat} {pp : Option Nat} {sn : BTreeNode}
    (hp : t1.heap p = some ⟨[], pc, pp⟩) (hs : t1.heap s = some sn) (hps : p ≠ s)
    (hroot : t1.root = some p) :
    mergeRest M recurse t1 p s =
      .ok { t1 with heap := (t1.heap.set p none).set s (some { sn with parent := none }),
                    root := some s, nodeCount := t1.nodeCount - 1 } := by
  have e : (t1.heap.set p none) s = some sn := by
    simp [Heap.set, Ne.symm hps, hs]
  simp [mergeRest, Heap.deref, Heap.modify, hp, hroot, e]

theorem mergeRest_root_keeps {M : Nat} {recurse : BTree → Nat → Except Exn BTree} {t1 : BTree}
    {p s : Nat} {pk : List Int} {pc : List Nat} {pp : Option Nat}
    (hp : t1.heap p = some ⟨pk, pc, pp⟩) (hroot : t1.root = some p) (hk : pk ≠ []) :
    mergeRest M recurse t1 p s = .ok t1 := by
  simp [mergeRest, Heap.deref, hp, hroot, hk]

theorem mergeRest_inner {M : Nat} {recurse : BTree → Nat → Except Exn BTree} {t1 : BTree}
    {p s : Nat} {pk : List Int} {pc : List Nat} {pp : Option Nat}
    (hp : t1.heap p = some ⟨pk, pc, pp⟩) (hroot : t1.root ≠ some p) :
    mergeRest M recurse t1 p s =
      if pk.length < minKeys M then recurse t1 p else .ok t1 := by
  simp [mergeRest, Heap.deref, hp, hroot]




/-! ## Shape and parent pointers of every cell -/

theorem TreeInv.mem_addrs {M : Nat} {t : BTree} {T : Tr} (hi : TreeInv M t T) {a : Nat}
    {n : BTreeNode} (hn : t.heap a = some n) : a ∈ T.addrs := by
  by_contra hno
  have := hi.focus.clean a (by simpa [ctxAddrs] using hno)
  rw [this] at hn
  cases hn

/-- Every cell of a state that holds a tree is a leaf or has one more child than keys. -/
theorem TreeInv.cell_shape {M : Nat} {t : BTree} {T : Tr} (hi : TreeInv M t T) {a : Nat}
    {n : BTreeNode} (hn : t.heap a = some n) :
    n.childrenVector = [] ∨ n.childrenVector.length = n.keyVector.length + 1 := by
  have hmem := hi.mem_addrs hn
  obtain ⟨k, hw⟩ := hi.wf
  have key : ∀ (q : Option Nat) (S : Tr), Stores t.heap q S → S.addr = a →
      (S.children = [] ∨ S.children.length = S.keys.length + 1) →
      n.childrenVector = [] ∨ n.childrenVector.length = n.keyVector.length + 1 := by
    intro q S h1 h2 h3
    have hcell := (Stores_iff.mp h1).1
    rw [h2, hn] at hcell
    have hn2 := Option.some.inj hcell
    subst hn2
    rcases h3 with h3 | h3
    · left; simp [h3]
    · right; simpa using h3
  by_cases ha : a = T.addr
  · exact key none T hi.focus.subStored ha.symm hw.shape
  · obtain ⟨q, S, j, h1, h2, h3⟩ :=
      Stores.subtree_wf k _ _ T none a hw hi.focus.subStored hmem ha
    exact key q S h1 h2 h3.shape

theorem Tr.addrs_sublist_addrsL {cs : List Tr} {c : Tr} (hc : c ∈ cs) :
    List.Sublist c.addrs (Tr.addrsL cs) := by
  induction cs with
  | nil => simp at hc
  | cons d ds ih =>
    rw [Tr.addrsL_cons]
    rcases List.mem_cons.mp hc with e | h
    · subst e
      exact List.sublist_append_left _ _
    · exact (ih h).trans (List.sublist_append_right _ _)

theorem Tr.childAddrs_sublist (cs : List Tr) :
    List.Sublist (cs.map Tr.addr) (Tr.addrsL cs) := by
  induction cs with
  | nil => simp
  | cons d ds ih =>
    obtain ⟨a, ks, gs⟩ := d
    rw [Tr.addrsL_cons, Tr.addrs_node, List.map_cons, List.cons_append]
    exact List.Sublist.cons₂ _ (ih.trans (List.sublist_append_right _ _))

/-- Every address of a stored tree is the top of a stored subtree, which is the tree itself
or hangs in the child list of a cell that its parent pointer names. -/
theorem Stores.node_in {h : Heap} (T : Tr) :
    ∀ (p : Option Nat) (a : Nat), Stores h p T → a ∈ T.addrs →
      ∃ q S, Stores h q S ∧ S.addr = a ∧ List.Sublist S.addrs T.addrs ∧
        ((q = p ∧ a = T.addr) ∨
          ∃ b nb, h b = some nb ∧ q = some b ∧ a ∈ nb.childrenVector) := by
  induction T using Tr.induct with
  | step b ks cs ih =>
    intro p a hs ha
    rw [Tr.addrs_node, List.mem_cons] at ha
    rcases ha with e | hmem
    · exact ⟨p, .node b ks cs, hs, e.symm, List.Sublist.refl _, Or.inl ⟨rfl, e⟩⟩
    · obtain ⟨c, hc, hac⟩ := Tr.mem_addrsL.mp hmem
      obtain ⟨q, S, h1, h2, h3, h4⟩ := ih c hc (some b) a ((Stores_node.mp hs).2 c hc) hac
      refine ⟨q, S, h1, h2, ?_, Or.inr ?_⟩
      · rw [Tr.addrs_node]
        exact (h3.trans (Tr.addrs_sublist_addrsL hc)).trans (List.sublist_cons_self _ _)
      · rcases h4 with ⟨e1, e2⟩ | h4
        · refine ⟨b, _, (Stores_node.mp hs).1, e1, ?_⟩
          rw [e2]
          exact List.mem_map_of_mem _ hc
        · exact h4

/-- The cell of a node, with the subtree below it: its child addresses are distinct, each
child's cell points back, and the node is the root or hangs in its parent's child list. -/
theorem TreeInv.node_facts {M : Nat} {t : BTree} {T : Tr} (hi : TreeInv M t T) {a : Nat}
    {n : BTreeNode} (hn : t.heap a = some n) :
    n.childrenVector.Nodup ∧
      (∀ c ∈ n.childrenVector, ∃ nc, t.heap c = some nc ∧ nc.parent = some a) ∧
      ((n.parent = none ∧ t.root = some a) ∨
        ∃ b nb, t.heap b = some nb ∧ n.parent = some b ∧ a ∈ nb.childrenVector) := by
  have hmem := hi.mem_addrs hn
  obtain ⟨q, S, h1, h2, h3, h4⟩ := Stores.node_in T none a hi.focus.subStored hmem
  have hcell := (Stores_iff.mp h1).1
  rw [h2, hn] at hcell
  have hn2 := Option.some.inj hcell
  subst hn2
  have hnd : T.addrs.Nodup := by
    have := hi.focus.nodup
    simpa [ctxAddrs] using this
  refine ⟨?_, ?_, ?_⟩
  · exact ((Tr.childAddrs_sublist _).nodup (Tr.children_nodup (h3.nodup hnd)))
  · intro c hc
    obtain ⟨C, hC, e⟩ := List.mem_map.mp hc
    have := (Stores_iff.mp ((Stores_iff.mp h1).2 C hC)).1
    rw [e, h2] at this
    exact ⟨_, this, rfl⟩
  · rcases h4 with ⟨e1, e2⟩ | ⟨b, nb, g1, g2, g3⟩
    · left
      refine ⟨e1, ?_⟩
      rw [hi.root_eq, e2]
    · right
      exact ⟨b, nb, g1, g2, g3⟩




/-! ## The sorted set behind a tree -/

theorem specInsert_split {A B : List Int} {k : Int} (hA : ∀ x ∈ A, x < k)
    (hB : ∀ x ∈ B, k < x) : specInsert k (A ++ B) = A ++ k :: B := by
  induction A with
  | nil =>
    cases B with
    | nil => rfl
    | cons b B => simp [specInsert, hB b (List.mem_cons_self _ _)]
  | cons a A ih =>
    have h1 : ¬ k < a := by
      have := hA a (List.mem_cons_self _ _)
      omega
    have e := ih (fun x hx => hA x (List.mem_cons_of_mem _ hx))
    show specInsert k (a :: (A ++ B)) = a :: (A ++ k :: B)
    rw [specInsert, if_neg h1, e]

theorem specRemove_split {A B : List Int} {k : Int} (hA : k ∉ A) :
    specRemove k (A ++ k :: B) = A ++ B := by
  induction A with
  | nil => simp [specRemove]
  | cons a A ih =>
    have h1 : ¬ a = k := fun e => hA (by simp [e])
    have e := ih (fun h => hA (List.mem_cons_of_mem _ h))
    show specRemove k (a :: (A ++ k :: B)) = a :: (A ++ B)
    rw [specRemove, if_neg h1, e]

theorem specRemove_mem {S : List Int} {k x : Int} (h : x ∈ specRemove k S) : x ∈ S := by
  induction S with
  | nil => simp [specRemove] at h
  | cons a S ih =>
    simp only [specRemove] at h
    split at h
    · exact List.mem_cons_of_mem _ h
    · rcases List.mem_cons.mp h with e | h2
      · simp [e]
      · exact List.mem_cons_of_mem _ (ih h2)

theorem specInsert_mem {S : List Int} {k x : Int} : x ∈ specInsert k S ↔ x = k ∨ x ∈ S := by
  induction S with
  | nil => simp [specInsert]
  | cons a S ih =>
    simp only [specInsert]
    split
    · simp
    · simp only [List.mem_cons, ih]
      tauto

/-- A successful `insert` on a state that holds a tree inserts the key at its sorted
position of the in-order key list. -/
theorem TreeInv.insert_refines {M : Nat} (hM : 3 ≤ M) {t : BTree} {T : Tr}
    (hi : TreeInv M t T) {k : Int} {t2 : BTree} (h : t.insert M k = .ok t2) :
    k ∉ t.storedKeys ∧ t2.storedKeys = specInsert k t.storedKeys ∧
      t2.storedKeys.Pairwise (· < ·) := by
  rw [hi.storedKeys_eq]
  by_cases he : T.inorder = []
  · rw [insert_emptied hi he k] at h
    cases h
  · obtain ⟨h1, h2⟩ := insert_spec hM hi he k
    by_cases hk : k ∈ T.inorder
    · rw [h1 hk] at h
      cases h
    · obtain ⟨t3, T3, g1, g2, A, B, g3, g4, g5, g6⟩ := h2 hk
      rw [g1] at h
      cases h
      refine ⟨hk, ?_, ?_⟩
      · rw [g2.storedKeys_eq, g4, g3, specInsert_split g5 g6]
      · rw [g2.storedKeys_eq]
        exact g2.sorted

/-- A successful `remove` on a state that holds a tree takes the key out of the in-order
key list. -/
theorem TreeInv.remove_refines {M : Nat} (hM : 3 ≤ M) {t : BTree} {T : Tr}
    (hi : TreeInv M t T) {k : Int} {t2 : BTree} (h : t.remove M k = .ok t2) :
    k ∈ t.storedKeys ∧ t2.storedKeys = specRemove k t.storedKeys ∧
      t2.storedKeys.Pairwise (· < ·) := by
  rw [hi.storedKeys_eq]
  obtain ⟨h1, h2, h3⟩ := remove_spec hM hi k
  by_cases he : T.inorder = []
  · rw [h1 he] at h
    cases h
  · by_cases hk : k ∈ T.inorder
    · obtain ⟨t3, T3, g1, g2, A, B, g3, g4⟩ := h3 hk
      rw [g1] at h
      cases h
      refine ⟨hk, ?_, ?_⟩
      · rw [g2.storedKeys_eq, g4, g3]
        have hs := hi.sorted
        rw [g3] at hs
        have hA : k ∉ A := by
          intro hmem
          have := (List.pairwise_append.mp hs).2.2 k hmem k (List.mem_cons_self _ _)
          omega
        rw [specRemove_split hA]
      · rw [g2.storedKeys_eq]
        exact g2.sorted
    · rw [h2 he hk] at h
      cases h




/-! ## Order 2 -/

/-- At order 2 the second key splits the root leaf, whichever of the two keys comes first:
the smaller key goes up, the larger one to the new right leaf, and the left leaf keeps
nothing. -/
theorem order2_two_keys (x y : Int) (lo hi : Int) (h : lo < hi)
    (hxy : (x = lo ∧ y = hi) ∨ (x = hi ∧ y = lo)) :
    ∃ t, BTree.insertAll 2 BTree.new [x, y] = .ok t ∧
      t.nodeCount = 3 ∧ t.totalKeyCount = 2 ∧ t.root = some 2 ∧ t.next = 3 ∧
      t.heap 2 = some ⟨[lo], [0, 1], none⟩ ∧ t.heap 0 = some ⟨[], [], some 2⟩ ∧
      t.heap 1 = some ⟨[hi], [], some 2⟩ ∧ (∀ a, 2 < a → t.heap a = none) := by
  rcases hxy with ⟨rfl, rfl⟩ | ⟨rfl, rfl⟩
  · have h1 : ¬ x = y := by omega
    have h2 : ¬ x > y := by omega
    simp [BTree.insertAll, BTree.new, BTree.insert, BTree.findNode, Heap.deref, Heap.set,
      BTreeNode.findKey, BTreeNode.findKeyLoop, h1, h2, vecInsert, overfull,
      BTree.resolveOverflow, keyMidpoint, Heap.modify, splitKeys, splitChildren, vecGet]
    intro a ha
    simp [show a ≠ 0 by omega, show a ≠ 1 by omega, show a ≠ 2 by omega]
  · have h1 : ¬ x = y := by omega
    have h2 : x > y := by omega
    simp [BTree.insertAll, BTree.new, BTree.insert, BTree.findNode, Heap.deref, Heap.set,
      BTreeNode.findKey, BTreeNode.findKeyLoop, h1, h2, vecInsert, overfull,
      BTree.resolveOverflow, keyMidpoint, Heap.modify, splitKeys, splitChildren, vecGet]
    intro a ha
    simp [show a ≠ 0 by omega, show a ≠ 1 by omega, show a ≠ 2 by omega]

/-- An insert that is led to a leaf without keys falls off the loop of `findKey`. -/
theorem insert_empty_leaf {M : Nat} {t : BTree} {r l : Nat} {k c : Int} {cs : List Nat}
    {q : Option Nat} (hnc : t.nodeCount ≠ 0) (hroot : t.root = some r) (hnext : 1 ≤ t.next)
    (hr : t.heap r = some ⟨[k], l :: cs, none⟩) (hl : t.heap l = some ⟨[], [], q⟩)
    (hc : c < k) : t.insert M c = .error (.undefinedBehaviour, t) := by
  obtain ⟨n, hn⟩ : ∃ n, t.next = n + 1 := ⟨t.next - 1, by omega⟩
  have h1 : ¬ k = c := by omega
  have h2 : k > c := by omega
  simp [BTree.insert, hnc, hroot, hn, BTree.findNode, Heap.deref, hr, hl,
    BTree.findNodeScan, h1, h2, vecGet, BTreeNode.findKey, BTreeNode.findKeyLoop]




/-! ## A key sits in one node only -/

theorem count_weave (x : Int) :
    ∀ (cs : List (List Int)) (ks : List Int),
      (weave cs ks).count x = ks.count x + (cs.map (List.count x)).sum := by
  intro cs
  induction cs with
  | nil => intro ks; simp
  | cons c cs ih =>
    intro ks
    cases ks with
    | nil =>
      have := ih []
      simp only [weave, List.count_append, List.map_cons, List.sum_cons, this]
      omega
    | cons k ks =>
      have := ih ks
      simp only [weave, List.count_append, List.count_cons, List.map_cons, List.sum_cons, this]
      omega

theorem le_sum_map_of_mem {l : List Nat} {f : Nat → Nat} {a : Nat} (ha : a ∈ l) :
    f a ≤ (l.map f).sum := by
  induction l with
  | nil => simp at ha
  | cons b l ih =>
    simp only [List.map_cons, List.sum_cons]
    rcases List.mem_cons.mp ha with e | h
    · subst e; omega
    · have := ih h; omega

theorem two_le_sum_map {l : List Nat} {f : Nat → Nat} {a b : Nat} (hab : a ≠ b)
    (ha : a ∈ l) (hb : b ∈ l) (fa : 1 ≤ f a) (fb : 1 ≤ f b) : 2 ≤ (l.map f).sum := by
  induction l with
  | nil => simp at ha
  | cons c l ih =>
    simp only [List.map_cons, List.sum_cons]
    rcases List.mem_cons.mp ha with e1 | h1
    · rcases List.mem_cons.mp hb with e2 | h2
      · exact absurd (e1.trans e2.symm) hab
      · have := le_sum_map_of_mem (f := f) h2
        subst e1
        omega
    · rcases List.mem_cons.mp hb with e2 | h2
      · have := le_sum_map_of_mem (f := f) h1
        subst e2
        omega
      · have := ih h1 h2
        omega

/-- The number of times a key occurs in the cell at an address. -/
theorem Stores.count_inorder {h : Heap} (x : Int) (T : Tr) :
    ∀ (p : Option Nat), Stores h p T →
      T.inorder.count x =
        (T.addrs.map (fun a => ((h a).map (fun n => n.keyVector.count x)).getD 0)).sum := by
  induction T using Tr.induct with
  | step b ks cs ih =>
    intro p hs
    obtain ⟨hcell, hch⟩ := Stores_node.mp hs
    have hl : ∀ (l : List Tr), (∀ c ∈ l, c ∈ cs) →
        ((l.map Tr.inorder).map (List.count x)).sum =
          ((Tr.addrsL l).map
            (fun a => ((h a).map (fun n => n.keyVector.count x)).getD 0)).sum := by
      intro l
      induction l with
      | nil => intro _; simp
      | cons c l ihl =>
        intro hsub
        have h1 := ih c (hsub c (List.mem_cons_self _ _)) (some b)
          (hch c (hsub c (List.mem_cons_self _ _)))
        have h2 := ihl (fun d hd => hsub d (List.mem_cons_of_mem _ hd))
        simp only [List.map_cons, List.sum_cons, Tr.addrsL_cons, List.map_append,
          List.sum_append, h1, h2]
    rw [Tr.inorder_node, count_weave, hl cs (fun c hc => hc), Tr.addrs_node, List.map_cons,
      List.sum_cons, hcell]
    simp

/-- In a state that holds a tree, a key is stored in one cell only. -/
theorem TreeInv.key_node_unique {M : Nat} {t : BTree} {T : Tr} (hi : TreeInv M t T)
    {a1 a2 : Nat} {n1 n2 : BTreeNode} {x : Int} (h1 : t.heap a1 = some n1)
    (h2 : t.heap a2 = some n2) (x1 : x ∈ n1.keyVector) (x2 : x ∈ n2.keyVector) : a1 = a2 := by
  by_contra hne
  have hc := Stores.count_inorder x T none hi.focus.subStored
  have hs : T.inorder.Nodup := hi.sorted.imp (fun h => ne_of_lt h)
  have hle := List.nodup_iff_count_le_one.mp hs x
  have hge := two_le_sum_map (f := fun a => ((t.heap a).map
      (fun n => n.keyVector.count x)).getD 0) hne (hi.mem_addrs h1) (hi.mem_addrs h2)
    (by simp only [h1, Option.map_some', Option.getD_some]; exact List.count_pos_iff.mpr x1)
    (by simp only [h2, Option.map_some', Option.getD_some]; exact List.count_pos_iff.mpr x2)
  omega




/-! ## The exchange with the predecessor, step by step -/

theorem plugAll_inorder_of_le (ctx : List Frame) :
    ∀ (t : Tr), (∀ f ∈ ctx, f.left.length ≤ f.keys.length) →
      (plugAll ctx t).inorder = ctxPre ctx ++ t.inorder ++ ctxPost ctx := by
  induction ctx with
  | nil => intro t _; simp [plugAll, ctxPre, ctxPost]
  | cons f fs ih =>
    intro t h
    simp only [plugAll, ctxPre, ctxPost]
    rw [ih (f.plug t) (fun g hg => h g (List.mem_cons_of_mem _ hg)),
      f.plug_inorder t (h f (List.mem_cons_self _ _))]
    simp [List.append_assoc]

/-- What `removeAt` does at an internal node: the child left of the key is followed to its
right-most leaf, whose last key is the last key of the child's subtree and stands right
before the key in the in-order list; the two cells are rewritten and underflow resolution
is called on the leaf when it is left with fewer than `minKeys M` keys. -/
theorem removeAt_internal_step {M : Nat} (hM : 3 ≤ M) {item : Int} {t : BTree} {m : Nat}
    {ctx : List Frame} {a : Nat} {ka kb : List Int} {cs : List Tr}
    (hd : Descent M item t (m + 1) ctx (.node a (ka ++ item :: kb) cs)) :
    ∃ (CL CR : List Tr) (C : Tr) (la : Nat) (dl front X Y : List Int) (pred : Int)
      (lpar : Option Nat) (hF : Heap),
      cs = CL ++ C :: CR ∧ CL.length = ka.length ∧
      descendLast t.heap (t.next + 1) C.addr = .ok la ∧
      t.heap la = some ⟨dl ++ [pred], [], lpar⟩ ∧ la ≠ a ∧
      keysFrom t.heap (t.next + 1) C.addr = front ++ [pred] ∧
      (plugAll ctx (.node a (ka ++ item :: kb) cs)).inorder =
        X ++ front ++ pred :: item :: Y ∧
      hF = (t.heap.set la (some ⟨dl, [], lpar⟩)).set a
        (some ⟨ka ++ pred :: kb, cs.map Tr.addr, ctxParent ctx⟩) ∧
      BTree.removeAt M t item a =
        (if dl.length < minKeys M then
            BTree.resolveUnderflow M (t.next + 1) { t with heap := hF } la
          else pure { t with heap := hF }) >>=
          fun t2 => pure { t2 with totalKeyCount := t2.totalKeyCount - 1 } := by
  have hmin := minKeys_pos hM
  have hni : item ∉ ka := not_mem_of_sorted_split (by simpa using hd.keys_sorted)
  have hw := hd.subWF
  have hht := WFb.height_lt_size (m + 1) _ _ _ hw
  rw [subLo_succ_eq_ctxLo] at hw
  simp only [WFb, Tr.keys_node, Tr.children_node, List.length_append, List.length_cons] at hw
  obtain ⟨hlen, hlo, hhi, hch⟩ := hw
  obtain ⟨CL, C, CR, rfl, hCL⟩ := list_split_at cs ka.length (by omega)
  simp only [List.length_append, List.length_cons] at hlen
  have hsz := hd.focus.toRoot.size_le_next
  rw [plugAll_addrs_length] at hsz
  have hfC : Focus t (⟨a, ka ++ item :: kb, CL, CR⟩ :: ctx) C := Focus.down hd.focus
  have hcS : CtxOK M m (⟨a, ka ++ item :: kb, CL, CR⟩ :: ctx) := by
    simp only [CtxOK, FrameOK, List.length_append, List.length_cons]
    exact ⟨⟨by omega, fun c hc => hch c (by simp [hc]), fun c hc => hch c (by simp [hc])⟩,
      hlo, hhi, hd.ctxOK⟩
  obtain ⟨spine, Lf, h1, h2, h3, h4, h5, h6, h7⟩ :=
    descendLast_spec hM m (t.next + 1) _ C (by omega) hfC hcS (hch C (by simp))
  obtain ⟨la, lk, lc⟩ := Lf
  simp only [WF, WFb, Tr.children_node, Tr.keys_node] at h5
  obtain ⟨hlc, hl1, hl2⟩ := h5
  subst hlc
  obtain ⟨dl, pred, rfl⟩ : ∃ dl pred, lk = dl ++ [pred] := by
    rcases List.eq_nil_or_concat lk with h | ⟨l, b, h⟩
    · rw [h] at hl1; simp at hl1; omega
    · exact ⟨l, b, by rw [h, List.concat_eq_append]⟩
  have hleafcell := (Stores_node.mp h2.subStored).1
  simp only [List.map_nil] at hleafcell
  have hne : la ≠ a := by
    intro e
    have hmem : a ∈ ctxAddrs (spine ++ ⟨a, ka ++ item :: kb, CL, CR⟩ :: ctx) := by
      rw [ctxAddrs_append]
      simp [ctxAddrs, Frame.addrs]
    exact (List.nodup_append.mp h2.nodup).2.2 hmem (by simp [Tr.addrs_node, e])
  have hcell := hd.heap_eq
  simp only [Tr.addr_node, Tr.keys_node, Tr.children_node, List.map_append,
    List.map_cons] at hcell
  simp only [Tr.addr_node] at h1
  have hCio : C.inorder = (ctxPre spine ++ dl) ++ [pred] := by
    rw [← h4, plugAll_inorder_of_le spine _ (fun f hf => le_of_eq (h7 f hf)),
      ctxPost_spine spine h6 h7]
    simp [Tr.inorder_node, weave]
  have hCsz : C.addrs.length ≤ t.next + 1 := by
    have := @Tr.addrs_length_le_of_mem (CL ++ C :: CR) C (by simp)
    simp only [Tr.addrs_node, List.length_cons] at hsz
    omega
  have hkeys := keysFrom_eq C _ (t.next + 1) hfC.subStored hCsz
  refine ⟨CL, CR, C, la, dl, ctxPre spine ++ dl,
    ctxPre ctx ++ weave (CL.map Tr.inorder) ka, weave (CR.map Tr.inorder) kb ++ ctxPost ctx,
    pred, _, _, rfl, hCL, h1, hleafcell, hne, ?_, ?_, rfl, ?_⟩
  · rw [hkeys, hCio]
  · rw [hd.inorder_eq, Tr.inorder_node, List.map_append, List.map_cons,
      weave_append _ _ _ _ (by simp [hCL]), weave_cons_cons, hCio]
    simp [List.append_assoc]
  · have := removeAt_internal_eval (M := M) hcell (by simp [hCL]) hni h1 hleafcell hne _ rfl
    simpa using this




/-! ## `remove` of a key of an internal node -/

/-- Removing a key stored in an internal node of a state that holds a tree. -/
theorem remove_internal {M : Nat} (hM : 3 ≤ M) {t : BTree} {T : Tr} (hi : TreeInv M t T)
    {a : Nat} {ka kb : List Int} {k : Int} {cv : List Nat} {par : Option Nat}
    (hn : t.heap a = some ⟨ka ++ k :: kb, cv, par⟩) (hcv : cv ≠ []) :
    ∃ (c la : Nat) (dl front X Y : List Int) (pred : Int) (lpar : Option Nat) (hF : Heap)
      (t2 : BTree),
      cv[ka.length]? = some c ∧
      descendLast t.heap (t.next + 1) c = .ok la ∧
      t.heap la = some ⟨dl ++ [pred], [], lpar⟩ ∧ la ≠ a ∧
      keysFrom t.heap (t.next + 1) c = front ++ [pred] ∧
      t.storedKeys = X ++ front ++ pred :: k :: Y ∧
      hF = (t.heap.set la (some ⟨dl, [], lpar⟩)).set a (some ⟨ka ++ pred :: kb, cv, par⟩) ∧
      (if dl.length < minKeys M then
          BTree.resolveUnderflow M (t.next + 1) { t with heap := hF } la
        else .ok { t with heap := hF }) = .ok t2 ∧
      t.remove M k = .ok { t2 with totalKeyCount := t2.totalKeyCount - 1 } := by
  have hnc := hi.nodeCount_pos
  have hroot := hi.root_eq
  have hrc := hi.root_cell
  have hkk := hi.wf.keys_eq_nil_iff
  have hin : k ∈ T.inorder := by
    obtain ⟨q, S, -, -, h3, -, h5⟩ := hi.cell hn
    have e : S.keys = ka ++ k :: kb := by
      have := congrArg BTreeNode.keyVector h5
      exact this.symm
    have hk : k ∈ S.inorder := by
      obtain ⟨b, ks, gs⟩ := S
      rw [Tr.inorder_node]
      simp only [Tr.keys_node] at e
      exact (keys_sublist_weave _ _).subset (by rw [e]; simp)
    exact h3.subset hk
  have hne : T.inorder ≠ [] := by
    intro e; rw [e] at hin; simp at hin
  have hk : T.keys ≠ [] := fun e => hne (hkk.mp e)
  obtain ⟨n, hd, hfuel⟩ := hi.descent k
  obtain ⟨ctx, S, m, r1, r2, r3, r4⟩ := findNode_descent hM n (t.next + 1) [] T hfuel hd
  simp only [plugAll] at r3
  have hmem := r2.mem_iff r4
  rw [r3] at hmem
  have hsk : k ∈ S.keys := hmem.mp hin
  have hfk := findKey_of_mem ⟨S.keys, S.children.map Tr.addr, ctxParent ctx⟩
    r2.keys_sorted hsk
  have hheap := r2.heap_eq
  have hnodes : t.nodeCount = ((plugAll ctx S).addrs.length : Int) := by
    rw [r3]; exact hi.nodes
  have hSa : S.addr = a := hi.key_node_unique hheap hn hsk (by simp)
  obtain ⟨b, ks, cs⟩ := S
  simp only [Tr.addr_node] at hSa
  subst hSa
  simp only [Tr.addr_node, Tr.keys_node, Tr.children_node] at hheap hfk r1
  rw [hn] at hheap
  have e1 : ka ++ k :: kb = ks := congrArg BTreeNode.keyVector (Option.some.inj hheap)
  have e2 : cv = cs.map Tr.addr := congrArg BTreeNode.childrenVector (Option.some.inj hheap)
  have e3 : par = ctxParent ctx := congrArg BTreeNode.parent (Option.some.inj hheap)
  subst e1 e2 e3
  cases m with
  | zero =>
    have hleaf : cs = [] := r2.subWF.1
    subst hleaf
    exact absurd rfl hcv
  | succ m =>
    obtain ⟨CL, CR, C, la, dl, front, X, Y, pred, lpar, hF, s1, s2, s3, s4, s5, s6, s7, s8,
      s9⟩ := removeAt_internal_step hM r2
    obtain ⟨t3, T3, u1, -⟩ := removeAt_internal_spec hM r2 hnodes
    rw [r3] at s7
    refine ⟨C.addr, la, dl, front, X, Y, pred, lpar, hF, ?_⟩
    have hidx : (List.map Tr.addr cs)[ka.length]? = some C.addr := by
      rw [s1, List.map_append, List.map_cons,
        List.getElem?_append_right (by simp [s2])]
      simp [s2]
    rw [u1] at s9
    generalize hE : (if dl.length < minKeys M then
        BTree.resolveUnderflow M (t.next + 1) { t with heap := hF } la
      else pure { t with heap := hF }) = E at s9
    cases E with
    | error e => cases s9
    | ok t2 =>
      have e4 : t3 = { t2 with totalKeyCount := t2.totalKeyCount - 1 } := by
        have := s9
        simp only [bind, Except.bind, pure, Except.pure] at this
        exact Except.ok.inj this
      refine ⟨t2, hidx, s3, s4, s5, s6, ?_, s8, hE, ?_⟩
      · rw [hi.storedKeys_eq, s7]
      · rw [← e4]
        simp [BTree.remove, hnc, hroot, Heap.deref, hrc, hk, r1, hn, hfk, u1]




/-! ## The borrow ends the underflow resolution -/

/-- For an under-full node whose left sibling has more than `minKeys M` keys,
`resolveUnderflow` is the left borrow and nothing more. -/
theorem Focus.resolve_leftBorrow {M : Nat} (fuel : Nat) {t : BTree} {rest : List Frame}
    {p xa ya : Nat} {pk xk yk : List Int} {L R xc yc : List Tr}
    (hf : Focus t rest (.node p pk (L ++ [.node xa xk xc, .node ya yk yc] ++ R)))
    (hn1 : t.nodeCount ≠ 1) (hbig : minKeys M < xk.length) :
    BTree.resolveUnderflow M (fuel + 1) t ya = BTree.leftBorrow t p xa ya (L.length + 1) := by
  obtain ⟨H1, H2, H3, -, -, n3, -, n5, -⟩ := hf.two_facts
  have h := resolveUnderflow_leftBorrow M fuel hn1 H3 H1 H2 n5 n3 hbig
  rw [List.length_map] at h
  exact h

/-- For an under-full node whose right sibling has more than `minKeys M` keys, and which
is the first child or has a left sibling with `minKeys M` keys, `resolveUnderflow` is the
right borrow and nothing more. -/
theorem Focus.resolve_rightBorrow {M : Nat} (fuel : Nat) {t : BTree} {rest : List Frame}
    {p xa ya : Nat} {pk xk yk : List Int} {L R xc yc : List Tr}
    (hf : Focus t rest (.node p pk (L ++ [.node xa xk xc, .node ya yk yc] ++ R)))
    (hn1 : t.nodeCount ≠ 1) (hbig : minKeys M < yk.length)
    (hL : L = [] ∨ ∃ (L2 : List Tr) (za : Nat) (zk : List Int) (zc : List Tr),
      L = L2 ++ [.node za zk zc] ∧ zk.length = minKeys M) :
    BTree.resolveUnderflow M (fuel + 1) t xa = BTree.rightBorrow t p ya xa L.length := by
  obtain ⟨H1, H2, H3, -, -, -, n4, -, -⟩ := hf.two_facts
  rcases hL with e | ⟨L2, za, zk, zc, e, hz⟩
  · subst e
    simp only [List.map_nil, List.nil_append] at H1
    exact (resolveUnderflow_first M fuel hn1 H2 H1 H3).1 hbig
  · subst e
    have hZ : t.heap za = some ⟨zk, zc.map Tr.addr, some p⟩ :=
      (Stores_node.mp ((Stores_node.mp hf.subStored).2 (.node za zk zc) (by simp))).1
    have hf2 : Focus t rest (.node p pk
        ((L2 ++ [.node za zk zc]) ++ .node xa xk xc :: (.node ya yk yc :: R))) := by
      simpa using hf
    have hR := hf2.hole_not_right
    simp only [Tr.addr_node, List.map_cons] at hR
    simp only [List.map_append, List.map_cons, List.map_nil, Tr.addr_node, List.mem_append,
      List.mem_singleton, not_or] at n4
    have hp : t.heap p = some ⟨pk, L2.map Tr.addr ++ za :: xa :: ya :: R.map Tr.addr,
        ctxParent rest⟩ := by
      rw [H1]; simp
    have h := (resolveUnderflow_middle M fuel hn1 H2 hp hZ H3 n4.1 (Ne.symm n4.2) hR hz).1 hbig
    rw [List.length_map] at h
    simpa using h



/-! ## The claims -/

/-- C1 (round trip): for every order at least 3 and every list of pairwise distinct keys,
inserting the keys one after another into a freshly constructed tree succeeds at every
step, and afterwards `search k` returns `k` itself for each inserted key `k`. -/
theorem C1_round_trip (M : Nat) (hM : 3 ≤ M) (ks : List Int) (hks : ks.Nodup) :
    ∃ t, BTree.insertAll M BTree.new ks = .ok t ∧ ∀ k ∈ ks, t.search k = .ok k := by
  cases ks with
  | nil => exact ⟨BTree.new, rfl, by simp⟩
  | cons k0 ks =>
    obtain ⟨t1, h1, h2⟩ := insert_fresh hM k0
    have hnd := List.nodup_cons.mp hks
    obtain ⟨t2, T2, r1, r2, r3⟩ := insertAll_spec hM ks t1 _ h2
      (by simp [Tr.inorder_node, weave]) hnd.2 (by
        intro x hx hx1
        simp only [Tr.inorder_node, List.map_nil, weave, List.mem_singleton] at hx1
        exact hnd.1 (hx1 ▸ hx))
    refine ⟨t2, ?_, ?_⟩
    · simp only [BTree.insertAll, h1]
      exact r1
    · intro k hk
      refine (search_spec hM r2 k).1 ((r3 k).mpr ?_)
      simp only [Tr.inorder_node, List.map_nil, weave, List.mem_singleton]
      exact List.mem_cons.mp hk

theorem C1_round_trip_witness :
    3 ≤ 3 ∧ ([4, 1, 3, 2] : List Int).Nodup ∧
      ∃ t, BTree.insertAll 3 BTree.new [4, 1, 3, 2] = .ok t ∧
        ∀ k ∈ ([4, 1, 3, 2] : List Int), t.search k = .ok k :=
  ⟨by decide, by decide, C1_round_trip 3 (by decide) [4, 1, 3, 2] (by decide)⟩

/-- C2 (duplicate rejection is atomic): in every state reached from the fresh tree by
inserts and removes, at order at least 3, `insert k` of a key `k` stored in the tree fails
with `DuplicateItem`, and the state the exception leaves behind is the state before the
call: the same heap cells (every node's keys and children) and the same two counters. -/
theorem C2_duplicate_atomic (M : Nat) (hM : 3 ≤ M) (t : BTree) (hr : Reachable M t)
    (k : Int) (hk : k ∈ t.storedKeys) :
    t.insert M k = .error (.duplicateItem, t) := by
  rcases hr.valid hM with e | ⟨T, hi⟩
  · subst e
    simp [storedKeys_fresh] at hk
  · rw [hi.storedKeys_eq] at hk
    have hne : T.inorder ≠ [] := by
      intro e; rw [e] at hk; simp at hk
    exact (insert_spec hM hi hne k).1 hk

theorem C2_duplicate_atomic_witness :
    3 ≤ 3 ∧ Reachable 3 sampleTree ∧ (2 : Int) ∈ sampleTree.storedKeys ∧
      sampleTree.insert 3 2 = .error (.duplicateItem, sampleTree) :=
  ⟨by decide, Reachable.insertAll [1, 2, 3] _ _ Reachable.fresh rfl, by decide,
    C2_duplicate_atomic 3 (by decide) sampleTree
      (Reachable.insertAll [1, 2, 3] _ _ Reachable.fresh rfl) 2 (by decide)⟩

/-- C3 (deletion soundness): in every state reached from the fresh tree by inserts and
removes, at order at least 3, `remove k` of a key `k` stored in the tree returns normally,
and `search k` on the resulting state fails with `ItemNotFound`; the key may sit in a leaf
or in an internal node, and may be the last key of the tree. -/
theorem C3_remove_then_search (M : Nat) (hM : 3 ≤ M) (t : BTree) (hr : Reachable M t)
    (k : Int) (hk : k ∈ t.storedKeys) :
    ∃ t2, t.remove M k = .ok t2 ∧ t2.search k = .error .itemNotFound := by
  rcases hr.valid hM with e | ⟨T, hi⟩
  · subst e
    simp [storedKeys_fresh] at hk
  · rw [hi.storedKeys_eq] at hk
    obtain ⟨t2, T2, h1, h2, A, B, h3, h4⟩ := (remove_spec hM hi k).2.2 hk
    refine ⟨t2, h1, (search_spec hM h2 k).2 ?_⟩
    rw [h4]
    exact not_mem_of_sorted_remove (h3 ▸ hi.sorted)

theorem C3_remove_then_search_witness :
    3 ≤ 3 ∧ Reachable 3 sampleTree ∧ (2 : Int) ∈ sampleTree.storedKeys ∧
      ∃ t2, sampleTree.remove 3 2 = .ok t2 ∧ t2.search 2 = .error .itemNotFound :=
  ⟨by decide, Reachable.insertAll [1, 2, 3] _ _ Reachable.fresh rfl, by decide,
    C3_remove_then_search 3 (by decide) sampleTree
      (Reachable.insertAll [1, 2, 3] _ _ Reachable.fresh rfl) 2 (by decide)⟩

/-- C4 (removing an absent key is atomic): in every state reached from the fresh tree by
inserts and removes, at order at least 3, whose root holds at least one key, `remove k`
of a key `k` not stored in the tree fails with `ItemNotFound`, and the state the exception
leaves behind is the state before the call: the same heap cells and the same counters. -/
theorem C4_remove_absent_atomic (M : Nat) (hM : 3 ≤ M) (t : BTree) (hr : Reachable M t)
    (r : Nat) (n : BTreeNode) (hroot : t.root = some r) (hn : t.heap r = some n)
    (hne : n.keyVector ≠ []) (k : Int) (hk : k ∉ t.storedKeys) :
    t.remove M k = .error (.itemNotFound, t) := by
  rcases hr.valid hM with e | ⟨T, hi⟩
  · subst e
    cases hroot
  · rw [hi.storedKeys_eq] at hk
    have hra : r = T.addr := by
      have := hi.root_eq
      rw [hroot] at this
      exact Option.some.inj this
    have hcell := hi.root_cell
    rw [← hra, hn] at hcell
    have hkeys : T.keys ≠ [] := by
      intro e
      apply hne
      have := Option.some.inj hcell
      rw [this, e]
    exact (remove_spec hM hi k).2.1 (fun e => hkeys (hi.wf.keys_eq_nil_iff.mpr e)) hk

theorem C4_remove_absent_atomic_witness :
    3 ≤ 3 ∧ Reachable 3 sampleTree ∧ sampleTree.root = some 2 ∧
      sampleTree.heap 2 = some ⟨[2], [0, 1], none⟩ ∧ ([2] : List Int) ≠ [] ∧
      (5 : Int) ∉ sampleTree.storedKeys ∧
      sampleTree.remove 3 5 = .error (.itemNotFound, sampleTree) :=
  ⟨by decide, Reachable.insertAll [1, 2, 3] _ _ Reachable.fresh rfl, rfl, rfl, by decide,
    by decide,
    C4_remove_absent_atomic 3 (by decide) sampleTree
      (Reachable.insertAll [1, 2, 3] _ _ Reachable.fresh rfl) 2 ⟨[2], [0, 1], none⟩ rfl rfl
      (by decide) 5 (by decide)⟩

/-- C5 (search of an absent key): in every state with a root node that was reached from
the fresh tree by inserts and removes, at order at least 3, `findNode` for a key `k` ends
at a node, and `k` is stored in the tree exactly when it is among the keys of that node;
so `search k` of a key that is not stored fails with `ItemNotFound`. -/
theorem C5_search_absent (M : Nat) (hM : 3 ≤ M) (t : BTree) (hr : Reachable M t)
    (hroot : t.root ≠ none) (k : Int) :
    (∃ a n, BTree.findNode k t.heap (t.next + 1) t.root = .ok a ∧ t.heap a = some n ∧
      (k ∈ t.storedKeys ↔ k ∈ n.keyVector)) ∧
    (k ∉ t.storedKeys → t.search k = .error .itemNotFound) := by
  rcases hr.valid hM with e | ⟨T, hi⟩
  · subst e
    exact absurd rfl hroot
  · rw [hi.storedKeys_eq]
    exact ⟨findNode_end hM hi k, (search_spec hM hi k).2⟩

theorem C5_search_absent_witness :
    3 ≤ 3 ∧ Reachable 3 sampleTree ∧ sampleTree.root ≠ none ∧
      ((∃ a n, BTree.findNode 5 sampleTree.heap (sampleTree.next + 1) sampleTree.root = .ok a ∧
        sampleTree.heap a = some n ∧ ((5 : Int) ∈ sampleTree.storedKeys ↔ 5 ∈ n.keyVector)) ∧
      ((5 : Int) ∉ sampleTree.storedKeys → sampleTree.search 5 = .error .itemNotFound)) :=
  ⟨by decide, Reachable.insertAll [1, 2, 3] _ _ Reachable.fresh rfl, by decide,
    C5_search_absent 3 (by decide) sampleTree
      (Reachable.insertAll [1, 2, 3] _ _ Reachable.fresh rfl) (by decide) 5⟩

/-- C6 (remove on an empty tree): for every key `k`, `remove k` fails with `TreeEmpty`
and leaves the state as it was, both on the freshly constructed tree, which has no root,
and on every state whose root node holds no keys. -/
theorem C6_remove_empty (M : Nat) (k : Int) :
    BTree.new.remove M k = .error (.treeEmpty, BTree.new) ∧
    ∀ (t : BTree) (r : Nat) (n : BTreeNode), t.root = some r → t.heap r = some n →
      n.keyVector = [] → t.remove M k = .error (.treeEmpty, t) := by
  refine ⟨rfl, ?_⟩
  intro t r n hroot hn hk
  by_cases h0 : t.nodeCount = 0
  · simp [BTree.remove, h0]
  · simp [BTree.remove, h0, hroot, Heap.deref, hn, hk]

theorem C6_remove_empty_witness :
    singletonTree.remove 3 7 = .ok emptiedTree ∧ emptiedTree.root = some 0 ∧
      emptiedTree.heap 0 = some ⟨[], [], none⟩ ∧
      emptiedTree.remove 3 9 = .error (.treeEmpty, emptiedTree) :=
  ⟨rfl, rfl, rfl, (C6_remove_empty 3 9).2 emptiedTree 0 ⟨[], [], none⟩ rfl rfl rfl⟩

/-- C7 (search on a freshly constructed tree), against the claim: for every key `k`,
`search k` on the fresh tree does not fail with `ItemNotFound`; `findNode` is entered with
the absent root and dereferences it, which is undefined behaviour. -/
theorem C7_search_fresh_faults (k : Int) :
    BTree.new.search k = .error .undefinedBehaviour ∧
      BTree.new.search k ≠ .error .itemNotFound := by
  have h : BTree.new.search k = .error .undefinedBehaviour := rfl
  refine ⟨h, ?_⟩
  rw [h]
  intro e
  cases e

/-- C8 (counter invariant): in every state reached from the fresh tree by inserts and
removes, at order at least 3, each of them returning normally or throwing, `count()`
is the number of keys stored in the nodes reachable from the root and `nodeCounter()` is
the number of nodes reachable from the root. -/
theorem C8_counters (M : Nat) (hM : 3 ≤ M) (t : BTree) (hr : Reachable M t) :
    t.count = t.storedKeys.length ∧ t.nodeCounter = t.reachable.length := by
  rcases hr.valid hM with e | ⟨T, hi⟩
  · subst e
    exact ⟨rfl, rfl⟩
  · rw [hi.storedKeys_eq, hi.reachable_eq]
    exact ⟨hi.keys, hi.nodes⟩

theorem C8_counters_witness :
    3 ≤ 3 ∧ Reachable 3 sampleTree ∧
      (sampleTree.count = sampleTree.storedKeys.length ∧
        sampleTree.nodeCounter = sampleTree.reachable.length) :=
  ⟨by decide, Reachable.insertAll [1, 2, 3] _ _ Reachable.fresh rfl,
    C8_counters 3 (by decide) sampleTree
      (Reachable.insertAll [1, 2, 3] _ _ Reachable.fresh rfl)⟩

/-- C9 (sortedness invariant): in every state reached from the fresh tree by inserts and
removes, at order at least 3, the key sequence of every node is strictly increasing. -/
theorem C9_node_keys_sorted (M : Nat) (hM : 3 ≤ M) (t : BTree) (hr : Reachable M t)
    (a : Nat) (n : BTreeNode) (hn : t.heap a = some n) :
    n.keyVector.Pairwise (· < ·) := by
  rcases hr.valid hM with e | ⟨T, hi⟩
  · subst e
    cases hn
  · obtain ⟨q, S, h1, h2, h3, h4, h5⟩ := hi.cell hn
    rw [h5]
    have hsub : List.Sublist S.keys S.inorder := by
      rw [S.eq_node, Tr.inorder_node]
      exact keys_sublist_weave _ _
    exact hi.sorted.sublist (hsub.trans h3)

theorem C9_node_keys_sorted_witness :
    3 ≤ 3 ∧ Reachable 3 borrowBase ∧ borrowBase.heap 0 = some ⟨[1, 2], [], some 2⟩ ∧
      ([1, 2] : List Int).Pairwise (· < ·) :=
  ⟨by decide, Reachable.insertAll [1, 3, 4, 2] _ _ Reachable.fresh rfl, rfl,
    C9_node_keys_sorted 3 (by decide) borrowBase
      (Reachable.insertAll [1, 3, 4, 2] _ _ Reachable.fresh rfl) 0 ⟨[1, 2], [], some 2⟩ rfl⟩

/-- C10 (search-order invariant): in every state reached from the fresh tree by inserts
and removes, at order at least 3, for every node and every child index `i`, every key
stored in the subtree of child `i` is strictly greater than key `i - 1` of the node (when
`i > 0`) and strictly less than key `i` (when the node has one). -/
theorem C10_search_order (M : Nat) (hM : 3 ≤ M) (t : BTree) (hr : Reachable M t)
    (a : Nat) (n : BTreeNode) (hn : t.heap a = some n) (i c : Nat)
    (hc : n.childrenVector[i]? = some c) (x : Int)
    (hx : x ∈ keysFrom t.heap (t.next + 1) c) :
    (∀ k, 0 < i → n.keyVector[i - 1]? = some k → k < x) ∧
      (∀ k, n.keyVector[i]? = some k → x < k) := by
  rcases hr.valid hM with e | ⟨T, hi⟩
  · subst e
    cases hn
  · obtain ⟨q, S, h1, h2, h3, h4, h5⟩ := hi.cell hn
    subst h5
    simp only [List.getElem?_map, Option.map_eq_some'] at hc
    obtain ⟨C, hC, hCa⟩ := hc
    have hCm : C ∈ S.children := List.getElem?_mem hC
    have hst : Stores t.heap (some S.addr) C := (Stores_iff.mp h1).2 C hCm
    have hlen : C.addrs.length ≤ t.next := by
      have h6 := Tr.addrs_length_le_of_mem hCm
      have h7 : S.addrs.length = (Tr.addrsL S.children).length + 1 := by
        rw [S.eq_node, Tr.addrs_node]; simp
      omega
    rw [← hCa, keysFrom_eq C _ _ hst (by omega)] at hx
    have hsorted : (weave (S.children.map Tr.inorder) S.keys).Pairwise (· < ·) := by
      have := hi.sorted.sublist h3
      rwa [S.eq_node, Tr.inorder_node] at this
    exact weave_between _ _ i C.inorder x hsorted (by simp [hC]) hx

theorem C10_search_order_witness :
    3 ≤ 3 ∧ Reachable 3 sampleTree ∧ sampleTree.heap 2 = some ⟨[2], [0, 1], none⟩ ∧
      ([0, 1] : List Nat)[1]? = some 1 ∧
      (3 : Int) ∈ keysFrom sampleTree.heap (sampleTree.next + 1) 1 ∧
      ((∀ k, 0 < 1 → ([2] : List Int)[1 - 1]? = some k → k < 3) ∧
        (∀ k, ([2] : List Int)[1]? = some k → (3 : Int) < k)) :=
  ⟨by decide, Reachable.insertAll [1, 2, 3] _ _ Reachable.fresh rfl, rfl, rfl, by decide,
    C10_search_order 3 (by decide) sampleTree
      (Reachable.insertAll [1, 2, 3] _ _ Reachable.fresh rfl) 2 ⟨[2], [0, 1], none⟩ rfl 1 1
      rfl 3 (by decide)⟩

/-- C11 (balance invariant): in every state reached from the fresh tree by inserts and
removes, at order at least 3, all leaves reachable from the root are at the same depth,
and every node without children is among these leaves. -/
theorem C11_balance (M : Nat) (hM : 3 ≤ M) (t : BTree) (hr : Reachable M t) :
    (∀ x ∈ t.leafDepths, ∀ y ∈ t.leafDepths, x.2 = y.2) ∧
    ∀ (a : Nat) (n : BTreeNode), t.heap a = some n → n.childrenVector = [] →
      ∃ d, (a, d) ∈ t.leafDepths := by
  rcases hr.valid hM with e | ⟨T, hi⟩
  · subst e
    refine ⟨fun x hx => ?_, fun a n hn => ?_⟩
    · simp [BTree.leafDepths, BTree.new] at hx
    · cases hn
  · obtain ⟨⟨d, hd⟩, hcov⟩ := hi.balanced
    exact ⟨fun x hx y hy => (hd x hx).trans (hd y hy).symm, hcov⟩

theorem C11_balance_witness :
    3 ≤ 3 ∧ Reachable 3 sampleTree ∧ sampleTree.leafDepths = [(0, 1), (1, 1)] ∧
      ((∀ x ∈ sampleTree.leafDepths, ∀ y ∈ sampleTree.leafDepths, x.2 = y.2) ∧
        ∀ (a : Nat) (n : BTreeNode), sampleTree.heap a = some n → n.childrenVector = [] →
          ∃ d, (a, d) ∈ sampleTree.leafDepths) :=
  ⟨by decide, Reachable.insertAll [1, 2, 3] _ _ Reachable.fresh rfl, rfl,
    C11_balance 3 (by decide) sampleTree
      (Reachable.insertAll [1, 2, 3] _ _ Reachable.fresh rfl)⟩

/-- C12 (fill invariant): in every state reached from the fresh tree by inserts and
removes, at order `M` at least 3, every node holds at most `M - 1` keys, every node other
than the root holds at least `ceil(M / 2) - 1` keys, and the root holds at least one key
whenever more than one node is reachable from it. -/
theorem C12_fill (M : Nat) (hM : 3 ≤ M) (t : BTree) (hr : Reachable M t) (a : Nat)
    (n : BTreeNode) (hn : t.heap a = some n) :
    n.keyVector.length ≤ M - 1 ∧
      (t.root ≠ some a → (M + 1) / 2 - 1 ≤ n.keyVector.length) ∧
      (t.root = some a → 1 < t.reachable.length → 1 ≤ n.keyVector.length) := by
  rcases hr.valid hM with e | ⟨T, hi⟩
  · subst e
    cases hn
  · obtain ⟨h1, h2, h3⟩ := hi.fill hn
    refine ⟨h1, ?_, ?_⟩
    · intro hne
      have := h2 hne
      unfold minKeys at this
      omega
    · intro hroot hsize
      rw [hi.reachable_eq] at hsize
      exact h3 hroot hsize

theorem C12_fill_witness :
    3 ≤ 3 ∧ Reachable 3 sampleTree ∧ sampleTree.heap 0 = some ⟨[1], [], some 2⟩ ∧
      (([1] : List Int).length ≤ 3 - 1 ∧
        (sampleTree.root ≠ some 0 → (3 + 1) / 2 - 1 ≤ ([1] : List Int).length) ∧
        (sampleTree.root = some 0 → 1 < sampleTree.reachable.length →
          1 ≤ ([1] : List Int).length)) :=
  ⟨by decide, Reachable.insertAll [1, 2, 3] _ _ Reachable.fresh rfl, rfl,
    C12_fill 3 (by decide) sampleTree
      (Reachable.insertAll [1, 2, 3] _ _ Reachable.fresh rfl) 0 ⟨[1], [], some 2⟩ rfl⟩

/-- C13 (collapse scenario): at order 5, inserting 1, 2, 3, 4, 5 in this order into the
fresh tree succeeds and gives `nodeCounter() == 3` and `count() == 5`, with a root that
holds the one key 3 and has two leaf children holding `[1, 2]` and `[4, 5]`. -/
theorem C13_collapse_scenario :
    ∃ t, BTree.insertAll 5 BTree.new [1, 2, 3, 4, 5] = .ok t ∧ t.nodeCounter = 3 ∧
      t.count = 5 ∧ t.root = some 2 ∧ t.heap 2 = some ⟨[3], [0, 1], none⟩ ∧
      t.heap 0 = some ⟨[1, 2], [], some 2⟩ ∧ t.heap 1 = some ⟨[4, 5], [], some 2⟩ ∧
      t.reachable = [2, 0, 1] :=
  ⟨_, rfl, rfl, rfl, rfl, rfl, rfl, rfl, rfl⟩

/-- C14 (shrink scenario): in every state reached from the fresh tree by inserts and
removes, at order `M` at least 3, if `count()` is at least 1 and at most
`2 * floor((M - 1) / 2)` then `nodeCounter()` is 1; in particular at order 128 a tree with
30 keys has one node. -/
theorem C14_shrink (M : Nat) (hM : 3 ≤ M) (t : BTree) (hr : Reachable M t) :
    (1 ≤ t.count → t.count ≤ ((2 * ((M - 1) / 2) : Nat) : Int) → t.nodeCounter = 1) ∧
      (M = 128 → t.count = 30 → t.nodeCounter = 1) := by
  have hmain : 1 ≤ t.count → t.count ≤ ((2 * ((M - 1) / 2) : Nat) : Int) →
      t.nodeCounter = 1 := by
    intro h1 h2
    rcases hr.valid hM with e | ⟨T, hi⟩
    · subst e
      simp [BTree.count, BTree.new] at h1
    · have hk := hi.keys
      have hn := hi.nodes
      simp only [BTree.count] at h2
      have := hi.single_of_few_keys (by unfold minKeys; omega)
      simp only [BTree.nodeCounter]
      omega
  refine ⟨hmain, ?_⟩
  intro hM2 hc
  subst hM2
  exact hmain (by omega) (by rw [hc]; decide)

theorem C14_shrink_witness :
    3 ≤ 3 ∧ Reachable 3 shrunkTree ∧ 1 ≤ shrunkTree.count ∧
      shrunkTree.count ≤ ((2 * ((3 - 1) / 2) : Nat) : Int) ∧ shrunkTree.nodeCounter = 1 :=
  ⟨by decide,
    Reachable.removeOk (k := 2) (Reachable.insertAll [1, 2, 3] _ _ Reachable.fresh rfl) rfl,
    by decide, by decide,
    (C14_shrink 3 (by decide) shrunkTree
      (Reachable.removeOk (k := 2) (Reachable.insertAll [1, 2, 3] _ _ Reachable.fresh rfl)
        rfl)).1
      (by decide) (by decide)⟩

/-- C15 (injected ordering), counterexample: `compareReversed` is a strict total order,
and the object constructed with it holds, after `insert 1` and `insert 2` at order 128,
the root keys `[1, 2]`, which are not increasing with respect to `compareReversed`. -/
theorem C15_counterexample :
    IsThreeWayOrder compareReversed ∧ InsertRun 128 compareReversed reversedRun ∧
      reversedRun.tree.heap 0 = some ⟨[1, 2], [], none⟩ ∧
      ¬ ([1, 2] : List Int).Pairwise (fun a b => compareReversed a b = -1) :=
  ⟨compareReversed_threeWay,
    InsertRun.insertOk (k := 2) (InsertRun.insertOk (k := 1) InsertRun.fresh rfl) rfl, rfl,
    by decide⟩

/-- C15 (injected ordering), amended: the comparison function given to the constructor is
stored and never consulted.  For every function `cmp`, after any sequence of inserts at
order at least 3 the member still is `cmp`, the keys of every node are strictly increasing
in the built-in order of the integers, and `search k` returns a key exactly when `k` itself
is stored, the key returned being `k`. -/
theorem C15_builtin_ordering (M : Nat) (hM : 3 ≤ M) (cmp : Int → Int → Int)
    (o : BTreeObject) (hr : InsertRun M cmp o) :
    o.compare = cmp ∧
      (∀ (a : Nat) (n : BTreeNode), o.tree.heap a = some n →
        n.keyVector.Pairwise (· < ·)) ∧
      ∀ k : Int, ((∃ v, o.search k = .ok v) ↔ k ∈ o.tree.storedKeys) ∧
        (k ∈ o.tree.storedKeys → o.search k = .ok k) := by
  obtain ⟨hreach, hcmp⟩ := hr.reachable
  refine ⟨hcmp, ?_, ?_⟩
  · intro a n hn
    rcases hreach.valid hM with e | ⟨T, hi⟩
    · rw [e] at hn
      cases hn
    · obtain ⟨q, S, h1, h2, h3, h4, h5⟩ := hi.cell hn
      rw [h5]
      have hsub : List.Sublist S.keys S.inorder := by
        rw [S.eq_node, Tr.inorder_node]
        exact keys_sublist_weave _ _
      exact hi.sorted.sublist (hsub.trans h3)
  · intro k
    simp only [BTreeObject.search]
    rcases hreach.valid hM with e | ⟨T, hi⟩
    · rw [e, storedKeys_fresh]
      have hs : BTree.new.search k = .error .undefinedBehaviour := rfl
      rw [hs]
      simp
    · rw [hi.storedKeys_eq]
      have hsp := search_spec hM hi k
      refine ⟨⟨?_, fun h => ⟨k, hsp.1 h⟩⟩, hsp.1⟩
      rintro ⟨v, hv⟩
      by_contra hno
      rw [hsp.2 hno] at hv
      cases hv

theorem C15_builtin_ordering_witness :
    3 ≤ 128 ∧ InsertRun 128 compareReversed reversedRun ∧
      (reversedRun.compare = compareReversed ∧
        (∀ (a : Nat) (n : BTreeNode), reversedRun.tree.heap a = some n →
          n.keyVector.Pairwise (· < ·)) ∧
        ∀ k : Int, ((∃ v, reversedRun.search k = .ok v) ↔ k ∈ reversedRun.tree.storedKeys) ∧
          (k ∈ reversedRun.tree.storedKeys → reversedRun.search k = .ok k)) :=
  ⟨by decide,
    InsertRun.insertOk (k := 2) (InsertRun.insertOk (k := 1) InsertRun.fresh rfl) rfl,
    C15_builtin_ordering 128 (by decide) compareReversed reversedRun
      (InsertRun.insertOk (k := 2) (InsertRun.insertOk (k := 1) InsertRun.fresh rfl) rfl)⟩

/-- C16 (insertion into an emptied tree), against the claim: at every order `M + 3`, after
`insert a` and `remove a` on the fresh tree the key counter is 0 and the node counter
still is 1, the root being a leaf without keys; `insert b` then does not succeed: the
branch for the empty tree is not taken, and `findKey` leaves the function without a
`return`, which is undefined behaviour. -/
theorem C16_insert_into_emptied (M : Nat) (a b : Int) :
    ∃ t1 t2, BTree.new.insert (M + 3) a = .ok t1 ∧ t1.remove (M + 3) a = .ok t2 ∧
      t2.count = 0 ∧ t2.nodeCounter = 1 ∧
      t2.insert (M + 3) b = .error (.undefinedBehaviour, t2) := by
  have hM : 3 ≤ M + 3 := by omega
  obtain ⟨t1, h1, h2⟩ := insert_fresh hM a
  obtain ⟨t2, T2, r1, r2, A, B, r3, r4⟩ :=
    (remove_spec hM h2 a).2.2 (by simp [Tr.inorder_node, weave])
  have hAB : A = [] ∧ B = [] := by
    simp only [Tr.inorder_node, List.map_nil, weave] at r3
    have hl := congrArg List.length r3
    simp only [List.length_singleton, List.length_append, List.length_cons,
      List.length_nil] at hl
    exact ⟨List.length_eq_zero.mp (by omega), List.length_eq_zero.mp (by omega)⟩
  have he : T2.inorder = [] := by rw [r4, hAB.1, hAB.2]; rfl
  refine ⟨t1, t2, h1, r1, ?_, ?_, insert_emptied r2 he b⟩
  · have := r2.keys
    rw [he] at this
    simpa [BTree.count] using this
  · have hs := r2.single_of_few_keys (by rw [he]; simp)
    have := r2.nodes
    rw [hs] at this
    simpa [BTree.nodeCounter] using this

/-- C17 (driver insertion test), counterexample: 400 values in the range 1..800, all of
them equal to 1, do not leave the tree of order 128 with 5 nodes. -/
theorem C17_counterexample :
    (List.replicate 400 (1 : Int)).length = 400 ∧
      (∀ v ∈ List.replicate 400 (1 : Int), 1 ≤ v ∧ v ≤ 800) ∧
      ¬ ∃ t, BTree.driverInserts 128 BTree.new (List.replicate 400 1) = .ok t ∧
        t.nodeCounter = 5 := by
  refine ⟨List.length_replicate 400 1, ?_, ?_⟩
  · intro v hv
    rw [List.eq_of_mem_replicate hv]
    decide
  · rintro ⟨t, h1, h2⟩
    obtain ⟨t1, r1, r2⟩ := driverInserts_replicate (M := 128) (by decide) 1 399
    rw [r1] at h1
    cases h1
    rw [r2] at h2
    exact absurd h2 (by decide)

/-- C17 (driver insertion test), amended: for every sequence of 400 values in the range
1..800, the insertion loop of the driver at order 128, which skips the values rejected
with `DuplicateItem`, ends normally; the tree then holds exactly the values of the
sequence and `nodeCounter()`, the number of its nodes, is at least 1 and at most 7.  How
often the tree overflows, and so which of these numbers it is, depends on the values. -/
theorem C17_driver_inserts (vals : List Int) (hlen : vals.length = 400)
    (hrange : ∀ v ∈ vals, 1 ≤ v ∧ v ≤ 800) :
    ∃ t, BTree.driverInserts 128 BTree.new vals = .ok t ∧ 1 ≤ t.nodeCounter ∧
      t.nodeCounter ≤ 7 ∧ t.nodeCounter = t.reachable.length ∧
      (∀ x, x ∈ t.storedKeys ↔ x ∈ vals) ∧ ∀ x ∈ t.storedKeys, 1 ≤ x ∧ x ≤ 800 := by
  cases vals with
  | nil => simp at hlen
  | cons v vs =>
    obtain ⟨t2, T2, r1, r2, r3, r4⟩ := driverInserts_fresh (M := 128) (by decide) v vs
    simp only [List.length_cons] at hlen
    have h7 := r2.nodes_le_seven (by omega)
    have h1 := T2.addrs_length_pos
    have hn := r2.nodes
    refine ⟨t2, r1, ?_, ?_, ?_, ?_, ?_⟩
    · simp only [BTree.nodeCounter]; omega
    · simp only [BTree.nodeCounter]; omega
    · rw [r2.reachable_eq]; exact hn
    · rw [r2.storedKeys_eq]; exact r4
    · rw [r2.storedKeys_eq]
      intro x hx
      exact hrange x ((r4 x).mp hx)

theorem C17_driver_inserts_witness :
    (List.replicate 400 (1 : Int)).length = 400 ∧
      (∀ v ∈ List.replicate 400 (1 : Int), 1 ≤ v ∧ v ≤ 800) ∧
      ∃ t, BTree.driverInserts 128 BTree.new (List.replicate 400 1) = .ok t ∧
        1 ≤ t.nodeCounter ∧ t.nodeCounter ≤ 7 ∧ t.nodeCounter = t.reachable.length ∧
        (∀ x, x ∈ t.storedKeys ↔ x ∈ List.replicate 400 (1 : Int)) ∧
        ∀ x ∈ t.storedKeys, 1 ≤ x ∧ x ≤ 800 :=
  ⟨List.length_replicate 400 1,
    fun v hv => by rw [List.eq_of_mem_replicate hv]; decide,
    C17_driver_inserts (List.replicate 400 1) (List.length_replicate 400 1)
      (fun v hv => by rw [List.eq_of_mem_replicate hv]; decide)⟩

/-- C18 (split point): for a node with `s` keys, `s` at least 2, that is a leaf or has
`s + 1` children, in a state that holds the tree, the first step of `resolveOverflow` uses
the index `m = s / 2` when `s` is odd and `s / 2 - 1` when `s` is even, in the root case and
in the non-root case alike: the node keeps the keys before index `m` and the children up to
index `m`, the new sibling (at the next free address) gets the keys and the children after
index `m`, the moved children point to the sibling, and key `m` goes into a new root or
into the parent at the child index of the node; both halves of an internal node again have
one more child than keys.  In the non-root case the call goes on with the parent exactly
when the parent is over-full. -/
theorem C18_split_point (M fuel : Nat) (t : BTree) (ctx : List Frame) (a : Nat)
    (ks : List Int) (cs : List Tr) (hf : Focus t ctx (.node a ks cs)) (hs : 2 ≤ ks.length)
    (hshape : cs = [] ∨ cs.length = ks.length + 1) :
    keyMidpoint ks.length =
        (if ks.length % 2 = 1 then ks.length / 2 else ks.length / 2 - 1) ∧
    (cs ≠ [] →
      (cs.take (keyMidpoint ks.length + 1)).length =
          (ks.take (keyMidpoint ks.length)).length + 1 ∧
        (cs.drop (keyMidpoint ks.length + 1)).length =
          (ks.drop (keyMidpoint ks.length + 1)).length + 1) ∧
    (ctx = [] → ∃ (k : Int) (hF : Heap), ks[keyMidpoint ks.length]? = some k ∧
      BTree.resolveOverflow M (fuel + 1) t a = .ok { t with heap := hF, next := t.next + 2, root := some (t.next + 1), nodeCount := t.nodeCount + 2 } ∧
      hF (t.next + 1) = some ⟨[k], [a, t.next], none⟩ ∧
      hF a = some ⟨ks.take (keyMidpoint ks.length),
        (cs.take (keyMidpoint ks.length + 1)).map Tr.addr, some (t.next + 1)⟩ ∧
      hF t.next = some ⟨ks.drop (keyMidpoint ks.length + 1),
        (cs.drop (keyMidpoint ks.length + 1)).map Tr.addr, some (t.next + 1)⟩ ∧
      ∀ c ∈ cs.drop (keyMidpoint ks.length + 1),
        hF c.addr = some ⟨c.keys, c.children.map Tr.addr, some t.next⟩) ∧
    (∀ (f : Frame) (rest : List Frame), ctx = f :: rest → f.left.length ≤ f.keys.length →
      ∃ (k : Int) (hF : Heap), ks[keyMidpoint ks.length]? = some k ∧
      BTree.resolveOverflow M (fuel + 1) t a =
        (if overfull M (f.keys.length + 1) then
          BTree.resolveOverflow M fuel { t with heap := hF, next := t.next + 1, nodeCount := t.nodeCount + 1 } f.addr
        else .ok { t with heap := hF, next := t.next + 1, nodeCount := t.nodeCount + 1 }) ∧
      hF f.addr = some ⟨vecInsert f.keys f.left.length k,
        f.left.map Tr.addr ++ a :: t.next :: f.right.map Tr.addr, ctxParent rest⟩ ∧
      hF a = some ⟨ks.take (keyMidpoint ks.length),
        (cs.take (keyMidpoint ks.length + 1)).map Tr.addr, some f.addr⟩ ∧
      hF t.next = some ⟨ks.drop (keyMidpoint ks.length + 1),
        (cs.drop (keyMidpoint ks.length + 1)).map Tr.addr, some f.addr⟩ ∧
      ∀ c ∈ cs.drop (keyMidpoint ks.length + 1),
        hF c.addr = some ⟨c.keys, c.children.map Tr.addr, some t.next⟩) := by
  have hm : keyMidpoint ks.length =
      (if ks.length % 2 = 1 then ks.length / 2 else ks.length / 2 - 1) := by
    unfold keyMidpoint
    split_ifs <;> omega
  have hlt : keyMidpoint ks.length < ks.length := keyMidpoint_lt (by omega)
  refine ⟨hm, ?_, ?_, ?_⟩
  · intro hne
    rcases hshape with h | h
    · exact absurd h hne
    · simp only [List.length_take, List.length_drop]
      omega
  · intro hctx
    subst hctx
    obtain ⟨k, hk, hF, ⟨g1, g2, g3, g4, -⟩, hr⟩ :=
      resolveOverflow_root_exec (M := M) fuel hf (by omega) hshape
    exact ⟨k, hF, hk, hr, g1, g2, g3, g4⟩
  · intro f rest hctx hfl
    subst hctx
    obtain ⟨k, hk, hF, ⟨g1, g2, g3, g4, -⟩, hr⟩ :=
      resolveOverflow_nonroot_exec (M := M) fuel hf (by omega) hshape hfl
    exact ⟨k, hF, hk, hr, g1, g2, g3, g4⟩

theorem C18_split_point_witness :
    Focus overfullLeaf [] (.node 0 [1, 2, 3] []) ∧ 2 ≤ ([1, 2, 3] : List Int).length ∧
      (([] : List Tr) = [] ∨ ([] : List Tr).length = ([1, 2, 3] : List Int).length + 1) ∧
      ∃ hF : Heap,
        BTree.resolveOverflow 3 1 overfullLeaf 0 = .ok { overfullLeaf with heap := hF, next := 3, root := some 2, nodeCount := 3 } ∧
        hF 2 = some ⟨[2], [0, 1], none⟩ ∧ hF 0 = some ⟨[1], [], some 2⟩ ∧
        hF 1 = some ⟨[3], [], some 2⟩ := by
  refine ⟨overfullLeaf_focus, by decide, Or.inl rfl, ?_⟩
  obtain ⟨k, hF, h1, h2, h3, h4, h5, -⟩ :=
    (C18_split_point 3 0 overfullLeaf [] 0 [1, 2, 3] [] overfullLeaf_focus (by decide)
      (Or.inl rfl)).2.2.1 rfl
  have hk : k = 2 := by
    have : ([1, 2, 3] : List Int)[keyMidpoint ([1, 2, 3] : List Int).length]? = some 2 := rfl
    rw [this] at h1
    exact (Option.some.inj h1).symm
  subst hk
  exact ⟨hF, h2, h3, h4, h5⟩

/-- C19 (underflow case selection): let `min = (M - 1) / 2`.  When `nodeCount` is 1, and
so in every reachable state whose tree is one node, `resolveUnderflow` does nothing,
whatever node it is called on.  Otherwise let `u` be a node with parent `p`, at a child
index with the children `A` before it and `B` after it: if `u` has a left sibling `l`
with at least `min` keys, then `l` lends a key (left borrow) when it has more than `min`
keys, whatever the right sibling holds; else `u` is merged into `l` (left merge) when `u`
is the last child; else the right sibling `r` lends a key (right borrow) when it has more
than `min` keys, and `u` is merged into `l` when it has not.  If `u` is the first child,
its right sibling `r`, with at least `min` keys, lends a key when it has more than `min`
keys, and is merged into `u` (right merge) when it has not. -/
theorem C19_underflow_case_selection (M fuel : Nat) (t : BTree) (u : Nat) :
    minKeys M = (M - 1) / 2 ∧
    (t.nodeCount = 1 → BTree.resolveUnderflow M (fuel + 1) t u = .ok t) ∧
    (3 ≤ M → Reachable M t → t.reachable.length = 1 →
      BTree.resolveUnderflow M (fuel + 1) t u = .ok t) ∧
    (∀ (p : Nat) (uk pk : List Int) (uc A B : List Nat) (pp : Option Nat),
      t.heap u = some ⟨uk, uc, some p⟩ → t.heap p = some ⟨pk, A ++ u :: B, pp⟩ →
      u ∉ A → u ∉ B → t.nodeCount ≠ 1 →
      (∀ (A2 : List Nat) (l : Nat) (lk : List Int) (lc : List Nat) (lp : Option Nat),
        A = A2 ++ [l] → t.heap l = some ⟨lk, lc, lp⟩ → minKeys M ≤ lk.length →
        (minKeys M < lk.length →
          BTree.resolveUnderflow M (fuel + 1) t u = BTree.leftBorrow t p l u A.length) ∧
        (¬ minKeys M < lk.length → B = [] →
          BTree.resolveUnderflow M (fuel + 1) t u =
            BTree.leftMerge M (BTree.resolveUnderflow M fuel) t p l u A.length) ∧
        (¬ minKeys M < lk.length →
          ∀ (r : Nat) (B2 : List Nat) (rk : List Int) (rc : List Nat) (rp : Option Nat),
            B = r :: B2 → t.heap r = some ⟨rk, rc, rp⟩ →
            (minKeys M < rk.length →
              BTree.resolveUnderflow M (fuel + 1) t u = BTree.rightBorrow t p r u A.length) ∧
            (¬ minKeys M < rk.length →
              BTree.resolveUnderflow M (fuel + 1) t u =
                BTree.leftMerge M (BTree.resolveUnderflow M fuel) t p l u A.length))) ∧
      (A = [] →
        ∀ (r : Nat) (B2 : List Nat) (rk : List Int) (rc : List Nat) (rp : Option Nat),
          B = r :: B2 → t.heap r = some ⟨rk, rc, rp⟩ → minKeys M ≤ rk.length →
          (minKeys M < rk.length →
            BTree.resolveUnderflow M (fuel + 1) t u = BTree.rightBorrow t p r u 0) ∧
          (¬ minKeys M < rk.length →
            BTree.resolveUnderflow M (fuel + 1) t u =
              BTree.rightMerge M (BTree.resolveUnderflow M fuel) t p r u 0))) := by
  refine ⟨rfl, fun h1 => resolveUnderflow_single fuel t u h1, ?_, ?_⟩
  · intro hM hr hone
    refine resolveUnderflow_single fuel t u ?_
    rcases hr.valid hM with e | ⟨T, hi⟩
    · subst e
      rw [reachable_fresh] at hone
      simp at hone
    · rw [hi.reachable_eq] at hone
      rw [hi.nodes, hone]
      rfl
  intro p uk pk uc A B pp hu hp huA huB hn1
  refine ⟨?_, ?_⟩
  · intro A2 l lk lc lp hA hl hfill
    subst hA
    have hlu : l ≠ u := by
      intro e
      exact huA (by simp [e])
    have huA2 : u ∉ A2 := fun h => huA (by simp [h])
    have hp2 : t.heap p = some ⟨pk, A2 ++ l :: u :: B, pp⟩ := by
      rw [hp]; simp
    have hlen : (A2 ++ [l]).length = A2.length + 1 := by simp
    rw [hlen]
    refine ⟨?_, ?_, ?_⟩
    · intro hbig
      exact resolveUnderflow_leftBorrow M fuel hn1 hu hp2 hl huA2 hlu hbig
    · intro hsmall hB
      subst hB
      exact resolveUnderflow_leftMerge_last M fuel hn1 hu hp2 hl huA2 hlu (by omega)
    · intro hsmall r B2 rk rc rp hB hr
      subst hB
      exact resolveUnderflow_middle M fuel hn1 hu hp2 hl hr huA2 hlu huB (by omega)
  · intro hA r B2 rk rc rp hB hr hfill
    subst hA hB
    have hp2 : t.heap p = some ⟨pk, u :: r :: B2, pp⟩ := by
      rw [hp]; simp
    have h := resolveUnderflow_first M fuel hn1 hu hp2 hr
    exact ⟨h.1, fun hsmall => h.2 (by omega)⟩

theorem C19_underflow_case_selection_witness :
    (emptiedTree.nodeCount = 1 ∧ emptiedTree.root = some 0 ∧
      emptiedTree.heap 0 = some ⟨[], [], none⟩ ∧
      BTree.resolveUnderflow 3 (1 + 1) emptiedTree 0 = .ok emptiedTree) ∧
    (3 ≤ 3 ∧ Reachable 3 singletonTree ∧ singletonTree.reachable.length = 1 ∧
      BTree.resolveUnderflow 3 (1 + 1) singletonTree 0 = .ok singletonTree) ∧
    (underfullTree.heap 1 = some ⟨[], [], some 2⟩ ∧
      underfullTree.heap 2 = some ⟨[3], [0] ++ 1 :: [], none⟩ ∧ 1 ∉ ([0] : List Nat) ∧
      1 ∉ ([] : List Nat) ∧ underfullTree.nodeCount ≠ 1 ∧
      underfullTree.heap 0 = some ⟨[1, 2], [], some 2⟩ ∧
      minKeys 3 < ([1, 2] : List Int).length ∧
      BTree.resolveUnderflow 3 (1 + 1) underfullTree 1 =
        BTree.leftBorrow underfullTree 2 0 1 ([0] : List Nat).length) := by
  refine ⟨⟨rfl, rfl, rfl, ?_⟩, ⟨by decide, Reachable.insertOk Reachable.fresh rfl, rfl, ?_⟩,
    rfl, rfl, by decide, by decide, by decide, rfl, by decide, ?_⟩
  · exact (C19_underflow_case_selection 3 1 emptiedTree 0).2.1 rfl
  · exact (C19_underflow_case_selection 3 1 singletonTree 0).2.2.1 (by decide)
      (Reachable.insertOk Reachable.fresh rfl) rfl
  · exact (((C19_underflow_case_selection 3 1 underfullTree 1).2.2.2 2 [] [3] [] [0] [] none
      rfl rfl (by decide) (by decide) (by decide)).1 [] 0 [1, 2] [] (some 2) rfl rfl
      (by decide)).1 (by decide)

/-- C20 (borrow is a rotation through the parent and is terminal): in a state that holds
the tree, let `xa` and `ya` be neighbouring children of `p`, with the key `k` of `p`
between them.  `leftBorrow` for the under-full `ya` puts `k` in front of the keys of `ya`,
puts the last key of `xa` in the place of `k` and takes it from `xa`; when the nodes are
internal the last child of `xa` becomes the first child of `ya` and points to `ya`.
`rightBorrow` for the under-full `xa` appends `k` to the keys of `xa`, puts the first key
of `ya` in the place of `k` and takes it from `ya`, the first child of `ya` becoming the
last child of `xa`.  Both return the state with only these cells changed: every other
cell of the heap is as before, the counters and the number of keys of `p` stay, the
under-full node with `min - 1` keys then has `min`, the sibling with more than `min` keys
still has at least `min`, and the returned state holds the tree with the two rotated
nodes in the same place.  Nothing else is called: where `resolveUnderflow` chooses the
borrow, the state the borrow returns is what `resolveUnderflow` returns. -/
theorem C20_borrow_rotation (M : Nat) (hmin : 1 ≤ minKeys M) (t : BTree)
    (rest : List Frame) (p xa ya : Nat) (ka kb : List Int) (k : Int) (L R : List Tr)
    (hka : ka.length = L.length) :
    (∀ (lk sk : List Int) (kl : Int) (lc mv sc : List Tr),
      Focus t rest (.node p (ka ++ k :: kb)
        (L ++ [.node xa (lk ++ [kl]) (lc ++ mv), .node ya sk sc] ++ R)) →
      ((mv = [] ∧ sc = []) ∨ (∃ cl, mv = [cl] ∧ sc ≠ [])) →
      sk.length = minKeys M - 1 → minKeys M < (lk ++ [kl]).length →
      ∃ hF : Heap, BTree.leftBorrow t p xa ya (L.length + 1) = .ok { t with heap := hF } ∧
        hF p = some ⟨ka ++ kl :: kb, L.map Tr.addr ++ xa :: ya :: R.map Tr.addr,
          ctxParent rest⟩ ∧
        hF xa = some ⟨lk, lc.map Tr.addr, some p⟩ ∧
        hF ya = some ⟨k :: sk, (mv ++ sc).map Tr.addr, some p⟩ ∧
        (∀ c ∈ mv, hF c.addr = some ⟨c.keys, c.children.map Tr.addr, some ya⟩) ∧
        (k :: sk).length = minKeys M ∧ minKeys M ≤ lk.length ∧
        (ka ++ kl :: kb).length = (ka ++ k :: kb).length ∧
        (∀ x, x ≠ p → x ≠ xa → x ≠ ya → x ∉ mv.map Tr.addr → hF x = t.heap x) ∧
        Focus { t with heap := hF } rest (.node p (ka ++ kl :: kb)
          (L ++ [.node xa lk lc, .node ya (k :: sk) (mv ++ sc)] ++ R)) ∧
        (∀ fuel : Nat, t.nodeCount ≠ 1 →
          BTree.resolveUnderflow M (fuel + 1) t ya = .ok { t with heap := hF })) ∧
    (∀ (rk sk : List Int) (kr : Int) (rc mv sc : List Tr),
      Focus t rest (.node p (ka ++ k :: kb)
        (L ++ [.node xa sk sc, .node ya (kr :: rk) (mv ++ rc)] ++ R)) →
      ((mv = [] ∧ sc = []) ∨ (∃ cr, mv = [cr] ∧ sc ≠ [])) →
      sk.length = minKeys M - 1 → minKeys M < (kr :: rk).length →
      ∃ hF : Heap, BTree.rightBorrow t p ya xa L.length = .ok { t with heap := hF } ∧
        hF p = some ⟨ka ++ kr :: kb, L.map Tr.addr ++ xa :: ya :: R.map Tr.addr,
          ctxParent rest⟩ ∧
        hF xa = some ⟨sk ++ [k], (sc ++ mv).map Tr.addr, some p⟩ ∧
        hF ya = some ⟨rk, rc.map Tr.addr, some p⟩ ∧
        (∀ c ∈ mv, hF c.addr = some ⟨c.keys, c.children.map Tr.addr, some xa⟩) ∧
        (sk ++ [k]).length = minKeys M ∧ minKeys M ≤ rk.length ∧
        (ka ++ kr :: kb).length = (ka ++ k :: kb).length ∧
        (∀ x, x ≠ p → x ≠ xa → x ≠ ya → x ∉ mv.map Tr.addr → hF x = t.heap x) ∧
        Focus { t with heap := hF } rest (.node p (ka ++ kr :: kb)
          (L ++ [.node xa (sk ++ [k]) (sc ++ mv), .node ya rk rc] ++ R)) ∧
        (∀ fuel : Nat, t.nodeCount ≠ 1 →
          (L = [] ∨ ∃ (L2 : List Tr) (za : Nat) (zk : List Int) (zc : List Tr),
            L = L2 ++ [.node za zk zc] ∧ zk.length = minKeys M) →
          BTree.resolveUnderflow M (fuel + 1) t xa = .ok { t with heap := hF })) := by
  refine ⟨?_, ?_⟩
  · intro lk sk kl lc mv sc hf hmv hU hS
    obtain ⟨hF, he, h1, h2, h3, h4, h5⟩ := leftBorrow_exec hf hka hmv
    obtain ⟨hF2, he2, hf2⟩ := leftBorrow_spec hf hka hmv
    have e : hF2 = hF := by
      rw [he] at he2
      exact (congrArg BTree.heap (Except.ok.inj he2)).symm
    subst e
    have hS2 := hS
    simp only [List.length_append, List.length_cons, List.length_nil] at hS2
    refine ⟨hF2, he, h1, h2, h3, h4, ?_, ?_, ?_, h5, hf2, ?_⟩
    · simp only [List.length_cons]; omega
    · omega
    · simp
    · intro fuel hn1
      rw [hf.resolve_leftBorrow fuel hn1 hS, he]
  · intro rk sk kr rc mv sc hf hmv hU hS
    obtain ⟨hF, he, h1, h2, h3, h4, h5⟩ := rightBorrow_exec hf hka hmv
    obtain ⟨hF2, he2, hf2⟩ := rightBorrow_spec hf hka hmv
    have e : hF2 = hF := by
      rw [he] at he2
      exact (congrArg BTree.heap (Except.ok.inj he2)).symm
    subst e
    have hS2 := hS
    simp only [List.length_cons] at hS2
    refine ⟨hF2, he, h1, h2, h3, h4, ?_, ?_, ?_, h5, hf2, ?_⟩
    · simp only [List.length_append, List.length_cons, List.length_nil]; omega
    · omega
    · simp
    · intro fuel hn1 hL
      rw [hf.resolve_rightBorrow fuel hn1 hS hL, he]

theorem C20_borrow_rotation_witness :
    1 ≤ minKeys 3 ∧ ([] : List Int).length = ([] : List Tr).length ∧
      Focus underfullTree [] (.node 2 [3] [.node 0 [1, 2] [], .node 1 [] []]) ∧
      ([] : List Int).length = minKeys 3 - 1 ∧ minKeys 3 < ([1] ++ [2] : List Int).length ∧
      underfullTree.nodeCount ≠ 1 ∧
      ∃ hF : Heap, BTree.leftBorrow underfullTree 2 0 1 1 = .ok { underfullTree with heap := hF } ∧
        hF 2 = some ⟨[2], [0, 1], none⟩ ∧ hF 0 = some ⟨[1], [], some 2⟩ ∧
        hF 1 = some ⟨[3], [], some 2⟩ ∧
        Focus { underfullTree with heap := hF } [] (.node 2 [2] [.node 0 [1] [], .node 1 [3] []]) ∧
        BTree.resolveUnderflow 3 (1 + 1) underfullTree 1 = .ok { underfullTree with heap := hF } := by
  refine ⟨by decide, rfl, underfullTree_focus, by decide, by decide, by decide, ?_⟩
  obtain ⟨hF, h1, h2, h3, h4, -, -, -, -, -, h5, h6⟩ :=
    (C20_borrow_rotation 3 (by decide) underfullTree [] 2 0 1 [] [] 3 [] [] rfl).1
      [1] [] 2 [] [] [] underfullTree_focus (Or.inl ⟨rfl, rfl⟩) (by decide) (by decide)
  exact ⟨hF, h1, h2, h3, h4, h5, h6 1 (by decide)⟩

/-! ## C21 to C27 -/

/-- C21, the result of a merge. Let `P` be a node at address `p` with the separator `k`
between the neighbouring children `X` (address `xa`, keys `xk`, children `xc`) and `Y`
(address `ya`, keys `yk`, children `yc`). `leftMerge` of the under-full `Y` (child index
`i = L.length + 1`) with its left sibling `X` leaves `X` with the keys
`xk ++ [k] ++ yk`, where `k = P.keys[i - 1]`, and the children `xc ++ yc`; `rightMerge`
of the under-full `X` (child index `i = L.length`) with its right sibling `Y` leaves
`Y` with the keys `xk ++ [k] ++ yk`, where `k = P.keys[i]`, and the children
`xc ++ yc`. In both the separator and the slot of the under-full node are gone from
`P`, the moved children point to the survivor, the under-full node is freed and
`nodeCount` is one less in the state with which the rest of the merge (`mergeRest`: the
root collapse or the upward propagation) goes on, and this state holds the tree with
the merged node. -/
theorem C21_merge_result (M : Nat) (recurse : BTree → Nat → Except Exn BTree) (t : BTree)
    (rest : List Frame) (p xa ya : Nat) (ka kb xk yk : List Int) (k : Int)
    (L R xc yc : List Tr)
    (hf : Focus t rest (.node p (ka ++ k :: kb)
      (L ++ [.node xa xk xc, .node ya yk yc] ++ R)))
    (hka : ka.length = L.length) (hshape : xc = [] ↔ yc = []) :
    (∃ hF : Heap,
      BTree.leftMerge M recurse t p xa ya (L.length + 1) =
        mergeRest M recurse { t with heap := hF.set ya none, nodeCount := t.nodeCount - 1 }
          p xa ∧
      hF p = some ⟨ka ++ kb, L.map Tr.addr ++ xa :: R.map Tr.addr, ctxParent rest⟩ ∧
      hF xa = some ⟨xk ++ k :: yk, (xc ++ yc).map Tr.addr, some p⟩ ∧
      (∀ c ∈ yc, hF c.addr = some ⟨c.keys, c.children.map Tr.addr, some xa⟩) ∧
      (∀ x, x ≠ p → x ≠ xa → x ≠ ya → x ∉ yc.map Tr.addr → hF x = t.heap x) ∧
      (hF.set ya none) ya = none ∧
      Focus { t with heap := hF.set ya none, nodeCount := t.nodeCount - 1 } rest
        (.node p (ka ++ kb) (L ++ [.node xa (xk ++ k :: yk) (xc ++ yc)] ++ R))) ∧
    (∃ hF : Heap,
      BTree.rightMerge M recurse t p ya xa L.length =
        mergeRest M recurse { t with heap := hF.set xa none, nodeCount := t.nodeCount - 1 }
          p ya ∧
      hF p = some ⟨ka ++ kb, L.map Tr.addr ++ ya :: R.map Tr.addr, ctxParent rest⟩ ∧
      hF ya = some ⟨xk ++ k :: yk, (xc ++ yc).map Tr.addr, some p⟩ ∧
      (∀ c ∈ xc, hF c.addr = some ⟨c.keys, c.children.map Tr.addr, some ya⟩) ∧
      (∀ x, x ≠ p → x ≠ xa → x ≠ ya → x ∉ xc.map Tr.addr → hF x = t.heap x) ∧
      (hF.set xa none) xa = none ∧
      Focus { t with heap := hF.set xa none, nodeCount := t.nodeCount - 1 } rest
        (.node p (ka ++ kb) (L ++ [.node ya (xk ++ k :: yk) (xc ++ yc)] ++ R))) := by
  refine ⟨?_, ?_⟩
  · refine @leftMerge_exec M recurse t rest p xa ya ka kb xk yk k L R xc yc hf hka hshape
      (fun r => ∃ hF : Heap,
        r = mergeRest M recurse { t with heap := hF.set ya none, nodeCount := t.nodeCount - 1 }
          p xa ∧
        hF p = some ⟨ka ++ kb, L.map Tr.addr ++ xa :: R.map Tr.addr, ctxParent rest⟩ ∧
        hF xa = some ⟨xk ++ k :: yk, (xc ++ yc).map Tr.addr, some p⟩ ∧
        (∀ c ∈ yc, hF c.addr = some ⟨c.keys, c.children.map Tr.addr, some xa⟩) ∧
        (∀ x, x ≠ p → x ≠ xa → x ≠ ya → x ∉ yc.map Tr.addr → hF x = t.heap x) ∧
        (hF.set ya none) ya = none ∧
        Focus { t with heap := hF.set ya none, nodeCount := t.nodeCount - 1 } rest
          (.node p (ka ++ kb) (L ++ [.node xa (xk ++ k :: yk) (xc ++ yc)] ++ R))) ?_
    intro hF g1 g2 _ g4 g5
    exact ⟨hF, mergeTail_eq_mergeRest M recurse t hF p xa ya, g1, g2, g4, g5,
      by simp [Heap.set], Focus.merge_left _ hf g1 g2 g4 g5⟩
  · refine @rightMerge_exec M recurse t rest p xa ya ka kb xk yk k L R xc yc hf hka hshape
      (fun r => ∃ hF : Heap,
        r = mergeRest M recurse { t with heap := hF.set xa none, nodeCount := t.nodeCount - 1 }
          p ya ∧
        hF p = some ⟨ka ++ kb, L.map Tr.addr ++ ya :: R.map Tr.addr, ctxParent rest⟩ ∧
        hF ya = some ⟨xk ++ k :: yk, (xc ++ yc).map Tr.addr, some p⟩ ∧
        (∀ c ∈ xc, hF c.addr = some ⟨c.keys, c.children.map Tr.addr, some ya⟩) ∧
        (∀ x, x ≠ p → x ≠ xa → x ≠ ya → x ∉ xc.map Tr.addr → hF x = t.heap x) ∧
        (hF.set xa none) xa = none ∧
        Focus { t with heap := hF.set xa none, nodeCount := t.nodeCount - 1 } rest
          (.node p (ka ++ kb) (L ++ [.node ya (xk ++ k :: yk) (xc ++ yc)] ++ R))) ?_
    intro hF g1 g2 _ g4 g5
    exact ⟨hF, mergeTail_eq_mergeRest M recurse t hF p ya xa, g1, g2, g4, g5,
      by simp [Heap.set], Focus.merge_right _ hf g1 g2 g4 g5⟩

theorem C21_merge_result_witness :
    Focus underfullTree [] (.node 2 [3] [.node 0 [1, 2] [], .node 1 [] []]) ∧
      ([] : List Int).length = ([] : List Tr).length ∧
      ∃ hF : Heap,
        BTree.leftMerge 3 (BTree.resolveUnderflow 3 1) underfullTree 2 0 1 1 =
          mergeRest 3 (BTree.resolveUnderflow 3 1)
            { underfullTree with heap := hF.set 1 none, nodeCount := underfullTree.nodeCount - 1 }
            2 0 ∧
        hF 2 = some ⟨[], [0], none⟩ ∧ hF 0 = some ⟨[1, 2, 3], [], some 2⟩ := by
  refine ⟨underfullTree_focus, rfl, ?_⟩
  obtain ⟨hF, h1, h2, h3, -⟩ :=
    (C21_merge_result 3 (BTree.resolveUnderflow 3 1) underfullTree [] 2 0 1 [] [] [1, 2] [] 3
      [] [] [] [] underfullTree_focus rfl Iff.rfl).1
  exact ⟨hF, h1, h2, h3⟩

/-- C22, the end of a merge. After the under-full node is freed and counted off, both
merges go on with `mergeRest` on the parent `P` (address `p`, keys `pk`) and the
surviving sibling (address `s`). If `P` is the root and has no key left, the survivor
becomes the root with no parent, the old root is freed and `nodeCount` is decremented a
second time (on a tree, the new tree is the only subtree of the old root, one level
lower); if `P` is the root and has a key, nothing more happens. If `P` is not the root
and has fewer than `(MAGNITUDE - 1) / 2` keys, underflow resolution is applied to `P` in
the state as it is; otherwise nothing more happens. -/
theorem C22_merge_rest (M : Nat) (recurse : BTree → Nat → Except Exn BTree) (t1 : BTree)
    (p s : Nat) (pk : List Int) (pc : List Nat) (pp : Option Nat) (sn : BTreeNode)
    (hp : t1.heap p = some ⟨pk, pc, pp⟩) (hs : t1.heap s = some sn) (hps : p ≠ s) :
    (t1.root = some p → pk.length = 0 →
      mergeRest M recurse t1 p s =
        .ok { t1 with heap := (t1.heap.set p none).set s (some { sn with parent := none }),
                      root := some s, nodeCount := t1.nodeCount - 1 }) ∧
    (t1.root = some p → pk.length ≠ 0 → mergeRest M recurse t1 p s = .ok t1) ∧
    (t1.root ≠ some p → pk.length < (M - 1) / 2 →
      mergeRest M recurse t1 p s = recurse t1 p) ∧
    (t1.root ≠ some p → ¬ pk.length < (M - 1) / 2 → mergeRest M recurse t1 p s = .ok t1) ∧
    (∀ (zk : List Int) (zc : List Tr), Focus t1 [] (.node p [] [.node s zk zc]) →
      ∃ t2, mergeRest M recurse t1 p s = .ok t2 ∧ Focus t2 [] (.node s zk zc) ∧
        t2.nodeCount = t1.nodeCount - 1) ∧
    (∀ (t : BTree) (h : Heap) (d : Nat), mergeTail M recurse t h p s d =
      mergeRest M recurse { t with heap := h.set d none, nodeCount := t.nodeCount - 1 } p s) := by
  refine ⟨?_, ?_, ?_, ?_, ?_, fun t h d => rfl⟩
  · intro hr hk
    have e : pk = [] := List.length_eq_zero.mp hk
    subst e
    exact mergeRest_collapse hp hs hps hr
  · intro hr hk
    exact mergeRest_root_keeps hp hr (fun e => hk (by simp [e]))
  · intro hr hk
    rw [mergeRest_inner hp hr, if_pos (by simpa [minKeys] using hk)]
  · intro hr hk
    rw [mergeRest_inner hp hr, if_neg (by simpa [minKeys] using hk)]
  · intro zk zc hf
    have hcell := (Stores_node.mp hf.subStored).1
    have hZcell := (Stores_node.mp ((Stores_node.mp hf.subStored).2 (.node s zk zc)
      (by simp))).1
    simp only at hcell hZcell
    have hroot : t1.root = some p := hf.root_eq_iff.mpr rfl
    refine ⟨_, mergeRest_collapse hcell hZcell hps hroot, ?_, rfl⟩
    exact Focus.collapse (t1.nodeCount - 1) hf

theorem C22_merge_rest_witness :
    mergedTree.heap 2 = some ⟨[], [0], none⟩ ∧
      mergedTree.heap 0 = some ⟨[1, 2], [], some 2⟩ ∧ (2 : Nat) ≠ 0 ∧
      mergedTree.root = some 2 ∧ ([] : List Int).length = 0 ∧
      mergeRest 3 (BTree.resolveUnderflow 3 1) mergedTree 2 0 =
        .ok { mergedTree with heap := (mergedTree.heap.set 2 none).set 0 (some ⟨[1, 2], [], none⟩),
                              root := some 0, nodeCount := 1 } :=
  ⟨rfl, rfl, by decide, rfl, rfl,
    (C22_merge_rest 3 (BTree.resolveUnderflow 3 1) mergedTree 2 0 [] [0] none
      ⟨[1, 2], [], some 2⟩ rfl rfl (by decide)).1 rfl rfl⟩

/-- C23 (delete by predecessor): in every state reached from the fresh tree by inserts
and removes, at order `M` at least 3, let the key `k` stand at index `i = ka.length` of an
internal node `N` (address `a`, keys `ka ++ k :: kb`, child list `cv` not empty). Then
`remove k` follows the child `c = cv[i]` to the right-most leaf `la` of its subtree; the
last key `pred` of that leaf is the last and largest key of the subtree of `c` and stands
right before `k` in the in-order key sequence; the leaf loses `pred`, slot `i` of `N` is
overwritten with `pred`, so `N` keeps its number of keys; underflow resolution is applied
to the leaf exactly when it is left with fewer than `(M - 1) / 2` keys, and `remove`
returns the resulting state with the key count decremented. -/
theorem C23_delete_by_predecessor (M : Nat) (hM : 3 ≤ M) (t : BTree) (hr : Reachable M t)
    (a : Nat) (ka kb : List Int) (k : Int) (cv : List Nat) (par : Option Nat)
    (hn : t.heap a = some ⟨ka ++ k :: kb, cv, par⟩) (hcv : cv ≠ []) :
    ∃ (c la : Nat) (dl front X Y : List Int) (pred : Int) (lpar : Option Nat) (hF : Heap)
      (t2 : BTree),
      cv[ka.length]? = some c ∧
      descendLast t.heap (t.next + 1) c = .ok la ∧
      t.heap la = some ⟨dl ++ [pred], [], lpar⟩ ∧ la ≠ a ∧
      keysFrom t.heap (t.next + 1) c = front ++ [pred] ∧ (∀ x ∈ front, x < pred) ∧
      t.storedKeys = X ++ front ++ pred :: k :: Y ∧ pred < k ∧
      hF = (t.heap.set la (some ⟨dl, [], lpar⟩)).set a (some ⟨ka ++ pred :: kb, cv, par⟩) ∧
      (ka ++ pred :: kb).length = (ka ++ k :: kb).length ∧
      (if dl.length < (M - 1) / 2 then
          BTree.resolveUnderflow M (t.next + 1) { t with heap := hF } la
        else .ok { t with heap := hF }) = .ok t2 ∧
      t.remove M k = .ok { t2 with totalKeyCount := t2.totalKeyCount - 1 } := by
  rcases hr.valid hM with e | ⟨T, hi⟩
  · subst e
    cases hn
  · obtain ⟨c, la, dl, front, X, Y, pred, lpar, hF, t2, h1, h2, h3, h4, h5, h6, h7, h8, h9⟩ :=
      remove_internal hM hi hn hcv
    have hs : t.storedKeys.Pairwise (· < ·) := by
      rw [hi.storedKeys_eq]
      exact hi.sorted
    rw [h6] at hs
    have hs2 := (List.pairwise_append.mp hs).1
    have hs3 := (List.pairwise_append.mp hs).2.1
    refine ⟨c, la, dl, front, X, Y, pred, lpar, hF, t2, h1, h2, h3, h4, h5, ?_, h6, ?_, h7,
      by simp, h8, h9⟩
    · intro x hx
      exact (List.pairwise_append.mp hs).2.2 x (List.mem_append_right _ hx) pred
        (List.mem_cons_self _ _)
    · exact (List.pairwise_cons.mp hs3).1 k (List.mem_cons_self _ _)

theorem C23_delete_by_predecessor_witness :
    3 ≤ 3 ∧ Reachable 3 sampleTree ∧ sampleTree.heap 2 = some ⟨[] ++ 2 :: [], [0, 1], none⟩ ∧
      ([0, 1] : List Nat) ≠ [] ∧
      ∃ (c la : Nat) (dl : List Int) (pred : Int) (lpar : Option Nat),
        ([0, 1] : List Nat)[([] : List Int).length]? = some c ∧
        descendLast sampleTree.heap (sampleTree.next + 1) c = .ok la ∧
        sampleTree.heap la = some ⟨dl ++ [pred], [], lpar⟩ ∧ pred < 2 := by
  refine ⟨by decide, Reachable.insertAll [1, 2, 3] _ _ Reachable.fresh rfl, rfl, by decide, ?_⟩
  obtain ⟨c, la, dl, front, X, Y, pred, lpar, hF, t2, h1, h2, h3, -, -, -, -, h4, -⟩ :=
    C23_delete_by_predecessor 3 (by decide) sampleTree
      (Reachable.insertAll [1, 2, 3] _ _ Reachable.fresh rfl) 2 [] [] 2 [0, 1] none rfl
      (by decide)
  exact ⟨c, la, dl, pred, lpar, h1, h2, h3, h4⟩

/-- C24 (node-shape invariant): in every state reached from the fresh tree by inserts and
removes, at order `M` at least 3, every allocated node, and so every node reachable from
the root, has either no children or exactly one more child than it has keys. -/
theorem C24_node_shape (M : Nat) (hM : 3 ≤ M) (t : BTree) (hr : Reachable M t) :
    (∀ (a : Nat) (n : BTreeNode), t.heap a = some n →
      n.childrenVector = [] ∨ n.childrenVector.length = n.keyVector.length + 1) ∧
    (∀ a ∈ t.reachable, ∃ n, t.heap a = some n ∧
      (n.childrenVector = [] ∨ n.childrenVector.length = n.keyVector.length + 1)) := by
  rcases hr.valid hM with e | ⟨T, hi⟩
  · subst e
    refine ⟨fun a n hn => (by cases hn), fun a ha => ?_⟩
    rw [reachable_fresh] at ha
    simp at ha
  · refine ⟨fun a n hn => hi.cell_shape hn, fun a ha => ?_⟩
    rw [hi.reachable_eq] at ha
    obtain ⟨q, S, h1, h2, -⟩ := Stores.subtree T none a hi.focus.subStored ha
    have hcell := (Stores_iff.mp h1).1
    rw [h2] at hcell
    exact ⟨_, hcell, hi.cell_shape hcell⟩

theorem C24_node_shape_witness :
    3 ≤ 3 ∧ Reachable 3 sampleTree ∧ sampleTree.heap 2 = some ⟨[2], [0, 1], none⟩ ∧
      (([0, 1] : List Nat) = [] ∨ ([0, 1] : List Nat).length = ([2] : List Int).length + 1) :=
  ⟨by decide, Reachable.insertAll [1, 2, 3] _ _ Reachable.fresh rfl, rfl,
    (C24_node_shape 3 (by decide) sampleTree
      (Reachable.insertAll [1, 2, 3] _ _ Reachable.fresh rfl)).1 2 ⟨[2], [0, 1], none⟩ rfl⟩

/-- C25 (parent back-reference invariant): in every state reached from the fresh tree by
inserts and removes, at order `M` at least 3, the root's parent reference is none; for
every node `N` and every child `C` in the child list of `N`, the parent reference of `C`
is `N`; every node other than the root stands exactly once in the child list of the node
its parent reference names, and in the child list of no other node; the root stands in no
child list. -/
theorem C25_parent_links (M : Nat) (hM : 3 ≤ M) (t : BTree) (hr : Reachable M t) :
    (∀ (r : Nat) (n : BTreeNode), t.root = some r → t.heap r = some n → n.parent = none) ∧
    (∀ (a : Nat) (n : BTreeNode) (c : Nat), t.heap a = some n → c ∈ n.childrenVector →
      ∃ nc, t.heap c = some nc ∧ nc.parent = some a) ∧
    (∀ (c : Nat) (nc : BTreeNode), t.heap c = some nc → t.root ≠ some c →
      ∃ a n, t.heap a = some n ∧ nc.parent = some a ∧ n.childrenVector.count c = 1 ∧
        ∀ (a2 : Nat) (n2 : BTreeNode), t.heap a2 = some n2 → c ∈ n2.childrenVector →
          a2 = a) ∧
    (∀ (r a : Nat) (n : BTreeNode), t.root = some r → t.heap a = some n →
      r ∉ n.childrenVector) := by
  rcases hr.valid hM with e | ⟨T, hi⟩
  · subst e
    exact ⟨fun r n _ hn => (by cases hn), fun a n c hn => (by cases hn),
      fun c nc hn => (by cases hn), fun r a n _ hn => (by cases hn)⟩
  · have h1 : ∀ (r : Nat) (n : BTreeNode), t.root = some r → t.heap r = some n →
        n.parent = none := by
      intro r n hroot hn
      rw [hi.root_eq] at hroot
      have e := Option.some.inj hroot
      subst e
      have hc := hi.root_cell
      rw [hn] at hc
      have e2 := Option.some.inj hc
      subst e2
      rfl
    have h2 : ∀ (a : Nat) (n : BTreeNode) (c : Nat), t.heap a = some n →
        c ∈ n.childrenVector → ∃ nc, t.heap c = some nc ∧ nc.parent = some a :=
      fun a n c hn hc => (hi.node_facts hn).2.1 c hc
    refine ⟨h1, h2, ?_, ?_⟩
    · intro c nc hn hroot
      rcases (hi.node_facts hn).2.2 with ⟨-, e⟩ | ⟨b, nb, g1, g2, g3⟩
      · exact absurd e hroot
      · refine ⟨b, nb, g1, g2, List.count_eq_one_of_mem (hi.node_facts g1).1 g3, ?_⟩
        intro a2 n2 hn2 hc2
        obtain ⟨nc2, e1, e2⟩ := h2 a2 n2 c hn2 hc2
        rw [hn] at e1
        have e3 := Option.some.inj e1
        subst e3
        rw [g2] at e2
        exact (Option.some.inj e2).symm
    · intro r a n hroot hn hmem
      obtain ⟨nc, e1, e2⟩ := h2 a n r hn hmem
      have := h1 r nc hroot e1
      rw [this] at e2
      cases e2

theorem C25_parent_links_witness :
    3 ≤ 3 ∧ Reachable 3 sampleTree ∧ sampleTree.heap 2 = some ⟨[2], [0, 1], none⟩ ∧
      (1 : Nat) ∈ ([0, 1] : List Nat) ∧
      ∃ nc, sampleTree.heap 1 = some nc ∧ nc.parent = some 2 :=
  ⟨by decide, Reachable.insertAll [1, 2, 3] _ _ Reachable.fresh rfl, rfl, by decide,
    (C25_parent_links 3 (by decide) sampleTree
      (Reachable.insertAll [1, 2, 3] _ _ Reachable.fresh rfl)).2.1 2 ⟨[2], [0, 1], none⟩ 1
      rfl (by decide)⟩

/-- C26 (refinement of a finite sorted set): in every state reached from the fresh tree by
inserts and removes, at order `M` at least 3, the in-order key sequence `S` is strictly
increasing; a successful `insert k` happens only for `k` not in `S` and yields the
sequence `specInsert k S`, a successful `remove k` happens only for `k` in `S` and yields
`specRemove k S`, both again strictly increasing, so no other key is added, lost or
duplicated. `insert k` succeeds for every `k` not in `S` when the tree is fresh or `S` is
not empty, and `remove k` succeeds for every `k` in `S`. -/
theorem C26_sorted_set (M : Nat) (hM : 3 ≤ M) (t : BTree) (hr : Reachable M t) :
    t.storedKeys.Pairwise (· < ·) ∧
    (∀ (k : Int) (t2 : BTree), t.insert M k = .ok t2 →
      k ∉ t.storedKeys ∧ t2.storedKeys = specInsert k t.storedKeys ∧
        t2.storedKeys.Pairwise (· < ·)) ∧
    (∀ (k : Int) (t2 : BTree), t.remove M k = .ok t2 →
      k ∈ t.storedKeys ∧ t2.storedKeys = specRemove k t.storedKeys ∧
        t2.storedKeys.Pairwise (· < ·)) ∧
    (∀ k : Int, k ∉ t.storedKeys → (t = BTree.new ∨ t.storedKeys ≠ []) →
      ∃ t2, t.insert M k = .ok t2) ∧
    (∀ k : Int, k ∈ t.storedKeys → ∃ t2, t.remove M k = .ok t2) := by
  rcases hr.valid hM with e | ⟨T, hi⟩
  · subst e
    rw [storedKeys_fresh]
    refine ⟨List.Pairwise.nil, ?_, ?_, ?_, ?_⟩
    · intro k t2 h
      obtain ⟨t3, g1, g2⟩ := insert_fresh hM k
      rw [g1] at h
      cases h
      rw [g2.storedKeys_eq]
      exact ⟨by simp, by simp [Tr.inorder_node, weave, specInsert],
        by simp [Tr.inorder_node, weave]⟩
    · intro k t2 h
      rw [remove_fresh] at h
      cases h
    · intro k _ _
      obtain ⟨t3, g1, -⟩ := insert_fresh hM k
      exact ⟨t3, g1⟩
    · intro k hk
      simp at hk
  · refine ⟨?_, fun k t2 h => hi.insert_refines hM h, fun k t2 h => hi.remove_refines hM h,
      ?_, ?_⟩
    · rw [hi.storedKeys_eq]
      exact hi.sorted
    · intro k hk hne
      rw [hi.storedKeys_eq] at hk hne
      have he : T.inorder ≠ [] := by
        rcases hne with e | h
        · intro _
          have := hi.nodeCount_pos
          rw [e] at this
          simp [BTree.new] at this
        · exact h
      obtain ⟨t2, T2, g1, -⟩ := (insert_spec hM hi he k).2 hk
      exact ⟨t2, g1⟩
    · intro k hk
      rw [hi.storedKeys_eq] at hk
      obtain ⟨t2, T2, g1, -⟩ := (remove_spec hM hi k).2.2 hk
      exact ⟨t2, g1⟩

theorem C26_sorted_set_witness :
    3 ≤ 3 ∧ Reachable 3 sampleTree ∧ sampleTree.storedKeys = [1, 2, 3] ∧
      (∃ t2, sampleTree.insert 3 4 = .ok t2 ∧ t2.storedKeys = [1, 2, 3, 4]) ∧
      (∃ t2, sampleTree.remove 3 2 = .ok t2 ∧ t2.storedKeys = [1, 3]) := by
  have h := C26_sorted_set 3 (by decide) sampleTree
    (Reachable.insertAll [1, 2, 3] _ _ Reachable.fresh rfl)
  refine ⟨by decide, Reachable.insertAll [1, 2, 3] _ _ Reachable.fresh rfl, rfl, ?_, ?_⟩
  · obtain ⟨t2, h2⟩ := h.2.2.2.1 4 (by decide) (Or.inr (by decide))
    exact ⟨t2, h2, (h.2.1 4 t2 h2).2.1⟩
  · obtain ⟨t2, h2⟩ := h.2.2.2.2 2 (by decide)
    exact ⟨t2, h2, (h.2.2.1 2 t2 h2).2.1⟩

/-- C27 (degenerate order 2): at order 2 a node overflows past one key and the minimum
`(2 - 1) / 2` is 0. Inserting two keys `a < b` into the fresh tree, in either order,
splits the root: `nodeCounter` is 3, the new root holds `[a]`, the right leaf holds `[b]`
and the left leaf holds no key. `findKey` is undefined on a node without keys, and so is
the next `insert` of a key below `a`, which is led to the empty left leaf. -/
theorem C27_order_two (a b : Int) (h : a < b) :
    overfull 2 1 = false ∧ overfull 2 2 = true ∧ minKeys 2 = 0 ∧
    (∀ (n : BTreeNode) (item : Int), n.keyVector = [] →
      n.findKey item = .error .undefinedBehaviour) ∧
    (∀ ks : List Int, ks = [a, b] ∨ ks = [b, a] →
      ∃ t, BTree.insertAll 2 BTree.new ks = .ok t ∧ t.nodeCounter = 3 ∧ t.count = 2 ∧
        t.root = some 2 ∧ t.heap 2 = some ⟨[a], [0, 1], none⟩ ∧
        t.heap 0 = some ⟨[], [], some 2⟩ ∧ t.heap 1 = some ⟨[b], [], some 2⟩ ∧
        (∀ x, 2 < x → t.heap x = none) ∧
        ∀ c : Int, c < a → t.insert 2 c = .error (.undefinedBehaviour, t)) := by
  refine ⟨by decide, by decide, by decide, ?_, ?_⟩
  · intro n item hn
    simp [BTreeNode.findKey, hn, BTreeNode.findKeyLoop]
  · intro ks hks
    have key : ∃ x y, ks = [x, y] ∧ ((x = a ∧ y = b) ∨ (x = b ∧ y = a)) := by
      rcases hks with e | e
      · exact ⟨a, b, e, Or.inl ⟨rfl, rfl⟩⟩
      · exact ⟨b, a, e, Or.inr ⟨rfl, rfl⟩⟩
    obtain ⟨x, y, e, hxy⟩ := key
    subst e
    obtain ⟨t, g1, g2, g3, g4, g5, g6, g7, g8, g9⟩ := order2_two_keys x y a b h hxy
    refine ⟨t, g1, g2, g3, g4, g6, g7, g8, g9, ?_⟩
    intro c hc
    exact insert_empty_leaf (by rw [g2]; decide) g4 (by omega) g6 g7 hc

theorem C27_order_two_witness :
    (1 : Int) < 2 ∧
      ∃ t, BTree.insertAll 2 BTree.new [1, 2] = .ok t ∧ t.nodeCounter = 3 ∧
        t.heap 2 = some ⟨[1], [0, 1], none⟩ ∧ t.heap 0 = some ⟨[], [], some 2⟩ ∧
        t.heap 1 = some ⟨[2], [], some 2⟩ ∧
        t.insert 2 0 = .error (.undefinedBehaviour, t) := by
  refine ⟨by decide, ?_⟩
  obtain ⟨t, h1, h2, -, -, h3, h4, h5, -, h6⟩ :=
    (C27_order_two 1 2 (by decide)).2.2.2.2 [1, 2] (Or.inl rfl)
  exact ⟨t, h1, h2, h3, h4, h5, h6 0 (by decide)⟩
